import Mathlib

/-!
# Lattice-based ppSNARG for R1CS: LWE vector encryption and the SNARG algorithms

A shallow embedding of `lattice_snarg/algebra/lattice/lwe.cpp`,
`lattice_snarg/algebra/fields/ntlfp.tcc` and
`lattice_snarg/r1cs_lattice_snarg/r1cs_lattice_ppsnarg.tcc`.

Conventions of the embedding.

* An `NTL::ZZ_p` value is the natural number `NTL::rep` returns (its canonical
  representative).  NTL keeps the modulus in a process-wide context
  (`NTL::ZZ_p::init`); every operation below takes the modulus that is active
  at that point of the source as its first argument.
* `NTL::vec_ZZ_p` is a list of residues, `NTL::mat_ZZ_p` the list of its rows.
  Indices in the embedding are 0-based; the source uses NTL's 1-based `(i, j)`
  accessors in the LWE code.
* An NTL dimension error (`LogicError`), a failed `assert` and a read outside a
  container are all modelled as `none`.
* The random draws of the source (`/dev/urandom`, `rand()`, `random_element`)
  are explicit arguments: a draw that the source makes at loop index `(i, j)`
  is the value of a function at `(i, j)`.
-/

/-! ## The NTL operations used by the source -/

namespace NTL

/-- The type `NTL::vec_ZZ_p`. -/
abbrev vec_ZZ_p := List Nat

/-- The type `NTL::mat_ZZ_p`, as the list of rows. -/
abbrev mat_ZZ_p := List (List Nat)

/-- A vector given by its entries. -/
def vec_of (len : Nat) (f : Nat → Nat) : vec_ZZ_p := (List.range len).map f

/-- A matrix given by its entries. -/
def mat_of (rows cols : Nat) (f : Nat → Nat → Nat) : mat_ZZ_p :=
  (List.range rows).map (fun i => (List.range cols).map (fun j => f i j))

/-- Entry `(i, j)` of a matrix (0-based). -/
def entry (A : mat_ZZ_p) (i j : Nat) : Nat := (A.getD i []).getD j 0

/-- Number of columns: `A.NumCols()`. -/
def NumCols (A : mat_ZZ_p) : Nat := (A.headD []).length

/-- Conversion of an integer to `ZZ_p` under modulus `m` (`conv`, `to_ZZ_p`,
assignment of a `long`): the representative in `[0, m)`. -/
def conv (m : Nat) (x : Int) : Nat := (x % (m : Int)).toNat

/-- Inner product of two vectors under modulus `m`. -/
def inner (m : Nat) (a b : vec_ZZ_p) : Nat := (List.zipWith (fun x y => x * y) a b).sum % m

/-- The matrix-vector product `A * x`; NTL raises
"matrix mul: dimension mismatch" when the number of columns differs from the
length of `x`. -/
def mul_mat_vec (m : Nat) (A : mat_ZZ_p) (x : vec_ZZ_p) : Option vec_ZZ_p :=
  if A.all (fun row => row.length == x.length) then some (A.map (fun row => inner m row x))
  else none

/-- The transpose `NTL::transpose(A)`. -/
def transpose (A : mat_ZZ_p) : mat_ZZ_p :=
  (List.range (NumCols A)).map (fun j => A.map (fun row => row.getD j 0))

/-- The matrix product `A * B`; a dimension mismatch is an NTL error. -/
def mul_mat (m : Nat) (A B : mat_ZZ_p) : Option mat_ZZ_p :=
  if A.all (fun row => row.length == B.length) then
    some (A.map (fun row => (transpose B).map (fun col => inner m row col)))
  else none

/-- The vector sum `a + b`; NTL raises "vector add: dimension mismatch" when
the lengths differ. -/
def add_vec (m : Nat) (a b : vec_ZZ_p) : Option vec_ZZ_p :=
  if a.length = b.length then some (List.zipWith (fun x y => (x + y) % m) a b) else none

/-- The matrix sum `A + B`; a dimension mismatch is an NTL error. -/
def add_mat (m : Nat) (A B : mat_ZZ_p) : Option mat_ZZ_p :=
  if A.length = B.length ∧ NumCols A = NumCols B then
    some (List.zipWith (fun r s => List.zipWith (fun x y => (x + y) % m) r s) A B)
  else none

/-- Scalar times vector, coordinatewise (`x *= val`). -/
def mul_vec_scalar (m : Nat) (a : vec_ZZ_p) (val : Nat) : vec_ZZ_p :=
  a.map (fun x => x * val % m)

/-- Scalar times matrix (`b * A` for a `long` b: `b` is first converted to
`ZZ_p`, then every entry is multiplied). -/
def mul_scalar_mat (m : Nat) (b : Int) (A : mat_ZZ_p) : mat_ZZ_p :=
  A.map (fun row => row.map (fun x => conv m b * x % m))

/-- The identity matrix `NTL::ident_mat_ZZ_p(k)`. -/
def ident_mat_ZZ_p (m k : Nat) : mat_ZZ_p :=
  mat_of k k (fun i j => if i = j then 1 % m else 0)

/-- A `k × k` list matrix as a matrix over `Z_m`. -/
def to_Matrix (m k : Nat) (A : mat_ZZ_p) : Matrix (Fin k) (Fin k) (ZMod m) :=
  fun i j => ((entry A i j : Nat) : ZMod m)

/-- The inverse `NTL::inv(A)` over `Z_m`, by the contract NTL documents
(`mat_ZZ_p.txt`: "d = determinant(A); if d != 0 then X = A^{-1}", "error is
raised if A is singular", and a non-square `A` is an error): `none` when `A` is
not square or its determinant is zero, otherwise `det(A)^{-1} * adj(A)`. -/
def inv (m : Nat) (A : mat_ZZ_p) : Option mat_ZZ_p :=
  if A.all (fun row => row.length == A.length) then
    if (to_Matrix m A.length A).det = 0 then none
    else some (mat_of A.length A.length (fun i j =>
      if h : i < A.length ∧ j < A.length then
        ZMod.val ((to_Matrix m A.length A).det⁻¹
          * (to_Matrix m A.length A).adjugate ⟨i, h.1⟩ ⟨j, h.2⟩)
      else 0))
  else none

/-- The assignment `mat(i, j) = v` (or `vec[i] = v` with one index fixed) on a
container under construction, seen as the function from indices to entries. -/
def assign (mat : Nat → Nat → Nat) (i j v : Nat) : Nat → Nat → Nat :=
  fun i' j' => if i' = i ∧ j' = j then v else mat i' j'

/-- A loop `for (k = 0; k < len; k++) body` over a state; an iteration may fail. -/
def for_loop {σ : Type} (len : Nat) (body : Nat → σ → Option σ) (s : σ) : Option σ :=
  (List.range len).foldlM (fun st k => body k st) s

end NTL

/-! ## `lwe_params.hpp` -/

namespace LWE

/-- Lattice dimension. -/
def n : Nat := 1455

/-- Number of queries of the linear PCP. -/
def l : Nat := 15

/-- Plaintext dimension. -/
def pt_dim : Nat := l * 4

/-- Plaintext modulus. -/
def p_int : Nat := 65537

/-- Plaintext modulus as a `ZZ`. -/
def p : Nat := p_int

/-- Ciphertext modulus `1ul << 58`. -/
def q : Nat := 2 ^ 58

/-! ## `lwe.hpp`, `lwe.cpp` -/

abbrev matrix := NTL.mat_ZZ_p
abbrev vector := NTL.vec_ZZ_p
abbrev plaintext := vector

/-- The class `secret_key`: `A` is `(n + pt_dim) × n`, `S` is
`(n + pt_dim) × pt_dim`. -/
structure secret_key where
  A : matrix
  S : matrix
deriving DecidableEq, Repr

/-- The class `ciphertext`. -/
structure ciphertext where
  ctxt : vector
deriving DecidableEq, Repr

/-- The function `random(mod)`: the drawn bytes `randZZ`, reduced. -/
def random (mod : Nat) (randZZ : Nat) : Nat := randZZ % mod

/-- Homomorphic addition `operator+=` (and `operator+`, which copies and
calls it): selects modulus `q`, then adds the vectors. -/
def ciphertext.add (self other : ciphertext) : Option ciphertext :=
  (NTL.add_vec q self.ctxt other.ctxt).map ciphertext.mk

/-- Homomorphic scalar multiplication `operator*=(const NTL::ZZ_p &val)` (and
the `operator*` that copy and call it): selects modulus `q`, then multiplies
every coordinate by `val`. -/
def ciphertext.mul (self : ciphertext) (val : Nat) : ciphertext :=
  ⟨NTL.mul_vec_scalar q self.ctxt val⟩

/-- The function `keygen`.  `A_rand i j` is the value `randZZ` drawn for
`A_hat(i+1, j+1)`, `S_gauss i j` and `E_gauss i j` are the discrete-Gaussian
samples drawn for `S_hat(i+1, j+1)` and `E_hat(i+1, j+1)`. -/
def keygen (A_rand : Nat → Nat → Nat) (S_gauss E_gauss : Nat → Nat → Int) :
    Option secret_key := do
  let A_hat : matrix := NTL.mat_of n n (fun i j => random q (A_rand i j))
  let S_hat : matrix := NTL.mat_of n pt_dim (fun i j => NTL.conv q (S_gauss i j))
  let E_hat : matrix := NTL.mat_of pt_dim n (fun i j => NTL.conv q (E_gauss i j))
  let SA ← NTL.mul_mat q (NTL.transpose S_hat) A_hat
  let A_bottom ← NTL.add_mat q SA (NTL.mul_scalar_mat q p_int E_hat)
  let ident := NTL.ident_mat_ZZ_p q pt_dim
  some
    { A := NTL.mat_of (n + pt_dim) n (fun i j =>
        if i < n then NTL.entry A_hat i j else NTL.entry A_bottom (i - n) j)
      S := NTL.mat_of (n + pt_dim) pt_dim (fun i j =>
        if i < n then NTL.conv q (-(NTL.entry S_hat i j : Int)) else NTL.entry ident (i - n) j) }

/-- The value `sample_discrete_gaussian(stddev) * LWE::p_int` of `encrypt`: the
`int32_t` sample is converted to `uint64_t` and multiplied modulo `2^64`. -/
def error_term (x : Int) : Nat := ((x % (2 ^ 64 : Int)).toNat * p_int) % 2 ^ 64

/-- The function `encrypt`.  `r_gauss i` is the sample drawn for `r(i+1)` and
`e_gauss i` the sample drawn for the error added to `ctxt(i+1)`.  The vector
`v_padded` under construction is row 0 of a function from positions to
entries; it starts as zero and the second loop copies `pt(i)` into
`v_padded(i + n)`.  `encrypt` does not test the length of `pt`, and NTL's
accessor `pt(i)` does no range check unless `NTL_RANGE_CHECK` is set: on a
plaintext shorter than `pt_dim` the source reads outside the vector, which is
undefined behaviour.  Such a run has no result here (`none`), as for every
read outside a container. -/
def encrypt (sk : secret_key) (pt : plaintext) (r_gauss e_gauss : Nat → Int) :
    Option ciphertext := do
  let r : vector := NTL.vec_of n (fun i => NTL.conv q (r_gauss i))
  let v_padded : Nat → Nat → Nat := fun _ _ => 0
  let v_padded ← NTL.for_loop pt_dim (fun i v_padded => do
    let x ← pt[i]?
    some (NTL.assign v_padded 0 (i + n) x)) v_padded
  let v_padded : vector := NTL.vec_of (n + pt_dim) (v_padded 0)
  let Ar ← NTL.mul_mat_vec q sk.A r
  let c ← NTL.add_vec q Ar v_padded
  some ⟨NTL.vec_of (n + pt_dim) (fun i => (c.getD i 0 + error_term (e_gauss i)) % q)⟩

/-- The body of the loop of `decrypt`: recentre the representative `modq` of a
coordinate of `S^T * c`, then reduce modulo `p_int`. -/
def decode (w : Nat) : Nat :=
  let modq : Int := (w : Int)
  let modq : Int :=
    if modq > (q : Int) / 2 then modq - (q : Int)
    else if modq < -(q : Int) / 2 then modq + (q : Int)
    else modq
  (((modq % (p_int : Int)) + (p_int : Int)) % (p_int : Int)).toNat

/-- The function `decrypt`.  The product `transpose(sk.S) * ct.ctxt` is an NTL
error when the dimensions do not match. -/
def decrypt (sk : secret_key) (ct : ciphertext) : Option plaintext := do
  let modqvec ← NTL.mul_mat_vec q (NTL.transpose sk.S) ct.ctxt
  if modqvec.length < pt_dim then none
  some (NTL.vec_of pt_dim (fun i => decode (modqvec.getD i 0)))

/-- Every one of the first `len` samples has absolute value at most `B`. -/
def bounded (B : Int) (len : Nat) (f : Nat → Int) : Prop := ∀ i, i < len → |f i| ≤ B

/-- Every sample of a `rows × cols` block has absolute value at most `B`. -/
def bounded2 (B : Int) (rows cols : Nat) (f : Nat → Nat → Int) : Prop :=
  ∀ i j, i < rows → j < cols → |f i j| ≤ B

/-! Sample draws used to instantiate the theorems. -/

/-- A sample of the uniform draws of `keygen`. -/
def ex_A_rand : Nat → Nat → Nat := fun i j => i * 1000003 + j * 7919 + 12345

/-- A sample of the Gaussian draws for `S_hat`, with values in `[-6, 6]`. -/
def ex_S_gauss : Nat → Nat → Int := fun i j => (((i + 2 * j) % 13 : Nat) : Int) - 6

/-- A sample of the Gaussian draws for `E_hat`, with values in `[-5, 5]`. -/
def ex_E_gauss : Nat → Nat → Int := fun i j => (((3 * i + j) % 11 : Nat) : Int) - 5

/-- A sample of the Gaussian draws for `r`, with values in `[-4, 4]`. -/
def ex_r_gauss : Nat → Int := fun i => ((i % 9 : Nat) : Int) - 4

/-- A sample of the Gaussian draws for the error of `encrypt`, with values in `[-3, 3]`. -/
def ex_e_gauss : Nat → Int := fun i => ((5 * i % 7 : Nat) : Int) - 3

/-- The plaintext `(1, 2, ..., 60)`. -/
def ex_d1 : plaintext := List.range' 1 60

/-- The plaintext `(60, 59, ..., 1)`. -/
def ex_d2 : plaintext := (List.range' 1 60).reverse

/-- Entry `(i, j)` of the matrix `A` that `keygen` returns, in closed form. -/
def key_A_entry (A_rand : Nat → Nat → Nat) (S_gauss E_gauss : Nat → Nat → Int) (i j : Nat) : Nat :=
  if i < n then A_rand i j % q
  else ((∑ k in Finset.range n, NTL.conv q (S_gauss k (i - n)) * (A_rand k j % q)) % q
        + NTL.conv q p_int * NTL.conv q (E_gauss (i - n) j) % q) % q

/-- Entry `(i, j)` of the matrix `S` that `keygen` returns, in closed form. -/
def key_S_entry (S_gauss : Nat → Nat → Int) (i j : Nat) : Nat :=
  if i < n then NTL.conv q (-(NTL.conv q (S_gauss i j) : Int))
  else if i - n = j then 1 % q else 0

/-- Coordinate `i` of the ciphertext that `encrypt` returns under a key whose
matrix `A` has the entries `a`, in closed form. -/
def fresh_entry (a : Nat → Nat → Nat) (pt : List Nat) (r_gauss e_gauss : Nat → Int) (i : Nat) :
    Nat :=
  (((∑ k in Finset.range n, a i k * NTL.conv q (r_gauss k)) % q
      + (if i < n then 0 else pt.getD (i - n) 0)) % q + error_term (e_gauss i)) % q

/-- The integer `c[n+j] - Σ_{k<n} S_gauss[k][j] * c[k]`: the `j`-th coordinate of
`S^T * c` for `S = [-S_hat; I]`, before any reduction modulo `q`. -/
def preround (S_gauss : Nat → Nat → Int) (c : List Nat) (j : Nat) : Int :=
  (c.getD (n + j) 0 : Int) - ∑ k in Finset.range n, S_gauss k j * (c.getD k 0 : Int)

/-- The noise of a fresh ciphertext in plaintext coordinate `j`:
`e[n+j] + Σ_k E_gauss[j][k] * r[k] - Σ_k S_gauss[k][j] * e[k]`. -/
def noise (S_gauss E_gauss : Nat → Nat → Int) (r_gauss e_gauss : Nat → Int) (j : Nat) : Int :=
  e_gauss (n + j) + ∑ k in Finset.range n, E_gauss j k * r_gauss k
    - ∑ k in Finset.range n, S_gauss k j * e_gauss k

end LWE

/-! ## `r1cs_lattice_ppsnarg.hpp`, `r1cs_lattice_ppsnarg.tcc` -/

namespace libsnark

open LWE

/-- Number of queries of the underlying linear PCP. -/
def r1cs_lattice_ppsnarg_num_queries : Nat := LWE.l

/-- An element `Fr::random_element()` of the field: `NTL::RandomBnd(modulus)`
returns the drawn value reduced into `[0, modulus)`. -/
def random_element (draw : Nat) : Nat := draw % p_int

/-- The class `qap_instance_evaluation` of libsnark (external): the members the
SNARG reads.  Field elements are canonical representatives modulo `p`. -/
structure qap_instance_evaluation where
  num_variables : Nat
  degree : Nat
  num_inputs : Nat
  At : List Nat
  Bt : List Nat
  Ct : List Nat
  Ht : List Nat
  Zt : Nat
deriving DecidableEq, Repr

/-- The class `qap_witness` of libsnark (external): the members the SNARG reads. -/
structure qap_witness where
  num_variables : Nat
  degree : Nat
  num_inputs : Nat
  d1 : Nat
  d2 : Nat
  d3 : Nat
  coefficients_for_ABCs : List Nat
  coefficients_for_H : List Nat
deriving DecidableEq, Repr

/-- The external R1CS-to-QAP reduction of libsnark, over a type `CS` of
constraint systems: `cs.is_satisfied(primary, auxiliary)`,
`r1cs_to_qap_instance_map_with_evaluation(cs, t)` and
`r1cs_to_qap_witness_map(cs, primary, auxiliary, d1, d2, d3)`. -/
structure r1cs_to_qap (CS : Type) where
  is_satisfied : CS → List Nat → List Nat → Bool
  instance_map_with_evaluation : CS → Nat → qap_instance_evaluation
  witness_map : CS → List Nat → List Nat → Nat → Nat → Nat → qap_witness

/-- The class `r1cs_lattice_ppsnarg_crs`. -/
structure r1cs_lattice_ppsnarg_crs (CS : Type) where
  enc_queries : List ciphertext
  constraint_system : CS

/-- The class `r1cs_lattice_ppsnarg_verification_key`. -/
structure r1cs_lattice_ppsnarg_verification_key where
  sk : secret_key
  Z : List Nat
  Yprime : matrix
  A_prefix : List (List Nat)
  B_prefix : List (List Nat)
  C_prefix : List (List Nat)
deriving DecidableEq, Repr

/-- The class `r1cs_lattice_ppsnarg_keypair`. -/
structure r1cs_lattice_ppsnarg_keypair (CS : Type) where
  crs : r1cs_lattice_ppsnarg_crs CS
  vk : r1cs_lattice_ppsnarg_verification_key

/-- The class `r1cs_lattice_ppsnarg_proof`. -/
structure r1cs_lattice_ppsnarg_proof where
  response : ciphertext
deriving DecidableEq, Repr

/-- The function `generate_Y(dim)`: one draw per entry, no other step.
`Y_rand i j` is the value drawn for `Y(i+1, j+1)`. -/
def generate_Y (dim : Nat) (Y_rand : Nat → Nat → Nat) : matrix :=
  NTL.mat_of dim dim (fun i j => random_element (Y_rand i j))

/-- The element `query[j][k]` of a `std::vector<Fr_vector>`. -/
def read2 (query : List (List Nat)) (j k : Nat) : Option Nat :=
  (query[j]?).bind (fun v => v[k]?)

/-- The function `make_query_matrix`.  The matrix under construction is the
function from (0-based) positions to entries; it starts as the zero matrix
(`NTL::clear`) and the three loop nests assign into it. -/
def make_query_matrix (A_query B_query C_query H_query : List (List Nat)) (Zs : List Nat)
    (num_inputs : Nat) : Option matrix := do
  let A0 ← A_query[0]?
  let H0 ← H_query[0]?
  if A0.length < num_inputs + 1 then none
  let ABC_rows := A0.length - num_inputs - 1
  let rows := ABC_rows + 3 + H0.length
  let cols := LWE.l
  let mat : Nat → Nat → Nat := fun _ _ => 0
  -- Copy A, B, C
  let mat ← NTL.for_loop ABC_rows (fun i mat =>
    NTL.for_loop cols (fun j mat => do
      let a ← read2 A_query j (i + num_inputs + 1)
      let b ← read2 B_query j (i + num_inputs + 1)
      let c ← read2 C_query j (i + num_inputs + 1)
      some (NTL.assign (NTL.assign (NTL.assign mat i j a) i (j + cols) b) i (j + 2 * cols) c))
      mat) mat
  -- Copy Zs to the bottom of A, B and C
  let mat ← NTL.for_loop 3 (fun i mat =>
    NTL.for_loop cols (fun j mat => do
      let z ← Zs[j]?
      some (NTL.assign mat (ABC_rows + i) (j + i * cols) z)) mat) mat
  -- Copy H
  let mat ← NTL.for_loop H0.length (fun i mat =>
    NTL.for_loop cols (fun j mat => do
      let h ← read2 H_query j i
      some (NTL.assign mat (i + ABC_rows + 3) (j + 3 * cols) h)) mat) mat
  some (NTL.mat_of rows (4 * cols) mat)

/-- The function `encrypt_queries`.  `enc_r i` and `enc_e i` are the Gaussian
draws of the call of `encrypt` for row `i`. -/
def encrypt_queries (sk : secret_key) (queries : matrix) (enc_r enc_e : Nat → Nat → Int) :
    Option (List ciphertext) :=
  (List.range queries.length).mapM (fun i => encrypt sk (queries.getD i []) (enc_r i) (enc_e i))

/-- The random draws of one run of the generator, in the order of the source:
the evaluation points `t`, the mask `Y`, the draws of `keygen`, and the draws of
the `encrypt` call of each CRS row. -/
structure generator_draws where
  t : Nat → Nat
  Y_rand : Nat → Nat → Nat
  A_rand : Nat → Nat → Nat
  S_gauss : Nat → Nat → Int
  E_gauss : Nat → Nat → Int
  enc_r : Nat → Nat → Int
  enc_e : Nat → Nat → Int

/-- The first `k` entries of a query, copied by `emplace_back(query[j])` for
`j < k`; reading past the end of the query is an error. -/
def prefix_of (query : List Nat) (k : Nat) : Option (List Nat) :=
  if query.length < k then none else some (query.take k)

/-- The instance evaluation `qap_inst` of iteration `i` of the generator's first
loop: the external map at the drawn point `t`. -/
def gen_inst {CS : Type} (ext : r1cs_to_qap CS) (cs : CS) (draws : generator_draws) :
    Nat → qap_instance_evaluation :=
  fun i => ext.instance_map_with_evaluation cs (random_element (draws.t i))

/-- The function `r1cs_lattice_ppsnarg_generator`. -/
def r1cs_lattice_ppsnarg_generator {CS : Type} (ext : r1cs_to_qap CS) (cs : CS)
    (draws : generator_draws) : Option (r1cs_lattice_ppsnarg_keypair CS) := do
  let qap_inst : Nat → qap_instance_evaluation := gen_inst ext cs draws
  let num_inputs := (qap_inst 0).num_inputs
  let idx := List.range r1cs_lattice_ppsnarg_num_queries
  let A_queries := idx.map (fun i => (qap_inst i).At)
  let B_queries := idx.map (fun i => (qap_inst i).Bt)
  let C_queries := idx.map (fun i => (qap_inst i).Ct)
  let H_queries := idx.map (fun i => (qap_inst i).Ht)
  let Zs := idx.map (fun i => (qap_inst i).Zt)
  let A_prefix ← idx.mapM (fun i => prefix_of (qap_inst i).At (num_inputs + 1))
  let B_prefix ← idx.mapM (fun i => prefix_of (qap_inst i).Bt (num_inputs + 1))
  let C_prefix ← idx.mapM (fun i => prefix_of (qap_inst i).Ct (num_inputs + 1))
  let query_mat ← make_query_matrix A_queries B_queries C_queries H_queries Zs num_inputs
  let Y := generate_Y (4 * LWE.l) draws.Y_rand
  let query_mat ← NTL.mul_mat p query_mat Y
  let sk ← keygen draws.A_rand draws.S_gauss draws.E_gauss
  let Yprime ← NTL.inv p (NTL.transpose Y)
  let enc_queries ← encrypt_queries sk query_mat draws.enc_r draws.enc_e
  some { crs := { enc_queries := enc_queries, constraint_system := cs }
         vk := { sk := sk, Z := Zs, Yprime := Yprime, A_prefix := A_prefix,
                 B_prefix := B_prefix, C_prefix := C_prefix } }

/-- The proof vector `pi` of the prover, as a function of the index. -/
def proof_vector (qap_wit : qap_witness) : Option (Nat × (Nat → Nat)) := do
  let num_inputs := qap_wit.num_inputs
  if qap_wit.coefficients_for_ABCs.length < num_inputs then none
  let num_ABC_coeffs := qap_wit.coefficients_for_ABCs.length - num_inputs
  let proof_dim := num_ABC_coeffs + 3 + qap_wit.coefficients_for_H.length
  let pi : Nat → Nat → Nat := fun _ _ => 0
  let pi ← NTL.for_loop num_ABC_coeffs (fun i pi => do
    let a ← qap_wit.coefficients_for_ABCs[i + num_inputs]?
    some (NTL.assign pi 0 i a)) pi
  let pi := NTL.assign pi 0 num_ABC_coeffs qap_wit.d1
  let pi := NTL.assign pi 0 (num_ABC_coeffs + 1) qap_wit.d2
  let pi := NTL.assign pi 0 (num_ABC_coeffs + 2) qap_wit.d3
  let pi ← NTL.for_loop qap_wit.coefficients_for_H.length (fun i pi => do
    let h ← qap_wit.coefficients_for_H[i]?
    some (NTL.assign pi 0 (num_ABC_coeffs + 3 + i) h)) pi
  some (proof_dim, pi 0)

/-- The function `r1cs_lattice_ppsnarg_prover`; `d1`, `d2`, `d3` are the three
draws of `random_element`. -/
def r1cs_lattice_ppsnarg_prover {CS : Type} (ext : r1cs_to_qap CS)
    (crs : r1cs_lattice_ppsnarg_crs CS) (primary_input auxiliary_input : List Nat)
    (d1 d2 d3 : Nat) : Option r1cs_lattice_ppsnarg_proof := do
  let qap_wit := ext.witness_map crs.constraint_system primary_input auxiliary_input
    (random_element d1) (random_element d2) (random_element d3)
  let (proof_dim, pi) ← proof_vector qap_wit
  -- assert(proof_dim == crs.enc_queries.size())
  if proof_dim ≠ crs.enc_queries.length then none
  let ct0 ← crs.enc_queries[0]?
  let ct ← NTL.for_loop (proof_dim - 1) (fun k ct => do
    let ci ← crs.enc_queries[k + 1]?
    ct.add (ci.mul (pi (k + 1)))) (ct0.mul (pi 0))
  some { response := ct }

/-- The values `A[i]`, `B[i]`, `C[i]`, `H[i]` that the first loop of the
verifier computes from `proof_decrypt`. -/
def verifier_query (vk : r1cs_lattice_ppsnarg_verification_key) (primary_input : List Nat)
    (proof_decrypt : List Nat) (i : Nat) : Option (Nat × Nat × Nat × Nat) := do
  let a ← proof_decrypt[i]?
  let b ← proof_decrypt[i + r1cs_lattice_ppsnarg_num_queries]?
  let c ← proof_decrypt[i + 2 * r1cs_lattice_ppsnarg_num_queries]?
  let h ← proof_decrypt[i + 3 * r1cs_lattice_ppsnarg_num_queries]?
  let pa ← vk.A_prefix[i]?
  let pb ← vk.B_prefix[i]?
  let pc ← vk.C_prefix[i]?
  let a := (a + (← pa[0]?)) % p
  let b := (b + (← pb[0]?)) % p
  let c := (c + (← pc[0]?)) % p
  let abc ← NTL.for_loop primary_input.length (fun j (abc : Nat × Nat × Nat) => do
    let x ← primary_input[j]?
    some ((abc.1 + x * (← pa[j + 1]?) % p) % p,
          (abc.2.1 + x * (← pb[j + 1]?) % p) % p,
          (abc.2.2 + x * (← pc[j + 1]?) % p) % p)) (a, b, c)
  some (abc.1, abc.2.1, abc.2.2, h)

/-- The second loop of the verifier ("Check QAP divisibility"): `result`
becomes `false` at every index where the equation fails. -/
def check_divisibility (vals : List (Nat × Nat × Nat × Nat)) (Z : List Nat) : Option Bool :=
  NTL.for_loop r1cs_lattice_ppsnarg_num_queries (fun i result => do
    let v ← vals[i]?
    let z ← Z[i]?
    some (if v.1 * v.2.1 % p ≠ (v.2.2.2 * z % p + v.2.2.1) % p then false else result)) true

/-- The values `(A[i], B[i], C[i], H[i])`, `i < 15`, that the verifier
reconstructs from a proof. -/
def verifier_values (vk : r1cs_lattice_ppsnarg_verification_key) (primary_input : List Nat)
    (proof : r1cs_lattice_ppsnarg_proof) : Option (List (Nat × Nat × Nat × Nat)) := do
  let dec ← decrypt vk.sk proof.response
  let proof_decrypt ← NTL.mul_mat_vec p vk.Yprime dec
  (List.range r1cs_lattice_ppsnarg_num_queries).mapM
    (verifier_query vk primary_input proof_decrypt)

/-- The function `r1cs_lattice_ppsnarg_verifier`. -/
def r1cs_lattice_ppsnarg_verifier (vk : r1cs_lattice_ppsnarg_verification_key)
    (primary_input : List Nat) (proof : r1cs_lattice_ppsnarg_proof) : Option Bool := do
  let vals ← verifier_values vk primary_input proof
  check_divisibility vals vk.Z

end libsnark

namespace libsnark

/-- The statement-dependent sum `Σ_{j < |x|} x[j] * prefix[j+1]` that the
verifier adds to a decrypted value. -/
def statement_sum (primary_input pre : List Nat) : Nat :=
  ∑ j in Finset.range primary_input.length, primary_input.getD j 0 * pre.getD (j + 1) 0

end libsnark

namespace libsnark

open LWE

/-- The dimensions the generator gives a verification key for a constraint
system with `num_inputs` public inputs. -/
def vk_well_formed (vk : r1cs_lattice_ppsnarg_verification_key) (num_inputs : Nat) : Prop :=
  vk.sk.S.length = n + pt_dim ∧ (∀ row ∈ vk.sk.S, row.length = pt_dim)
  ∧ vk.Yprime.length = 4 * LWE.l ∧ (∀ row ∈ vk.Yprime, row.length = 4 * LWE.l)
  ∧ vk.A_prefix.length = r1cs_lattice_ppsnarg_num_queries
  ∧ (∀ pre ∈ vk.A_prefix, pre.length = num_inputs + 1)
  ∧ vk.B_prefix.length = r1cs_lattice_ppsnarg_num_queries
  ∧ (∀ pre ∈ vk.B_prefix, pre.length = num_inputs + 1)
  ∧ vk.C_prefix.length = r1cs_lattice_ppsnarg_num_queries
  ∧ (∀ pre ∈ vk.C_prefix, pre.length = num_inputs + 1)
  ∧ vk.Z.length = r1cs_lattice_ppsnarg_num_queries

end libsnark

namespace libsnark

open LWE

/-- A sample verification key with the dimensions of the generator's keys, for
two public inputs. -/
def ex_vk : r1cs_lattice_ppsnarg_verification_key :=
  { sk := { A := NTL.mat_of (n + pt_dim) n (key_A_entry ex_A_rand ex_S_gauss ex_E_gauss)
            S := NTL.mat_of (n + pt_dim) pt_dim (key_S_entry ex_S_gauss) }
    Z := List.replicate 15 5
    Yprime := NTL.ident_mat_ZZ_p p (4 * LWE.l)
    A_prefix := List.replicate 15 [1, 2, 3]
    B_prefix := List.replicate 15 [4, 5, 6]
    C_prefix := List.replicate 15 [7, 8, 9] }

/-- A sample proof: a ciphertext of the right length. -/
def ex_proof : r1cs_lattice_ppsnarg_proof :=
  { response := { ctxt := NTL.vec_of (n + pt_dim) (fun i => 3 * i + 1) } }

end libsnark

namespace libsnark

open LWE

/-- Entry `(r, c)` of the matrix that `make_query_matrix` returns, in closed
form; `ABC_rows` is the number of rows of the A/B/C slices, `H_rows` the
number of rows of the H slice. -/
def query_entry (A_query B_query C_query H_query : List (List Nat)) (Zs : List Nat)
    (num_inputs ABC_rows H_rows : Nat) (r c : Nat) : Nat :=
  if r < ABC_rows then
    if c < LWE.l then (A_query.getD c []).getD (r + num_inputs + 1) 0
    else if c < 2 * LWE.l then (B_query.getD (c - LWE.l) []).getD (r + num_inputs + 1) 0
    else if c < 3 * LWE.l then (C_query.getD (c - 2 * LWE.l) []).getD (r + num_inputs + 1) 0
    else 0
  else if r < ABC_rows + 3 then
    if (r - ABC_rows) * LWE.l ≤ c ∧ c < (r - ABC_rows) * LWE.l + LWE.l then
      Zs.getD (c - (r - ABC_rows) * LWE.l) 0
    else 0
  else if r < ABC_rows + 3 + H_rows then
    if 3 * LWE.l ≤ c ∧ c < 3 * LWE.l + LWE.l then
      (H_query.getD (c - 3 * LWE.l) []).getD (r - ABC_rows - 3) 0
    else 0
  else 0

end libsnark

namespace libsnark

open LWE

/-- The member function `qap_instance_evaluation::is_satisfied` of libsnark
(external), without its comparison of `Zt` with the vanishing polynomial of the
evaluation domain: the size checks, then
`ans_A * ans_B - ans_C = ans_H * Zt` in `F_p`, where
`ans_A = At[0] + d1 * Zt + Σ_k At[k+1] * coefficients_for_ABCs[k]`, likewise
`ans_B`, `ans_C`, and `ans_H = Σ_k Ht[k] * coefficients_for_H[k]`. -/
def qap_instance_evaluation.is_satisfied (inst : qap_instance_evaluation)
    (wit : qap_witness) : Bool :=
  decide (inst.num_variables = wit.num_variables ∧ inst.degree = wit.degree
    ∧ inst.num_inputs = wit.num_inputs
    ∧ inst.num_variables = wit.coefficients_for_ABCs.length
    ∧ inst.degree + 1 = wit.coefficients_for_H.length
    ∧ inst.At.length = inst.num_variables + 1 ∧ inst.Bt.length = inst.num_variables + 1
    ∧ inst.Ct.length = inst.num_variables + 1 ∧ inst.Ht.length = inst.degree + 1
    ∧ ((inst.At.getD 0 0 + wit.d1 * inst.Zt
          + ∑ k in Finset.range inst.num_variables,
              inst.At.getD (k + 1) 0 * wit.coefficients_for_ABCs.getD k 0)
        * (inst.Bt.getD 0 0 + wit.d2 * inst.Zt
          + ∑ k in Finset.range inst.num_variables,
              inst.Bt.getD (k + 1) 0 * wit.coefficients_for_ABCs.getD k 0)) % p
      = ((∑ k in Finset.range (inst.degree + 1),
              inst.Ht.getD k 0 * wit.coefficients_for_H.getD k 0) * inst.Zt
          + (inst.Ct.getD 0 0 + wit.d3 * inst.Zt
            + ∑ k in Finset.range inst.num_variables,
                inst.Ct.getD (k + 1) 0 * wit.coefficients_for_ABCs.getD k 0)) % p)

/-- The external reduction is correct on `(cs, x, w)`: the witness it returns
for any blinds satisfies the instance it returns at any point, carries the
full assignment `x ++ w` and the blinds it was given, and counts `|x|` inputs. -/
def r1cs_to_qap.correct_on {CS : Type} (ext : r1cs_to_qap CS) (cs : CS)
    (x w : List Nat) : Prop :=
  ∀ t d1 d2 d3,
    (ext.instance_map_with_evaluation cs t).is_satisfied (ext.witness_map cs x w d1 d2 d3) = true
    ∧ (ext.witness_map cs x w d1 d2 d3).coefficients_for_ABCs = x ++ w
    ∧ (ext.witness_map cs x w d1 d2 d3).num_inputs = x.length
    ∧ (ext.witness_map cs x w d1 d2 d3).d1 = d1
    ∧ (ext.witness_map cs x w d1 d2 d3).d2 = d2
    ∧ (ext.witness_map cs x w d1 d2 d3).d3 = d3

/-- Entry `(r, c)` of the query matrix the generator packs from the instance
evaluations `qap_inst 0, ..., qap_inst 14`. -/
def gen_query_entry (qap_inst : Nat → qap_instance_evaluation) (r c : Nat) : Nat :=
  query_entry ((List.range LWE.l).map (fun i => (qap_inst i).At))
    ((List.range LWE.l).map (fun i => (qap_inst i).Bt))
    ((List.range LWE.l).map (fun i => (qap_inst i).Ct))
    ((List.range LWE.l).map (fun i => (qap_inst i).Ht))
    ((List.range LWE.l).map (fun i => (qap_inst i).Zt))
    (qap_inst 0).num_inputs ((qap_inst 0).At.length - (qap_inst 0).num_inputs - 1)
    (qap_inst 0).Ht.length r c

/-- Number of rows of the query matrix, that is of ciphertexts in the CRS. -/
def gen_rows (qap_inst : Nat → qap_instance_evaluation) : Nat :=
  (qap_inst 0).At.length - (qap_inst 0).num_inputs - 1 + 3 + (qap_inst 0).Ht.length

/-- Entry `(r, c)` of the masked query matrix `M * Y` over `Z_p`. -/
def gen_masked_entry (qap_inst : Nat → qap_instance_evaluation) (Y_rand : Nat → Nat → Nat)
    (r c : Nat) : Nat :=
  (∑ k in Finset.range (4 * LWE.l),
    gen_query_entry qap_inst r k * random_element (Y_rand k c)) % p

/-- Coordinate `i` of the `r`-th ciphertext of the CRS. -/
def gen_crs_entry (qap_inst : Nat → qap_instance_evaluation) (draws : generator_draws)
    (r i : Nat) : Nat :=
  fresh_entry (key_A_entry draws.A_rand draws.S_gauss draws.E_gauss)
    (NTL.vec_of (4 * LWE.l) (gen_masked_entry qap_inst draws.Y_rand r))
    (draws.enc_r r) (draws.enc_e r) i

/-- The key pair the generator returns when the mask is invertible, given the
inverse `Yprime`. -/
def gen_keypair {CS : Type} (ext : r1cs_to_qap CS) (cs : CS) (draws : generator_draws)
    (Yprime : matrix) : r1cs_lattice_ppsnarg_keypair CS :=
  { crs :=
      { enc_queries := (List.range (gen_rows (gen_inst ext cs draws))).map (fun r =>
          ⟨NTL.vec_of (n + pt_dim) (gen_crs_entry (gen_inst ext cs draws) draws r)⟩)
        constraint_system := cs }
    vk :=
      { sk := { A := NTL.mat_of (n + pt_dim) n
                  (key_A_entry draws.A_rand draws.S_gauss draws.E_gauss)
                S := NTL.mat_of (n + pt_dim) pt_dim (key_S_entry draws.S_gauss) }
        Z := (List.range LWE.l).map (fun i => (gen_inst ext cs draws i).Zt)
        Yprime := Yprime
        A_prefix := (List.range LWE.l).map (fun i =>
          (gen_inst ext cs draws i).At.take ((gen_inst ext cs draws 0).num_inputs + 1))
        B_prefix := (List.range LWE.l).map (fun i =>
          (gen_inst ext cs draws i).Bt.take ((gen_inst ext cs draws 0).num_inputs + 1))
        C_prefix := (List.range LWE.l).map (fun i =>
          (gen_inst ext cs draws i).Ct.take ((gen_inst ext cs draws 0).num_inputs + 1)) } }

end libsnark

namespace libsnark

open LWE

/-- A sample R1CS-to-QAP reduction, for the constraint system with one public
input `x0`, fifteen auxiliary variables and the single constraint
`x0 * 1 = x0`, over the one-point domain with vanishing polynomial `Z(t) = t`:
`A(t) = x0 + d1 t`, `B(t) = 1 + d2 t`, `C(t) = x0 + d3 t` and
`H(t) = (x0 d2 + d1 - d3) + d1 d2 t`. -/
def ex_ext : r1cs_to_qap Unit where
  is_satisfied := fun _ x w => decide (x.length = 1 ∧ w.length = 15)
  instance_map_with_evaluation := fun _ t =>
    { num_variables := 16, degree := 1, num_inputs := 1
      At := 0 :: 1 :: List.replicate 15 0
      Bt := 1 :: List.replicate 16 0
      Ct := 0 :: 1 :: List.replicate 15 0
      Ht := [1, t % p]
      Zt := t % p }
  witness_map := fun _ x w d1 d2 d3 =>
    { num_variables := 16, degree := 1, num_inputs := 1
      d1 := d1, d2 := d2, d3 := d3
      coefficients_for_ABCs := x ++ w
      coefficients_for_H := [(x.getD 0 0 * d2 + d1 + (p - d3 % p)) % p, d1 * d2 % p] }

/-- The draws of `generate_Y` that give the identity mask. -/
def ex_Y_rand : Nat → Nat → Nat := fun i j => if i = j then 1 else 0

/-- Sample draws of the generator: evaluation points `2, 3, ...`, the identity
mask, and Gaussian samples of absolute value at most 6. -/
def ex_draws : generator_draws where
  t := fun i => i + 2
  Y_rand := ex_Y_rand
  A_rand := ex_A_rand
  S_gauss := ex_S_gauss
  E_gauss := ex_E_gauss
  enc_r := fun r k => ex_r_gauss (r + k)
  enc_e := fun r k => ex_e_gauss (r + k)

/-- Draws of the generator with every Gaussian sample equal to 30 or -30 (five
standard deviations): all evaluation points equal to 1, the identity mask,
every entry of `S_hat` equal to -30, every entry of `E_hat`, of each
encryption's `r` and of each encryption's error equal to 30. -/
def worst_draws : generator_draws where
  t := fun _ => 1
  Y_rand := ex_Y_rand
  A_rand := ex_A_rand
  S_gauss := fun _ _ => -30
  E_gauss := fun _ _ => 30
  enc_r := fun _ _ => 30
  enc_e := fun _ _ => 30

end libsnark

namespace libsnark

open LWE

/-- Draws of the generator whose mask is the zero matrix: every draw of
`generate_Y` is 0. -/
def singular_draws : generator_draws where
  t := fun i => i + 2
  Y_rand := fun _ _ => 0
  A_rand := ex_A_rand
  S_gauss := ex_S_gauss
  E_gauss := ex_E_gauss
  enc_r := fun r k => ex_r_gauss (r + k)
  enc_e := fun r k => ex_e_gauss (r + k)

/-- The instance evaluations of a run of the generator have the sizes that
`make_query_matrix` and the prefix loop read: every `At`, `Bt`, `Ct` has `V1`
entries, at least `num_inputs + 1`, and every `Ht` has `Hn` entries. -/
def instances_well_formed {CS : Type} (ext : r1cs_to_qap CS) (cs : CS) (draws : generator_draws)
    (V1 Hn : Nat) : Prop :=
  (∀ i, i < LWE.l → (gen_inst ext cs draws i).At.length = V1)
  ∧ (∀ i, i < LWE.l → (gen_inst ext cs draws i).Bt.length = V1)
  ∧ (∀ i, i < LWE.l → (gen_inst ext cs draws i).Ct.length = V1)
  ∧ (∀ i, i < LWE.l → (gen_inst ext cs draws i).Ht.length = Hn)
  ∧ (gen_inst ext cs draws 0).num_inputs + 1 ≤ V1

end libsnark

namespace libsnark

/-- Sample queries for `make_query_matrix`: fifteen A/B/C queries of length 4
and fifteen H queries of length 2, for one public input. -/
def ex_A_query : List (List Nat) := (List.range 15).map (fun i => [i, i + 1, i + 2, i + 3])

def ex_B_query : List (List Nat) := (List.range 15).map (fun i => [2 * i, 2 * i + 1, 7, i])

def ex_C_query : List (List Nat) := (List.range 15).map (fun i => [5, i, 3 * i, i + 9])

def ex_H_query : List (List Nat) := (List.range 15).map (fun i => [i + 7, 2 * i])

def ex_Zs : List Nat := List.range' 1 15

end libsnark

namespace libsnark

/-- Entry `i` of the proof vector in closed form: the concatenation of the
witness coefficients from index `num_inputs` on, the three blinds, and the
coefficients of `H` (0 past the end). -/
def pi_entry (qap_wit : qap_witness) (i : Nat) : Nat :=
  (qap_wit.coefficients_for_ABCs.drop qap_wit.num_inputs
    ++ [qap_wit.d1, qap_wit.d2, qap_wit.d3] ++ qap_wit.coefficients_for_H).getD i 0

/-- A sample QAP witness: two inputs, five variables, blinds 7, 8, 9. -/
def ex_qap_wit : qap_witness where
  num_variables := 5
  degree := 2
  num_inputs := 2
  d1 := 7
  d2 := 8
  d3 := 9
  coefficients_for_ABCs := [1, 2, 3, 4, 5]
  coefficients_for_H := [10, 11, 12]

end libsnark

namespace libsnark

/-- A sample CRS for the sample reduction: twenty ciphertexts of length 2. -/
def ex_crs : r1cs_lattice_ppsnarg_crs Unit where
  enc_queries := (List.range 20).map (fun i => ⟨[i + 1, 2 * i]⟩)
  constraint_system := ()

end libsnark

namespace libsnark

open LWE

/-- The values `(A_i, B_i, C_i, H_i)` that the verifier reconstructs, in closed
form, under a key of the generator: `D` is the decrypted proof, `Yp` the
matrix `Yprime` of the key, `qap_inst` the instance evaluations of the run. -/
def gen_values (qap_inst : Nat → qap_instance_evaluation) (Yp : matrix) (x : List Nat)
    (D : Nat → Nat) (i : Nat) : Nat × Nat × Nat × Nat :=
  (((∑ t in Finset.range (4 * LWE.l), NTL.entry Yp i t * D t) % p
      + (qap_inst i).At.getD 0 0
      + ∑ j in Finset.range x.length, x.getD j 0 * (qap_inst i).At.getD (j + 1) 0) % p,
   ((∑ t in Finset.range (4 * LWE.l), NTL.entry Yp (i + LWE.l) t * D t) % p
      + (qap_inst i).Bt.getD 0 0
      + ∑ j in Finset.range x.length, x.getD j 0 * (qap_inst i).Bt.getD (j + 1) 0) % p,
   ((∑ t in Finset.range (4 * LWE.l), NTL.entry Yp (i + 2 * LWE.l) t * D t) % p
      + (qap_inst i).Ct.getD 0 0
      + ∑ j in Finset.range x.length, x.getD j 0 * (qap_inst i).Ct.getD (j + 1) 0) % p,
   (∑ t in Finset.range (4 * LWE.l), NTL.entry Yp (i + 3 * LWE.l) t * D t) % p)

end libsnark

namespace LWE

/-- The ciphertext `ct` with `p` added, modulo `q`, to its coordinate `k`: the
perturbation of a single coordinate used to probe the verifier. -/
def ciphertext.add_p_at (ct : ciphertext) (k : Nat) : ciphertext :=
  ⟨NTL.vec_of ct.ctxt.length (fun i =>
    if i = k then (ct.ctxt.getD i 0 + p_int) % q else ct.ctxt.getD i 0)⟩

end LWE

namespace libsnark

open LWE

/-- The proof whose ciphertext is zero in every coordinate. -/
def ex_zero_proof : r1cs_lattice_ppsnarg_proof :=
  { response := { ctxt := NTL.vec_of (n + pt_dim) (fun _ => 0) } }

end libsnark

namespace libsnark

open LWE

/-- The integer that the coordinate `j` of `S^T * c` represents modulo `q` for
the proof `c` built from the CRS of the generator with the proof vector `pi`:
the sum over the CRS rows `r` of `pi r * (M1[r][j] + p * noise_r j)`, where
`M1` is the masked query matrix and `noise_r` the noise of the `r`-th
encryption. -/
def proof_preround (qap_inst : Nat → qap_instance_evaluation) (draws : generator_draws)
    (pi : Nat → Nat) (j : Nat) : Int :=
  ∑ r in Finset.range (gen_rows qap_inst),
    (pi r : Int) * ((gen_masked_entry qap_inst draws.Y_rand r j : Int)
      + (p_int : Int) * noise draws.S_gauss draws.E_gauss (draws.enc_r r) (draws.enc_e r) j)

end libsnark

namespace LWE

/-- A ciphertext at the boundary of the rounding window: `n` zeros followed by
`pt_dim` entries equal to `65536 + p * 2198989701631 = 2^57 + 511`. -/
def ex_boundary_ct : ciphertext :=
  ⟨NTL.vec_of (n + pt_dim) (fun i => if i < n then 0 else 144115188075856383)⟩

/-- A ciphertext inside the rounding window: `n` zeros followed by `pt_dim`
entries equal to `7 + p * 5`. -/
def ex_window_ct : ciphertext :=
  ⟨NTL.vec_of (n + pt_dim) (fun i => if i < n then 0 else 327692)⟩

end LWE

namespace LWE

/-- The noise of the linear combination `Σ_{r<R} pi_r * c_r` of `R` fresh
ciphertexts, the `r`-th drawn with `enc_r r` and `enc_e r`, in plaintext
coordinate `j`: the same combination of the noises of the `c_r`. -/
def lincomb_noise (S_gauss E_gauss : Nat → Nat → Int) (enc_r enc_e : Nat → Nat → Int)
    (pi : Nat → Nat) (R j : Nat) : Int :=
  ∑ r in Finset.range R, (pi r : Int) * noise S_gauss E_gauss (enc_r r) (enc_e r) j

end LWE

namespace libsnark

/-- The QAP witness of the sample reduction for the input `(3)`, fifteen
auxiliary values 5 and the draws 1, 2, 3 of the blinds. -/
def ex_honest_wit : qap_witness :=
  ex_ext.witness_map () [3] (List.replicate 15 5) (random_element 1) (random_element 2)
    (random_element 3)

end libsnark

/-! ## `ntlfp.hpp`, `ntlfp.tcc`, `lattice_pp.cpp` -/

namespace NTL

/-- The inverse `inv(a)` of a `ZZ_p`, also written `1 / a`, under the modulus
`m` in force, by the contract NTL documents: the representative in `[0, m)` of
the inverse of `a` modulo `m`; NTL raises
"ZZ_p: division by non-invertible element" when `a` has no inverse modulo `m`,
and `InvMod` requires `0 <= a < m`. -/
def inv_ZZ_p (m a : Nat) : Option Nat :=
  if a < m ∧ Nat.gcd a m = 1 then some (Nat.gcdA a m % (m : Int)).toNat else none

/-- The power `NTL::power(a, e)` of a `ZZ_p` under modulus `m`. -/
def power (m a e : Nat) : Nat := a ^ e % m

end NTL

namespace libsnark

/-- The class `NTLFp_model<modulus>`: its member `value`, an `NTL::ZZ_p`, as
the representative NTL stores.  The modulus in force in NTL is global state
(`NTL::ZZ_p::init`): a member function that selects the modulus returns the
modulus in force when it returns, a member function that computes without
selecting one takes the modulus `cur` in force when it is called. -/
structure NTLFp_model where
  value : Nat
deriving DecidableEq, Repr

/-- The default constructor `NTLFp_model()`: selects `modulus`; the value is
a default `ZZ_p`, zero. -/
def NTLFp_model.default (modulus : Nat) : NTLFp_model × Nat := (⟨0⟩, modulus)

/-- The constructor `NTLFp_model(long x)`: selects `modulus`, then converts
`x`. -/
def NTLFp_model.of_long (modulus : Nat) (x : Int) : NTLFp_model × Nat :=
  (⟨NTL.conv modulus x⟩, modulus)

/-- The copy constructor `NTLFp_model(const NTLFp_model &other)`: selects
`modulus`, then copies the value. -/
def NTLFp_model.copy (modulus : Nat) (other : NTLFp_model) : NTLFp_model × Nat :=
  (⟨other.value⟩, modulus)

/-- The member `operator^=(unsigned long pwr)`: selects `modulus`, then
replaces the value by its power. -/
def NTLFp_model.pow_assign (modulus : Nat) (self : NTLFp_model) (pwr : Nat) :
    NTLFp_model × Nat :=
  (⟨NTL.power modulus self.value pwr⟩, modulus)

/-- The member `operator^(unsigned long pwr) const`: copies `*this` and
calls `operator^=`. -/
def NTLFp_model.pow (modulus : Nat) (self : NTLFp_model) (pwr : Nat) : NTLFp_model × Nat :=
  let r := (NTLFp_model.copy modulus self).1
  NTLFp_model.pow_assign modulus r pwr

/-- The member `operator*(other) const`: a default-constructed `r` (which
selects `modulus`), then `r.value = value * other.value`. -/
def NTLFp_model.mul (modulus : Nat) (self other : NTLFp_model) : NTLFp_model × Nat :=
  let cur := (NTLFp_model.default modulus).2
  (⟨self.value * other.value % cur⟩, cur)

/-- The member `invert()`: `this->value = 1 / this->value`, computed under the
modulus `cur` in force; the function does not select a modulus.  The result is
the new value of `*this`. -/
def NTLFp_model.invert (self : NTLFp_model) (cur : Nat) : Option (NTLFp_model × Nat) :=
  (NTL.inv_ZZ_p cur self.value).map (fun y => (⟨y⟩, cur))

/-- The member `inverse() const`: copies `*this` into `r` (the copy constructor
selects `modulus`) and returns `r.invert()`; `*this` is only read. -/
def NTLFp_model.inverse (modulus : Nat) (self : NTLFp_model) : Option (NTLFp_model × Nat) :=
  let (r, cur) := NTLFp_model.copy modulus self
  NTLFp_model.invert r cur

/-- The loop `while (s % 2 == 0) { s /= 2; t++; }` of `get_s_and_t`, run for at
most `fuel` iterations. -/
def get_s_and_t_loop : Nat → Nat → Nat → Option (Nat × Nat)
  | 0, _, _ => none
  | fuel + 1, s, t =>
    if s % 2 = 0 then get_s_and_t_loop fuel (s / 2) ((t + 1) % 2 ^ 64) else some (s, t)

/-- The member `get_s_and_t(s, t)` on `unsigned long`: `s = modulus - 1`,
`t = 0`, then the loop; the result is the pair `(s, t)` it leaves in its two
reference parameters. -/
def NTLFp_model.get_s_and_t (modulus : Nat) (fuel : Nat) : Option (Nat × Nat) :=
  get_s_and_t_loop fuel ((modulus + (2 ^ 64 - 1)) % 2 ^ 64) 0

/-- The static members `s`, `t`, `multiplicative_generator` and
`root_of_unity` of `NTLFp_model<modulus>`. -/
structure Fp_params where
  s : Nat
  t : Nat
  multiplicative_generator : NTLFp_model
  root_of_unity : NTLFp_model
deriving DecidableEq, Repr

/-- The function `lattice_pp::init_public_params`, for
`Fp_type = NTLFp_model<LWE::p_int>`: the static members it sets. -/
def lattice_pp.init_public_params : Fp_params :=
  let s := 16
  let t := 1
  let multiplicative_generator := (NTLFp_model.of_long LWE.p_int 3).1
  let root_of_unity := (NTLFp_model.pow LWE.p_int multiplicative_generator t).1
  { s := s, t := t, multiplicative_generator := multiplicative_generator,
    root_of_unity := root_of_unity }

end libsnark

namespace LWE

/-- The conversion of a `uint64_t` to `long`, the argument type of the
constructor `NTL::ZZ_p(long)`: the two's-complement value. -/
def uint64_to_long (val : Nat) : Int :=
  if val % 2 ^ 64 < 2 ^ 63 then ((val % 2 ^ 64 : Nat) : Int)
  else ((val % 2 ^ 64 : Nat) : Int) - 2 ^ 64

/-- The temporary `NTL::ZZ_p(val)` for a `uint64_t val`, built under the
modulus `cur` in force in NTL when the expression is evaluated. -/
def ZZ_p_of_uint64 (cur val : Nat) : Nat := NTL.conv cur (uint64_to_long val)

/-- The member `operator*=(uint64_t val)`:
`return operator*=(NTL::ZZ_p(val))`.  The argument `NTL::ZZ_p(val)` is built
under the modulus `cur` in force at the call; `operator*=(const NTL::ZZ_p &)`
then selects `q` and multiplies by its representative. -/
def ciphertext.mul_assign_uint64 (self : ciphertext) (val cur : Nat) : ciphertext :=
  self.mul (ZZ_p_of_uint64 cur val)

/-- The member `operator*(uint64_t val) const`:
`return operator*(NTL::ZZ_p(val))`, which copies `*this` and calls
`operator*=(const NTL::ZZ_p &)`. -/
def ciphertext.mul_uint64 (self : ciphertext) (val cur : Nat) : ciphertext :=
  self.mul (ZZ_p_of_uint64 cur val)

/-- The function `operator*(uint64_t val, const ciphertext& ct)`:
`return operator*(NTL::ZZ_p(val), ct)`, which copies `ct` and calls
`operator*=(const NTL::ZZ_p &)`. -/
def uint64_mul (val : Nat) (ct : ciphertext) (cur : Nat) : ciphertext :=
  ct.mul (ZZ_p_of_uint64 cur val)

end LWE

/-! ## Lemmas on the NTL operations -/

namespace NTL

theorem length_vec_of (len : Nat) (f : Nat → Nat) : (vec_of len f).length = len := by
  simp [vec_of]

theorem getD_vec_of {len : Nat} (f : Nat → Nat) {i : Nat} (h : i < len) :
    (vec_of len f).getD i 0 = f i := by
  simp [vec_of, List.getD_eq_getElem?_getD, List.getElem?_range h]

theorem vec_of_getD (v : List Nat) : vec_of v.length (fun i => v.getD i 0) = v := by
  apply List.ext_getElem
  · simp [vec_of]
  · intro i h1 h2
    simp [vec_of, List.getD_eq_getElem?_getD, List.getElem?_eq_getElem h2]

theorem vec_of_congr {len : Nat} {f g : Nat → Nat} (h : ∀ i, i < len → f i = g i) :
    vec_of len f = vec_of len g := by
  unfold vec_of
  apply List.map_congr_left
  intro i hi
  exact h i (List.mem_range.mp hi)

theorem mat_of_congr {rows cols : Nat} {f g : Nat → Nat → Nat}
    (h : ∀ i j, i < rows → j < cols → f i j = g i j) : mat_of rows cols f = mat_of rows cols g := by
  unfold mat_of
  apply List.map_congr_left
  intro i hi
  apply List.map_congr_left
  intro j hj
  exact h i j (List.mem_range.mp hi) (List.mem_range.mp hj)

theorem mat_of_eq_map (rows cols : Nat) (f : Nat → Nat → Nat) :
    mat_of rows cols f = (List.range rows).map (fun i => vec_of cols (f i)) := rfl

theorem length_mat_of (rows cols : Nat) (f : Nat → Nat → Nat) :
    (mat_of rows cols f).length = rows := by
  simp [mat_of]

theorem entry_mat_of {rows cols : Nat} (f : Nat → Nat → Nat) {i j : Nat} (hi : i < rows)
    (hj : j < cols) : entry (mat_of rows cols f) i j = f i j := by
  simp [entry, mat_of, List.getD_eq_getElem?_getD, List.getElem?_range hi, List.getElem?_range hj]

theorem NumCols_mat_of {rows cols : Nat} (f : Nat → Nat → Nat) (h : 0 < rows) :
    NumCols (mat_of rows cols f) = cols := by
  obtain ⟨k, rfl⟩ : ∃ k, rows = k + 1 := ⟨rows - 1, by omega⟩
  simp [NumCols, mat_of, List.range_succ_eq_map]

theorem zipWith_diag {α β : Type} (op : α → α → β) (xs : List α) :
    List.zipWith op xs xs = xs.map (fun a => op a a) := by
  induction xs with
  | nil => rfl
  | cons a t ih => simp [ih]

theorem sum_zipWith_vec_of (len : Nat) (op : Nat → Nat → Nat) (f g : Nat → Nat) :
    (List.zipWith op (vec_of len f) (vec_of len g)).sum
      = ∑ k in Finset.range len, op (f k) (g k) := by
  unfold vec_of
  rw [List.zipWith_map, zipWith_diag, Finset.sum_range]
  induction len with
  | zero => simp
  | succ k ih =>
    rw [List.range_succ, List.map_append, List.sum_append, ih, Fin.sum_univ_castSucc]
    simp

theorem inner_vec_of (m len : Nat) (f g : Nat → Nat) :
    inner m (vec_of len f) (vec_of len g) = (∑ k in Finset.range len, f k * g k) % m := by
  unfold inner
  rw [sum_zipWith_vec_of]

theorem transpose_mat_of {rows cols : Nat} (f : Nat → Nat → Nat) (h : 0 < rows) :
    transpose (mat_of rows cols f) = mat_of cols rows (fun i j => f j i) := by
  unfold transpose
  rw [NumCols_mat_of f h]
  unfold mat_of
  apply List.map_congr_left
  intro j hj
  rw [List.map_map]
  apply List.map_congr_left
  intro i _
  have := getD_vec_of (f i) (List.mem_range.mp hj)
  simpa [vec_of] using this

theorem mul_mat_vec_mat_of (m rows cols : Nat) (f : Nat → Nat → Nat) (g : Nat → Nat) :
    mul_mat_vec m (mat_of rows cols f) (vec_of cols g)
      = some (vec_of rows (fun i => (∑ k in Finset.range cols, f i k * g k) % m)) := by
  unfold mul_mat_vec
  rw [if_pos]
  · rw [mat_of_eq_map, List.map_map]
    congr 1
    unfold vec_of
    apply List.map_congr_left
    intro i _
    exact inner_vec_of m cols (f i) g
  · simp [mat_of, vec_of]

theorem mul_mat_vec_mat_of_list (m rows cols : Nat) (f : Nat → Nat → Nat) (x : List Nat)
    (hx : x.length = cols) :
    mul_mat_vec m (mat_of rows cols f) x
      = some (vec_of rows (fun i => (∑ k in Finset.range cols, f i k * x.getD k 0) % m)) := by
  subst hx
  have h := mul_mat_vec_mat_of m rows x.length f (fun k => x.getD k 0)
  rwa [vec_of_getD] at h

theorem mul_mat_mat_of (m a b c : Nat) (f g : Nat → Nat → Nat) (hb : 0 < b) :
    mul_mat m (mat_of a b f) (mat_of b c g)
      = some (mat_of a c (fun i j => (∑ k in Finset.range b, f i k * g k j) % m)) := by
  unfold mul_mat
  rw [if_pos]
  · rw [transpose_mat_of g hb]
    congr 1
    rw [mat_of_eq_map, mat_of_eq_map, mat_of_eq_map, List.map_map]
    apply List.map_congr_left
    intro i _
    simp only [Function.comp_apply]
    rw [List.map_map]
    unfold vec_of
    apply List.map_congr_left
    intro j _
    exact inner_vec_of m b (f i) (fun k => g k j)
  · simp [mat_of]

theorem add_vec_vec_of (m len : Nat) (f g : Nat → Nat) :
    add_vec m (vec_of len f) (vec_of len g) = some (vec_of len (fun i => (f i + g i) % m)) := by
  unfold add_vec
  rw [if_pos (by simp [vec_of])]
  unfold vec_of
  rw [List.zipWith_map, zipWith_diag]

theorem add_mat_mat_of (m rows cols : Nat) (f g : Nat → Nat → Nat) :
    add_mat m (mat_of rows cols f) (mat_of rows cols g)
      = some (mat_of rows cols (fun i j => (f i j + g i j) % m)) := by
  unfold add_mat
  rw [if_pos]
  · unfold mat_of
    rw [List.zipWith_map, zipWith_diag]
    congr 1
    apply List.map_congr_left
    intro i _
    rw [List.zipWith_map, zipWith_diag]
  · constructor
    · simp [mat_of]
    · rcases Nat.eq_zero_or_pos rows with h | h
      · subst h; rfl
      · rw [NumCols_mat_of f h, NumCols_mat_of g h]

theorem mul_scalar_mat_mat_of (m : Nat) (b : Int) (rows cols : Nat) (f : Nat → Nat → Nat) :
    mul_scalar_mat m b (mat_of rows cols f)
      = mat_of rows cols (fun i j => conv m b * f i j % m) := by
  simp [mul_scalar_mat, mat_of]

theorem mul_vec_scalar_vec_of (m len : Nat) (f : Nat → Nat) (val : Nat) :
    mul_vec_scalar m (vec_of len f) val = vec_of len (fun i => f i * val % m) := by
  simp [mul_vec_scalar, vec_of]

theorem conv_lt {m : Nat} (hm : 0 < m) (x : Int) : conv m x < m := by
  unfold conv
  have h1 : 0 ≤ x % (m : Int) := Int.emod_nonneg _ (by omega)
  have h2 : x % (m : Int) < m := Int.emod_lt_of_pos _ (by omega)
  omega

theorem cast_conv (m : Nat) [NeZero m] (x : Int) : ((conv m x : Nat) : ZMod m) = (x : ZMod m) := by
  unfold conv
  have h1 : 0 ≤ x % (m : Int) := Int.emod_nonneg _ (by exact_mod_cast NeZero.ne m)
  rw [← Int.cast_natCast, Int.toNat_of_nonneg h1, ZMod.intCast_mod]

theorem conv_congr {m : Nat} {a b : Int} (h : (a : ZMod m) = (b : ZMod m)) :
    conv m a = conv m b := by
  unfold conv
  rw [ZMod.intCast_eq_intCast_iff] at h
  rw [h]

theorem mod_eq_conv {m : Nat} (a : Nat) (z : Int) (h : (a : ZMod m) = (z : ZMod m)) :
    a % m = conv m z := by
  have h1 : ((a : Int) : ZMod m) = (z : ZMod m) := by rw [Int.cast_natCast]; exact h
  rw [← conv_congr h1]
  unfold conv
  rw [← Int.natCast_mod, Int.toNat_natCast]

theorem conv_natCast_of_lt {m w : Nat} (hw : w < m) : conv m (w : Int) = w := by
  unfold conv
  rw [Int.emod_eq_of_lt (by omega) (by omega)]
  simp

end NTL

/-! ## Lemmas on loops -/

namespace NTL

theorem for_loop_zero {σ : Type} (body : Nat → σ → Option σ) (s : σ) :
    for_loop 0 body s = some s := rfl

theorem for_loop_succ {σ : Type} (len : Nat) (body : Nat → σ → Option σ) (s : σ) :
    for_loop (len + 1) body s = (for_loop len body s).bind (body len) := by
  unfold for_loop
  rw [List.range_succ, List.foldlM_append]
  cases (List.foldlM (fun st k => body k st) s (List.range len)) with
  | none => rfl
  | some st => simp [List.foldlM_cons, List.foldlM_nil]

theorem for_loop_eq_foldl {σ : Type} (len : Nat) (body : Nat → σ → Option σ)
    (g : Nat → σ → σ) (h : ∀ k, k < len → ∀ st, body k st = some (g k st)) (s : σ) :
    for_loop len body s = some ((List.range len).foldl (fun st k => g k st) s) := by
  induction len with
  | zero => rfl
  | succ k ih =>
    rw [for_loop_succ, ih (fun j hj st => h j (by omega) st), Option.some_bind,
      h k (by omega), List.range_succ, List.foldl_append]
    rfl

theorem getElem?_eq_some_getD {α : Type} {xs : List α} {i : Nat} (h : i < xs.length) (d : α) :
    xs[i]? = some (xs.getD i d) := by
  rw [List.getElem?_eq_getElem h, List.getD_eq_getElem xs d h]

theorem foldl_range_succ {σ : Type} (g : σ → Nat → σ) (s : σ) (k : Nat) :
    (List.range (k + 1)).foldl g s = g ((List.range k).foldl g s) k := by
  rw [List.range_succ, List.foldl_append]
  rfl

/-- A loop assigning `val j` to `mat(ρ, j + off)` for `j < k`. -/
theorem foldl_assign_row (m0 : Nat → Nat → Nat) (ρ off : Nat) (val : Nat → Nat) (k : Nat) :
    (List.range k).foldl (fun m j => assign m ρ (j + off) (val j)) m0
      = fun r c => if r = ρ ∧ off ≤ c ∧ c < off + k then val (c - off) else m0 r c := by
  induction k with
  | zero =>
    funext r c
    simp only [List.range_zero, List.foldl_nil]
    split_ifs <;> first | rfl | omega
  | succ k ih =>
    rw [foldl_range_succ, ih]
    funext r c
    simp only [assign]
    split_ifs <;> first | rfl | omega | (congr 1; omega)

end NTL

/-! ## Closed forms of `keygen`, `encrypt` and `decrypt` -/

namespace LWE

theorem n_pos : 0 < n := by decide

theorem keygen_eq (A_rand : Nat → Nat → Nat) (S_gauss E_gauss : Nat → Nat → Int) :
    keygen A_rand S_gauss E_gauss = some
      { A := NTL.mat_of (n + pt_dim) n (key_A_entry A_rand S_gauss E_gauss)
        S := NTL.mat_of (n + pt_dim) pt_dim (key_S_entry S_gauss) } := by
  unfold keygen
  dsimp only
  rw [NTL.transpose_mat_of _ n_pos, NTL.mul_mat_mat_of q pt_dim n n _ _ n_pos,
    NTL.mul_scalar_mat_mat_of]
  rw [Option.bind_eq_bind]
  rw [Option.some_bind]
  rw [NTL.add_mat_mat_of]
  refine Eq.trans (Option.some_bind _ _) ?_
  refine congrArg some ?_
  refine congrArg₂ secret_key.mk ?_ ?_
  · apply NTL.mat_of_congr
    intro i j hi hj
    unfold key_A_entry
    by_cases h : i < n
    · simp only [h, if_true]
      rw [NTL.entry_mat_of _ h hj]
      simp only [random]
    · simp only [h, if_false]
      rw [NTL.entry_mat_of _ (by omega) hj]
      simp only [random]
  · apply NTL.mat_of_congr
    intro i j hi hj
    unfold key_S_entry
    by_cases h : i < n
    · simp only [h, if_true]
      rw [NTL.entry_mat_of _ h hj]
    · simp only [h, if_false]
      unfold NTL.ident_mat_ZZ_p
      rw [NTL.entry_mat_of _ (by omega) hj]

end LWE

namespace LWE

instance q_neZero : NeZero q := ⟨by decide⟩

theorem q_pos : 0 < q := by decide

theorem decrypt_mat_of (sk : secret_key) (s : Nat → Nat → Nat)
    (hS : sk.S = NTL.mat_of (n + pt_dim) pt_dim s) (c : List Nat) (hc : c.length = n + pt_dim) :
    decrypt sk ⟨c⟩ = some (NTL.vec_of pt_dim (fun j =>
      decode ((∑ i in Finset.range (n + pt_dim), s i j * c.getD i 0) % q))) := by
  unfold decrypt
  rw [hS, NTL.transpose_mat_of _ (by have := n_pos; omega),
    NTL.mul_mat_vec_mat_of_list q pt_dim (n + pt_dim) _ c hc]
  rw [Option.bind_eq_bind, Option.some_bind, if_neg (by rw [NTL.length_vec_of]; omega)]
  refine Eq.trans (Option.some_bind _ _) ?_
  refine congrArg some ?_
  apply NTL.vec_of_congr
  intro j hj
  rw [NTL.getD_vec_of _ hj]

end LWE

namespace LWE

theorem cast_sum_S (S_gauss : Nat → Nat → Int) (c : List Nat) (j : Nat) (hj : j < pt_dim) :
    ((∑ i in Finset.range (n + pt_dim), key_S_entry S_gauss i j * c.getD i 0 : Nat) : ZMod q)
      = ((preround S_gauss c j : Int) : ZMod q) := by
  unfold key_S_entry
  rw [Finset.sum_range_add]
  have h1 : ∀ x ∈ Finset.range n,
      (if x < n then NTL.conv q (-(NTL.conv q (S_gauss x j) : Int))
        else if x - n = j then 1 % q else 0) * c.getD x 0
      = NTL.conv q (-(NTL.conv q (S_gauss x j) : Int)) * c.getD x 0 := by
    intro x hx
    rw [if_pos (Finset.mem_range.mp hx)]
  have h2 : ∀ x ∈ Finset.range pt_dim,
      (if n + x < n then NTL.conv q (-(NTL.conv q (S_gauss (n + x) j) : Int))
        else if n + x - n = j then 1 % q else 0) * c.getD (n + x) 0
      = if x = j then c.getD (n + x) 0 else 0 := by
    intro x _
    rw [if_neg (by omega), Nat.add_sub_cancel_left]
    by_cases hxj : x = j
    · rw [if_pos hxj, if_pos hxj, Nat.mod_eq_of_lt (by decide), one_mul]
    · rw [if_neg hxj, if_neg hxj, zero_mul]
  rw [Finset.sum_congr rfl h1, Finset.sum_congr rfl h2, Finset.sum_ite_eq',
    if_pos (Finset.mem_range.mpr hj)]
  unfold preround
  simp only [NTL.cast_conv, Int.cast_neg, Int.cast_natCast, Int.cast_sub, Int.cast_sum,
    Int.cast_mul, Nat.cast_sum, Nat.cast_mul, Nat.cast_add, neg_mul, Finset.sum_neg_distrib]
  ring

theorem decrypt_keygen {A_rand : Nat → Nat → Nat} {S_gauss E_gauss : Nat → Nat → Int}
    {sk : secret_key} (hk : keygen A_rand S_gauss E_gauss = some sk) (c : List Nat)
    (hc : c.length = n + pt_dim) :
    decrypt sk ⟨c⟩
      = some (NTL.vec_of pt_dim (fun j => decode (NTL.conv q (preround S_gauss c j)))) := by
  rw [keygen_eq] at hk
  have hS : sk.S = NTL.mat_of (n + pt_dim) pt_dim (key_S_entry S_gauss) := by
    rw [← Option.some.inj hk]
  rw [decrypt_mat_of sk _ hS c hc]
  refine congrArg some ?_
  apply NTL.vec_of_congr
  intro j hj
  rw [NTL.mod_eq_conv _ _ (cast_sum_S S_gauss c j hj)]

end LWE

namespace LWE

/-- The second loop of `encrypt` on a plaintext of at least `pt_dim` entries:
`v_padded` is `n` zeros followed by the first `pt_dim` entries of `pt`. -/
theorem encrypt_padding (pt : List Nat) (hpt : pt_dim ≤ pt.length) :
    NTL.for_loop pt_dim (fun i v_padded =>
        (pt[i]?).bind (fun x => some (NTL.assign v_padded 0 (i + n) x))) (fun _ _ => 0)
      = some (fun r c => if r = 0 ∧ n ≤ c ∧ c < n + pt_dim then pt.getD (c - n) 0 else 0) := by
  rw [NTL.for_loop_eq_foldl _ _ (fun j m => NTL.assign m 0 (j + n) (pt.getD j 0))
    (fun k hk st => by
      rw [NTL.getElem?_eq_some_getD (by omega : k < pt.length) 0]
      rfl),
    NTL.foldl_assign_row]

theorem encrypt_mat_of (sk : secret_key) (a : Nat → Nat → Nat)
    (hA : sk.A = NTL.mat_of (n + pt_dim) n a) (pt : List Nat) (hpt : pt_dim ≤ pt.length)
    (r_gauss e_gauss : Nat → Int) :
    encrypt sk pt r_gauss e_gauss
      = some ⟨NTL.vec_of (n + pt_dim) (fresh_entry a pt r_gauss e_gauss)⟩ := by
  have hv : NTL.vec_of (n + pt_dim)
        (fun c => if (0 : Nat) = 0 ∧ n ≤ c ∧ c < n + pt_dim then pt.getD (c - n) 0 else 0)
      = NTL.vec_of (n + pt_dim) (fun i => if i < n then 0 else pt.getD (i - n) 0) := by
    refine NTL.vec_of_congr fun i hi => ?_
    by_cases h : i < n
    · rw [if_neg (by omega), if_pos h]
    · rw [if_pos ⟨rfl, by omega, hi⟩, if_neg h]
  unfold encrypt
  dsimp only
  simp only [Option.bind_eq_bind, Option.pure_def]
  rw [encrypt_padding pt hpt, Option.some_bind, hv, hA, NTL.mul_mat_vec_mat_of,
    Option.some_bind, NTL.add_vec_vec_of, Option.some_bind]
  refine congrArg some (congrArg ciphertext.mk ?_)
  apply NTL.vec_of_congr
  intro i hi
  rw [NTL.getD_vec_of _ hi]
  rfl

theorem encrypt_keygen {A_rand : Nat → Nat → Nat} {S_gauss E_gauss : Nat → Nat → Int}
    {sk : secret_key} (hk : keygen A_rand S_gauss E_gauss = some sk) (pt : List Nat)
    (hpt : pt_dim ≤ pt.length) (r_gauss e_gauss : Nat → Int) :
    encrypt sk pt r_gauss e_gauss
      = some ⟨NTL.vec_of (n + pt_dim)
          (fresh_entry (key_A_entry A_rand S_gauss E_gauss) pt r_gauss e_gauss)⟩ := by
  rw [keygen_eq] at hk
  have hA : sk.A = NTL.mat_of (n + pt_dim) n (key_A_entry A_rand S_gauss E_gauss) := by
    rw [← Option.some.inj hk]
  exact encrypt_mat_of sk _ hA pt hpt r_gauss e_gauss

theorem cast_error_term (x : Int) : ((error_term x : Nat) : ZMod q) = (p_int : ZMod q) * (x : ZMod q) := by
  have hdvd : q ∣ 2 ^ 64 := ⟨2 ^ 6, by decide⟩
  have hdvdZ : (q : Int) ∣ (2 ^ 64 : Int) := ⟨2 ^ 6, by decide⟩
  unfold error_term
  have h1 : (((x % (2 ^ 64 : Int)).toNat * p_int % 2 ^ 64 : Nat) : ZMod q)
      = (((x % (2 ^ 64 : Int)).toNat * p_int : Nat) : ZMod q) := by
    rw [ZMod.natCast_eq_natCast_iff]
    exact (Nat.mod_modEq _ _).of_dvd hdvd
  rw [h1, Nat.cast_mul, mul_comm]
  congr 1
  have h2 : 0 ≤ x % (2 ^ 64 : Int) := Int.emod_nonneg _ (by norm_num)
  rw [← Int.cast_natCast, Int.toNat_of_nonneg h2, ZMod.intCast_eq_intCast_iff]
  exact (Int.mod_modEq _ _).of_dvd hdvdZ

theorem cast_fresh_entry (a : Nat → Nat → Nat) (pt : List Nat) (r_gauss e_gauss : Nat → Int)
    (i : Nat) :
    ((fresh_entry a pt r_gauss e_gauss i : Nat) : ZMod q)
      = ∑ k in Finset.range n, (a i k : ZMod q) * (r_gauss k : ZMod q)
        + ((if i < n then 0 else pt.getD (i - n) 0 : Nat) : ZMod q)
        + (p_int : ZMod q) * (e_gauss i : ZMod q) := by
  unfold fresh_entry
  simp only [ZMod.natCast_mod, Nat.cast_add, Nat.cast_sum, Nat.cast_mul, NTL.cast_conv,
    cast_error_term]

end LWE

namespace LWE

theorem cast_key_A_entry_top (A_rand : Nat → Nat → Nat) (S_gauss E_gauss : Nat → Nat → Int)
    {i : Nat} (hi : i < n) (k : Nat) :
    ((key_A_entry A_rand S_gauss E_gauss i k : Nat) : ZMod q) = (A_rand i k : ZMod q) := by
  unfold key_A_entry
  rw [if_pos hi, ZMod.natCast_mod]

theorem cast_key_A_entry_bottom (A_rand : Nat → Nat → Nat) (S_gauss E_gauss : Nat → Nat → Int)
    (j k : Nat) :
    ((key_A_entry A_rand S_gauss E_gauss (n + j) k : Nat) : ZMod q)
      = ∑ m in Finset.range n, (S_gauss m j : ZMod q) * (A_rand m k : ZMod q)
        + (p_int : ZMod q) * (E_gauss j k : ZMod q) := by
  unfold key_A_entry
  rw [if_neg (by omega), Nat.add_sub_cancel_left]
  simp only [ZMod.natCast_mod, Nat.cast_add, Nat.cast_sum, Nat.cast_mul, NTL.cast_conv,
    Int.cast_natCast]

/-- The algebra behind decryption: the uniform part `A_hat` cancels in `S^T * c`. -/
theorem isolate_plaintext {R : Type} [CommRing R] (N : Nat) (S : Nat → R) (A : Nat → Nat → R)
    (E r e : Nat → R) (v pp en : R) :
    (∑ k in Finset.range N, (∑ m in Finset.range N, S m * A m k + pp * E k) * r k + v + pp * en)
      - ∑ i in Finset.range N, S i * (∑ k in Finset.range N, A i k * r k + 0 + pp * e i)
    = v + pp * (en + ∑ k in Finset.range N, E k * r k - ∑ k in Finset.range N, S k * e k) := by
  have h1 : ∑ k in Finset.range N, (∑ m in Finset.range N, S m * A m k + pp * E k) * r k
      = ∑ i in Finset.range N, S i * (∑ k in Finset.range N, A i k * r k)
        + pp * ∑ k in Finset.range N, E k * r k := by
    simp only [add_mul, Finset.sum_add_distrib, Finset.sum_mul, Finset.mul_sum]
    rw [Finset.sum_comm]
    congr 1
    · apply Finset.sum_congr rfl
      intro i _
      apply Finset.sum_congr rfl
      intro k _
      ring
    · apply Finset.sum_congr rfl
      intro k _
      ring
  have h2 : ∑ i in Finset.range N, S i * (∑ k in Finset.range N, A i k * r k + 0 + pp * e i)
      = ∑ i in Finset.range N, S i * (∑ k in Finset.range N, A i k * r k)
        + pp * ∑ k in Finset.range N, S k * e k := by
    simp only [add_zero, mul_add, Finset.sum_add_distrib, Finset.mul_sum]
    congr 1
    apply Finset.sum_congr rfl
    intro k _
    ring
  rw [h1, h2]
  ring

theorem cast_preround_fresh (A_rand : Nat → Nat → Nat) (S_gauss E_gauss : Nat → Nat → Int)
    (pt : List Nat) (r_gauss e_gauss : Nat → Int) (j : Nat) (hj : j < pt_dim) :
    ((preround S_gauss (NTL.vec_of (n + pt_dim)
        (fresh_entry (key_A_entry A_rand S_gauss E_gauss) pt r_gauss e_gauss)) j : Int) : ZMod q)
      = (((pt.getD j 0 : Int) + (p_int : Int) * noise S_gauss E_gauss r_gauss e_gauss j : Int)
          : ZMod q) := by
  unfold preround noise
  rw [NTL.getD_vec_of _ (by omega : n + j < n + pt_dim)]
  have h1 : ∀ k ∈ Finset.range n,
      S_gauss k j * ((NTL.vec_of (n + pt_dim)
        (fresh_entry (key_A_entry A_rand S_gauss E_gauss) pt r_gauss e_gauss)).getD k 0 : Int)
      = S_gauss k j * (fresh_entry (key_A_entry A_rand S_gauss E_gauss) pt r_gauss e_gauss k : Int) := by
    intro k hk
    rw [NTL.getD_vec_of _ (by have := Finset.mem_range.mp hk; omega)]
  rw [Finset.sum_congr rfl h1]
  push_cast
  rw [cast_fresh_entry]
  have h2 : ∀ k ∈ Finset.range n,
      (S_gauss k j : ZMod q)
        * ((fresh_entry (key_A_entry A_rand S_gauss E_gauss) pt r_gauss e_gauss k : Nat) : ZMod q)
      = (S_gauss k j : ZMod q)
        * (∑ m in Finset.range n, (A_rand k m : ZMod q) * (r_gauss m : ZMod q) + 0
            + (p_int : ZMod q) * (e_gauss k : ZMod q)) := by
    intro k hk
    have hkn := Finset.mem_range.mp hk
    rw [cast_fresh_entry, if_pos hkn, Nat.cast_zero]
    simp only [cast_key_A_entry_top _ _ _ hkn]
  rw [Finset.sum_congr rfl h2, if_neg (by omega), Nat.add_sub_cancel_left]
  simp only [cast_key_A_entry_bottom]
  exact isolate_plaintext n (fun m => (S_gauss m j : ZMod q)) (fun i k => (A_rand i k : ZMod q))
    (fun k => (E_gauss j k : ZMod q)) (fun k => (r_gauss k : ZMod q))
    (fun k => (e_gauss k : ZMod q)) _ _ _

end LWE

namespace LWE

theorem decode_conv (z : Int) (h1 : -((2 : Int) ^ 57) < z) (h2 : z ≤ (2 : Int) ^ 57) :
    decode (NTL.conv q z) = (z % (p_int : Int)).toNat := by
  unfold decode NTL.conv q p_int
  norm_num at h1 h2 ⊢
  have h3 : 0 ≤ z % 288230376151711744 := Int.emod_nonneg _ (by norm_num)
  rw [max_eq_left h3]
  rcases le_or_lt 0 z with hz | hz
  · rw [Int.emod_eq_of_lt hz (by omega), if_neg (by omega)]
  · have h4 : z % 288230376151711744 = z + 288230376151711744 := by
      rw [← Int.add_emod_self, Int.emod_eq_of_lt (by omega) (by omega)]
    rw [h4, if_pos (by omega), add_sub_cancel_right]

theorem abs_sum_mul_le (B : Int) (N : Nat) (f g : Nat → Int)
    (hf : ∀ k, k < N → |f k| ≤ B) (hg : ∀ k, k < N → |g k| ≤ B) :
    |∑ k in Finset.range N, f k * g k| ≤ N * (B * B) := by
  calc |∑ k in Finset.range N, f k * g k|
      ≤ ∑ k in Finset.range N, |f k * g k| := Finset.abs_sum_le_sum_abs _ _
    _ ≤ ∑ _k in Finset.range N, B * B := by
        apply Finset.sum_le_sum
        intro k hk
        have hk' := Finset.mem_range.mp hk
        rw [abs_mul]
        exact mul_le_mul (hf k hk') (hg k hk') (abs_nonneg _) ((abs_nonneg _).trans (hf k hk'))
    _ = N * (B * B) := by simp

theorem abs_noise_le (B : Int) (S_gauss E_gauss : Nat → Nat → Int) (r_gauss e_gauss : Nat → Int)
    (hS : bounded2 B n pt_dim S_gauss) (hE : bounded2 B pt_dim n E_gauss)
    (hr : bounded B n r_gauss) (he : bounded B (n + pt_dim) e_gauss) (j : Nat) (hj : j < pt_dim) :
    |noise S_gauss E_gauss r_gauss e_gauss j| ≤ B + 2 * (n * (B * B)) := by
  unfold noise
  have h1 := abs_sum_mul_le B n (fun k => E_gauss j k) r_gauss (fun k hk => hE j k hj hk) hr
  have h2 := abs_sum_mul_le B n (fun k => S_gauss k j) e_gauss (fun k hk => hS k j hk hj)
    (fun k hk => he k (by omega))
  have h3 := he (n + j) (by omega)
  rw [abs_le] at h1 h2 h3 ⊢
  constructor <;> linarith [h1.1, h1.2, h2.1, h2.2, h3.1, h3.2]

theorem decrypt_of_preround {A_rand : Nat → Nat → Nat} {S_gauss E_gauss : Nat → Nat → Int}
    {sk : secret_key} (hk : keygen A_rand S_gauss E_gauss = some sk) (c : List Nat)
    (hc : c.length = n + pt_dim) (z : Nat → Int)
    (hz : ∀ j, j < pt_dim → ((preround S_gauss c j : Int) : ZMod q) = ((z j : Int) : ZMod q)
      ∧ -((2 : Int) ^ 57) < z j ∧ z j ≤ (2 : Int) ^ 57) :
    decrypt sk ⟨c⟩ = some (NTL.vec_of pt_dim (fun j => (z j % (p_int : Int)).toNat)) := by
  rw [decrypt_keygen hk c hc]
  refine congrArg some ?_
  apply NTL.vec_of_congr
  intro j hj
  obtain ⟨h0, h1, h2⟩ := hz j hj
  rw [NTL.conv_congr h0, decode_conv _ h1 h2]

end LWE

namespace NTL

theorem getD_lt_of_forall_mem {v : List Nat} {B : Nat} (h : ∀ x ∈ v, x < B) {j : Nat}
    (hj : j < v.length) : v.getD j 0 < B := by
  rw [List.getD_eq_getElem v 0 hj]
  exact h _ (List.getElem_mem hj)

theorem vec_of_getD_of_length {v : List Nat} {len : Nat} (h : v.length = len) :
    vec_of len (fun i => v.getD i 0) = v := by
  subst h
  exact vec_of_getD v

theorem zipWith_eq_vec_of (op : Nat → Nat → Nat) (a b : List Nat) {len : Nat}
    (ha : a.length = len) (hb : b.length = len) :
    List.zipWith op a b = vec_of len (fun i => op (a.getD i 0) (b.getD i 0)) := by
  conv_lhs => rw [← vec_of_getD_of_length ha, ← vec_of_getD_of_length hb]
  unfold vec_of
  rw [List.zipWith_map, zipWith_diag]

theorem map_eq_vec_of (op : Nat → Nat) (a : List Nat) {len : Nat} (ha : a.length = len) :
    a.map op = vec_of len (fun i => op (a.getD i 0)) := by
  conv_lhs => rw [← vec_of_getD_of_length ha]
  unfold vec_of
  rw [List.map_map]
  rfl

end NTL

namespace LWE

theorem fresh_range {v N : Int} (hv0 : 0 ≤ v) (hv : v < 65537) (hN : |N| ≤ 40 + 2 * (1455 * (40 * 40))) :
    -((2 : Int) ^ 57) < v + 65537 * N ∧ v + 65537 * N ≤ (2 : Int) ^ 57 := by
  rw [abs_le] at hN
  constructor <;> omega

theorem fresh_preround (A_rand : Nat → Nat → Nat) (S_gauss E_gauss : Nat → Nat → Int)
    (r_gauss e_gauss : Nat → Int) (v : plaintext)
    (hS : bounded2 40 n pt_dim S_gauss) (hE : bounded2 40 pt_dim n E_gauss)
    (hr : bounded 40 n r_gauss) (he : bounded 40 (n + pt_dim) e_gauss)
    (hv : v.length = pt_dim) (hvp : ∀ x ∈ v, x < p_int) (j : Nat) (hj : j < pt_dim) :
    ((preround S_gauss (NTL.vec_of (n + pt_dim)
        (fresh_entry (key_A_entry A_rand S_gauss E_gauss) v r_gauss e_gauss)) j : Int) : ZMod q)
      = (((v.getD j 0 : Int) + (p_int : Int) * noise S_gauss E_gauss r_gauss e_gauss j : Int)
          : ZMod q)
    ∧ -((2 : Int) ^ 57) < (v.getD j 0 : Int) + (p_int : Int) * noise S_gauss E_gauss r_gauss e_gauss j
    ∧ (v.getD j 0 : Int) + (p_int : Int) * noise S_gauss E_gauss r_gauss e_gauss j ≤ (2 : Int) ^ 57 := by
  refine ⟨cast_preround_fresh A_rand S_gauss E_gauss v r_gauss e_gauss j hj, ?_⟩
  have hN := abs_noise_le 40 S_gauss E_gauss r_gauss e_gauss hS hE hr he j hj
  have hvj : v.getD j 0 < p_int := NTL.getD_lt_of_forall_mem hvp (by omega)
  have hn : (n : Int) = 1455 := by decide
  rw [hn] at hN
  have hp : (p_int : Int) = 65537 := by decide
  rw [hp]
  exact fresh_range (by omega) (by unfold p_int at hvj; omega) hN

end LWE

namespace LWE

theorem cast_preround_vec_of (S_gauss : Nat → Nat → Int) (g : Nat → Nat) (j : Nat)
    (hj : j < pt_dim) :
    ((preround S_gauss (NTL.vec_of (n + pt_dim) g) j : Int) : ZMod q)
      = (g (n + j) : ZMod q) - ∑ k in Finset.range n, (S_gauss k j : ZMod q) * (g k : ZMod q) := by
  unfold preround
  rw [NTL.getD_vec_of _ (by omega : n + j < n + pt_dim)]
  have h1 : ∀ k ∈ Finset.range n,
      S_gauss k j * ((NTL.vec_of (n + pt_dim) g).getD k 0 : Int) = S_gauss k j * (g k : Int) := by
    intro k hk
    rw [NTL.getD_vec_of _ (by have := Finset.mem_range.mp hk; omega)]
  rw [Finset.sum_congr rfl h1]
  push_cast
  rfl

theorem cast_preround_lincomb (S_gauss : Nat → Nat → Int) (f1 f2 g : Nat → Nat) (a b : ZMod q)
    (h : ∀ i, (g i : ZMod q) = a * (f1 i : ZMod q) + b * (f2 i : ZMod q)) (j : Nat)
    (hj : j < pt_dim) :
    ((preround S_gauss (NTL.vec_of (n + pt_dim) g) j : Int) : ZMod q)
      = a * ((preround S_gauss (NTL.vec_of (n + pt_dim) f1) j : Int) : ZMod q)
        + b * ((preround S_gauss (NTL.vec_of (n + pt_dim) f2) j : Int) : ZMod q) := by
  rw [cast_preround_vec_of _ _ _ hj, cast_preround_vec_of _ _ _ hj, cast_preround_vec_of _ _ _ hj]
  simp only [h, mul_sub, Finset.mul_sum, mul_add, Finset.sum_add_distrib]
  have e1 : ∀ k ∈ Finset.range n, (S_gauss k j : ZMod q) * (a * (f1 k : ZMod q))
      = a * ((S_gauss k j : ZMod q) * (f1 k : ZMod q)) := fun k _ => by ring
  have e2 : ∀ k ∈ Finset.range n, (S_gauss k j : ZMod q) * (b * (f2 k : ZMod q))
      = b * ((S_gauss k j : ZMod q) * (f2 k : ZMod q)) := fun k _ => by ring
  rw [Finset.sum_congr rfl e1, Finset.sum_congr rfl e2]
  ring

theorem abs_scalar_mul_le {a z A Z : Int} (ha0 : 0 ≤ a) (ha : a ≤ A) (hz : |z| ≤ Z) :
    |a * z| ≤ A * Z := by
  rw [abs_mul, abs_of_nonneg ha0]
  exact mul_le_mul ha hz (abs_nonneg _) (ha0.trans ha)

theorem lincomb_range {a b v1 v2 N1 N2 : Int} (ha0 : 0 ≤ a) (ha : a < 65537) (hb0 : 0 ≤ b)
    (hb : b < 65537) (hv10 : 0 ≤ v1) (hv1 : v1 < 65537) (hv20 : 0 ≤ v2) (hv2 : v2 < 65537)
    (hN1 : |N1| ≤ 40 + 2 * (1455 * (40 * 40))) (hN2 : |N2| ≤ 40 + 2 * (1455 * (40 * 40))) :
    -((2 : Int) ^ 57) < a * (v1 + 65537 * N1) + b * (v2 + 65537 * N2)
      ∧ a * (v1 + 65537 * N1) + b * (v2 + 65537 * N2) ≤ (2 : Int) ^ 57 := by
  have h1 : |v1 + 65537 * N1| ≤ 305143000000 := by
    rw [abs_le] at hN1 ⊢
    constructor <;> omega
  have h2 : |v2 + 65537 * N2| ≤ 305143000000 := by
    rw [abs_le] at hN2 ⊢
    constructor <;> omega
  have h3 := abs_scalar_mul_le ha0 (by omega : a ≤ 65536) h1
  have h4 := abs_scalar_mul_le hb0 (by omega : b ≤ 65536) h2
  rw [abs_le] at h3 h4
  constructor <;> omega

/-- Decryption of any ciphertext whose coordinates are, modulo `q`, the
combination `a * c1 + b * c2` of two fresh ciphertexts with `a, b < p`. -/
theorem decrypt_lincomb (A_rand : Nat → Nat → Nat) (S_gauss E_gauss : Nat → Nat → Int)
    (r1 e1 r2 e2 : Nat → Int) (v1 v2 : plaintext) (a b : Nat) (g : Nat → Nat)
    (hS : bounded2 40 n pt_dim S_gauss) (hE : bounded2 40 pt_dim n E_gauss)
    (hr1 : bounded 40 n r1) (he1 : bounded 40 (n + pt_dim) e1)
    (hr2 : bounded 40 n r2) (he2 : bounded 40 (n + pt_dim) e2)
    (hv1 : v1.length = pt_dim) (hvp1 : ∀ x ∈ v1, x < p_int)
    (hv2 : v2.length = pt_dim) (hvp2 : ∀ x ∈ v2, x < p_int)
    (ha : a < p_int) (hb : b < p_int)
    (hg : ∀ i, (g i : ZMod q)
      = (a : ZMod q) * (fresh_entry (key_A_entry A_rand S_gauss E_gauss) v1 r1 e1 i : ZMod q)
        + (b : ZMod q) * (fresh_entry (key_A_entry A_rand S_gauss E_gauss) v2 r2 e2 i : ZMod q))
    {sk : secret_key} (hk : keygen A_rand S_gauss E_gauss = some sk) :
    decrypt sk ⟨NTL.vec_of (n + pt_dim) g⟩
      = some (NTL.vec_of pt_dim (fun j => (a * v1.getD j 0 + b * v2.getD j 0) % p_int)) := by
  rw [decrypt_of_preround hk _ (NTL.length_vec_of _ _)
    (fun j => (a : Int) * ((v1.getD j 0 : Int) + (p_int : Int) * noise S_gauss E_gauss r1 e1 j)
      + (b : Int) * ((v2.getD j 0 : Int) + (p_int : Int) * noise S_gauss E_gauss r2 e2 j))]
  · refine congrArg some ?_
    apply NTL.vec_of_congr
    intro j _
    have e : (a : Int) * ((v1.getD j 0 : Int) + (p_int : Int) * noise S_gauss E_gauss r1 e1 j)
        + (b : Int) * ((v2.getD j 0 : Int) + (p_int : Int) * noise S_gauss E_gauss r2 e2 j)
        = ((a * v1.getD j 0 + b * v2.getD j 0 : Nat) : Int)
          + (p_int : Int) * ((a : Int) * noise S_gauss E_gauss r1 e1 j
              + (b : Int) * noise S_gauss E_gauss r2 e2 j) := by
      push_cast
      ring
    rw [e, Int.add_mul_emod_self_left, ← Int.natCast_mod, Int.toNat_natCast]
  · intro j hj
    obtain ⟨c1, _, _⟩ := fresh_preround A_rand S_gauss E_gauss r1 e1 v1 hS hE hr1 he1 hv1 hvp1 j hj
    obtain ⟨c2, _, _⟩ := fresh_preround A_rand S_gauss E_gauss r2 e2 v2 hS hE hr2 he2 hv2 hvp2 j hj
    refine ⟨?_, ?_⟩
    · rw [cast_preround_lincomb S_gauss _ _ g _ _ hg j hj, c1, c2]
      push_cast
      ring
    · have hN1 := abs_noise_le 40 S_gauss E_gauss r1 e1 hS hE hr1 he1 j hj
      have hN2 := abs_noise_le 40 S_gauss E_gauss r2 e2 hS hE hr2 he2 j hj
      have hv1j : v1.getD j 0 < p_int := NTL.getD_lt_of_forall_mem hvp1 (by omega)
      have hv2j : v2.getD j 0 < p_int := NTL.getD_lt_of_forall_mem hvp2 (by omega)
      have hn : (n : Int) = 1455 := by decide
      rw [hn] at hN1 hN2
      have hp : (p_int : Int) = 65537 := by decide
      rw [hp]
      unfold p_int at ha hb hv1j hv2j
      exact lincomb_range (by omega) (by omega) (by omega) (by omega) (by omega) (by omega)
        (by omega) (by omega) hN1 hN2

end LWE

namespace LWE

theorem ex_S_bounded : bounded2 40 n pt_dim ex_S_gauss := by
  intro i j _ _
  unfold ex_S_gauss
  rw [abs_le]
  constructor <;> omega

theorem ex_E_bounded : bounded2 40 pt_dim n ex_E_gauss := by
  intro i j _ _
  unfold ex_E_gauss
  rw [abs_le]
  constructor <;> omega

theorem ex_r_bounded : bounded 40 n ex_r_gauss := by
  intro i _
  unfold ex_r_gauss
  rw [abs_le]
  constructor <;> omega

theorem ex_e_bounded : bounded 40 (n + pt_dim) ex_e_gauss := by
  intro i _
  unfold ex_e_gauss
  rw [abs_le]
  constructor <;> omega

theorem mul_vec_of (len : Nat) (f : Nat → Nat) (val : Nat) :
    ciphertext.mul ⟨NTL.vec_of len f⟩ val = ⟨NTL.vec_of len (fun i => f i * val % q)⟩ := by
  unfold ciphertext.mul
  rw [NTL.mul_vec_scalar_vec_of]

theorem add_vec_of (len : Nat) (f g : Nat → Nat) :
    ciphertext.add ⟨NTL.vec_of len f⟩ ⟨NTL.vec_of len g⟩
      = some ⟨NTL.vec_of len (fun i => (f i + g i) % q)⟩ := by
  unfold ciphertext.add
  rw [NTL.add_vec_vec_of]
  rfl

theorem decrypt_fresh (A_rand : Nat → Nat → Nat) (S_gauss E_gauss : Nat → Nat → Int)
    (r_gauss e_gauss : Nat → Int) (v : plaintext)
    (hS : bounded2 40 n pt_dim S_gauss) (hE : bounded2 40 pt_dim n E_gauss)
    (hr : bounded 40 n r_gauss) (he : bounded 40 (n + pt_dim) e_gauss)
    (hv : v.length = pt_dim) (hvp : ∀ x ∈ v, x < p_int)
    {sk : secret_key} (hk : keygen A_rand S_gauss E_gauss = some sk) :
    decrypt sk ⟨NTL.vec_of (n + pt_dim)
      (fresh_entry (key_A_entry A_rand S_gauss E_gauss) v r_gauss e_gauss)⟩ = some v := by
  rw [decrypt_of_preround hk _ (NTL.length_vec_of _ _)
    (fun j => (v.getD j 0 : Int) + (p_int : Int) * noise S_gauss E_gauss r_gauss e_gauss j)
    (fun j hj => fresh_preround A_rand S_gauss E_gauss r_gauss e_gauss v hS hE hr he hv hvp j hj)]
  refine congrArg some ?_
  rw [← NTL.vec_of_getD_of_length hv]
  apply NTL.vec_of_congr
  intro j hj
  have hvj : v.getD j 0 < p_int := NTL.getD_lt_of_forall_mem hvp (by omega)
  rw [NTL.vec_of_getD_of_length hv, Int.add_mul_emod_self_left, ← Int.natCast_mod,
    Int.toNat_natCast, Nat.mod_eq_of_lt hvj]

end LWE

/-! ## Lemmas on loops and on the verifier -/

namespace NTL

theorem mapM_eq_some_map {α β : Type} (f : α → Option β) (g : α → β) (xs : List α)
    (h : ∀ a ∈ xs, f a = some (g a)) : xs.mapM f = some (xs.map g) := by
  induction xs with
  | nil => rfl
  | cons a t ih =>
    rw [List.mapM_cons, h a (List.mem_cons_self _ _),
      ih (fun b hb => h b (List.mem_cons_of_mem _ hb))]
    rfl

end NTL

namespace libsnark

open LWE

theorem accumulate_eq (x pre : List Nat) (k : Nat) (s : Nat) :
    (List.range k).foldl (fun acc j => (acc + x.getD j 0 * pre.getD (j + 1) 0 % p) % p) (s % p)
      = (s + ∑ j in Finset.range k, x.getD j 0 * pre.getD (j + 1) 0) % p := by
  induction k with
  | zero => simp
  | succ k ih =>
    rw [List.range_succ, List.foldl_append, ih, Finset.sum_range_succ]
    simp only [List.foldl_cons, List.foldl_nil]
    rw [← Nat.add_assoc, Nat.add_mod (s + _) (_ * _)]

theorem accumulate3_eq (x pa pb pc : List Nat) (k : Nat) (a b c : Nat) :
    (List.range k).foldl (fun (abc : Nat × Nat × Nat) j =>
        ((abc.1 + x.getD j 0 * pa.getD (j + 1) 0 % p) % p,
         (abc.2.1 + x.getD j 0 * pb.getD (j + 1) 0 % p) % p,
         (abc.2.2 + x.getD j 0 * pc.getD (j + 1) 0 % p) % p)) (a, b, c)
      = ((List.range k).foldl (fun acc j => (acc + x.getD j 0 * pa.getD (j + 1) 0 % p) % p) a,
         (List.range k).foldl (fun acc j => (acc + x.getD j 0 * pb.getD (j + 1) 0 % p) % p) b,
         (List.range k).foldl (fun acc j => (acc + x.getD j 0 * pc.getD (j + 1) 0 % p) % p) c) := by
  induction k with
  | zero => rfl
  | succ k ih =>
    simp only [List.range_succ, List.foldl_append, ih, List.foldl_cons, List.foldl_nil]

theorem verifier_query_eq (vk : r1cs_lattice_ppsnarg_verification_key) (x u : List Nat)
    (i : Nat) (pa pb pc : List Nat)
    (hu : i + 3 * r1cs_lattice_ppsnarg_num_queries < u.length)
    (hA : vk.A_prefix[i]? = some pa) (hB : vk.B_prefix[i]? = some pb)
    (hC : vk.C_prefix[i]? = some pc)
    (hpa : x.length < pa.length) (hpb : x.length < pb.length) (hpc : x.length < pc.length) :
    verifier_query vk x u i = some
      ((u.getD i 0 + pa.getD 0 0 + statement_sum x pa) % p,
       (u.getD (i + r1cs_lattice_ppsnarg_num_queries) 0 + pb.getD 0 0 + statement_sum x pb) % p,
       (u.getD (i + 2 * r1cs_lattice_ppsnarg_num_queries) 0 + pc.getD 0 0
          + statement_sum x pc) % p,
       u.getD (i + 3 * r1cs_lattice_ppsnarg_num_queries) 0) := by
  unfold verifier_query
  have hloop := NTL.for_loop_eq_foldl x.length
    (fun j (abc : Nat × Nat × Nat) => do
      let xj ← x[j]?
      some ((abc.1 + xj * (← pa[j + 1]?) % p) % p,
            (abc.2.1 + xj * (← pb[j + 1]?) % p) % p,
            (abc.2.2 + xj * (← pc[j + 1]?) % p) % p))
    (fun j (abc : Nat × Nat × Nat) =>
      ((abc.1 + x.getD j 0 * pa.getD (j + 1) 0 % p) % p,
       (abc.2.1 + x.getD j 0 * pb.getD (j + 1) 0 % p) % p,
       (abc.2.2 + x.getD j 0 * pc.getD (j + 1) 0 % p) % p))
    (by
      intro j hj st
      simp only [NTL.getElem?_eq_some_getD hj 0,
        NTL.getElem?_eq_some_getD (by omega : j + 1 < pa.length) 0,
        NTL.getElem?_eq_some_getD (by omega : j + 1 < pb.length) 0,
        NTL.getElem?_eq_some_getD (by omega : j + 1 < pc.length) 0,
        Option.bind_eq_bind, Option.some_bind])
  simp only [NTL.getElem?_eq_some_getD (by omega : i < u.length) 0,
    NTL.getElem?_eq_some_getD (by omega : i + r1cs_lattice_ppsnarg_num_queries < u.length) 0,
    NTL.getElem?_eq_some_getD (by omega : i + 2 * r1cs_lattice_ppsnarg_num_queries < u.length) 0,
    NTL.getElem?_eq_some_getD hu 0, hA, hB, hC,
    NTL.getElem?_eq_some_getD (by omega : 0 < pa.length) 0,
    NTL.getElem?_eq_some_getD (by omega : 0 < pb.length) 0,
    NTL.getElem?_eq_some_getD (by omega : 0 < pc.length) 0,
    Option.bind_eq_bind, Option.some_bind, Option.pure_def]
  simp only [Option.bind_eq_bind] at hloop
  rw [hloop, Option.some_bind, accumulate3_eq, accumulate_eq, accumulate_eq, accumulate_eq]
  rfl

end libsnark

namespace NTL

theorem mat_eq_mat_of (A : mat_ZZ_p) (rows cols : Nat) (hlen : A.length = rows)
    (hrow : ∀ r ∈ A, r.length = cols) : A = mat_of rows cols (entry A) := by
  apply List.ext_getElem
  · rw [length_mat_of, hlen]
  · intro i h1 h2
    have hi : i < rows := by omega
    have e : (mat_of rows cols (entry A))[i] = vec_of cols (entry A i) := by
      simp [mat_of, vec_of]
    rw [e]
    have hr : A[i].length = cols := hrow _ (List.getElem_mem h1)
    rw [← vec_of_getD_of_length hr]
    apply vec_of_congr
    intro j _
    unfold entry
    rw [List.getD_eq_getElem A [] h1]

theorem mapM_length {α β : Type} (f : α → Option β) (xs : List α) (ys : List β)
    (h : xs.mapM f = some ys) : ys.length = xs.length := by
  induction xs generalizing ys with
  | nil =>
    rw [List.mapM_nil] at h
    cases h
    rfl
  | cons a t ih =>
    rw [List.mapM_cons] at h
    cases hfa : f a with
    | none => rw [hfa] at h; cases h
    | some b =>
      cases ht : List.mapM f t with
      | none => rw [hfa, ht] at h; cases h
      | some r =>
        rw [hfa, ht] at h
        cases h
        simp [ih r ht]

end NTL

namespace LWE

theorem pt_dim_eq : pt_dim = 4 * l := by decide

theorem decrypt_well_formed (sk : secret_key) (hlen : sk.S.length = n + pt_dim)
    (hrow : ∀ row ∈ sk.S, row.length = pt_dim) (ct : ciphertext)
    (hc : ct.ctxt.length = n + pt_dim) :
    decrypt sk ct = some (NTL.vec_of pt_dim (fun j =>
      decode ((∑ i in Finset.range (n + pt_dim), NTL.entry sk.S i j * ct.ctxt.getD i 0) % q))) :=
  decrypt_mat_of sk _ (NTL.mat_eq_mat_of sk.S _ _ hlen hrow) ct.ctxt hc

end LWE

namespace libsnark

open LWE

theorem verifier_values_closed (vk : r1cs_lattice_ppsnarg_verification_key)
    (x : List Nat) (proof : r1cs_lattice_ppsnarg_proof) (num_inputs : Nat)
    (hwf : vk_well_formed vk num_inputs) (hx : x.length = num_inputs)
    (hproof : proof.response.ctxt.length = n + pt_dim) :
    ∃ dec u, decrypt vk.sk proof.response = some dec
      ∧ NTL.mul_mat_vec p vk.Yprime dec = some u
      ∧ dec.length = pt_dim ∧ u.length = 4 * LWE.l
      ∧ verifier_values vk x proof = some
        ((List.range r1cs_lattice_ppsnarg_num_queries).map (fun i =>
          ((u.getD i 0 + (vk.A_prefix.getD i []).getD 0 0
              + statement_sum x (vk.A_prefix.getD i [])) % p,
           (u.getD (i + r1cs_lattice_ppsnarg_num_queries) 0 + (vk.B_prefix.getD i []).getD 0 0
              + statement_sum x (vk.B_prefix.getD i [])) % p,
           (u.getD (i + 2 * r1cs_lattice_ppsnarg_num_queries) 0
              + (vk.C_prefix.getD i []).getD 0 0 + statement_sum x (vk.C_prefix.getD i [])) % p,
           u.getD (i + 3 * r1cs_lattice_ppsnarg_num_queries) 0))) := by
  obtain ⟨hS1, hS2, hY1, hY2, hA1, hA2, hB1, hB2, hC1, hC2, _⟩ := hwf
  have hdec := decrypt_well_formed vk.sk hS1 hS2 proof.response hproof
  have hY := NTL.mat_eq_mat_of vk.Yprime _ _ hY1 hY2
  have hu := NTL.mul_mat_vec_mat_of_list p (4 * LWE.l) (4 * LWE.l) (NTL.entry vk.Yprime)
    (NTL.vec_of pt_dim (fun j =>
      decode ((∑ i in Finset.range (n + pt_dim),
        NTL.entry vk.sk.S i j * proof.response.ctxt.getD i 0) % q)))
    (by rw [NTL.length_vec_of, pt_dim_eq])
  rw [← hY] at hu
  refine ⟨_, _, hdec, hu, NTL.length_vec_of _ _, NTL.length_vec_of _ _, ?_⟩
  unfold verifier_values
  rw [hdec, Option.bind_eq_bind, Option.some_bind, hu, Option.some_bind]
  apply NTL.mapM_eq_some_map
  intro i hi
  have hi' : i < r1cs_lattice_ppsnarg_num_queries := List.mem_range.mp hi
  have hnq : r1cs_lattice_ppsnarg_num_queries = LWE.l := rfl
  have hiA : i < vk.A_prefix.length := by omega
  have hiB : i < vk.B_prefix.length := by omega
  have hiC : i < vk.C_prefix.length := by omega
  apply verifier_query_eq vk x _ i _ _ _ (by rw [NTL.length_vec_of]; omega)
    (NTL.getElem?_eq_some_getD hiA []) (NTL.getElem?_eq_some_getD hiB [])
    (NTL.getElem?_eq_some_getD hiC [])
  · have hmem : vk.A_prefix.getD i [] ∈ vk.A_prefix := by
      rw [List.getD_eq_getElem _ _ hiA]; exact List.getElem_mem hiA
    rw [hA2 _ hmem]; omega
  · have hmem : vk.B_prefix.getD i [] ∈ vk.B_prefix := by
      rw [List.getD_eq_getElem _ _ hiB]; exact List.getElem_mem hiB
    rw [hB2 _ hmem]; omega
  · have hmem : vk.C_prefix.getD i [] ∈ vk.C_prefix := by
      rw [List.getD_eq_getElem _ _ hiC]; exact List.getElem_mem hiC
    rw [hC2 _ hmem]; omega

theorem check_loop_true_iff (vals : List (Nat × Nat × Nat × Nat)) (Z : List Nat) (k : Nat) :
    NTL.for_loop k (fun i result => do
        let v ← vals[i]?
        let z ← Z[i]?
        some (if v.1 * v.2.1 % p ≠ (v.2.2.2 * z % p + v.2.2.1) % p then false else result)) true
      = some true
    ↔ ∀ i, i < k → ∃ v z, vals[i]? = some v ∧ Z[i]? = some z
        ∧ v.1 * v.2.1 % p = (v.2.2.2 * z % p + v.2.2.1) % p := by
  induction k with
  | zero => simp [NTL.for_loop_zero]
  | succ k ih =>
    rw [NTL.for_loop_succ, Option.bind_eq_some]
    constructor
    · rintro ⟨r, hr, hbody⟩ i hi
      simp only [Option.bind_eq_bind, Option.bind_eq_some] at hbody
      obtain ⟨v, hv, z, hz, hres⟩ := hbody
      have hres' := Option.some.inj hres
      by_cases hm : v.1 * v.2.1 % p ≠ (v.2.2.2 * z % p + v.2.2.1) % p
      · rw [if_pos hm] at hres'
        cases hres'
      · rw [if_neg hm] at hres'
        subst hres'
        rcases Nat.lt_succ_iff_lt_or_eq.mp hi with h | h
        · exact (ih.mp hr) i h
        · subst h
          exact ⟨v, z, hv, hz, not_not.mp hm⟩
    · intro h
      refine ⟨true, ih.mpr (fun i hi => h i (by omega)), ?_⟩
      obtain ⟨v, z, hv, hz, heq⟩ := h k (by omega)
      simp only [Option.bind_eq_bind, hv, hz, Option.some_bind]
      rw [if_neg (not_not.mpr heq)]

theorem check_loop_some (vals : List (Nat × Nat × Nat × Nat)) (Z : List Nat) (k : Nat)
    (hv : k ≤ vals.length) (hZ : k ≤ Z.length) :
    ∃ b, NTL.for_loop k (fun i result => do
        let v ← vals[i]?
        let z ← Z[i]?
        some (if v.1 * v.2.1 % p ≠ (v.2.2.2 * z % p + v.2.2.1) % p then false else result)) true
      = some b := by
  induction k with
  | zero => exact ⟨true, rfl⟩
  | succ k ih =>
    obtain ⟨b, hb⟩ := ih (by omega) (by omega)
    rw [NTL.for_loop_succ, hb, Option.some_bind]
    simp only [Option.bind_eq_bind,
      NTL.getElem?_eq_some_getD (by omega : k < vals.length) (0, 0, 0, 0),
      NTL.getElem?_eq_some_getD (by omega : k < Z.length) 0, Option.some_bind]
    exact ⟨_, rfl⟩

end libsnark

namespace NTL

theorem row_length_mat_of (rows cols : Nat) (f : Nat → Nat → Nat) :
    ∀ row ∈ mat_of rows cols f, row.length = cols := by
  intro row h
  unfold mat_of at h
  obtain ⟨i, _, rfl⟩ := List.mem_map.mp h
  simp

end NTL

namespace libsnark

open LWE

theorem ex_vk_well_formed : vk_well_formed ex_vk 2 := by
  unfold vk_well_formed ex_vk
  dsimp only
  refine ⟨NTL.length_mat_of _ _ _, NTL.row_length_mat_of _ _ _, NTL.length_mat_of _ _ _,
    NTL.row_length_mat_of _ _ _, by decide, by decide, by decide, by decide, by decide,
    by decide, by decide⟩

theorem ex_proof_length : ex_proof.response.ctxt.length = n + pt_dim := by
  unfold ex_proof
  dsimp only
  exact NTL.length_vec_of _ _

end libsnark

/-! ## The query matrix in closed form -/

namespace NTL

/-- A loop assigning three values per iteration to one row, at columns `j`,
`j + w` and `j + 2 * w`, for `j < k ≤ w`. -/
theorem foldl_assign_row3 (m0 : Nat → Nat → Nat) (ρ w : Nat) (va vb vc : Nat → Nat) (k : Nat)
    (hk : k ≤ w) :
    (List.range k).foldl (fun m j =>
        assign (assign (assign m ρ j (va j)) ρ (j + w) (vb j)) ρ (j + 2 * w) (vc j)) m0
      = fun r c =>
          if r = ρ ∧ c < k then va c
          else if r = ρ ∧ w ≤ c ∧ c < w + k then vb (c - w)
          else if r = ρ ∧ 2 * w ≤ c ∧ c < 2 * w + k then vc (c - 2 * w)
          else m0 r c := by
  induction k with
  | zero =>
    funext r c
    simp only [List.range_zero, List.foldl_nil]
    split_ifs <;> first | rfl | omega
  | succ k ih =>
    rw [foldl_range_succ, ih (by omega)]
    funext r c
    simp only [assign]
    split_ifs <;> first | rfl | omega | (congr 1; omega)

/-- An outer loop whose iteration `i` rewrites row `ρ0 + i` by `U i`. -/
theorem foldl_rows (m0 : Nat → Nat → Nat) (ρ0 : Nat) (U : Nat → (Nat → Nat) → Nat → Nat)
    (k : Nat) :
    (List.range k).foldl (fun m i => fun r c =>
        if r = ρ0 + i then U i (m r) c else m r c) m0
      = fun r c => if ρ0 ≤ r ∧ r < ρ0 + k then U (r - ρ0) (m0 r) c else m0 r c := by
  induction k with
  | zero =>
    funext r c
    simp only [List.range_zero, List.foldl_nil]
    rw [if_neg]
    omega
  | succ k ih =>
    rw [foldl_range_succ, ih]
    funext r c
    by_cases h1 : r = ρ0 + k
    · subst h1
      have e : (fun c => if ρ0 ≤ ρ0 + k ∧ ρ0 + k < ρ0 + k then U (ρ0 + k - ρ0) (m0 (ρ0 + k)) c
          else m0 (ρ0 + k) c) = m0 (ρ0 + k) := by
        funext c
        rw [if_neg (by omega)]
      simp only [if_true]
      rw [e, if_pos (by omega), Nat.add_sub_cancel_left]
    · simp only [h1, if_false]
      by_cases h2 : ρ0 ≤ r ∧ r < ρ0 + k
      · rw [if_pos h2, if_pos (by omega)]
      · rw [if_neg h2, if_neg (by omega)]

/-- A loop nest whose inner loop rewrites one row. -/
theorem for_loop_nest (len inner_len : Nat)
    (body : Nat → Nat → (Nat → Nat → Nat) → Option (Nat → Nat → Nat)) (ρ0 : Nat)
    (U : Nat → (Nat → Nat) → Nat → Nat)
    (h : ∀ i, i < len → ∀ m, for_loop inner_len (body i) m
      = some (fun r c => if r = ρ0 + i then U i (m r) c else m r c))
    (m0 : Nat → Nat → Nat) :
    for_loop len (fun i m => for_loop inner_len (body i) m) m0
      = some (fun r c => if ρ0 ≤ r ∧ r < ρ0 + len then U (r - ρ0) (m0 r) c else m0 r c) := by
  rw [for_loop_eq_foldl len _ (fun i m => fun r c => if r = ρ0 + i then U i (m r) c else m r c) h,
    foldl_rows]

end NTL

namespace libsnark

open LWE

theorem read2_eq (query : List (List Nat)) (j k : Nat) (hj : j < query.length)
    (hk : k < (query.getD j []).length) :
    read2 query j k = some ((query.getD j []).getD k 0) := by
  unfold read2
  rw [NTL.getElem?_eq_some_getD hj [], Option.some_bind, NTL.getElem?_eq_some_getD hk 0]

theorem make_query_matrix_eq (A_query B_query C_query H_query : List (List Nat))
    (Zs : List Nat) (num_inputs V1 Hn : Nat)
    (hAl : LWE.l ≤ A_query.length) (hBl : LWE.l ≤ B_query.length)
    (hCl : LWE.l ≤ C_query.length) (hHl : LWE.l ≤ H_query.length) (hZl : LWE.l ≤ Zs.length)
    (hA : ∀ j, j < LWE.l → (A_query.getD j []).length = V1)
    (hB : ∀ j, j < LWE.l → (B_query.getD j []).length = V1)
    (hC : ∀ j, j < LWE.l → (C_query.getD j []).length = V1)
    (hH : ∀ j, j < LWE.l → (H_query.getD j []).length = Hn)
    (hI : num_inputs + 1 ≤ V1) :
    make_query_matrix A_query B_query C_query H_query Zs num_inputs
      = some (NTL.mat_of (V1 - num_inputs - 1 + 3 + Hn) (4 * LWE.l)
          (query_entry A_query B_query C_query H_query Zs num_inputs
            (V1 - num_inputs - 1) Hn)) := by
  have hl : 0 < LWE.l := by decide
  have hA0 := hA 0 hl
  have hH0 := hH 0 hl
  unfold make_query_matrix
  rw [NTL.getElem?_eq_some_getD (by omega : 0 < A_query.length) [],
    NTL.getElem?_eq_some_getD (by omega : 0 < H_query.length) []]
  simp only [Option.bind_eq_bind, Option.some_bind, hA0, hH0]
  rw [if_neg (by omega)]
  simp only [Option.pure_def, Option.some_bind]
  -- the A/B/C loop nest
  have h1 := NTL.for_loop_nest (V1 - num_inputs - 1) LWE.l
    (fun i j mat =>
      (read2 A_query j (i + num_inputs + 1)).bind fun a =>
        (read2 B_query j (i + num_inputs + 1)).bind fun b =>
          (read2 C_query j (i + num_inputs + 1)).bind fun c =>
            some (NTL.assign (NTL.assign (NTL.assign mat i j a) i (j + LWE.l) b) i
              (j + 2 * LWE.l) c))
    0
    (fun i old c =>
      if c < LWE.l then (A_query.getD c []).getD (i + num_inputs + 1) 0
      else if c < 2 * LWE.l then (B_query.getD (c - LWE.l) []).getD (i + num_inputs + 1) 0
      else if c < 3 * LWE.l then (C_query.getD (c - 2 * LWE.l) []).getD (i + num_inputs + 1) 0
      else old c)
    (by
      intro i hi m
      rw [NTL.for_loop_eq_foldl LWE.l _ (fun j mat =>
        NTL.assign (NTL.assign (NTL.assign mat i j
          ((A_query.getD j []).getD (i + num_inputs + 1) 0)) i (j + LWE.l)
          ((B_query.getD j []).getD (i + num_inputs + 1) 0)) i (j + 2 * LWE.l)
          ((C_query.getD j []).getD (i + num_inputs + 1) 0))
        (by
          intro j hj st
          dsimp only
          rw [read2_eq A_query j _ (by omega) (by rw [hA j hj]; omega),
            read2_eq B_query j _ (by omega) (by rw [hB j hj]; omega),
            read2_eq C_query j _ (by omega) (by rw [hC j hj]; omega)]
          rfl),
        NTL.foldl_assign_row3 m i LWE.l _ _ _ LWE.l (le_refl _)]
      refine congrArg some ?_
      funext r c
      simp only [Nat.zero_add]
      split_ifs <;> first | rfl | omega)
    (fun _ _ => 0)
  rw [h1]
  simp only [Option.some_bind]
  -- the Z loop nest
  have h2 := fun m0 => NTL.for_loop_nest 3 LWE.l
    (fun i j mat => (Zs[j]?).bind fun z =>
      some (NTL.assign mat (V1 - num_inputs - 1 + i) (j + i * LWE.l) z))
    (V1 - num_inputs - 1)
    (fun i old c =>
      if i * LWE.l ≤ c ∧ c < i * LWE.l + LWE.l then Zs.getD (c - i * LWE.l) 0 else old c)
    (by
      intro i _ m
      rw [NTL.for_loop_eq_foldl LWE.l _ (fun j mat =>
        NTL.assign mat (V1 - num_inputs - 1 + i) (j + i * LWE.l) (Zs.getD j 0))
        (by
          intro j hj st
          dsimp only
          rw [NTL.getElem?_eq_some_getD (by omega : j < Zs.length) 0]
          rfl),
        NTL.foldl_assign_row m _ (i * LWE.l) _ LWE.l]
      refine congrArg some ?_
      funext r c
      simp only [LWE.l]
      split_ifs <;> first | rfl | omega)
    m0
  rw [h2]
  simp only [Option.some_bind]
  -- the H loop nest
  have h3 := fun m0 => NTL.for_loop_nest Hn LWE.l
    (fun i j mat => (read2 H_query j i).bind fun h =>
      some (NTL.assign mat (i + (V1 - num_inputs - 1) + 3) (j + 3 * LWE.l) h))
    (V1 - num_inputs - 1 + 3)
    (fun i old c =>
      if 3 * LWE.l ≤ c ∧ c < 3 * LWE.l + LWE.l then (H_query.getD (c - 3 * LWE.l) []).getD i 0
      else old c)
    (by
      intro i hi m
      rw [NTL.for_loop_eq_foldl LWE.l _ (fun j mat =>
        NTL.assign mat (i + (V1 - num_inputs - 1) + 3) (j + 3 * LWE.l)
          ((H_query.getD j []).getD i 0))
        (by
          intro j hj st
          dsimp only
          rw [read2_eq H_query j _ (by omega) (by rw [hH j hj]; omega)]
          rfl),
        NTL.foldl_assign_row m _ (3 * LWE.l) (fun j => (H_query.getD j []).getD i 0) LWE.l]
      refine congrArg some ?_
      funext r c
      simp only [LWE.l]
      split_ifs <;> first | rfl | omega)
    m0
  rw [h3]
  simp only [Option.some_bind]
  refine congrArg some ?_
  apply NTL.mat_of_congr
  intro r c _ _
  rename_i hr _
  unfold query_entry
  simp only [LWE.l]
  generalize V1 - num_inputs - 1 = ρ at hr ⊢
  rcases (by omega : r < ρ ∨ (ρ ≤ r ∧ r < ρ + 3) ∨ ρ + 3 ≤ r) with h | h | h
  · have e1 : ¬ (ρ + 3 ≤ r ∧ r < ρ + 3 + Hn) := by omega
    have e2 : ¬ (ρ ≤ r ∧ r < ρ + 3) := by omega
    have e3 : 0 ≤ r ∧ r < 0 + ρ := by omega
    rw [if_neg e1, if_neg e2, if_pos e3, if_pos h]
    rfl
  · have e1 : ¬ (ρ + 3 ≤ r ∧ r < ρ + 3 + Hn) := by omega
    have e3 : ¬ (0 ≤ r ∧ r < 0 + ρ) := by omega
    rw [if_neg e1, if_pos h, if_neg e3, if_neg (by omega : ¬ r < ρ), if_pos h.2]
  · have e1 : ρ + 3 ≤ r ∧ r < ρ + 3 + Hn := ⟨h, hr⟩
    have e2 : ¬ (ρ ≤ r ∧ r < ρ + 3) := by omega
    have e3 : ¬ (0 ≤ r ∧ r < 0 + ρ) := by omega
    rw [if_pos e1, if_neg e2, if_neg e3, if_neg (by omega : ¬ r < ρ),
      if_neg (by omega : ¬ r < ρ + 3), if_pos hr, Nat.sub_sub]

end libsnark

/-! ## The inverse of the mask -/

namespace NTL

theorem inv_eq (m : Nat) (A : mat_ZZ_p) (k : Nat) (hk : A.length = k)
    (hsq : ∀ row ∈ A, row.length = k) :
    inv m A = if (to_Matrix m k A).det = 0 then none
      else some (mat_of k k (fun i j =>
        if h : i < k ∧ j < k then
          ZMod.val ((to_Matrix m k A).det⁻¹ * (to_Matrix m k A).adjugate ⟨i, h.1⟩ ⟨j, h.2⟩)
        else 0)) := by
  subst hk
  unfold inv
  rw [if_pos]
  rw [List.all_eq_true]
  intro row hrow
  simpa using hsq row hrow

theorem inv_none_of_det (m : Nat) (A : mat_ZZ_p) (k : Nat) (hk : A.length = k)
    (hsq : ∀ row ∈ A, row.length = k) (hdet : (to_Matrix m k A).det = 0) : inv m A = none := by
  rw [inv_eq m A k hk hsq, if_pos hdet]

theorem inv_some_of_det (m : Nat) (A : mat_ZZ_p) (k : Nat) (hk : A.length = k)
    (hsq : ∀ row ∈ A, row.length = k) (hdet : (to_Matrix m k A).det ≠ 0) :
    ∃ X, inv m A = some X := by
  rw [inv_eq m A k hk hsq, if_neg hdet]
  exact ⟨_, rfl⟩

/-- What `inv` returns is a left inverse: `X * A = I` over `Z_m`, entry by entry. -/
theorem inv_spec (m : Nat) [Fact (Nat.Prime m)] (A : mat_ZZ_p) (k : Nat) (hk : A.length = k)
    (hsq : ∀ row ∈ A, row.length = k) (X : mat_ZZ_p) (h : inv m A = some X) :
    (to_Matrix m k A).det ≠ 0 ∧ X.length = k ∧ (∀ row ∈ X, row.length = k)
    ∧ (∀ i j, i < k → j < k → entry X i j < m)
    ∧ ∀ i j, i < k → j < k →
        ∑ t in Finset.range k, ((entry X i t : Nat) : ZMod m) * ((entry A t j : Nat) : ZMod m)
          = if i = j then 1 else 0 := by
  have hm : NeZero m := ⟨(Fact.out : Nat.Prime m).pos.ne'⟩
  rw [inv_eq m A k hk hsq] at h
  by_cases hdet : (to_Matrix m k A).det = 0
  · rw [if_pos hdet] at h
    cases h
  · rw [if_neg hdet] at h
    have hX := (Option.some.inj h).symm
    refine ⟨hdet, ?_, ?_, ?_, ?_⟩
    · rw [hX, length_mat_of]
    · rw [hX]
      exact row_length_mat_of _ _ _
    · intro i j hi hj
      rw [hX, entry_mat_of _ hi hj, dif_pos ⟨hi, hj⟩]
      exact ZMod.val_lt _
    · intro i j hi hj
      rw [← Fin.sum_univ_eq_sum_range
        (fun t => ((entry X i t : Nat) : ZMod m) * ((entry A t j : Nat) : ZMod m)) k]
      have e : ∀ t : Fin k,
          ((entry X i (t : Nat) : Nat) : ZMod m) * ((entry A (t : Nat) j : Nat) : ZMod m)
          = (to_Matrix m k A).det⁻¹
            * ((to_Matrix m k A).adjugate ⟨i, hi⟩ t * (to_Matrix m k A) t ⟨j, hj⟩) := by
        intro t
        rw [hX, entry_mat_of _ hi t.2, dif_pos ⟨hi, t.2⟩, ZMod.natCast_zmod_val, mul_assoc]
        rfl
      rw [Finset.sum_congr rfl (fun t _ => e t), ← Finset.mul_sum, ← Matrix.mul_apply,
        Matrix.adjugate_mul, Matrix.smul_apply, Matrix.one_apply, smul_eq_mul, ← mul_assoc,
        inv_mul_cancel₀ hdet, one_mul]
      simp only [Fin.mk.injEq]

end NTL

namespace LWE

instance p_prime : Fact (Nat.Prime p) := ⟨by unfold p p_int; norm_num⟩

instance p_neZero : NeZero p := ⟨by decide⟩

end LWE

/-! ## The generator in closed form -/

namespace libsnark

open LWE

theorem getD_map_range {α : Type} (f : Nat → α) (k : Nat) (d : α) {i : Nat} (hi : i < k) :
    ((List.range k).map f).getD i d = f i := by
  rw [List.getD_eq_getElem _ _ (by simpa using hi)]
  simp

theorem encrypt_queries_eq {A_rand : Nat → Nat → Nat} {S_gauss E_gauss : Nat → Nat → Int}
    {sk : secret_key} (hk : keygen A_rand S_gauss E_gauss = some sk) (rows : Nat)
    (m : Nat → Nat → Nat) (enc_r enc_e : Nat → Nat → Int) :
    encrypt_queries sk (NTL.mat_of rows (4 * LWE.l) m) enc_r enc_e
      = some ((List.range rows).map (fun r =>
          ⟨NTL.vec_of (n + pt_dim) (fresh_entry (key_A_entry A_rand S_gauss E_gauss)
            (NTL.vec_of (4 * LWE.l) (m r)) (enc_r r) (enc_e r))⟩)) := by
  unfold encrypt_queries
  rw [NTL.length_mat_of]
  apply NTL.mapM_eq_some_map
  intro r hr
  have hr' := List.mem_range.mp hr
  have e : (NTL.mat_of rows (4 * LWE.l) m).getD r [] = NTL.vec_of (4 * LWE.l) (m r) := by
    rw [NTL.mat_of_eq_map, getD_map_range _ _ _ hr']
  rw [e]
  exact encrypt_keygen hk _ (by rw [NTL.length_vec_of, pt_dim_eq]) _ _

theorem generator_eq {CS : Type} (ext : r1cs_to_qap CS) (cs : CS) (draws : generator_draws)
    (V1 Hn : Nat)
    (hA : ∀ i, i < LWE.l → (gen_inst ext cs draws i).At.length = V1)
    (hB : ∀ i, i < LWE.l → (gen_inst ext cs draws i).Bt.length = V1)
    (hC : ∀ i, i < LWE.l → (gen_inst ext cs draws i).Ct.length = V1)
    (hH : ∀ i, i < LWE.l → (gen_inst ext cs draws i).Ht.length = Hn)
    (hI : (gen_inst ext cs draws 0).num_inputs + 1 ≤ V1) :
    r1cs_lattice_ppsnarg_generator ext cs draws
      = (NTL.inv p (NTL.transpose (generate_Y (4 * LWE.l) draws.Y_rand))).bind
          (fun Yprime => some (gen_keypair ext cs draws Yprime)) := by
  have hl : 0 < LWE.l := by decide
  have hpre : ∀ (sel : qap_instance_evaluation → List Nat),
      (∀ i, i < LWE.l → (sel (gen_inst ext cs draws i)).length = V1) →
      (List.range r1cs_lattice_ppsnarg_num_queries).mapM (fun i =>
        prefix_of (sel (gen_inst ext cs draws i)) ((gen_inst ext cs draws 0).num_inputs + 1))
      = some ((List.range LWE.l).map (fun i =>
          (sel (gen_inst ext cs draws i)).take ((gen_inst ext cs draws 0).num_inputs + 1))) := by
    intro sel hsel
    apply NTL.mapM_eq_some_map
    intro i hi
    unfold prefix_of
    rw [if_neg]
    rw [hsel i (List.mem_range.mp hi)]
    omega
  have hq := make_query_matrix_eq
    ((List.range LWE.l).map (fun i => (gen_inst ext cs draws i).At))
    ((List.range LWE.l).map (fun i => (gen_inst ext cs draws i).Bt))
    ((List.range LWE.l).map (fun i => (gen_inst ext cs draws i).Ct))
    ((List.range LWE.l).map (fun i => (gen_inst ext cs draws i).Ht))
    ((List.range LWE.l).map (fun i => (gen_inst ext cs draws i).Zt))
    (gen_inst ext cs draws 0).num_inputs V1 Hn
    (by simp) (by simp) (by simp) (by simp) (by simp)
    (fun j hj => by rw [getD_map_range _ _ _ hj]; exact hA j hj)
    (fun j hj => by rw [getD_map_range _ _ _ hj]; exact hB j hj)
    (fun j hj => by rw [getD_map_range _ _ _ hj]; exact hC j hj)
    (fun j hj => by rw [getD_map_range _ _ _ hj]; exact hH j hj) hI
  have hmul := NTL.mul_mat_mat_of p (V1 - (gen_inst ext cs draws 0).num_inputs - 1 + 3 + Hn)
    (4 * LWE.l) (4 * LWE.l)
    (query_entry ((List.range LWE.l).map (fun i => (gen_inst ext cs draws i).At))
      ((List.range LWE.l).map (fun i => (gen_inst ext cs draws i).Bt))
      ((List.range LWE.l).map (fun i => (gen_inst ext cs draws i).Ct))
      ((List.range LWE.l).map (fun i => (gen_inst ext cs draws i).Ht))
      ((List.range LWE.l).map (fun i => (gen_inst ext cs draws i).Zt))
      (gen_inst ext cs draws 0).num_inputs
      (V1 - (gen_inst ext cs draws 0).num_inputs - 1) Hn)
    (fun i j => random_element (draws.Y_rand i j)) (by decide)
  have hk := keygen_eq draws.A_rand draws.S_gauss draws.E_gauss
  have henc := encrypt_queries_eq hk
    (V1 - (gen_inst ext cs draws 0).num_inputs - 1 + 3 + Hn)
    (fun i j => (∑ k in Finset.range (4 * LWE.l),
      query_entry ((List.range LWE.l).map (fun i => (gen_inst ext cs draws i).At))
        ((List.range LWE.l).map (fun i => (gen_inst ext cs draws i).Bt))
        ((List.range LWE.l).map (fun i => (gen_inst ext cs draws i).Ct))
        ((List.range LWE.l).map (fun i => (gen_inst ext cs draws i).Ht))
        ((List.range LWE.l).map (fun i => (gen_inst ext cs draws i).Zt))
        (gen_inst ext cs draws 0).num_inputs
        (V1 - (gen_inst ext cs draws 0).num_inputs - 1) Hn i k
      * random_element (draws.Y_rand k j)) % p)
    draws.enc_r draws.enc_e
  have hA0 := hA 0 hl
  have hH0 := hH 0 hl
  unfold r1cs_lattice_ppsnarg_generator
  dsimp only
  rw [hpre (fun e => e.At) hA, hpre (fun e => e.Bt) hB, hpre (fun e => e.Ct) hC]
  simp only [Option.bind_eq_bind]
  refine Eq.trans (Option.some_bind _ _) ?_
  refine Eq.trans (Option.some_bind _ _) ?_
  refine Eq.trans (Option.some_bind _ _) ?_
  unfold r1cs_lattice_ppsnarg_num_queries generate_Y
  rw [hq]
  refine Eq.trans (Option.some_bind _ _) ?_
  rw [hmul]
  refine Eq.trans (Option.some_bind _ _) ?_
  rw [hk]
  refine Eq.trans (Option.some_bind _ _) ?_
  refine congrArg (Option.bind _) (funext fun Yprime => ?_)
  rw [henc]
  refine Eq.trans (Option.some_bind _ _) ?_
  refine congrArg some ?_
  unfold gen_keypair gen_rows gen_crs_entry gen_masked_entry gen_query_entry
  rw [hA0, hH0]

end libsnark

namespace libsnark

open LWE

/-- What a returned key pair records about the run of the generator. -/
theorem generator_some {CS : Type} (ext : r1cs_to_qap CS) (cs : CS) (draws : generator_draws)
    (kp : r1cs_lattice_ppsnarg_keypair CS)
    (h : r1cs_lattice_ppsnarg_generator ext cs draws = some kp) :
    NTL.inv p (NTL.transpose (generate_Y (4 * LWE.l) draws.Y_rand)) = some kp.vk.Yprime
    ∧ keygen draws.A_rand draws.S_gauss draws.E_gauss = some kp.vk.sk
    ∧ kp.vk.Z = (List.range LWE.l).map (fun i => (gen_inst ext cs draws i).Zt)
    ∧ kp.crs.constraint_system = cs := by
  unfold r1cs_lattice_ppsnarg_generator at h
  dsimp only at h
  simp only [Option.bind_eq_bind] at h
  rw [Option.bind_eq_some] at h
  obtain ⟨pA, _, h⟩ := h
  rw [Option.bind_eq_some] at h
  obtain ⟨pB, _, h⟩ := h
  rw [Option.bind_eq_some] at h
  obtain ⟨pC, _, h⟩ := h
  rw [Option.bind_eq_some] at h
  obtain ⟨query_mat, _, h⟩ := h
  rw [Option.bind_eq_some] at h
  obtain ⟨query_mat2, _, h⟩ := h
  rw [Option.bind_eq_some] at h
  obtain ⟨sk, hsk, h⟩ := h
  rw [Option.bind_eq_some] at h
  obtain ⟨Yprime, hY, h⟩ := h
  rw [Option.bind_eq_some] at h
  obtain ⟨enc, _, h⟩ := h
  have hkp := Option.some.inj h
  rw [← hkp]
  exact ⟨hY, hsk, rfl, rfl⟩

theorem generate_Y_transpose (Y_rand : Nat → Nat → Nat) :
    NTL.transpose (generate_Y (4 * LWE.l) Y_rand)
      = NTL.mat_of (4 * LWE.l) (4 * LWE.l) (fun i j => random_element (Y_rand j i)) := by
  unfold generate_Y
  rw [NTL.transpose_mat_of _ (by decide)]

/-- The products of the inverse mask with the mask, entry by entry over `Z_p`. -/
theorem Yprime_spec (Y_rand : Nat → Nat → Nat) (Yprime : matrix)
    (h : NTL.inv p (NTL.transpose (generate_Y (4 * LWE.l) Y_rand)) = some Yprime) :
    Yprime.length = 4 * LWE.l ∧ (∀ row ∈ Yprime, row.length = 4 * LWE.l)
    ∧ ∀ c s, c < 4 * LWE.l → s < 4 * LWE.l →
        ∑ t in Finset.range (4 * LWE.l),
          ((NTL.entry Yprime c t : Nat) : ZMod p) * ((random_element (Y_rand s t) : Nat) : ZMod p)
          = if c = s then 1 else 0 := by
  rw [generate_Y_transpose] at h
  obtain ⟨_, h1, h2, _, h4⟩ := NTL.inv_spec p _ (4 * LWE.l) (NTL.length_mat_of _ _ _)
    (NTL.row_length_mat_of _ _ _) Yprime h
  refine ⟨h1, h2, ?_⟩
  intro c s hc hs
  rw [← h4 c s hc hs]
  apply Finset.sum_congr rfl
  intro t ht
  rw [NTL.entry_mat_of _ (Finset.mem_range.mp ht) hs]

theorem mod_eq_of_cast_eq_ite {a : Nat} {c s : Nat}
    (h : ((a : Nat) : ZMod p) = if c = s then 1 else 0) :
    a % p = if c = s then 1 % p else 0 := by
  by_cases hcs : c = s
  · rw [if_pos hcs] at h ⊢
    rw [← Nat.cast_one, ZMod.natCast_eq_natCast_iff'] at h
    exact h
  · rw [if_neg hcs] at h ⊢
    rw [← Nat.cast_zero, ZMod.natCast_eq_natCast_iff'] at h
    simpa using h

theorem Yprime_mul (Y_rand : Nat → Nat → Nat) (Yprime : matrix)
    (h : NTL.inv p (NTL.transpose (generate_Y (4 * LWE.l) Y_rand)) = some Yprime) :
    NTL.mul_mat p Yprime (NTL.transpose (generate_Y (4 * LWE.l) Y_rand))
        = some (NTL.ident_mat_ZZ_p p (4 * LWE.l))
    ∧ NTL.mul_mat p (generate_Y (4 * LWE.l) Y_rand) (NTL.transpose Yprime)
        = some (NTL.ident_mat_ZZ_p p (4 * LWE.l)) := by
  obtain ⟨h1, h2, h3⟩ := Yprime_spec Y_rand Yprime h
  have hY := NTL.mat_eq_mat_of Yprime _ _ h1 h2
  constructor
  · rw [generate_Y_transpose]
    conv_lhs => rw [hY]
    rw [NTL.mul_mat_mat_of _ _ _ _ _ _ (by decide)]
    refine congrArg some ?_
    unfold NTL.ident_mat_ZZ_p
    apply NTL.mat_of_congr
    intro i j hi hj
    apply mod_eq_of_cast_eq_ite
    rw [← h3 i j hi hj]
    push_cast
    rfl
  · have hT : NTL.transpose Yprime
        = NTL.mat_of (4 * LWE.l) (4 * LWE.l) (fun i j => NTL.entry Yprime j i) := by
      conv_lhs => rw [hY]
      rw [NTL.transpose_mat_of _ (by decide)]
    rw [hT]
    unfold generate_Y
    rw [NTL.mul_mat_mat_of _ _ _ _ _ _ (by decide)]
    refine congrArg some ?_
    unfold NTL.ident_mat_ZZ_p
    apply NTL.mat_of_congr
    intro i j hi hj
    have e := mod_eq_of_cast_eq_ite (a := ∑ k in Finset.range (4 * LWE.l),
      random_element (Y_rand i k) * NTL.entry Yprime j k) (c := j) (s := i) (by
        rw [← h3 j i hj hi]
        push_cast
        apply Finset.sum_congr rfl
        intro t _
        ring)
    rw [e]
    by_cases hij : i = j
    · rw [if_pos hij, if_pos hij.symm]
    · rw [if_neg hij, if_neg (fun hji => hij hji.symm)]

end libsnark

namespace libsnark

open LWE

theorem cast_random_element (a : Nat) :
    ((random_element a : Nat) : ZMod p) = (a : ZMod p) := by
  unfold random_element
  exact ZMod.natCast_mod a p_int

theorem to_Matrix_identity (k : Nat) :
    NTL.to_Matrix p k (NTL.mat_of k k (fun i j => random_element (ex_Y_rand j i)))
      = (1 : Matrix (Fin k) (Fin k) (ZMod p)) := by
  funext i j
  unfold NTL.to_Matrix
  rw [NTL.entry_mat_of _ i.2 j.2, Matrix.one_apply, cast_random_element]
  unfold ex_Y_rand
  by_cases hij : i = j
  · rw [if_pos hij, if_pos (congrArg Fin.val hij).symm, Nat.cast_one]
  · have hne : ¬ ((j : Nat) = (i : Nat)) := fun h => hij (Fin.ext h.symm)
    rw [if_neg hij, if_neg hne, Nat.cast_zero]

theorem inv_identity_of_size (k : Nat) :
    NTL.inv p (NTL.mat_of k k (fun i j => random_element (ex_Y_rand j i)))
      = some (NTL.ident_mat_ZZ_p p k) := by
  rw [NTL.inv_eq p _ k (NTL.length_mat_of _ _ _) (NTL.row_length_mat_of _ _ _),
    to_Matrix_identity, Matrix.det_one, if_neg one_ne_zero]
  refine congrArg some ?_
  unfold NTL.ident_mat_ZZ_p
  apply NTL.mat_of_congr
  intro i j hi hj
  rw [dif_pos ⟨hi, hj⟩, Matrix.adjugate_one, inv_one, one_mul, Matrix.one_apply]
  by_cases hij : i = j
  · rw [if_pos hij, if_pos (Fin.ext hij), ZMod.val_one p, Nat.mod_eq_of_lt (by decide)]
  · rw [if_neg hij, if_neg (fun h => hij (Fin.mk.inj h)), ZMod.val_zero]

/-- The inverse of the identity mask is the identity. -/
theorem inv_identity :
    NTL.inv p (NTL.transpose (generate_Y (4 * LWE.l) ex_Y_rand))
      = some (NTL.ident_mat_ZZ_p p (4 * LWE.l)) := by
  rw [generate_Y_transpose]
  exact inv_identity_of_size _

end libsnark

namespace libsnark

open LWE

theorem ex_instances_well_formed (draws : generator_draws) :
    instances_well_formed ex_ext () draws 17 2 :=
  ⟨fun _ _ => rfl, fun _ _ => rfl, fun _ _ => rfl, fun _ _ => rfl,
    show (1 : Nat) + 1 ≤ 17 by decide⟩

theorem generator_eq_of_well_formed {CS : Type} (ext : r1cs_to_qap CS) (cs : CS)
    (draws : generator_draws) (V1 Hn : Nat) (hwf : instances_well_formed ext cs draws V1 Hn) :
    r1cs_lattice_ppsnarg_generator ext cs draws
      = (NTL.inv p (NTL.transpose (generate_Y (4 * LWE.l) draws.Y_rand))).bind
          (fun Yprime => some (gen_keypair ext cs draws Yprime)) :=
  generator_eq ext cs draws V1 Hn hwf.1 hwf.2.1 hwf.2.2.1 hwf.2.2.2.1 hwf.2.2.2.2

/-- The generator on the sample reduction with the identity mask. -/
theorem ex_generator (draws : generator_draws) (hY : draws.Y_rand = ex_Y_rand) :
    r1cs_lattice_ppsnarg_generator ex_ext () draws
      = some (gen_keypair ex_ext () draws (NTL.ident_mat_ZZ_p p (4 * LWE.l))) := by
  rw [generator_eq_of_well_formed ex_ext () draws 17 2 (ex_instances_well_formed draws), hY,
    inv_identity]
  rfl

theorem to_Matrix_transpose (k : Nat) (y : Nat → Nat → Nat) :
    NTL.to_Matrix p k (NTL.mat_of k k (fun i j => y j i))
      = (NTL.to_Matrix p k (NTL.mat_of k k y)).transpose := by
  funext i j
  unfold NTL.to_Matrix
  rw [Matrix.transpose_apply, NTL.entry_mat_of _ i.2 j.2, NTL.entry_mat_of _ j.2 i.2]

theorem det_transpose_mask (k : Nat) (y : Nat → Nat → Nat) :
    (NTL.to_Matrix p k (NTL.mat_of k k (fun i j => y j i))).det
      = (NTL.to_Matrix p k (NTL.mat_of k k y)).det := by
  rw [to_Matrix_transpose, Matrix.det_transpose]

/-- With a singular mask the inverse fails, with an invertible one it exists. -/
theorem inv_transpose_mask (k : Nat) (hk : 0 < k) (y : Nat → Nat → Nat) :
    ((NTL.to_Matrix p k (NTL.mat_of k k y)).det = 0 →
      NTL.inv p (NTL.transpose (NTL.mat_of k k y)) = none)
    ∧ ((NTL.to_Matrix p k (NTL.mat_of k k y)).det ≠ 0 →
      ∃ X, NTL.inv p (NTL.transpose (NTL.mat_of k k y)) = some X) := by
  rw [NTL.transpose_mat_of _ hk]
  constructor
  · intro h
    exact NTL.inv_none_of_det p _ k (NTL.length_mat_of _ _ _) (NTL.row_length_mat_of _ _ _)
      (by rw [det_transpose_mask]; exact h)
  · intro h
    exact NTL.inv_some_of_det p _ k (NTL.length_mat_of _ _ _) (NTL.row_length_mat_of _ _ _)
      (by rw [det_transpose_mask]; exact h)

theorem det_zero_mask (k : Nat) (hk : 0 < k) :
    (NTL.to_Matrix p k (NTL.mat_of k k (fun i j => random_element ((fun _ _ => 0) i j)))).det
      = 0 := by
  have e : NTL.to_Matrix p k (NTL.mat_of k k (fun i j => random_element ((fun _ _ => 0) i j)))
      = (0 : Matrix (Fin k) (Fin k) (ZMod p)) := by
    funext i j
    unfold NTL.to_Matrix
    rw [NTL.entry_mat_of _ i.2 j.2, cast_random_element, Nat.cast_zero]
    rfl
  rw [e]
  exact Matrix.det_zero ⟨⟨0, hk⟩⟩

end libsnark

namespace libsnark

open LWE

/-- The inverse of the transposed mask fails for a singular mask and exists for
an invertible one. -/
theorem inv_transpose_generate_Y (k : Nat) (hk : 0 < k) (Y_rand : Nat → Nat → Nat) :
    ((NTL.to_Matrix p k (generate_Y k Y_rand)).det = 0 →
      NTL.inv p (NTL.transpose (generate_Y k Y_rand)) = none)
    ∧ ((NTL.to_Matrix p k (generate_Y k Y_rand)).det ≠ 0 →
      ∃ X, NTL.inv p (NTL.transpose (generate_Y k Y_rand)) = some X) :=
  inv_transpose_mask k hk (fun i j => random_element (Y_rand i j))

/-- The mask whose draws are all 0 is singular. -/
theorem det_zero_generate_Y (k : Nat) (hk : 0 < k) :
    (NTL.to_Matrix p k (generate_Y k (fun _ _ => 0))).det = 0 :=
  det_zero_mask k hk

theorem singular_draws_Y_rand : singular_draws.Y_rand = fun _ _ => 0 := rfl

theorem four_l_pos : 0 < 4 * LWE.l := by decide

end libsnark

namespace NTL

/-- Un-masking, entry by entry: with `x` a left inverse of the transpose of `y`
over `Z_md`, the product of `x` with `(m * y)^T * pi` is `m^T * pi`. -/
theorem unmask_sum (md k R : Nat) (m y x : Nat → Nat → Nat) (pi : Nat → Nat)
    (hX : ∀ c s, c < k → s < k →
      ∑ t in Finset.range k, ((x c t : Nat) : ZMod md) * ((y s t : Nat) : ZMod md)
        = if c = s then 1 else 0)
    (c : Nat) (hc : c < k) :
    (∑ t in Finset.range k, x c t *
        ((∑ r in Finset.range R, ((∑ s in Finset.range k, m r s * y s t) % md) * pi r) % md)) % md
      = (∑ r in Finset.range R, m r c * pi r) % md := by
  apply (ZMod.natCast_eq_natCast_iff' _ _ md).1
  simp only [Nat.cast_sum, Nat.cast_mul, ZMod.natCast_mod]
  have key : ∀ r, r ∈ Finset.range R →
      ∑ t in Finset.range k, ((x c t : Nat) : ZMod md)
          * ((∑ s in Finset.range k, ((m r s : Nat) : ZMod md) * ((y s t : Nat) : ZMod md))
              * ((pi r : Nat) : ZMod md))
        = ((m r c : Nat) : ZMod md) * ((pi r : Nat) : ZMod md) := by
    intro r _
    calc ∑ t in Finset.range k, ((x c t : Nat) : ZMod md)
          * ((∑ s in Finset.range k, ((m r s : Nat) : ZMod md) * ((y s t : Nat) : ZMod md))
              * ((pi r : Nat) : ZMod md))
        = ∑ t in Finset.range k, ∑ s in Finset.range k,
            (((m r s : Nat) : ZMod md) * ((pi r : Nat) : ZMod md))
              * (((x c t : Nat) : ZMod md) * ((y s t : Nat) : ZMod md)) := by
          refine Finset.sum_congr rfl fun t _ => ?_
          rw [Finset.sum_mul, Finset.mul_sum]
          refine Finset.sum_congr rfl fun s _ => ?_
          ring
      _ = ∑ s in Finset.range k, ∑ t in Finset.range k,
            (((m r s : Nat) : ZMod md) * ((pi r : Nat) : ZMod md))
              * (((x c t : Nat) : ZMod md) * ((y s t : Nat) : ZMod md)) := Finset.sum_comm
      _ = ∑ s in Finset.range k,
            (((m r s : Nat) : ZMod md) * ((pi r : Nat) : ZMod md)) * (if c = s then 1 else 0) := by
          refine Finset.sum_congr rfl fun s hs => ?_
          rw [← Finset.mul_sum, hX c s hc (Finset.mem_range.1 hs)]
      _ = ((m r c : Nat) : ZMod md) * ((pi r : Nat) : ZMod md) := by
          simp only [mul_ite, mul_one, mul_zero]
          rw [Finset.sum_ite_eq, if_pos (Finset.mem_range.2 hc)]
  calc ∑ t in Finset.range k, ((x c t : Nat) : ZMod md)
        * ∑ r in Finset.range R,
            (∑ s in Finset.range k, ((m r s : Nat) : ZMod md) * ((y s t : Nat) : ZMod md))
              * ((pi r : Nat) : ZMod md)
      = ∑ t in Finset.range k, ∑ r in Finset.range R, ((x c t : Nat) : ZMod md)
          * ((∑ s in Finset.range k, ((m r s : Nat) : ZMod md) * ((y s t : Nat) : ZMod md))
              * ((pi r : Nat) : ZMod md)) := by
        refine Finset.sum_congr rfl fun t _ => ?_
        rw [Finset.mul_sum]
    _ = ∑ r in Finset.range R, ∑ t in Finset.range k, ((x c t : Nat) : ZMod md)
          * ((∑ s in Finset.range k, ((m r s : Nat) : ZMod md) * ((y s t : Nat) : ZMod md))
              * ((pi r : Nat) : ZMod md)) := Finset.sum_comm
    _ = ∑ r in Finset.range R, ((m r c : Nat) : ZMod md) * ((pi r : Nat) : ZMod md) :=
        Finset.sum_congr rfl key

/-- Un-masking for matrices: `X * ((M * Y)^T * pi) = M^T * pi` whenever
`X = inv(transpose(Y))`. -/
theorem unmask (md : Nat) [Fact (Nat.Prime md)] (k R : Nat) (hk : 0 < k) (hR : 0 < R)
    (M Y X : mat_ZZ_p) (pi : vec_ZZ_p)
    (hM : M.length = R) (hMrow : ∀ row ∈ M, row.length = k)
    (hY : Y.length = k) (hYrow : ∀ row ∈ Y, row.length = k)
    (hinv : inv md (transpose Y) = some X) (hpi : pi.length = R) :
    ∃ MY v, mul_mat md M Y = some MY
      ∧ mul_mat_vec md (transpose MY) pi = some v
      ∧ mul_mat_vec md X v = mul_mat_vec md (transpose M) pi
      ∧ mul_mat_vec md (transpose M) pi
          = some (vec_of k (fun c => (∑ r in Finset.range R, entry M r c * pi.getD r 0) % md)) := by
  obtain ⟨m, hm⟩ : ∃ m, M = mat_of R k m := ⟨_, mat_eq_mat_of M R k hM hMrow⟩
  obtain ⟨y, hy⟩ : ∃ y, Y = mat_of k k y := ⟨_, mat_eq_mat_of Y k k hY hYrow⟩
  subst hm hy
  rw [transpose_mat_of _ hk] at hinv
  obtain ⟨_, h1, h2, _, h4⟩ := inv_spec md _ k (length_mat_of _ _ _) (row_length_mat_of _ _ _) X hinv
  obtain ⟨x, hx⟩ : ∃ x, X = mat_of k k x := ⟨_, mat_eq_mat_of X k k h1 h2⟩
  subst hx
  have hX : ∀ c s, c < k → s < k →
      ∑ t in Finset.range k, ((x c t : Nat) : ZMod md) * ((y s t : Nat) : ZMod md)
        = if c = s then 1 else 0 := by
    intro c s hc hs
    rw [← h4 c s hc hs]
    refine Finset.sum_congr rfl fun t ht => ?_
    rw [entry_mat_of _ hc (Finset.mem_range.1 ht), entry_mat_of _ (Finset.mem_range.1 ht) hs]
  refine ⟨mat_of R k (fun i j => (∑ s in Finset.range k, m i s * y s j) % md),
    vec_of k (fun t => (∑ r in Finset.range R,
      ((∑ s in Finset.range k, m r s * y s t) % md) * pi.getD r 0) % md),
    mul_mat_mat_of md R k k m y hk, ?_, ?_, ?_⟩
  · rw [transpose_mat_of _ hR]
    exact mul_mat_vec_mat_of_list md k R _ pi hpi
  · rw [transpose_mat_of _ hR, mul_mat_vec_mat_of, mul_mat_vec_mat_of_list md k R _ pi hpi]
    refine congrArg some (vec_of_congr fun c hc => ?_)
    exact unmask_sum md k R m y x (fun r => pi.getD r 0) hX c hc
  · rw [transpose_mat_of _ hR, mul_mat_vec_mat_of_list md k R _ pi hpi]
    refine congrArg some (vec_of_congr fun c hc => ?_)
    refine congrArg (fun z => z % md) (Finset.sum_congr rfl fun r hr => ?_)
    rw [entry_mat_of _ (Finset.mem_range.1 hr) hc]

end NTL

namespace LWE

/-- The loop body of `decrypt` on a canonical representative: the second
branch of the recentring is never taken, and the result is the recentred value
reduced modulo `p`. -/
theorem decode_eq (w : Nat) :
    ((decode w : Nat) : Int)
      = (if (w : Int) > (q : Int) / 2 then (w : Int) - (q : Int) else (w : Int)) % (p : Int) := by
  have hneg : ¬ ((w : Int) < -(q : Int) / 2) := by
    have h0 : -(q : Int) / 2 ≤ 0 := by
      unfold q
      norm_num
    have h1 : (0 : Int) ≤ (w : Int) := Int.natCast_nonneg w
    omega
  have hp : ((p_int : Nat) : Int) ≠ 0 := by
    unfold p_int
    norm_num
  unfold decode
  dsimp only
  rw [if_neg hneg, Int.add_emod_self, Int.emod_emod, Int.toNat_of_nonneg (Int.emod_nonneg _ hp)]
  rfl

theorem decode_lt (w : Nat) : decode w < p := by
  have hp : (0 : Int) < ((p : Nat) : Int) := by
    unfold p p_int
    norm_num
  have h := decode_eq w
  have h2 := Int.emod_lt_of_pos
    (if (w : Int) > (q : Int) / 2 then (w : Int) - (q : Int) else (w : Int)) hp
  rw [← h] at h2
  exact Int.ofNat_lt.1 h2

end LWE

namespace LWE

/-- The closed form of a fresh ciphertext coordinate is the canonical
representative of `A*r + v_pad + p*e`. -/
theorem fresh_entry_eq_conv (a : Nat → Nat → Nat) (pt : List Nat) (r_gauss e_gauss : Nat → Int)
    (i : Nat) :
    fresh_entry a pt r_gauss e_gauss i
      = NTL.conv q (∑ k in Finset.range n, (a i k : Int) * r_gauss k
          + (if i < n then 0 else (pt.getD (i - n) 0 : Int)) + (p : Int) * e_gauss i) := by
  have hlt : fresh_entry a pt r_gauss e_gauss i < q := by
    unfold fresh_entry
    exact Nat.mod_lt _ q_pos
  rw [← Nat.mod_eq_of_lt hlt]
  apply NTL.mod_eq_conv
  rw [cast_fresh_entry]
  push_cast
  split_ifs <;> simp [p]

end LWE

namespace libsnark

open LWE

theorem ex_vk_A_length : ex_vk.sk.A.length = n + pt_dim := by
  unfold ex_vk
  dsimp only
  exact NTL.length_mat_of _ _ _

theorem ex_vk_A_rows : ∀ row ∈ ex_vk.sk.A, row.length = n := by
  unfold ex_vk
  dsimp only
  exact NTL.row_length_mat_of _ _ _

end libsnark

namespace LWE

theorem key_A_entry_top (A_rand : Nat → Nat → Nat) (S_gauss E_gauss : Nat → Nat → Int)
    {i : Nat} (hi : i < n) (j : Nat) :
    key_A_entry A_rand S_gauss E_gauss i j = A_rand i j % q := by
  unfold key_A_entry
  rw [if_pos hi]

theorem key_A_entry_bottom (A_rand : Nat → Nat → Nat) (S_gauss E_gauss : Nat → Nat → Int)
    (i j : Nat) :
    key_A_entry A_rand S_gauss E_gauss (n + i) j
      = NTL.conv q (∑ k in Finset.range n, S_gauss k i * ((A_rand k j % q : Nat) : Int)
          + (p : Int) * E_gauss i j) := by
  have hlt : key_A_entry A_rand S_gauss E_gauss (n + i) j < q := by
    unfold key_A_entry
    rw [if_neg (Nat.not_lt.2 (Nat.le_add_right n i))]
    exact Nat.mod_lt _ q_pos
  rw [← Nat.mod_eq_of_lt hlt]
  apply NTL.mod_eq_conv
  rw [cast_key_A_entry_bottom]
  push_cast
  rfl

theorem key_S_entry_top (S_gauss : Nat → Nat → Int) {i : Nat} (hi : i < n) (j : Nat) :
    key_S_entry S_gauss i j = NTL.conv q (-(S_gauss i j)) := by
  unfold key_S_entry
  rw [if_pos hi]
  apply NTL.conv_congr
  rw [Int.cast_neg, Int.cast_neg, Int.cast_natCast, NTL.cast_conv]

theorem key_S_entry_bottom (S_gauss : Nat → Nat → Int) (i j : Nat) :
    key_S_entry S_gauss (n + i) j = if i = j then 1 else 0 := by
  unfold key_S_entry
  rw [if_neg (Nat.not_lt.2 (Nat.le_add_right n i)), Nat.add_sub_cancel_left]
  rfl

end LWE

namespace libsnark

open LWE

theorem query_entry_A (A_query B_query C_query H_query : List (List Nat)) (Zs : List Nat)
    (num_inputs ρ Hn : Nat) {r i : Nat} (hr : r < ρ) (hi : i < LWE.l) :
    query_entry A_query B_query C_query H_query Zs num_inputs ρ Hn r i
      = (A_query.getD i []).getD (r + num_inputs + 1) 0 := by
  unfold query_entry
  rw [if_pos hr, if_pos hi]

theorem query_entry_B (A_query B_query C_query H_query : List (List Nat)) (Zs : List Nat)
    (num_inputs ρ Hn : Nat) {r i : Nat} (hr : r < ρ) (hi : i < LWE.l) :
    query_entry A_query B_query C_query H_query Zs num_inputs ρ Hn r (LWE.l + i)
      = (B_query.getD i []).getD (r + num_inputs + 1) 0 := by
  unfold query_entry
  rw [if_pos hr, if_neg (by omega), if_pos (by omega), Nat.add_sub_cancel_left]

theorem query_entry_C (A_query B_query C_query H_query : List (List Nat)) (Zs : List Nat)
    (num_inputs ρ Hn : Nat) {r i : Nat} (hr : r < ρ) (hi : i < LWE.l) :
    query_entry A_query B_query C_query H_query Zs num_inputs ρ Hn r (2 * LWE.l + i)
      = (C_query.getD i []).getD (r + num_inputs + 1) 0 := by
  unfold query_entry
  rw [if_pos hr, if_neg (by omega), if_neg (by omega), if_pos (by omega),
    Nat.add_sub_cancel_left]

theorem query_entry_ABC_zero (A_query B_query C_query H_query : List (List Nat)) (Zs : List Nat)
    (num_inputs ρ Hn : Nat) {r c : Nat} (hr : r < ρ) (hc : 3 * LWE.l ≤ c) :
    query_entry A_query B_query C_query H_query Zs num_inputs ρ Hn r c = 0 := by
  unfold query_entry
  rw [if_pos hr, if_neg (by omega), if_neg (by omega), if_neg (by omega)]

theorem query_entry_Z (A_query B_query C_query H_query : List (List Nat)) (Zs : List Nat)
    (num_inputs ρ Hn : Nat) {k : Nat} (hk : k < 3) (c : Nat) :
    query_entry A_query B_query C_query H_query Zs num_inputs ρ Hn (ρ + k) c
      = if k * LWE.l ≤ c ∧ c < k * LWE.l + LWE.l then Zs.getD (c - k * LWE.l) 0 else 0 := by
  unfold query_entry
  rw [if_neg (by omega), if_pos (by omega), Nat.add_sub_cancel_left]

theorem query_entry_H (A_query B_query C_query H_query : List (List Nat)) (Zs : List Nat)
    (num_inputs ρ Hn : Nat) {r : Nat} (hr : r < Hn) (c : Nat) :
    query_entry A_query B_query C_query H_query Zs num_inputs ρ Hn (ρ + 3 + r) c
      = if 3 * LWE.l ≤ c ∧ c < 3 * LWE.l + LWE.l then
          (H_query.getD (c - 3 * LWE.l) []).getD r 0
        else 0 := by
  unfold query_entry
  rw [if_neg (by omega), if_neg (by omega), if_pos (by omega),
    show ρ + 3 + r - ρ - 3 = r by omega]

/-- The closed form reads the A/B/C queries only from index `num_inputs + 1` on. -/
theorem query_entry_frame (A_query B_query C_query A2 B2 C2 H_query : List (List Nat))
    (Zs : List Nat) (num_inputs ρ Hn : Nat)
    (hA : ∀ i k, i < LWE.l → num_inputs + 1 ≤ k →
      (A2.getD i []).getD k 0 = (A_query.getD i []).getD k 0)
    (hB : ∀ i k, i < LWE.l → num_inputs + 1 ≤ k →
      (B2.getD i []).getD k 0 = (B_query.getD i []).getD k 0)
    (hC : ∀ i k, i < LWE.l → num_inputs + 1 ≤ k →
      (C2.getD i []).getD k 0 = (C_query.getD i []).getD k 0) (r c : Nat) :
    query_entry A2 B2 C2 H_query Zs num_inputs ρ Hn r c
      = query_entry A_query B_query C_query H_query Zs num_inputs ρ Hn r c := by
  have hl : LWE.l = 15 := rfl
  unfold query_entry
  by_cases hr : r < ρ
  · rw [if_pos hr, if_pos hr]
    by_cases h1 : c < LWE.l
    · rw [if_pos h1, if_pos h1, hA c _ h1 (by omega)]
    · rw [if_neg h1, if_neg h1]
      by_cases h2 : c < 2 * LWE.l
      · rw [if_pos h2, if_pos h2, hB (c - LWE.l) _ (by omega) (by omega)]
      · rw [if_neg h2, if_neg h2]
        by_cases h3 : c < 3 * LWE.l
        · rw [if_pos h3, if_pos h3, hC (c - 2 * LWE.l) _ (by omega) (by omega)]
        · rw [if_neg h3, if_neg h3]
  · rw [if_neg hr, if_neg hr]

end libsnark

namespace NTL

theorem getD_mat_of {rows cols : Nat} (f : Nat → Nat → Nat) {i : Nat} (hi : i < rows) :
    (mat_of rows cols f).getD i [] = vec_of cols (f i) := by
  rw [mat_of_eq_map, List.getD_eq_getElem?_getD, List.getElem?_map,
    List.getElem?_range hi]
  rfl

end NTL

namespace libsnark

open LWE

theorem gen_keypair_enc_queries {CS : Type} (ext : r1cs_to_qap CS) (cs : CS)
    (draws : generator_draws) (Yprime : matrix) :
    (gen_keypair ext cs draws Yprime).crs.enc_queries
      = (List.range (gen_rows (gen_inst ext cs draws))).map (fun r =>
          ⟨NTL.vec_of (n + pt_dim) (gen_crs_entry (gen_inst ext cs draws) draws r)⟩) := rfl

theorem gen_keypair_sk {CS : Type} (ext : r1cs_to_qap CS) (cs : CS)
    (draws : generator_draws) (Yprime : matrix) :
    (gen_keypair ext cs draws Yprime).vk.sk
      = { A := NTL.mat_of (n + pt_dim) n (key_A_entry draws.A_rand draws.S_gauss draws.E_gauss)
          S := NTL.mat_of (n + pt_dim) pt_dim (key_S_entry draws.S_gauss) } := rfl

theorem gen_keypair_sk_A {CS : Type} (ext : r1cs_to_qap CS) (cs : CS)
    (draws : generator_draws) (Yprime : matrix) :
    (gen_keypair ext cs draws Yprime).vk.sk.A
      = NTL.mat_of (n + pt_dim) n (key_A_entry draws.A_rand draws.S_gauss draws.E_gauss) := by
  unfold gen_keypair
  dsimp only

theorem gen_keypair_sk_S {CS : Type} (ext : r1cs_to_qap CS) (cs : CS)
    (draws : generator_draws) (Yprime : matrix) :
    (gen_keypair ext cs draws Yprime).vk.sk.S
      = NTL.mat_of (n + pt_dim) pt_dim (key_S_entry draws.S_gauss) := by
  unfold gen_keypair
  dsimp only

theorem gen_keypair_Yprime {CS : Type} (ext : r1cs_to_qap CS) (cs : CS)
    (draws : generator_draws) (Yprime : matrix) :
    (gen_keypair ext cs draws Yprime).vk.Yprime = Yprime := rfl

theorem gen_keypair_Z {CS : Type} (ext : r1cs_to_qap CS) (cs : CS)
    (draws : generator_draws) (Yprime : matrix) :
    (gen_keypair ext cs draws Yprime).vk.Z
      = (List.range LWE.l).map (fun i => (gen_inst ext cs draws i).Zt) := rfl

/-- A key pair returned by the generator is the closed form at the inverse
mask. -/
theorem generator_keypair {CS : Type} (ext : r1cs_to_qap CS) (cs : CS) (draws : generator_draws)
    (V1 Hn : Nat) (hwf : instances_well_formed ext cs draws V1 Hn)
    (kp : r1cs_lattice_ppsnarg_keypair CS)
    (h : r1cs_lattice_ppsnarg_generator ext cs draws = some kp) :
    ∃ Yprime, NTL.inv p (NTL.transpose (generate_Y (4 * LWE.l) draws.Y_rand)) = some Yprime
      ∧ kp = gen_keypair ext cs draws Yprime := by
  rw [generator_eq_of_well_formed ext cs draws V1 Hn hwf] at h
  cases hi : NTL.inv p (NTL.transpose (generate_Y (4 * LWE.l) draws.Y_rand)) with
  | none =>
    rw [hi] at h
    exact absurd h (by simp)
  | some X =>
    rw [hi] at h
    exact ⟨X, rfl, (Option.some.inj h).symm⟩

/-- The query matrix the generator packs, in closed form. -/
theorem gen_query_matrix {CS : Type} (ext : r1cs_to_qap CS) (cs : CS) (draws : generator_draws)
    (V1 Hn : Nat) (hwf : instances_well_formed ext cs draws V1 Hn) :
    make_query_matrix
        ((List.range LWE.l).map (fun i => (gen_inst ext cs draws i).At))
        ((List.range LWE.l).map (fun i => (gen_inst ext cs draws i).Bt))
        ((List.range LWE.l).map (fun i => (gen_inst ext cs draws i).Ct))
        ((List.range LWE.l).map (fun i => (gen_inst ext cs draws i).Ht))
        ((List.range LWE.l).map (fun i => (gen_inst ext cs draws i).Zt))
        (gen_inst ext cs draws 0).num_inputs
      = some (NTL.mat_of (gen_rows (gen_inst ext cs draws)) (4 * LWE.l)
          (gen_query_entry (gen_inst ext cs draws))) := by
  obtain ⟨hA, hB, hC, hH, hI⟩ := hwf
  have hl : 0 < LWE.l := by decide
  have hlen : ∀ {α : Type} (f : Nat → α), LWE.l ≤ ((List.range LWE.l).map f).length := by
    intro α f
    rw [List.length_map, List.length_range]
  rw [make_query_matrix_eq _ _ _ _ _ _ V1 Hn (hlen _) (hlen _) (hlen _) (hlen _) (hlen _)
    (fun j hj => by rw [getD_map_range _ _ _ hj]; exact hA j hj)
    (fun j hj => by rw [getD_map_range _ _ _ hj]; exact hB j hj)
    (fun j hj => by rw [getD_map_range _ _ _ hj]; exact hC j hj)
    (fun j hj => by rw [getD_map_range _ _ _ hj]; exact hH j hj) hI]
  unfold gen_rows gen_query_entry
  rw [hA 0 hl, hH 0 hl]

theorem gen_rows_eq {CS : Type} (ext : r1cs_to_qap CS) (cs : CS) (draws : generator_draws)
    (V1 Hn : Nat) (hwf : instances_well_formed ext cs draws V1 Hn) :
    gen_rows (gen_inst ext cs draws)
      = V1 - (gen_inst ext cs draws 0).num_inputs - 1 + 3 + Hn := by
  obtain ⟨hA, _, _, hH, _⟩ := hwf
  have hl : 0 < LWE.l := by decide
  unfold gen_rows
  rw [hA 0 hl, hH 0 hl]

/-- The masked query matrix `M * Y` of the generator, in closed form. -/
theorem gen_masked_matrix (qap_inst : Nat → qap_instance_evaluation)
    (Y_rand : Nat → Nat → Nat) (rows : Nat) :
    NTL.mul_mat p (NTL.mat_of rows (4 * LWE.l) (gen_query_entry qap_inst))
        (generate_Y (4 * LWE.l) Y_rand)
      = some (NTL.mat_of rows (4 * LWE.l) (gen_masked_entry qap_inst Y_rand)) := by
  unfold generate_Y
  rw [NTL.mul_mat_mat_of _ _ _ _ _ _ four_l_pos]
  rfl

end libsnark

namespace NTL

/-- A successful `mapM` of a function that can only return `g a` is `map g`,
and the function succeeded on every element. -/
theorem mapM_some_eq_map {α β : Type} (f : α → Option β) (g : α → β)
    (hfg : ∀ a b, f a = some b → b = g a) (xs : List α) (ys : List β)
    (h : xs.mapM f = some ys) : ys = xs.map g ∧ ∀ a ∈ xs, f a = some (g a) := by
  induction xs generalizing ys with
  | nil =>
    rw [List.mapM_nil] at h
    cases h
    exact ⟨rfl, fun a ha => absurd ha (List.not_mem_nil a)⟩
  | cons a t ih =>
    rw [List.mapM_cons] at h
    cases hfa : f a with
    | none => rw [hfa] at h; cases h
    | some b =>
      cases ht : List.mapM f t with
      | none => rw [hfa, ht] at h; cases h
      | some r =>
        rw [hfa, ht] at h
        cases h
        obtain ⟨h1, h2⟩ := ih r ht
        have hb := hfg a b hfa
        refine ⟨?_, ?_⟩
        · rw [List.map_cons, ← h1, ← hb]
        · intro c hc
          rcases List.mem_cons.1 hc with e | e
          · rw [e, hfa, hb]
          · exact h2 c e

end NTL

namespace libsnark

open LWE

theorem prefix_of_some (query : List Nat) (k : Nat) (b : List Nat)
    (h : prefix_of query k = some b) : b = query.take k := by
  unfold prefix_of at h
  by_cases hk : query.length < k
  · rw [if_pos hk] at h
    cases h
  · rw [if_neg hk] at h
    exact (Option.some.inj h).symm

theorem prefix_of_length (query : List Nat) (k : Nat)
    (h : prefix_of query k = some (query.take k)) : k ≤ query.length := by
  unfold prefix_of at h
  by_cases hk : query.length < k
  · rw [if_pos hk] at h
    cases h
  · exact Nat.le_of_not_lt hk

/-- The prefixes of a key pair returned by the generator, and the query matrix
packed in the same run. -/
theorem generator_prefixes {CS : Type} (ext : r1cs_to_qap CS) (cs : CS)
    (draws : generator_draws) (kp : r1cs_lattice_ppsnarg_keypair CS)
    (h : r1cs_lattice_ppsnarg_generator ext cs draws = some kp) :
    (kp.vk.A_prefix = (List.range LWE.l).map (fun i =>
        (gen_inst ext cs draws i).At.take ((gen_inst ext cs draws 0).num_inputs + 1))
      ∧ ∀ i, i < LWE.l →
          (gen_inst ext cs draws 0).num_inputs + 1 ≤ (gen_inst ext cs draws i).At.length)
    ∧ (kp.vk.B_prefix = (List.range LWE.l).map (fun i =>
        (gen_inst ext cs draws i).Bt.take ((gen_inst ext cs draws 0).num_inputs + 1))
      ∧ ∀ i, i < LWE.l →
          (gen_inst ext cs draws 0).num_inputs + 1 ≤ (gen_inst ext cs draws i).Bt.length)
    ∧ (kp.vk.C_prefix = (List.range LWE.l).map (fun i =>
        (gen_inst ext cs draws i).Ct.take ((gen_inst ext cs draws 0).num_inputs + 1))
      ∧ ∀ i, i < LWE.l →
          (gen_inst ext cs draws 0).num_inputs + 1 ≤ (gen_inst ext cs draws i).Ct.length)
    ∧ ∃ M, make_query_matrix
        ((List.range LWE.l).map (fun i => (gen_inst ext cs draws i).At))
        ((List.range LWE.l).map (fun i => (gen_inst ext cs draws i).Bt))
        ((List.range LWE.l).map (fun i => (gen_inst ext cs draws i).Ct))
        ((List.range LWE.l).map (fun i => (gen_inst ext cs draws i).Ht))
        ((List.range LWE.l).map (fun i => (gen_inst ext cs draws i).Zt))
        (gen_inst ext cs draws 0).num_inputs = some M := by
  unfold r1cs_lattice_ppsnarg_generator at h
  dsimp only at h
  simp only [Option.bind_eq_bind] at h
  rw [Option.bind_eq_some] at h
  obtain ⟨pA, hAp, h⟩ := h
  rw [Option.bind_eq_some] at h
  obtain ⟨pB, hBp, h⟩ := h
  rw [Option.bind_eq_some] at h
  obtain ⟨pC, hCp, h⟩ := h
  rw [Option.bind_eq_some] at h
  obtain ⟨query_mat, hM, h⟩ := h
  rw [Option.bind_eq_some] at h
  obtain ⟨query_mat2, _, h⟩ := h
  rw [Option.bind_eq_some] at h
  obtain ⟨sk, hsk, h⟩ := h
  rw [Option.bind_eq_some] at h
  obtain ⟨Yprime, hY, h⟩ := h
  rw [Option.bind_eq_some] at h
  obtain ⟨enc, _, h⟩ := h
  have hkp := Option.some.inj h
  rw [← hkp]
  dsimp only
  obtain ⟨a1, a2⟩ := NTL.mapM_some_eq_map _
    (fun i => (gen_inst ext cs draws i).At.take ((gen_inst ext cs draws 0).num_inputs + 1))
    (fun i b hb => prefix_of_some _ _ b hb) _ _ hAp
  obtain ⟨b1, b2⟩ := NTL.mapM_some_eq_map _
    (fun i => (gen_inst ext cs draws i).Bt.take ((gen_inst ext cs draws 0).num_inputs + 1))
    (fun i b hb => prefix_of_some _ _ b hb) _ _ hBp
  obtain ⟨c1, c2⟩ := NTL.mapM_some_eq_map _
    (fun i => (gen_inst ext cs draws i).Ct.take ((gen_inst ext cs draws 0).num_inputs + 1))
    (fun i b hb => prefix_of_some _ _ b hb) _ _ hCp
  exact ⟨⟨a1, fun i hi => prefix_of_length _ _ (a2 i (List.mem_range.2 hi))⟩,
    ⟨b1, fun i hi => prefix_of_length _ _ (b2 i (List.mem_range.2 hi))⟩,
    ⟨c1, fun i hi => prefix_of_length _ _ (c2 i (List.mem_range.2 hi))⟩, query_mat, hM⟩

end libsnark

namespace libsnark

open LWE

theorem pi_entry_eq (qap_wit : qap_witness) (i : Nat) :
    (if 0 = 0 ∧ qap_wit.coefficients_for_ABCs.length - qap_wit.num_inputs + 3 ≤ i
        ∧ i < qap_wit.coefficients_for_ABCs.length - qap_wit.num_inputs + 3
              + qap_wit.coefficients_for_H.length then
      qap_wit.coefficients_for_H.getD
        (i - (qap_wit.coefficients_for_ABCs.length - qap_wit.num_inputs + 3)) 0
    else
      NTL.assign (NTL.assign (NTL.assign
        (fun r c => if r = 0 ∧ 0 ≤ c
            ∧ c < 0 + (qap_wit.coefficients_for_ABCs.length - qap_wit.num_inputs) then
          qap_wit.coefficients_for_ABCs.getD (c - 0 + qap_wit.num_inputs) 0 else 0)
        0 (qap_wit.coefficients_for_ABCs.length - qap_wit.num_inputs) qap_wit.d1)
        0 (qap_wit.coefficients_for_ABCs.length - qap_wit.num_inputs + 1) qap_wit.d2)
        0 (qap_wit.coefficients_for_ABCs.length - qap_wit.num_inputs + 2) qap_wit.d3 0 i)
      = pi_entry qap_wit i := by
  unfold pi_entry
  generalize hρ : qap_wit.coefficients_for_ABCs.length - qap_wit.num_inputs = ρ
  have hdrop : (qap_wit.coefficients_for_ABCs.drop qap_wit.num_inputs).length = ρ := by
    rw [List.length_drop, hρ]
  have hlen3 : (qap_wit.coefficients_for_ABCs.drop qap_wit.num_inputs
      ++ [qap_wit.d1, qap_wit.d2, qap_wit.d3]).length = ρ + 3 := by
    rw [List.length_append, hdrop]
    rfl
  clear hρ
  unfold NTL.assign
  dsimp only
  by_cases h1 : ρ + 3 ≤ i
  · have hlt : (qap_wit.coefficients_for_ABCs.drop qap_wit.num_inputs
        ++ [qap_wit.d1, qap_wit.d2, qap_wit.d3]).length ≤ i := by
      rw [hlen3]
      exact h1
    rw [List.getD_append_right _ _ _ _ hlt, hlen3]
    by_cases h2 : i < ρ + 3 + qap_wit.coefficients_for_H.length
    · rw [if_pos ⟨rfl, h1, h2⟩]
    · have h3 : qap_wit.coefficients_for_H.length ≤ i - (ρ + 3) := by omega
      rw [if_neg (fun h => h2 h.2.2), if_neg (by omega), if_neg (by omega), if_neg (by omega),
        if_neg (by omega), List.getD_eq_default _ _ h3]
  · have hlt : i < (qap_wit.coefficients_for_ABCs.drop qap_wit.num_inputs
        ++ [qap_wit.d1, qap_wit.d2, qap_wit.d3]).length := by
      rw [hlen3]
      omega
    rw [if_neg (fun h => h1 h.2.1), List.getD_append _ _ _ _ hlt]
    by_cases h2 : i < ρ
    · have hlt2 : i < (qap_wit.coefficients_for_ABCs.drop qap_wit.num_inputs).length := by
        rw [hdrop]
        exact h2
      rw [if_neg (by omega), if_neg (by omega), if_neg (by omega), if_pos (by omega),
        List.getD_append _ _ _ _ hlt2, List.getD_eq_getElem?_getD,
        List.getD_eq_getElem?_getD, List.getElem?_drop, Nat.sub_zero, Nat.add_comm]
    · have hge : (qap_wit.coefficients_for_ABCs.drop qap_wit.num_inputs).length ≤ i := by
        rw [hdrop]
        omega
      rw [List.getD_append_right _ _ _ _ hge, hdrop]
      have h3 : i = ρ ∨ i = ρ + 1 ∨ i = ρ + 2 := by omega
      rcases h3 with e | e | e
      · subst e
        rw [if_neg (by omega), if_neg (by omega), if_pos (by omega), Nat.sub_self]
        rfl
      · subst e
        rw [if_neg (by omega), if_pos (by omega), Nat.add_sub_cancel_left]
        rfl
      · subst e
        rw [if_pos (by omega), Nat.add_sub_cancel_left]
        rfl

/-- The proof vector in closed form. -/
theorem proof_vector_eq (qap_wit : qap_witness)
    (hI : qap_wit.num_inputs ≤ qap_wit.coefficients_for_ABCs.length) :
    proof_vector qap_wit
      = some (qap_wit.coefficients_for_ABCs.length - qap_wit.num_inputs + 3
          + qap_wit.coefficients_for_H.length, pi_entry qap_wit) := by
  unfold proof_vector
  dsimp only
  rw [if_neg (Nat.not_lt.2 hI)]
  simp only [Option.bind_eq_bind, Option.pure_def, Option.some_bind]
  rw [NTL.for_loop_eq_foldl _ _
    (fun j m => NTL.assign m 0 (j + 0)
      (qap_wit.coefficients_for_ABCs.getD (j + qap_wit.num_inputs) 0))
    (fun k hk st => by
      rw [NTL.getElem?_eq_some_getD (by omega) 0]
      rfl),
    NTL.foldl_assign_row, Option.some_bind]
  rw [NTL.for_loop_eq_foldl _ _
    (fun j m => NTL.assign m 0
      (j + (qap_wit.coefficients_for_ABCs.length - qap_wit.num_inputs + 3))
      (qap_wit.coefficients_for_H.getD j 0))
    (fun k hk st => by
      rw [NTL.getElem?_eq_some_getD hk 0, Nat.add_comm _ k]
      rfl),
    NTL.foldl_assign_row, Option.some_bind]
  refine congrArg some (congrArg (Prod.mk _) (funext fun i => ?_))
  exact pi_entry_eq qap_wit i

end libsnark

namespace LWE

/-- The left fold of the prover over a list of ciphertexts of common length:
coordinate `j` of the result is the sum of `pi i * enc[i][j]` modulo `q`. -/
theorem lincomb_fold (enc : List ciphertext) (pi : Nat → Nat) (L : Nat)
    (hL : ∀ c ∈ enc, c.ctxt.length = L) (k : Nat) (hk : k + 1 ≤ enc.length) :
    NTL.for_loop k (fun k ct => (enc[k + 1]?).bind (fun ci => ct.add (ci.mul (pi (k + 1)))))
        ((enc.getD 0 ⟨[]⟩).mul (pi 0))
      = some ⟨NTL.vec_of L (fun j =>
          (∑ i in Finset.range (k + 1), pi i * (enc.getD i ⟨[]⟩).ctxt.getD j 0) % q)⟩ := by
  have hvec : ∀ i, i < enc.length →
      enc.getD i ⟨[]⟩ = ⟨NTL.vec_of L (fun j => (enc.getD i ⟨[]⟩).ctxt.getD j 0)⟩ := by
    intro i hi
    have hmem : enc.getD i ⟨[]⟩ ∈ enc := by
      rw [List.getD_eq_getElem _ _ hi]
      exact List.getElem_mem hi
    rw [NTL.vec_of_getD_of_length (hL _ hmem)]
  induction k with
  | zero =>
    rw [NTL.for_loop_zero]
    refine congrArg some ?_
    conv_lhs => rw [hvec 0 (by omega)]
    rw [mul_vec_of]
    refine congrArg ciphertext.mk (NTL.vec_of_congr fun j _ => ?_)
    rw [Finset.sum_range_one, Nat.mul_comm]
  | succ k ih =>
    rw [NTL.for_loop_succ, ih (by omega), Option.some_bind,
      NTL.getElem?_eq_some_getD (by omega : k + 1 < enc.length) ⟨[]⟩, Option.some_bind]
    conv_lhs => rw [hvec (k + 1) (by omega)]
    rw [mul_vec_of, add_vec_of]
    refine congrArg some (congrArg ciphertext.mk (NTL.vec_of_congr fun j _ => ?_))
    rw [Finset.sum_range_succ _ (k + 1), Nat.mul_comm (pi (k + 1))]
    exact (Nat.add_mod _ _ _).symm

end LWE

namespace libsnark

open LWE

/-- The prover in closed form: the proof is the linear combination of the CRS
with the proof vector. -/
theorem prover_eq {CS : Type} (ext : r1cs_to_qap CS) (crs : r1cs_lattice_ppsnarg_crs CS)
    (x w : List Nat) (d1 d2 d3 : Nat) (qap_wit : qap_witness) (L R : Nat)
    (hw : ext.witness_map crs.constraint_system x w (random_element d1) (random_element d2)
      (random_element d3) = qap_wit)
    (hI : qap_wit.num_inputs ≤ qap_wit.coefficients_for_ABCs.length)
    (hdim : qap_wit.coefficients_for_ABCs.length - qap_wit.num_inputs + 3
      + qap_wit.coefficients_for_H.length = R)
    (hR : crs.enc_queries.length = R)
    (hL : ∀ c ∈ crs.enc_queries, c.ctxt.length = L) :
    r1cs_lattice_ppsnarg_prover ext crs x w d1 d2 d3
      = some ⟨⟨NTL.vec_of L (fun j =>
          (∑ i in Finset.range R,
            pi_entry qap_wit i * (crs.enc_queries.getD i ⟨[]⟩).ctxt.getD j 0) % q)⟩⟩ := by
  have hR1 : R - 1 + 1 = R := by omega
  unfold r1cs_lattice_ppsnarg_prover
  dsimp only
  rw [hw, proof_vector_eq qap_wit hI, hdim]
  simp only [Option.bind_eq_bind, Option.some_bind]
  rw [if_neg (not_not.2 hR.symm)]
  simp only [Option.pure_def, Option.some_bind]
  rw [NTL.getElem?_eq_some_getD (by omega : 0 < crs.enc_queries.length) ⟨[]⟩, Option.some_bind,
    lincomb_fold crs.enc_queries (pi_entry qap_wit) L hL (R - 1) (by omega), Option.some_bind,
    hR1]

end libsnark

namespace libsnark

open LWE

/-- The verdict of the verifier from the reconstructed values: `true` exactly
when the divisibility equation holds at every query index. -/
theorem verifier_eq_decide (vk : r1cs_lattice_ppsnarg_verification_key) (x : List Nat)
    (proof : r1cs_lattice_ppsnarg_proof) (f : Nat → Nat × Nat × Nat × Nat)
    (hvals : verifier_values vk x proof
      = some ((List.range r1cs_lattice_ppsnarg_num_queries).map f))
    (hZ : vk.Z.length = r1cs_lattice_ppsnarg_num_queries) :
    r1cs_lattice_ppsnarg_verifier vk x proof
      = some (decide (∀ i, i < r1cs_lattice_ppsnarg_num_queries →
          (f i).1 * (f i).2.1 % p = ((f i).2.2.2 * vk.Z.getD i 0 % p + (f i).2.2.1) % p)) := by
  have hlen : ((List.range r1cs_lattice_ppsnarg_num_queries).map f).length
      = r1cs_lattice_ppsnarg_num_queries := by
    rw [List.length_map, List.length_range]
  have hget : ∀ i, i < r1cs_lattice_ppsnarg_num_queries →
      ((List.range r1cs_lattice_ppsnarg_num_queries).map f)[i]? = some (f i) := by
    intro i hi
    rw [List.getElem?_map, List.getElem?_range hi]
    rfl
  have hgetZ : ∀ i, i < r1cs_lattice_ppsnarg_num_queries →
      vk.Z[i]? = some (vk.Z.getD i 0) := by
    intro i hi
    exact NTL.getElem?_eq_some_getD (by omega) 0
  obtain ⟨b, hb⟩ := check_loop_some ((List.range r1cs_lattice_ppsnarg_num_queries).map f) vk.Z
    r1cs_lattice_ppsnarg_num_queries (by omega) (by omega)
  unfold r1cs_lattice_ppsnarg_verifier
  rw [hvals, Option.bind_eq_bind, Option.some_bind]
  unfold check_divisibility
  rw [hb]
  refine congrArg some ?_
  cases b with
  | true =>
    symm
    rw [decide_eq_true_iff]
    intro i hi
    obtain ⟨v, z, hv, hz, heq⟩ := (check_loop_true_iff _ vk.Z _).mp hb i hi
    rw [hget i hi] at hv
    rw [hgetZ i hi] at hz
    rw [Option.some.inj hv, Option.some.inj hz]
    exact heq
  | false =>
    symm
    rw [decide_eq_false_iff_not]
    intro hall
    have htrue := (check_loop_true_iff ((List.range r1cs_lattice_ppsnarg_num_queries).map f)
      vk.Z r1cs_lattice_ppsnarg_num_queries).mpr
      (fun i hi => ⟨f i, vk.Z.getD i 0, hget i hi, hgetZ i hi, hall i hi⟩)
    rw [hb] at htrue
    cases htrue

end libsnark

namespace LWE

theorem keygen_S {A_rand : Nat → Nat → Nat} {S_gauss E_gauss : Nat → Nat → Int}
    {sk : secret_key} (hk : keygen A_rand S_gauss E_gauss = some sk) :
    sk.S = NTL.mat_of (n + pt_dim) pt_dim (key_S_entry S_gauss) := by
  rw [keygen_eq] at hk
  rw [← Option.some.inj hk]

theorem keygen_A {A_rand : Nat → Nat → Nat} {S_gauss E_gauss : Nat → Nat → Int}
    {sk : secret_key} (hk : keygen A_rand S_gauss E_gauss = some sk) :
    sk.A = NTL.mat_of (n + pt_dim) n (key_A_entry A_rand S_gauss E_gauss) := by
  rw [keygen_eq] at hk
  rw [← Option.some.inj hk]

end LWE

namespace libsnark

open LWE

theorem getD_take {v : List Nat} {k j : Nat} (hj : j < k) :
    (v.take k).getD j 0 = v.getD j 0 := by
  rw [List.getD_eq_getElem?_getD, List.getD_eq_getElem?_getD, List.getElem?_take_of_lt hj]

/-- The verification key of a key pair returned by the generator has the
dimensions the verifier reads. -/
theorem generator_vk_well_formed {CS : Type} (ext : r1cs_to_qap CS) (cs : CS)
    (draws : generator_draws) (kp : r1cs_lattice_ppsnarg_keypair CS)
    (h : r1cs_lattice_ppsnarg_generator ext cs draws = some kp) :
    vk_well_formed kp.vk (gen_inst ext cs draws 0).num_inputs := by
  obtain ⟨⟨a1, a2⟩, ⟨b1, b2⟩, ⟨c1, c2⟩, _⟩ := generator_prefixes ext cs draws kp h
  obtain ⟨hY, hk, hZ, _⟩ := generator_some ext cs draws kp h
  obtain ⟨y1, y2, _⟩ := Yprime_spec draws.Y_rand kp.vk.Yprime hY
  have hS := keygen_S hk
  have hpre : ∀ (g : Nat → List Nat),
      (∀ i, i < LWE.l → (gen_inst ext cs draws 0).num_inputs + 1 ≤ (g i).length) →
      ∀ pre ∈ (List.range LWE.l).map (fun i =>
        (g i).take ((gen_inst ext cs draws 0).num_inputs + 1)),
        pre.length = (gen_inst ext cs draws 0).num_inputs + 1 := by
    intro g hg pre hpre
    obtain ⟨i, hi, rfl⟩ := List.mem_map.1 hpre
    rw [List.length_take]
    exact Nat.min_eq_left (hg i (List.mem_range.1 hi))
  unfold vk_well_formed
  refine ⟨?_, ?_, y1, y2, ?_, ?_, ?_, ?_, ?_, ?_, ?_⟩
  · rw [hS]
    exact NTL.length_mat_of _ _ _
  · rw [hS]
    exact NTL.row_length_mat_of _ _ _
  · rw [a1, List.length_map, List.length_range]
    rfl
  · rw [a1]
    exact hpre (fun i => (gen_inst ext cs draws i).At) a2
  · rw [b1, List.length_map, List.length_range]
    rfl
  · rw [b1]
    exact hpre (fun i => (gen_inst ext cs draws i).Bt) b2
  · rw [c1, List.length_map, List.length_range]
    rfl
  · rw [c1]
    exact hpre (fun i => (gen_inst ext cs draws i).Ct) c2
  · rw [hZ, List.length_map, List.length_range]
    rfl

theorem statement_sum_take (x v : List Nat) (k : Nat) (hk : x.length < k) :
    statement_sum x (v.take k)
      = ∑ j in Finset.range x.length, x.getD j 0 * v.getD (j + 1) 0 := by
  unfold statement_sum
  refine Finset.sum_congr rfl fun j hj => ?_
  rw [getD_take (by have := Finset.mem_range.1 hj; omega)]

/-- The verdict of the verifier under a key of the generator, from the
decrypted proof. -/
theorem verifier_generator {CS : Type} (ext : r1cs_to_qap CS) (cs : CS)
    (draws : generator_draws) (kp : r1cs_lattice_ppsnarg_keypair CS)
    (h : r1cs_lattice_ppsnarg_generator ext cs draws = some kp)
    (x : List Nat) (hx : x.length = (gen_inst ext cs draws 0).num_inputs)
    (proof : r1cs_lattice_ppsnarg_proof) (hproof : proof.response.ctxt.length = n + pt_dim)
    (D : Nat → Nat)
    (hdec : decrypt kp.vk.sk proof.response = some (NTL.vec_of pt_dim D)) :
    r1cs_lattice_ppsnarg_verifier kp.vk x proof
      = some (decide (∀ i, i < r1cs_lattice_ppsnarg_num_queries →
          (gen_values (gen_inst ext cs draws) kp.vk.Yprime x D i).1
              * (gen_values (gen_inst ext cs draws) kp.vk.Yprime x D i).2.1 % p
            = ((gen_values (gen_inst ext cs draws) kp.vk.Yprime x D i).2.2.2
                  * kp.vk.Z.getD i 0 % p
                + (gen_values (gen_inst ext cs draws) kp.vk.Yprime x D i).2.2.1) % p)) := by
  have hwf := generator_vk_well_formed ext cs draws kp h
  obtain ⟨⟨a1, _⟩, ⟨b1, _⟩, ⟨c1, _⟩, _⟩ := generator_prefixes ext cs draws kp h
  obtain ⟨dec, u, hdec2, hu, _, _, hvals⟩ :=
    verifier_values_closed kp.vk x proof _ hwf hx hproof
  have hZ : kp.vk.Z.length = r1cs_lattice_ppsnarg_num_queries := hwf.2.2.2.2.2.2.2.2.2.2
  have hY := NTL.mat_eq_mat_of kp.vk.Yprime _ _ hwf.2.2.1 hwf.2.2.2.1
  have hdd : dec = NTL.vec_of pt_dim D := Option.some.inj (hdec2.symm.trans hdec)
  have hu2 : u = NTL.vec_of (4 * LWE.l) (fun c =>
      (∑ t in Finset.range (4 * LWE.l), NTL.entry kp.vk.Yprime c t * D t) % p) := by
    have h1 := NTL.mul_mat_vec_mat_of_list p (4 * LWE.l) (4 * LWE.l) (NTL.entry kp.vk.Yprime)
      dec (by rw [hdd, NTL.length_vec_of, pt_dim_eq])
    rw [← hY, hu] at h1
    rw [Option.some.inj h1]
    refine NTL.vec_of_congr fun c _ => ?_
    refine congrArg (fun z => z % p) (Finset.sum_congr rfl fun t ht => ?_)
    rw [hdd, NTL.getD_vec_of _ (by rw [pt_dim_eq]; exact Finset.mem_range.1 ht)]
  refine verifier_eq_decide kp.vk x proof _ ?_ hZ
  rw [hvals]
  refine congrArg some (List.map_congr_left fun i hi => ?_)
  have hi2 : i < LWE.l := List.mem_range.1 hi
  have hl : LWE.l = 15 := rfl
  have hnq : r1cs_lattice_ppsnarg_num_queries = LWE.l := rfl
  unfold gen_values
  rw [a1, b1, c1, getD_map_range _ _ _ hi2, getD_map_range _ _ _ hi2, getD_map_range _ _ _ hi2,
    statement_sum_take _ _ _ (by omega), statement_sum_take _ _ _ (by omega),
    statement_sum_take _ _ _ (by omega), getD_take (Nat.succ_pos _),
    getD_take (Nat.succ_pos _), getD_take (Nat.succ_pos _), hu2, hnq,
    NTL.getD_vec_of _ (by omega), NTL.getD_vec_of _ (by omega), NTL.getD_vec_of _ (by omega),
    NTL.getD_vec_of _ (by omega)]

end libsnark

namespace LWE

/-- The entry of `S = [-S_hat; I]`, as an integer, that multiplies coordinate
`k` of a ciphertext in plaintext coordinate `j`. -/
theorem cast_preround_add_p (S_gauss : Nat → Nat → Int) (c : List Nat)
    (hc : c.length = n + pt_dim) (k j : Nat) (hj : j < pt_dim) :
    ((preround S_gauss (ciphertext.add_p_at ⟨c⟩ k).ctxt j : Int) : ZMod q)
      = ((preround S_gauss c j
          + (p_int : Int) * (if k < n then -(S_gauss k j) else if k = n + j then 1 else 0)
            : Int) : ZMod q) := by
  have hg : ∀ i, (((if i = k then (c.getD i 0 + p_int) % q else c.getD i 0 : Nat) : Nat)
      : ZMod q) = (c.getD i 0 : ZMod q) + (if i = k then (p_int : ZMod q) else 0) := by
    intro i
    by_cases h : i = k
    · rw [if_pos h, if_pos h, ZMod.natCast_mod, Nat.cast_add]
    · rw [if_neg h, if_neg h, add_zero]
  have hc2 : c = NTL.vec_of (n + pt_dim) (fun i => c.getD i 0) :=
    (NTL.vec_of_getD_of_length hc).symm
  unfold ciphertext.add_p_at
  dsimp only
  rw [hc, cast_preround_vec_of _ _ _ hj]
  conv_rhs => rw [hc2]
  rw [Int.cast_add, cast_preround_vec_of _ _ _ hj]
  simp only [hg, mul_add, Finset.sum_add_distrib]
  have hsum : ∑ i in Finset.range n,
      (S_gauss i j : ZMod q) * (if i = k then (p_int : ZMod q) else 0)
      = if k < n then (S_gauss k j : ZMod q) * (p_int : ZMod q) else 0 := by
    simp only [mul_ite, mul_zero]
    rw [Finset.sum_ite_eq' (Finset.range n) k]
    simp only [Finset.mem_range]
  rw [hsum]
  by_cases h1 : k < n
  · rw [if_pos h1, if_pos h1, if_neg (by omega)]
    push_cast
    ring
  · rw [if_neg h1, if_neg h1]
    by_cases h2 : k = n + j
    · rw [if_pos h2, if_pos h2.symm]
      push_cast
      ring
    · rw [if_neg h2, if_neg (fun e => h2 e.symm)]
      push_cast
      ring

theorem add_p_range {z s : Int} (h1 : -((2 : Int) ^ 57) + 40 * 65537 < z)
    (h2 : z ≤ (2 : Int) ^ 57 - 40 * 65537) (hs : |s| ≤ 40) :
    -((2 : Int) ^ 57) < z + 65537 * s ∧ z + 65537 * s ≤ (2 : Int) ^ 57 := by
  have := abs_le.1 hs
  constructor <;> omega

/-- Adding `p` to one coordinate of a ciphertext whose pre-rounding values keep
a margin of `40 p` from the rounding boundary does not change the plaintext. -/
theorem decrypt_add_p {A_rand : Nat → Nat → Nat} {S_gauss E_gauss : Nat → Nat → Int}
    {sk : secret_key} (hk : keygen A_rand S_gauss E_gauss = some sk)
    (hS : bounded2 40 n pt_dim S_gauss) (c : List Nat)
    (hc : c.length = n + pt_dim) (k : Nat) (z : Nat → Int)
    (hz : ∀ j, j < pt_dim → ((preround S_gauss c j : Int) : ZMod q) = ((z j : Int) : ZMod q)
      ∧ -((2 : Int) ^ 57) + 40 * (p_int : Int) < z j
      ∧ z j ≤ (2 : Int) ^ 57 - 40 * (p_int : Int)) :
    decrypt sk (ciphertext.add_p_at ⟨c⟩ k)
        = some (NTL.vec_of pt_dim (fun j => (z j % (p_int : Int)).toNat))
    ∧ decrypt sk ⟨c⟩ = some (NTL.vec_of pt_dim (fun j => (z j % (p_int : Int)).toNat)) := by
  have hp : (p_int : Int) = 65537 := by decide
  constructor
  · have hlen : (ciphertext.add_p_at ⟨c⟩ k).ctxt.length = n + pt_dim := by
      unfold ciphertext.add_p_at
      dsimp only
      rw [NTL.length_vec_of, hc]
    have h := decrypt_of_preround hk (ciphertext.add_p_at ⟨c⟩ k).ctxt hlen
      (fun j => z j
        + (p_int : Int) * (if k < n then -(S_gauss k j) else if k = n + j then 1 else 0))
      (fun j hj => by
        obtain ⟨e, h1, h2⟩ := hz j hj
        have hs : |(if k < n then -(S_gauss k j) else if k = n + j then (1 : Int) else 0)|
            ≤ 40 := by
          by_cases a : k < n
          · rw [if_pos a, abs_neg]
            exact hS k j a hj
          · rw [if_neg a]
            by_cases b : k = n + j
            · rw [if_pos b]
              norm_num
            · rw [if_neg b]
              norm_num
        refine ⟨?_, ?_⟩
        · rw [cast_preround_add_p S_gauss c hc k j hj, Int.cast_add, e, Int.cast_add]
        · rw [hp] at h1 h2 ⊢
          exact add_p_range h1 h2 hs)
    rw [h]
    refine congrArg some (NTL.vec_of_congr fun j _ => ?_)
    rw [Int.add_mul_emod_self_left]
  · exact decrypt_of_preround hk c hc z (fun j hj => by
      obtain ⟨e, h1, h2⟩ := hz j hj
      rw [hp] at h1 h2
      exact ⟨e, by omega, by omega⟩)

end LWE

namespace LWE

theorem ciphertext_eta (c : ciphertext) : (⟨c.ctxt⟩ : ciphertext) = c := rfl

/-- From the coordinates of `S^T * c` computed with the key to the pre-rounding
value. -/
theorem cast_preround_of_key {A_rand : Nat → Nat → Nat} {S_gauss E_gauss : Nat → Nat → Int}
    {sk : secret_key} (hk : keygen A_rand S_gauss E_gauss = some sk) (c : List Nat) (z : Int)
    (j : Nat) (hj : j < pt_dim)
    (hz : NTL.conv q z
      = (∑ i in Finset.range (n + pt_dim), NTL.entry sk.S i j * c.getD i 0) % q) :
    ((preround S_gauss c j : Int) : ZMod q) = ((z : Int) : ZMod q) := by
  have hsum : ∑ i in Finset.range (n + pt_dim), NTL.entry sk.S i j * c.getD i 0
      = ∑ i in Finset.range (n + pt_dim), key_S_entry S_gauss i j * c.getD i 0 := by
    refine Finset.sum_congr rfl fun i hi => ?_
    rw [keygen_S hk, NTL.entry_mat_of _ (Finset.mem_range.1 hi) hj]
  rw [← cast_sum_S S_gauss c j hj, ← hsum, ← ZMod.natCast_mod, ← hz, NTL.cast_conv]

end LWE

namespace libsnark

open LWE

/-- The verifier reads a proof only through its decryption. -/
theorem verifier_congr (vk : r1cs_lattice_ppsnarg_verification_key) (x : List Nat)
    (p1 p2 : r1cs_lattice_ppsnarg_proof)
    (h : decrypt vk.sk p1.response = decrypt vk.sk p2.response) :
    r1cs_lattice_ppsnarg_verifier vk x p1 = r1cs_lattice_ppsnarg_verifier vk x p2 := by
  unfold r1cs_lattice_ppsnarg_verifier verifier_values
  rw [h]

theorem ex_zero_proof_length : ex_zero_proof.response.ctxt.length = n + pt_dim := by
  unfold ex_zero_proof
  dsimp only
  exact NTL.length_vec_of _ _

theorem ex_zero_proof_sum (S : matrix) (j : Nat) :
    (∑ i in Finset.range (n + pt_dim), NTL.entry S i j * ex_zero_proof.response.ctxt.getD i 0) % q
      = NTL.conv q 0 := by
  have h : ∑ i in Finset.range (n + pt_dim),
      NTL.entry S i j * ex_zero_proof.response.ctxt.getD i 0 = 0 := by
    refine Finset.sum_eq_zero fun i hi => ?_
    unfold ex_zero_proof
    dsimp only
    rw [NTL.getD_vec_of _ (Finset.mem_range.1 hi), Nat.mul_zero]
  rw [h]
  rfl

/-- The values the verifier reconstructs from an all-zero decryption, for the
sample reduction and the input `(3)`. -/
theorem ex_gen_values_zero (draws : generator_draws) (Yp : matrix) (i : Nat) :
    gen_values (gen_inst ex_ext () draws) Yp [3] (fun _ => 0) i = (3, 1, 3, 0) := by
  unfold gen_values gen_inst ex_ext
  simp [p, p_int]

end libsnark

namespace LWE

/-- The pre-rounding value of a linear combination of ciphertexts. -/
theorem cast_preround_sum (S_gauss : Nat → Nat → Int) (R : Nat) (pi : Nat → Nat)
    (f : Nat → Nat → Nat) (j : Nat) (hj : j < pt_dim) :
    ((preround S_gauss (NTL.vec_of (n + pt_dim)
        (fun i => (∑ r in Finset.range R, pi r * f r i) % q)) j : Int) : ZMod q)
      = ∑ r in Finset.range R, (pi r : ZMod q)
          * ((preround S_gauss (NTL.vec_of (n + pt_dim) (f r)) j : Int) : ZMod q) := by
  rw [cast_preround_vec_of _ _ _ hj]
  have e : ∀ r ∈ Finset.range R, (pi r : ZMod q)
        * ((preround S_gauss (NTL.vec_of (n + pt_dim) (f r)) j : Int) : ZMod q)
      = (pi r : ZMod q) * (f r (n + j) : ZMod q)
        - ∑ k in Finset.range n, (S_gauss k j : ZMod q) * ((pi r : ZMod q) * (f r k : ZMod q)) := by
    intro r _
    rw [cast_preround_vec_of _ _ _ hj, mul_sub, Finset.mul_sum]
    refine congrArg _ (Finset.sum_congr rfl fun k _ => ?_)
    ring
  rw [Finset.sum_congr rfl e, Finset.sum_sub_distrib, Finset.sum_comm]
  simp only [ZMod.natCast_mod, Nat.cast_sum, Nat.cast_mul, Finset.mul_sum]

end LWE

namespace libsnark

open LWE

theorem cast_proof_preround (qap_inst : Nat → qap_instance_evaluation) (draws : generator_draws)
    (pi : Nat → Nat) (j : Nat) (hj : j < pt_dim) :
    ((preround draws.S_gauss (NTL.vec_of (n + pt_dim) (fun i =>
        (∑ r in Finset.range (gen_rows qap_inst), pi r * gen_crs_entry qap_inst draws r i) % q))
        j : Int) : ZMod q)
      = ((proof_preround qap_inst draws pi j : Int) : ZMod q) := by
  rw [cast_preround_sum _ _ _ _ _ hj]
  unfold proof_preround
  rw [Int.cast_sum]
  refine Finset.sum_congr rfl fun r _ => ?_
  have h := cast_preround_fresh draws.A_rand draws.S_gauss draws.E_gauss
    (NTL.vec_of (4 * LWE.l) (gen_masked_entry qap_inst draws.Y_rand r))
    (draws.enc_r r) (draws.enc_e r) j hj
  rw [NTL.getD_vec_of _ (by rw [← pt_dim_eq]; exact hj)] at h
  rw [Int.cast_mul, Int.cast_natCast, ← h]
  rfl

/-- The proof of the prover under a CRS of the generator, and its
decryption, from any representative `z` of the pre-rounding value in the
rounding window. -/
theorem prover_decrypt {CS : Type} (ext : r1cs_to_qap CS) (cs : CS) (draws : generator_draws)
    (V1 Hn : Nat) (hwf : instances_well_formed ext cs draws V1 Hn)
    (kp : r1cs_lattice_ppsnarg_keypair CS)
    (hgen : r1cs_lattice_ppsnarg_generator ext cs draws = some kp)
    (x w : List Nat) (d1 d2 d3 : Nat) (qap_wit : qap_witness)
    (hw : ext.witness_map cs x w (random_element d1) (random_element d2) (random_element d3)
      = qap_wit)
    (hI : qap_wit.num_inputs ≤ qap_wit.coefficients_for_ABCs.length)
    (hdim : qap_wit.coefficients_for_ABCs.length - qap_wit.num_inputs + 3
      + qap_wit.coefficients_for_H.length = gen_rows (gen_inst ext cs draws))
    (z : Nat → Int)
    (hz : ∀ j, j < pt_dim →
      ((z j : Int) : ZMod q)
        = ((proof_preround (gen_inst ext cs draws) draws (pi_entry qap_wit) j : Int) : ZMod q)
      ∧ -((2 : Int) ^ 57) < z j ∧ z j ≤ (2 : Int) ^ 57) :
    ∃ proof, r1cs_lattice_ppsnarg_prover ext kp.crs x w d1 d2 d3 = some proof
      ∧ proof.response.ctxt.length = n + pt_dim
      ∧ decrypt kp.vk.sk proof.response
          = some (NTL.vec_of pt_dim (fun j => (z j % (p_int : Int)).toNat)) := by
  obtain ⟨Yprime, _, hkp⟩ := generator_keypair ext cs draws V1 Hn hwf kp hgen
  obtain ⟨_, hk, _, hcs⟩ := generator_some ext cs draws kp hgen
  have he : kp.crs.enc_queries
      = (List.range (gen_rows (gen_inst ext cs draws))).map (fun r =>
          ⟨NTL.vec_of (n + pt_dim) (gen_crs_entry (gen_inst ext cs draws) draws r)⟩) := by
    rw [hkp]
    exact gen_keypair_enc_queries ext cs draws Yprime
  have hR : kp.crs.enc_queries.length = gen_rows (gen_inst ext cs draws) := by
    rw [he, List.length_map, List.length_range]
  have hL : ∀ c ∈ kp.crs.enc_queries, c.ctxt.length = n + pt_dim := by
    intro c hc
    rw [he] at hc
    obtain ⟨r, _, hr⟩ := List.mem_map.1 hc
    rw [← hr]
    dsimp only
    exact NTL.length_vec_of _ _
  have hw2 : ext.witness_map kp.crs.constraint_system x w (random_element d1)
      (random_element d2) (random_element d3) = qap_wit := by
    rw [hcs]
    exact hw
  have hprove := prover_eq ext kp.crs x w d1 d2 d3 qap_wit (n + pt_dim)
    (gen_rows (gen_inst ext cs draws)) hw2 hI hdim hR hL
  have hG : NTL.vec_of (n + pt_dim) (fun j =>
        (∑ i in Finset.range (gen_rows (gen_inst ext cs draws)),
          pi_entry qap_wit i * (kp.crs.enc_queries.getD i ⟨[]⟩).ctxt.getD j 0) % q)
      = NTL.vec_of (n + pt_dim) (fun j =>
        (∑ i in Finset.range (gen_rows (gen_inst ext cs draws)),
          pi_entry qap_wit i * gen_crs_entry (gen_inst ext cs draws) draws i j) % q) := by
    refine NTL.vec_of_congr fun j hj => ?_
    refine congrArg (fun t => t % q) (Finset.sum_congr rfl fun i hi => ?_)
    rw [he, getD_map_range _ _ _ (Finset.mem_range.1 hi)]
    dsimp only
    rw [NTL.getD_vec_of _ hj]
  rw [hG] at hprove
  refine ⟨_, hprove, ?_, ?_⟩
  · dsimp only
    exact NTL.length_vec_of _ _
  · dsimp only
    exact decrypt_of_preround hk _ (NTL.length_vec_of _ _) z (fun j hj =>
      ⟨(cast_proof_preround _ _ _ j hj).trans (hz j hj).1.symm, (hz j hj).2⟩)

end libsnark

namespace libsnark

open LWE

theorem pi_entry_ABC (qap_wit : qap_witness) {r : Nat}
    (hr : r < qap_wit.coefficients_for_ABCs.length - qap_wit.num_inputs) :
    pi_entry qap_wit r = qap_wit.coefficients_for_ABCs.getD (r + qap_wit.num_inputs) 0 := by
  rw [← pi_entry_eq]
  unfold NTL.assign
  dsimp only
  rw [if_neg (by omega), if_neg (by omega), if_neg (by omega), if_neg (by omega),
    if_pos (by omega), Nat.sub_zero]

theorem pi_entry_d1 (qap_wit : qap_witness) :
    pi_entry qap_wit (qap_wit.coefficients_for_ABCs.length - qap_wit.num_inputs)
      = qap_wit.d1 := by
  rw [← pi_entry_eq]
  unfold NTL.assign
  dsimp only
  rw [if_neg (by omega), if_neg (by omega), if_neg (by omega), if_pos (by omega)]

theorem pi_entry_d2 (qap_wit : qap_witness) :
    pi_entry qap_wit (qap_wit.coefficients_for_ABCs.length - qap_wit.num_inputs + 1)
      = qap_wit.d2 := by
  rw [← pi_entry_eq]
  unfold NTL.assign
  dsimp only
  rw [if_neg (by omega), if_neg (by omega), if_pos (by omega)]

theorem pi_entry_d3 (qap_wit : qap_witness) :
    pi_entry qap_wit (qap_wit.coefficients_for_ABCs.length - qap_wit.num_inputs + 2)
      = qap_wit.d3 := by
  rw [← pi_entry_eq]
  unfold NTL.assign
  dsimp only
  rw [if_neg (by omega), if_pos (by omega)]

theorem pi_entry_H (qap_wit : qap_witness) {k : Nat}
    (hk : k < qap_wit.coefficients_for_H.length) :
    pi_entry qap_wit (qap_wit.coefficients_for_ABCs.length - qap_wit.num_inputs + 3 + k)
      = qap_wit.coefficients_for_H.getD k 0 := by
  rw [← pi_entry_eq, if_pos ⟨rfl, by omega, by omega⟩, Nat.add_sub_cancel_left]

/-- A sum over the rows of the query matrix, split into the A/B/C rows, the
three Z rows and the H rows. -/
theorem sum_rows (f : Nat → Nat) (ρ Hn : Nat) :
    ∑ r in Finset.range (ρ + 3 + Hn), f r
      = ∑ r in Finset.range ρ, f r + (f ρ + f (ρ + 1) + f (ρ + 2))
        + ∑ k in Finset.range Hn, f (ρ + 3 + k) := by
  rw [Finset.sum_range_add, Finset.sum_range_add, Finset.sum_range_succ,
    Finset.sum_range_succ, Finset.sum_range_one]
  rfl

end libsnark

namespace libsnark

open LWE

theorem query_entry_Z_at (A_query B_query C_query H_query : List (List Nat)) (Zs : List Nat)
    (num_inputs ρ Hn : Nat) {k : Nat} (hk : k < 3) {b i : Nat} (hi : i < LWE.l) :
    query_entry A_query B_query C_query H_query Zs num_inputs ρ Hn (ρ + k) (b * LWE.l + i)
      = if k = b then Zs.getD i 0 else 0 := by
  have hl : LWE.l = 15 := rfl
  rw [query_entry_Z _ _ _ _ _ _ _ _ hk]
  by_cases h : k = b
  · subst h
    rw [if_pos ⟨Nat.le_add_right _ _, Nat.add_lt_add_left hi _⟩, if_pos rfl,
      Nat.add_sub_cancel_left]
  · rw [if_neg h]
    rcases Nat.lt_or_gt_of_ne h with h1 | h1
    · have : (k + 1) * LWE.l ≤ b * LWE.l := Nat.mul_le_mul_right _ h1
      rw [if_neg (by rw [Nat.add_mul, Nat.one_mul] at this; omega)]
    · have : (b + 1) * LWE.l ≤ k * LWE.l := Nat.mul_le_mul_right _ h1
      rw [if_neg (by rw [Nat.add_mul, Nat.one_mul] at this; omega)]

theorem query_entry_H_at (A_query B_query C_query H_query : List (List Nat)) (Zs : List Nat)
    (num_inputs ρ Hn : Nat) {r : Nat} (hr : r < Hn) {b i : Nat} (hb : b ≤ 3)
    (hi : i < LWE.l) :
    query_entry A_query B_query C_query H_query Zs num_inputs ρ Hn (ρ + 3 + r)
        (b * LWE.l + i)
      = if b = 3 then (H_query.getD i []).getD r 0 else 0 := by
  have hl : LWE.l = 15 := rfl
  rw [query_entry_H _ _ _ _ _ _ _ _ hr]
  by_cases h : b = 3
  · subst h
    rw [if_pos ⟨Nat.le_add_right _ _, Nat.add_lt_add_left hi _⟩, if_pos rfl,
      Nat.add_sub_cancel_left]
  · have h1 : b + 1 ≤ 3 := by omega
    have : (b + 1) * LWE.l ≤ 3 * LWE.l := Nat.mul_le_mul_right _ h1
    rw [if_neg h, if_neg (by rw [Nat.add_mul, Nat.one_mul] at this; omega)]

/-- Column `i` of block A of `M^T * pi`. -/
theorem column_A (A_query B_query C_query H_query : List (List Nat)) (Zs : List Nat)
    (num_inputs ρ Hn : Nat) (pi : Nat → Nat) {i : Nat} (hi : i < LWE.l) :
    ∑ r in Finset.range (ρ + 3 + Hn),
        query_entry A_query B_query C_query H_query Zs num_inputs ρ Hn r i * pi r
      = ∑ r in Finset.range ρ, (A_query.getD i []).getD (r + num_inputs + 1) 0 * pi r
        + Zs.getD i 0 * pi ρ := by
  have e0 := query_entry_Z_at A_query B_query C_query H_query Zs num_inputs ρ Hn
    (show 0 < 3 by omega) (b := 0) hi
  have e1 := query_entry_Z_at A_query B_query C_query H_query Zs num_inputs ρ Hn
    (show 1 < 3 by omega) (b := 0) hi
  have e2 := query_entry_Z_at A_query B_query C_query H_query Zs num_inputs ρ Hn
    (show 2 < 3 by omega) (b := 0) hi
  rw [Nat.zero_mul, Nat.zero_add] at e0 e1 e2
  rw [Nat.add_zero, if_pos rfl] at e0
  rw [if_neg (by omega)] at e1 e2
  rw [sum_rows, e0, e1, e2, Nat.zero_mul, Nat.zero_mul, Nat.add_zero, Nat.add_zero]
  have hH : ∑ k in Finset.range Hn,
      query_entry A_query B_query C_query H_query Zs num_inputs ρ Hn (ρ + 3 + k) i
        * pi (ρ + 3 + k) = 0 := by
    refine Finset.sum_eq_zero fun k hk => ?_
    have e := query_entry_H_at A_query B_query C_query H_query Zs num_inputs ρ Hn
      (Finset.mem_range.1 hk) (b := 0) (by omega) hi
    rw [Nat.zero_mul, Nat.zero_add, if_neg (by omega)] at e
    rw [e, Nat.zero_mul]
  rw [hH, Nat.add_zero]
  refine congrArg (fun t => t + Zs.getD i 0 * pi ρ) (Finset.sum_congr rfl fun r hr => ?_)
  rw [query_entry_A _ _ _ _ _ _ _ _ (Finset.mem_range.1 hr) hi]

/-- Column `i` of block B of `M^T * pi`. -/
theorem column_B (A_query B_query C_query H_query : List (List Nat)) (Zs : List Nat)
    (num_inputs ρ Hn : Nat) (pi : Nat → Nat) {i : Nat} (hi : i < LWE.l) :
    ∑ r in Finset.range (ρ + 3 + Hn),
        query_entry A_query B_query C_query H_query Zs num_inputs ρ Hn r (LWE.l + i) * pi r
      = ∑ r in Finset.range ρ, (B_query.getD i []).getD (r + num_inputs + 1) 0 * pi r
        + Zs.getD i 0 * pi (ρ + 1) := by
  have e0 := query_entry_Z_at A_query B_query C_query H_query Zs num_inputs ρ Hn
    (show 0 < 3 by omega) (b := 1) hi
  have e1 := query_entry_Z_at A_query B_query C_query H_query Zs num_inputs ρ Hn
    (show 1 < 3 by omega) (b := 1) hi
  have e2 := query_entry_Z_at A_query B_query C_query H_query Zs num_inputs ρ Hn
    (show 2 < 3 by omega) (b := 1) hi
  rw [Nat.one_mul] at e0 e1 e2
  rw [Nat.add_zero, if_neg (by omega)] at e0
  rw [if_pos rfl] at e1
  rw [if_neg (by omega)] at e2
  rw [sum_rows, e0, e1, e2, Nat.zero_mul, Nat.zero_mul, Nat.add_zero, Nat.zero_add]
  have hH : ∑ k in Finset.range Hn,
      query_entry A_query B_query C_query H_query Zs num_inputs ρ Hn (ρ + 3 + k) (LWE.l + i)
        * pi (ρ + 3 + k) = 0 := by
    refine Finset.sum_eq_zero fun k hk => ?_
    have e := query_entry_H_at A_query B_query C_query H_query Zs num_inputs ρ Hn
      (Finset.mem_range.1 hk) (b := 1) (by omega) hi
    rw [Nat.one_mul, if_neg (by omega)] at e
    rw [e, Nat.zero_mul]
  rw [hH, Nat.add_zero]
  refine congrArg (fun t => t + Zs.getD i 0 * pi (ρ + 1)) (Finset.sum_congr rfl fun r hr => ?_)
  rw [query_entry_B _ _ _ _ _ _ _ _ (Finset.mem_range.1 hr) hi]

/-- Column `i` of block C of `M^T * pi`. -/
theorem column_C (A_query B_query C_query H_query : List (List Nat)) (Zs : List Nat)
    (num_inputs ρ Hn : Nat) (pi : Nat → Nat) {i : Nat} (hi : i < LWE.l) :
    ∑ r in Finset.range (ρ + 3 + Hn),
        query_entry A_query B_query C_query H_query Zs num_inputs ρ Hn r (2 * LWE.l + i) * pi r
      = ∑ r in Finset.range ρ, (C_query.getD i []).getD (r + num_inputs + 1) 0 * pi r
        + Zs.getD i 0 * pi (ρ + 2) := by
  have e0 := query_entry_Z_at A_query B_query C_query H_query Zs num_inputs ρ Hn
    (show 0 < 3 by omega) (b := 2) hi
  have e1 := query_entry_Z_at A_query B_query C_query H_query Zs num_inputs ρ Hn
    (show 1 < 3 by omega) (b := 2) hi
  have e2 := query_entry_Z_at A_query B_query C_query H_query Zs num_inputs ρ Hn
    (show 2 < 3 by omega) (b := 2) hi
  rw [Nat.add_zero, if_neg (by omega)] at e0
  rw [if_neg (by omega)] at e1
  rw [if_pos rfl] at e2
  rw [sum_rows, e0, e1, e2, Nat.zero_mul, Nat.zero_mul, Nat.zero_add]
  have hH : ∑ k in Finset.range Hn,
      query_entry A_query B_query C_query H_query Zs num_inputs ρ Hn (ρ + 3 + k)
        (2 * LWE.l + i) * pi (ρ + 3 + k) = 0 := by
    refine Finset.sum_eq_zero fun k hk => ?_
    have e := query_entry_H_at A_query B_query C_query H_query Zs num_inputs ρ Hn
      (Finset.mem_range.1 hk) (b := 2) (by omega) hi
    rw [if_neg (by omega)] at e
    rw [e, Nat.zero_mul]
  rw [hH, Nat.add_zero]
  refine congrArg (fun t => t + Zs.getD i 0 * pi (ρ + 2)) (Finset.sum_congr rfl fun r hr => ?_)
  rw [query_entry_C _ _ _ _ _ _ _ _ (Finset.mem_range.1 hr) hi]

/-- Column `i` of block H of `M^T * pi`. -/
theorem column_H (A_query B_query C_query H_query : List (List Nat)) (Zs : List Nat)
    (num_inputs ρ Hn : Nat) (pi : Nat → Nat) {i : Nat} (hi : i < LWE.l) :
    ∑ r in Finset.range (ρ + 3 + Hn),
        query_entry A_query B_query C_query H_query Zs num_inputs ρ Hn r (3 * LWE.l + i) * pi r
      = ∑ k in Finset.range Hn, (H_query.getD i []).getD k 0 * pi (ρ + 3 + k) := by
  have e0 := query_entry_Z_at A_query B_query C_query H_query Zs num_inputs ρ Hn
    (show 0 < 3 by omega) (b := 3) hi
  have e1 := query_entry_Z_at A_query B_query C_query H_query Zs num_inputs ρ Hn
    (show 1 < 3 by omega) (b := 3) hi
  have e2 := query_entry_Z_at A_query B_query C_query H_query Zs num_inputs ρ Hn
    (show 2 < 3 by omega) (b := 3) hi
  rw [Nat.add_zero, if_neg (by omega)] at e0
  rw [if_neg (by omega)] at e1 e2
  rw [sum_rows, e0, e1, e2]
  have hABC : ∑ r in Finset.range ρ,
      query_entry A_query B_query C_query H_query Zs num_inputs ρ Hn r (3 * LWE.l + i) * pi r
        = 0 := by
    refine Finset.sum_eq_zero fun r hr => ?_
    rw [query_entry_ABC_zero _ _ _ _ _ _ _ _ (Finset.mem_range.1 hr) (Nat.le_add_right _ _),
      Nat.zero_mul]
  rw [hABC]
  simp only [Nat.zero_mul, Nat.add_zero, Nat.zero_add]
  refine Finset.sum_congr rfl fun k hk => ?_
  have e := query_entry_H_at A_query B_query C_query H_query Zs num_inputs ρ Hn
    (Finset.mem_range.1 hk) (b := 3) (by omega) hi
  rw [if_pos rfl] at e
  rw [e]

end libsnark

namespace libsnark

open LWE

/-- The value the verifier reconstructs for one of the blocks A, B, C is, modulo
`p`, the evaluation that `is_satisfied` computes. -/
theorem value_ABC (Qt alpha x : List Nat) (ρ z d : Nat)
    (hα : ∀ k, k < x.length → alpha.getD k 0 = x.getD k 0) :
    (((∑ r in Finset.range ρ, Qt.getD (r + x.length + 1) 0 * alpha.getD (r + x.length) 0
          + z * d) % p + Qt.getD 0 0
        + ∑ j in Finset.range x.length, x.getD j 0 * Qt.getD (j + 1) 0 : Nat) : ZMod p)
      = ((Qt.getD 0 0 + d * z
          + ∑ k in Finset.range (x.length + ρ), Qt.getD (k + 1) 0 * alpha.getD k 0 : Nat)
            : ZMod p) := by
  have e1 : ∑ k in Finset.range (x.length + ρ), Qt.getD (k + 1) 0 * alpha.getD k 0
      = ∑ j in Finset.range x.length, x.getD j 0 * Qt.getD (j + 1) 0
        + ∑ r in Finset.range ρ, Qt.getD (r + x.length + 1) 0 * alpha.getD (r + x.length) 0 := by
    rw [Finset.sum_range_add]
    refine congrArg₂ (fun a b => a + b) (Finset.sum_congr rfl fun k hk => ?_)
      (Finset.sum_congr rfl fun r _ => ?_)
    · rw [hα k (Finset.mem_range.1 hk), Nat.mul_comm]
    · rw [Nat.add_comm x.length r]
  rw [e1]
  push_cast [ZMod.natCast_mod]
  ring

/-- The divisibility check from the values modulo `p`. -/
theorem check_of_cast {a b c hh z A B C H : Nat} (ha : (a : ZMod p) = (A : ZMod p))
    (hb : (b : ZMod p) = (B : ZMod p)) (hc : (c : ZMod p) = (C : ZMod p))
    (hH : (hh : ZMod p) = (H : ZMod p)) (hsat : (A * B) % p = (H * z + C) % p) :
    a * b % p = (hh * z % p + c) % p := by
  apply (ZMod.natCast_eq_natCast_iff' _ _ p).1
  have h := (ZMod.natCast_eq_natCast_iff' _ _ p).2 hsat
  push_cast at h
  push_cast [ZMod.natCast_mod]
  rw [ha, hb, hc, hH]
  exact h

theorem check_iff_cast {a b c hh z : Nat} :
    a * b % p = (hh * z % p + c) % p
      ↔ (a : ZMod p) * (b : ZMod p) = (hh : ZMod p) * (z : ZMod p) + (c : ZMod p) := by
  rw [← ZMod.natCast_eq_natCast_iff']
  push_cast [ZMod.natCast_mod]
  rfl

end libsnark

namespace libsnark

open LWE

/-- The facts that `is_satisfied` checks. -/
theorem is_satisfied_facts (inst : qap_instance_evaluation) (wit : qap_witness)
    (h : inst.is_satisfied wit = true) :
    inst.num_inputs = wit.num_inputs
    ∧ inst.num_variables = wit.coefficients_for_ABCs.length
    ∧ inst.degree + 1 = wit.coefficients_for_H.length
    ∧ inst.At.length = wit.coefficients_for_ABCs.length + 1
    ∧ inst.Bt.length = wit.coefficients_for_ABCs.length + 1
    ∧ inst.Ct.length = wit.coefficients_for_ABCs.length + 1
    ∧ inst.Ht.length = wit.coefficients_for_H.length
    ∧ ((inst.At.getD 0 0 + wit.d1 * inst.Zt
          + ∑ k in Finset.range inst.num_variables,
              inst.At.getD (k + 1) 0 * wit.coefficients_for_ABCs.getD k 0)
        * (inst.Bt.getD 0 0 + wit.d2 * inst.Zt
          + ∑ k in Finset.range inst.num_variables,
              inst.Bt.getD (k + 1) 0 * wit.coefficients_for_ABCs.getD k 0)) % p
      = ((∑ k in Finset.range (inst.degree + 1),
              inst.Ht.getD k 0 * wit.coefficients_for_H.getD k 0) * inst.Zt
          + (inst.Ct.getD 0 0 + wit.d3 * inst.Zt
            + ∑ k in Finset.range inst.num_variables,
                inst.Ct.getD (k + 1) 0 * wit.coefficients_for_ABCs.getD k 0)) % p := by
  unfold qap_instance_evaluation.is_satisfied at h
  obtain ⟨_, _, h3, h4, h5, h6, h7, h8, h9, h10⟩ := of_decide_eq_true h
  exact ⟨h3, h4, h5, by omega, by omega, by omega, by omega, h10⟩

/-- The unmasked value of column `c`, as a column sum of the query matrix. -/
theorem gen_unmask (inst : Nat → qap_instance_evaluation) (pi : Nat → Nat) (Yp : matrix)
    (Y_rand : Nat → Nat → Nat)
    (hX : ∀ c s, c < 4 * LWE.l → s < 4 * LWE.l →
      ∑ t in Finset.range (4 * LWE.l),
        ((NTL.entry Yp c t : Nat) : ZMod p) * ((random_element (Y_rand s t) : Nat) : ZMod p)
        = if c = s then 1 else 0)
    (c : Nat) (hc : c < 4 * LWE.l) :
    (∑ t in Finset.range (4 * LWE.l), NTL.entry Yp c t
        * ((∑ r in Finset.range (gen_rows inst), gen_masked_entry inst Y_rand r t * pi r) % p)) % p
      = (∑ r in Finset.range (gen_rows inst), gen_query_entry inst r c * pi r) % p := by
  unfold gen_masked_entry
  exact NTL.unmask_sum p (4 * LWE.l) (gen_rows inst) (gen_query_entry inst)
    (fun s t => random_element (Y_rand s t)) (NTL.entry Yp) pi hX c hc

end libsnark

namespace libsnark

open LWE

theorem gen_rows_of_satisfied (inst : Nat → qap_instance_evaluation) (W : qap_witness)
    (h0 : (inst 0).is_satisfied W = true) :
    gen_rows inst
      = W.coefficients_for_ABCs.length - W.num_inputs + 3 + W.coefficients_for_H.length := by
  obtain ⟨a1, _, _, a4, _, _, a7, _⟩ := is_satisfied_facts _ _ h0
  unfold gen_rows
  rw [a1, a4, a7]
  omega

theorem gen_query_entry_of_satisfied (inst : Nat → qap_instance_evaluation) (W : qap_witness)
    (h0 : (inst 0).is_satisfied W = true) (r c : Nat) :
    gen_query_entry inst r c
      = query_entry ((List.range LWE.l).map (fun i => (inst i).At))
          ((List.range LWE.l).map (fun i => (inst i).Bt))
          ((List.range LWE.l).map (fun i => (inst i).Ct))
          ((List.range LWE.l).map (fun i => (inst i).Ht))
          ((List.range LWE.l).map (fun i => (inst i).Zt))
          W.num_inputs (W.coefficients_for_ABCs.length - W.num_inputs)
          W.coefficients_for_H.length r c := by
  obtain ⟨a1, _, _, a4, _, _, a7, _⟩ := is_satisfied_facts _ _ h0
  have hρ : W.coefficients_for_ABCs.length + 1 - W.num_inputs - 1
      = W.coefficients_for_ABCs.length - W.num_inputs := by omega
  unfold gen_query_entry
  rw [a1, a4, a7, hρ]

/-- The four column sums of `M^T * pi` at query index `i`, for the proof vector
of a witness. -/
theorem gen_columns (inst : Nat → qap_instance_evaluation) (W : qap_witness)
    (h0 : (inst 0).is_satisfied W = true) {i : Nat} (hi : i < LWE.l) :
    (∑ r in Finset.range (gen_rows inst), gen_query_entry inst r i * pi_entry W r
      = ∑ r in Finset.range (W.coefficients_for_ABCs.length - W.num_inputs),
          (inst i).At.getD (r + W.num_inputs + 1) 0
            * W.coefficients_for_ABCs.getD (r + W.num_inputs) 0
        + (inst i).Zt * W.d1)
    ∧ (∑ r in Finset.range (gen_rows inst), gen_query_entry inst r (i + LWE.l) * pi_entry W r
      = ∑ r in Finset.range (W.coefficients_for_ABCs.length - W.num_inputs),
          (inst i).Bt.getD (r + W.num_inputs + 1) 0
            * W.coefficients_for_ABCs.getD (r + W.num_inputs) 0
        + (inst i).Zt * W.d2)
    ∧ (∑ r in Finset.range (gen_rows inst),
          gen_query_entry inst r (i + 2 * LWE.l) * pi_entry W r
      = ∑ r in Finset.range (W.coefficients_for_ABCs.length - W.num_inputs),
          (inst i).Ct.getD (r + W.num_inputs + 1) 0
            * W.coefficients_for_ABCs.getD (r + W.num_inputs) 0
        + (inst i).Zt * W.d3)
    ∧ (∑ r in Finset.range (gen_rows inst),
          gen_query_entry inst r (i + 3 * LWE.l) * pi_entry W r
      = ∑ k in Finset.range W.coefficients_for_H.length,
          (inst i).Ht.getD k 0 * W.coefficients_for_H.getD k 0) := by
  have hABC : ∀ (Q : List Nat),
      ∑ r in Finset.range (W.coefficients_for_ABCs.length - W.num_inputs),
          Q.getD (r + W.num_inputs + 1) 0 * pi_entry W r
        = ∑ r in Finset.range (W.coefficients_for_ABCs.length - W.num_inputs),
          Q.getD (r + W.num_inputs + 1) 0 * W.coefficients_for_ABCs.getD (r + W.num_inputs) 0 :=
    fun Q => Finset.sum_congr rfl fun r hr => by
      rw [pi_entry_ABC W (Finset.mem_range.1 hr)]
  simp only [gen_rows_of_satisfied inst W h0, gen_query_entry_of_satisfied inst W h0]
  refine ⟨?_, ?_, ?_, ?_⟩
  · rw [column_A _ _ _ _ _ _ _ _ _ hi, getD_map_range _ _ _ hi, getD_map_range _ _ _ hi,
      pi_entry_d1, hABC]
  · rw [Nat.add_comm i, column_B _ _ _ _ _ _ _ _ _ hi, getD_map_range _ _ _ hi,
      getD_map_range _ _ _ hi, pi_entry_d2, hABC]
  · rw [Nat.add_comm i, column_C _ _ _ _ _ _ _ _ _ hi, getD_map_range _ _ _ hi,
      getD_map_range _ _ _ hi, pi_entry_d3, hABC]
  · rw [Nat.add_comm i, column_H _ _ _ _ _ _ _ _ _ hi, getD_map_range _ _ _ hi]
    refine Finset.sum_congr rfl fun k hk => ?_
    rw [pi_entry_H W (Finset.mem_range.1 hk)]

end libsnark

namespace libsnark

open LWE

/-- With the decryption `(M * Y)^T * pi` of an honest proof, the divisibility
check of the verifier holds at every query index. -/
theorem honest_check (inst : Nat → qap_instance_evaluation) (W : qap_witness) (x : List Nat)
    (Yp : matrix) (Y_rand : Nat → Nat → Nat)
    (hX : ∀ c s, c < 4 * LWE.l → s < 4 * LWE.l →
      ∑ t in Finset.range (4 * LWE.l),
        ((NTL.entry Yp c t : Nat) : ZMod p) * ((random_element (Y_rand s t) : Nat) : ZMod p)
        = if c = s then 1 else 0)
    (hsat : ∀ i, i < LWE.l → (inst i).is_satisfied W = true)
    (hIx : W.num_inputs = x.length)
    (hαx : ∀ k, k < x.length → W.coefficients_for_ABCs.getD k 0 = x.getD k 0)
    (hIα : x.length ≤ W.coefficients_for_ABCs.length)
    (i : Nat) (hi : i < LWE.l) :
    (gen_values inst Yp x (fun t =>
        (∑ r in Finset.range (gen_rows inst), gen_masked_entry inst Y_rand r t * pi_entry W r)
          % p) i).1
      * (gen_values inst Yp x (fun t =>
        (∑ r in Finset.range (gen_rows inst), gen_masked_entry inst Y_rand r t * pi_entry W r)
          % p) i).2.1 % p
    = ((gen_values inst Yp x (fun t =>
        (∑ r in Finset.range (gen_rows inst), gen_masked_entry inst Y_rand r t * pi_entry W r)
          % p) i).2.2.2 * (inst i).Zt % p
      + (gen_values inst Yp x (fun t =>
        (∑ r in Finset.range (gen_rows inst), gen_masked_entry inst Y_rand r t * pi_entry W r)
          % p) i).2.2.1) % p := by
  have hl : LWE.l = 15 := rfl
  have h0 := hsat 0 (by omega)
  obtain ⟨cA, cB, cC, cH⟩ := gen_columns inst W h0 hi
  obtain ⟨_, b2, b3, _, _, _, _, hEq⟩ := is_satisfied_facts _ _ (hsat i hi)
  have hV : (inst i).num_variables
      = x.length + (W.coefficients_for_ABCs.length - x.length) := by omega
  rw [hV, b3] at hEq
  unfold gen_values
  dsimp only
  rw [gen_unmask inst (pi_entry W) Yp Y_rand hX i (by omega),
    gen_unmask inst (pi_entry W) Yp Y_rand hX (i + LWE.l) (by omega),
    gen_unmask inst (pi_entry W) Yp Y_rand hX (i + 2 * LWE.l) (by omega),
    gen_unmask inst (pi_entry W) Yp Y_rand hX (i + 3 * LWE.l) (by omega), cA, cB, cC, cH, hIx]
  refine check_of_cast ?_ ?_ ?_ ?_ hEq
  · rw [ZMod.natCast_mod]
    exact value_ABC (inst i).At W.coefficients_for_ABCs x _ (inst i).Zt W.d1 hαx
  · rw [ZMod.natCast_mod]
    exact value_ABC (inst i).Bt W.coefficients_for_ABCs x _ (inst i).Zt W.d2 hαx
  · rw [ZMod.natCast_mod]
    exact value_ABC (inst i).Ct W.coefficients_for_ABCs x _ (inst i).Zt W.d3 hαx
  · rw [ZMod.natCast_mod]

end libsnark

namespace libsnark

open LWE

/-- The pre-rounding value of an honest proof is, modulo `p`, the coordinate
of `(M * Y)^T * pi`. -/
theorem proof_preround_emod (inst : Nat → qap_instance_evaluation) (draws : generator_draws)
    (pi : Nat → Nat) (j : Nat) :
    (proof_preround inst draws pi j % (p_int : Int)).toNat
      = (∑ r in Finset.range (gen_rows inst), gen_masked_entry inst draws.Y_rand r j * pi r)
          % p := by
  have e : proof_preround inst draws pi j
      = ((∑ r in Finset.range (gen_rows inst),
            gen_masked_entry inst draws.Y_rand r j * pi r : Nat) : Int)
        + (p_int : Int) * ∑ r in Finset.range (gen_rows inst),
            (pi r : Int) * noise draws.S_gauss draws.E_gauss (draws.enc_r r) (draws.enc_e r) j := by
    unfold proof_preround
    rw [Finset.mul_sum, Nat.cast_sum, ← Finset.sum_add_distrib]
    refine Finset.sum_congr rfl fun r _ => ?_
    push_cast
    ring
  rw [e, Int.add_mul_emod_self_left, ← Int.natCast_mod, Int.toNat_natCast]
  rfl

/-- A bound on the pre-rounding value of an honest proof, for Gaussian samples
of absolute value at most 40. -/
theorem abs_proof_preround_le (inst : Nat → qap_instance_evaluation) (draws : generator_draws)
    (pi : Nat → Nat) (hS : bounded2 40 n pt_dim draws.S_gauss)
    (hE : bounded2 40 pt_dim n draws.E_gauss)
    (hr : ∀ r, bounded 40 n (draws.enc_r r)) (he : ∀ r, bounded 40 (n + pt_dim) (draws.enc_e r))
    (j : Nat) (hj : j < pt_dim) :
    |proof_preround inst draws pi j|
      ≤ ((∑ r in Finset.range (gen_rows inst), pi r : Nat) : Int) * 305143000000 := by
  unfold proof_preround
  rw [Nat.cast_sum, Finset.sum_mul]
  refine (Finset.abs_sum_le_sum_abs _ _).trans (Finset.sum_le_sum fun r _ => ?_)
  have hN := abs_noise_le 40 draws.S_gauss draws.E_gauss (draws.enc_r r) (draws.enc_e r)
    hS hE (hr r) (he r) j hj
  have hn : (n : Int) = 1455 := by decide
  have hp : (p_int : Int) = 65537 := by decide
  rw [hn] at hN
  have hm : gen_masked_entry inst draws.Y_rand r j < 65537 := by
    unfold gen_masked_entry
    exact Nat.mod_lt _ (by decide)
  rw [abs_mul, abs_of_nonneg (Int.natCast_nonneg _), hp]
  refine mul_le_mul_of_nonneg_left ?_ (Int.natCast_nonneg _)
  have h1 := abs_le.1 hN
  rw [abs_le]
  constructor <;> omega

end libsnark

namespace libsnark

open LWE

/-- A correct reduction gives instance evaluations of the sizes the generator
reads. -/
theorem well_formed_of_correct {CS : Type} (ext : r1cs_to_qap CS) (cs : CS)
    (draws : generator_draws) (x w : List Nat) (hc : ext.correct_on cs x w) (d1 d2 d3 : Nat) :
    instances_well_formed ext cs draws
      ((ext.witness_map cs x w d1 d2 d3).coefficients_for_ABCs.length + 1)
      (ext.witness_map cs x w d1 d2 d3).coefficients_for_H.length := by
  have hs : ∀ i, (gen_inst ext cs draws i).is_satisfied (ext.witness_map cs x w d1 d2 d3)
      = true := fun i => (hc (random_element (draws.t i)) d1 d2 d3).1
  obtain ⟨_, hα, hI, _⟩ := hc 0 d1 d2 d3
  refine ⟨fun i _ => (is_satisfied_facts _ _ (hs i)).2.2.2.1,
    fun i _ => (is_satisfied_facts _ _ (hs i)).2.2.2.2.1,
    fun i _ => (is_satisfied_facts _ _ (hs i)).2.2.2.2.2.1,
    fun i _ => (is_satisfied_facts _ _ (hs i)).2.2.2.2.2.2.1, ?_⟩
  rw [(is_satisfied_facts _ _ (hs 0)).1, hI, hα, List.length_append]
  omega

/-- The prover's proof and the verifier's verdict on it, from a
representative `z` of the pre-rounding value inside the rounding window. -/
theorem honest_run {CS : Type} (ext : r1cs_to_qap CS) (cs : CS) (draws : generator_draws)
    (x w : List Nat) (hc : ext.correct_on cs x w)
    (kp : r1cs_lattice_ppsnarg_keypair CS)
    (hgen : r1cs_lattice_ppsnarg_generator ext cs draws = some kp) (d1 d2 d3 : Nat)
    (z : Nat → Int)
    (hz : ∀ j, j < pt_dim →
      ((z j : Int) : ZMod q)
        = ((proof_preround (gen_inst ext cs draws) draws
            (pi_entry (ext.witness_map cs x w (random_element d1) (random_element d2)
              (random_element d3))) j : Int) : ZMod q)
      ∧ -((2 : Int) ^ 57) < z j ∧ z j ≤ (2 : Int) ^ 57) :
    ∃ proof, r1cs_lattice_ppsnarg_prover ext kp.crs x w d1 d2 d3 = some proof
      ∧ proof.response.ctxt.length = n + pt_dim
      ∧ decrypt kp.vk.sk proof.response
          = some (NTL.vec_of pt_dim (fun j => (z j % (p_int : Int)).toNat))
      ∧ r1cs_lattice_ppsnarg_verifier kp.vk x proof
          = some (decide (∀ i, i < r1cs_lattice_ppsnarg_num_queries →
              (gen_values (gen_inst ext cs draws) kp.vk.Yprime x
                  (fun j => (z j % (p_int : Int)).toNat) i).1
                * (gen_values (gen_inst ext cs draws) kp.vk.Yprime x
                  (fun j => (z j % (p_int : Int)).toNat) i).2.1 % p
              = ((gen_values (gen_inst ext cs draws) kp.vk.Yprime x
                  (fun j => (z j % (p_int : Int)).toNat) i).2.2.2
                    * (gen_inst ext cs draws i).Zt % p
                + (gen_values (gen_inst ext cs draws) kp.vk.Yprime x
                  (fun j => (z j % (p_int : Int)).toNat) i).2.2.1) % p)) := by
  have hwf := well_formed_of_correct ext cs draws x w hc (random_element d1) (random_element d2)
    (random_element d3)
  have hs : ∀ i, (gen_inst ext cs draws i).is_satisfied
      (ext.witness_map cs x w (random_element d1) (random_element d2) (random_element d3))
      = true := fun i => (hc (random_element (draws.t i)) _ _ _).1
  obtain ⟨_, hα, hI, _⟩ := hc 0 (random_element d1) (random_element d2) (random_element d3)
  obtain ⟨proof, hp, hlen, hdec⟩ := prover_decrypt ext cs draws _ _ hwf kp hgen x w d1 d2 d3 _
    rfl (by rw [hI, hα, List.length_append]; omega)
    (gen_rows_of_satisfied _ _ (hs 0)).symm z hz
  have hx : x.length = (gen_inst ext cs draws 0).num_inputs := by
    rw [(is_satisfied_facts _ _ (hs 0)).1, hI]
  have hZ := (generator_some ext cs draws kp hgen).2.2.1
  refine ⟨proof, hp, hlen, hdec, ?_⟩
  rw [verifier_generator ext cs draws kp hgen x hx proof hlen _ hdec]
  refine congrArg some (decide_eq_decide.2 ?_)
  have hnq : r1cs_lattice_ppsnarg_num_queries = LWE.l := rfl
  constructor
  · intro h i hi
    have := h i hi
    rw [hZ, getD_map_range _ _ _ (by rw [← hnq]; exact hi)] at this
    exact this
  · intro h i hi
    rw [hZ, getD_map_range _ _ _ (by rw [← hnq]; exact hi)]
    exact h i hi

/-- Completeness of an honest run whose pre-rounding values stay inside the
rounding window. -/
theorem honest_run_accepts {CS : Type} (ext : r1cs_to_qap CS) (cs : CS)
    (draws : generator_draws) (x w : List Nat) (hc : ext.correct_on cs x w)
    (kp : r1cs_lattice_ppsnarg_keypair CS)
    (hgen : r1cs_lattice_ppsnarg_generator ext cs draws = some kp) (d1 d2 d3 : Nat)
    (hz : ∀ j, j < pt_dim →
      -((2 : Int) ^ 57) < proof_preround (gen_inst ext cs draws) draws
          (pi_entry (ext.witness_map cs x w (random_element d1) (random_element d2)
            (random_element d3))) j
      ∧ proof_preround (gen_inst ext cs draws) draws
          (pi_entry (ext.witness_map cs x w (random_element d1) (random_element d2)
            (random_element d3))) j ≤ (2 : Int) ^ 57) :
    ∃ proof, r1cs_lattice_ppsnarg_prover ext kp.crs x w d1 d2 d3 = some proof
      ∧ r1cs_lattice_ppsnarg_verifier kp.vk x proof = some true := by
  obtain ⟨proof, hp, _, _, hv⟩ := honest_run ext cs draws x w hc kp hgen d1 d2 d3 _
    (fun j hj => ⟨rfl, hz j hj⟩)
  obtain ⟨_, hα, hI, _⟩ := hc 0 (random_element d1) (random_element d2) (random_element d3)
  have hX := (Yprime_spec draws.Y_rand kp.vk.Yprime
    (generator_some ext cs draws kp hgen).1).2.2
  refine ⟨proof, hp, ?_⟩
  rw [hv]
  refine congrArg some (decide_eq_true ?_)
  intro i hi
  have hD : (fun j => (proof_preround (gen_inst ext cs draws) draws
        (pi_entry (ext.witness_map cs x w (random_element d1) (random_element d2)
          (random_element d3))) j % (p_int : Int)).toNat)
      = fun t => (∑ r in Finset.range (gen_rows (gen_inst ext cs draws)),
          gen_masked_entry (gen_inst ext cs draws) draws.Y_rand r t
            * pi_entry (ext.witness_map cs x w (random_element d1) (random_element d2)
                (random_element d3)) r) % p :=
    funext fun j => proof_preround_emod _ _ _ j
  rw [hD]
  exact honest_check (gen_inst ext cs draws) _ x kp.vk.Yprime draws.Y_rand hX
    (fun i _ => (hc (random_element (draws.t i)) _ _ _).1) hI
    (fun k hk => by rw [hα, List.getD_append _ _ _ _ hk])
    (by rw [hα, List.length_append]; omega) i hi

end libsnark

namespace libsnark

open LWE

theorem ex_At_sum (v : List Nat) :
    ∑ k in Finset.range 16, (0 :: 1 :: List.replicate 15 0).getD (k + 1) 0 * v.getD k 0
      = v.getD 0 0 := by
  have h : ∀ k, k < 16 → k ≠ 0 → (0 :: 1 :: List.replicate 15 0).getD (k + 1) 0 = 0 := by
    decide
  rw [Finset.sum_eq_single 0]
  · simp
  · intro k hk hk0
    rw [h k (Finset.mem_range.1 hk) hk0, Nat.zero_mul]
  · intro h0
    exact absurd (Finset.mem_range.2 (by omega)) h0

theorem ex_Bt_sum (v : List Nat) :
    ∑ k in Finset.range 16, (1 :: List.replicate 16 0).getD (k + 1) 0 * v.getD k 0 = 0 := by
  have h : ∀ k, k < 16 → (1 :: List.replicate 16 0).getD (k + 1) 0 = 0 := by decide
  refine Finset.sum_eq_zero fun k hk => ?_
  rw [h k (Finset.mem_range.1 hk), Nat.zero_mul]

/-- The polynomial identity of the sample reduction, modulo `p`. -/
theorem ex_identity (x0 d1 d2 d3 t : Nat) :
    ((0 + d1 * (t % p) + x0) * (1 + d2 * (t % p) + 0)) % p
      = ((1 * ((x0 * d2 + d1 + (p - d3 % p)) % p) + t % p * (d1 * d2 % p)) * (t % p)
          + (0 + d3 * (t % p) + x0)) % p := by
  apply (ZMod.natCast_eq_natCast_iff' _ _ p).1
  have hsub : ((p - d3 % p : Nat) : ZMod p) = -(d3 : ZMod p) := by
    rw [Nat.cast_sub (Nat.le_of_lt (Nat.mod_lt _ (by decide))), ZMod.natCast_self,
      ZMod.natCast_mod, zero_sub]
  push_cast [ZMod.natCast_mod]
  rw [hsub]
  ring

/-- The sample reduction is correct on every input of its constraint system. -/
theorem ex_ext_correct (x w : List Nat) (hx : x.length = 1) (hw : w.length = 15) :
    ex_ext.correct_on () x w := by
  intro t d1 d2 d3
  refine ⟨?_, rfl, hx.symm, rfl, rfl, rfl⟩
  unfold qap_instance_evaluation.is_satisfied
  rw [decide_eq_true_iff]
  refine ⟨rfl, rfl, rfl, ?_, rfl, rfl, rfl, rfl, rfl, ?_⟩
  · show 16 = (x ++ w).length
    rw [List.length_append, hx, hw]
  · show ((0 + d1 * (t % p) + ∑ k in Finset.range 16,
          (0 :: 1 :: List.replicate 15 0).getD (k + 1) 0 * (x ++ w).getD k 0)
        * (1 + d2 * (t % p) + ∑ k in Finset.range 16,
          (1 :: List.replicate 16 0).getD (k + 1) 0 * (x ++ w).getD k 0)) % p
      = ((∑ k in Finset.range (1 + 1), [1, t % p].getD k 0
            * [(x.getD 0 0 * d2 + d1 + (p - d3 % p)) % p, d1 * d2 % p].getD k 0) * (t % p)
          + (0 + d3 * (t % p) + ∑ k in Finset.range 16,
            (0 :: 1 :: List.replicate 15 0).getD (k + 1) 0 * (x ++ w).getD k 0)) % p
    rw [ex_At_sum, ex_Bt_sum, Finset.sum_range_succ, Finset.sum_range_one,
      List.getD_append _ _ _ _ (by omega : 0 < x.length)]
    exact ex_identity (x.getD 0 0) d1 d2 d3 t

theorem ex_enc_r_bounded (r : Nat) : bounded 40 n (ex_draws.enc_r r) := by
  intro i _
  show |ex_r_gauss (r + i)| ≤ 40
  unfold ex_r_gauss
  rw [abs_le]
  constructor <;> omega

theorem ex_enc_e_bounded (r : Nat) : bounded 40 (n + pt_dim) (ex_draws.enc_e r) := by
  intro i _
  show |ex_e_gauss (r + i)| ≤ 40
  unfold ex_e_gauss
  rw [abs_le]
  constructor <;> omega

/-- The sum of the entries of the sample proof vector. -/
theorem ex_pi_sum :
    ∑ r in Finset.range (gen_rows (gen_inst ex_ext () ex_draws)),
      pi_entry (ex_ext.witness_map () [3] (List.replicate 15 5) (random_element 1)
        (random_element 2) (random_element 3)) r = 87 := by
  decide

/-- The pre-rounding values of the sample run are inside the rounding window. -/
theorem ex_window (j : Nat) (hj : j < pt_dim) :
    -((2 : Int) ^ 57) < proof_preround (gen_inst ex_ext () ex_draws) ex_draws
        (pi_entry (ex_ext.witness_map () [3] (List.replicate 15 5) (random_element 1)
          (random_element 2) (random_element 3))) j
    ∧ proof_preround (gen_inst ex_ext () ex_draws) ex_draws
        (pi_entry (ex_ext.witness_map () [3] (List.replicate 15 5) (random_element 1)
          (random_element 2) (random_element 3))) j ≤ (2 : Int) ^ 57 := by
  have h := abs_proof_preround_le (gen_inst ex_ext () ex_draws) ex_draws
    (pi_entry (ex_ext.witness_map () [3] (List.replicate 15 5) (random_element 1)
      (random_element 2) (random_element 3))) ex_S_bounded ex_E_bounded ex_enc_r_bounded
    ex_enc_e_bounded j hj
  rw [ex_pi_sum] at h
  have h2 := abs_le.1 h
  constructor <;> omega

end libsnark

namespace libsnark

open LWE

theorem gen_values_congr (inst : Nat → qap_instance_evaluation) (Yp : matrix) (x : List Nat)
    (D D2 : Nat → Nat) (h : ∀ t, t < 4 * LWE.l → D t = D2 t) (i : Nat) :
    gen_values inst Yp x D i = gen_values inst Yp x D2 i := by
  have e : ∀ c, ∑ t in Finset.range (4 * LWE.l), NTL.entry Yp c t * D t
      = ∑ t in Finset.range (4 * LWE.l), NTL.entry Yp c t * D2 t :=
    fun c => Finset.sum_congr rfl fun t ht => by rw [h t (Finset.mem_range.1 ht)]
  unfold gen_values
  rw [e, e, e, e]

/-- The proof vector of the worst-case run: fifteen entries `p - 1`, then
zeros. -/
theorem worst_pi :
    ∀ r, r < 20 →
      pi_entry (ex_ext.witness_map () [3] (List.replicate 15 65536) (random_element 0)
        (random_element 0) (random_element 0)) r = if r < 15 then 65536 else 0 := by
  decide

theorem worst_query_entry :
    ∀ r, r < 15 → ∀ k, k < 60 → gen_query_entry (gen_inst ex_ext () worst_draws) r k = 0 := by
  decide

theorem worst_masked (r j : Nat) (hr : r < 15) :
    gen_masked_entry (gen_inst ex_ext () worst_draws) worst_draws.Y_rand r j = 0 := by
  unfold gen_masked_entry
  rw [Finset.sum_eq_zero fun k hk => by
    rw [worst_query_entry r hr k (Finset.mem_range.1 hk), Nat.zero_mul]]
  rfl

theorem worst_noise (r j : Nat) :
    noise worst_draws.S_gauss worst_draws.E_gauss (worst_draws.enc_r r) (worst_draws.enc_e r) j
      = 2619030 := by
  unfold noise
  show (30 : Int) + ∑ k in Finset.range n, (30 : Int) * 30
      - ∑ k in Finset.range n, (-30 : Int) * 30 = 2619030
  rw [Finset.sum_const, Finset.sum_const, Finset.card_range]
  decide

/-- The pre-rounding value of the worst-case run is above `q / 2`. -/
theorem worst_preround (j : Nat) :
    proof_preround (gen_inst ex_ext () worst_draws) worst_draws
      (pi_entry (ex_ext.witness_map () [3] (List.replicate 15 65536) (random_element 0)
        (random_element 0) (random_element 0))) j = 168732297569894400 := by
  unfold proof_preround
  have hrows : gen_rows (gen_inst ex_ext () worst_draws) = 20 := rfl
  rw [hrows]
  have e : ∀ r ∈ Finset.range 20,
      ((pi_entry (ex_ext.witness_map () [3] (List.replicate 15 65536) (random_element 0)
          (random_element 0) (random_element 0)) r : Nat) : Int)
        * ((gen_masked_entry (gen_inst ex_ext () worst_draws) worst_draws.Y_rand r j : Int)
          + (p_int : Int) * noise worst_draws.S_gauss worst_draws.E_gauss
              (worst_draws.enc_r r) (worst_draws.enc_e r) j)
      = if r < 15 then (11248819837992960 : Int) else 0 := by
    intro r hr
    rw [worst_pi r (Finset.mem_range.1 hr), worst_noise]
    by_cases h : r < 15
    · rw [if_pos h, if_pos h, worst_masked r j h]
      decide
    · rw [if_neg h, if_neg h, Nat.cast_zero, zero_mul]
  rw [Finset.sum_congr rfl e]
  decide

theorem worst_values :
    gen_values (gen_inst ex_ext () worst_draws) (NTL.ident_mat_ZZ_p p (4 * LWE.l)) [3]
      (fun _ => 1024) 0 = (1027, 1025, 1027, 1024) := by
  decide

end libsnark

namespace NTL

theorem mul_mat_vec_mat_of_none (m rows cols : Nat) (f : Nat → Nat → Nat) (x : List Nat)
    (hrows : 0 < rows) (hx : x.length ≠ cols) :
    mul_mat_vec m (mat_of rows cols f) x = none := by
  unfold mul_mat_vec
  rw [if_neg]
  intro hall
  rw [List.all_eq_true] at hall
  have h0 : (List.range cols).map (fun j => f 0 j) ∈ mat_of rows cols f := by
    unfold mat_of
    exact List.mem_map.2 ⟨0, List.mem_range.2 hrows, rfl⟩
  have h1 := hall _ h0
  rw [List.length_map, List.length_range, beq_iff_eq] at h1
  exact hx h1.symm

end NTL

namespace LWE

theorem decrypt_wrong_length (sk : secret_key) (hlen : sk.S.length = n + pt_dim)
    (hrow : ∀ row ∈ sk.S, row.length = pt_dim) (ct : ciphertext)
    (hc : ct.ctxt.length ≠ n + pt_dim) : decrypt sk ct = none := by
  unfold decrypt
  rw [NTL.mat_eq_mat_of sk.S _ _ hlen hrow, NTL.transpose_mat_of _ (by have := n_pos; omega),
    NTL.mul_mat_vec_mat_of_none q pt_dim (n + pt_dim) _ _ (by decide) hc]
  rfl

end LWE

namespace LWE

theorem fresh_entry_take (a : Nat → Nat → Nat) (pt : List Nat) (r_gauss e_gauss : Nat → Int)
    (i : Nat) (hi : i < n + pt_dim) :
    fresh_entry a (pt.take pt_dim) r_gauss e_gauss i = fresh_entry a pt r_gauss e_gauss i := by
  have hd : 0 < pt_dim := by decide
  unfold fresh_entry
  rw [libsnark.getD_take (by omega : i - n < pt_dim)]

end LWE

namespace LWE

theorem mul_transpose_S (sk : secret_key) (s : Nat → Nat → Nat)
    (hS : sk.S = NTL.mat_of (n + pt_dim) pt_dim s) (c : List Nat) (hc : c.length = n + pt_dim) :
    NTL.mul_mat_vec q (NTL.transpose sk.S) c
      = some (NTL.vec_of pt_dim (fun j =>
          (∑ i in Finset.range (n + pt_dim), s i j * c.getD i 0) % q)) := by
  rw [hS, NTL.transpose_mat_of _ (by have := n_pos; omega),
    NTL.mul_mat_vec_mat_of_list q pt_dim (n + pt_dim) _ c hc]

/-- Under a key whose `S` is `[-S_hat; I]`, the product `S^T * c` for a vector
`c` of `n` zeros followed by the entries `g`. -/
theorem padded_product (sk : secret_key) (S_gauss : Nat → Nat → Int)
    (hS : sk.S = NTL.mat_of (n + pt_dim) pt_dim (key_S_entry S_gauss)) (g : Nat → Nat) :
    NTL.mul_mat_vec q (NTL.transpose sk.S)
        (NTL.vec_of (n + pt_dim) (fun i => if i < n then 0 else g (i - n)))
      = some (NTL.vec_of pt_dim (fun j => NTL.conv q (g j : Int))) := by
  rw [mul_transpose_S sk _ hS _ (NTL.length_vec_of _ _)]
  refine congrArg some (NTL.vec_of_congr fun j hj => ?_)
  refine NTL.mod_eq_conv _ _ ((cast_sum_S S_gauss _ j hj).trans ?_)
  unfold preround
  rw [NTL.getD_vec_of _ (by omega : n + j < n + pt_dim), if_neg (by omega),
    Nat.add_sub_cancel_left,
    Finset.sum_eq_zero (fun k hk => by
      rw [NTL.getD_vec_of _ (by have := Finset.mem_range.1 hk; omega : k < n + pt_dim),
        if_pos (Finset.mem_range.1 hk), Nat.cast_zero, mul_zero]),
    sub_zero]

/-- The decryption from the product `S^T * c`. -/
theorem decrypt_of_product (sk : secret_key) (c : ciphertext) (z : Nat → Int)
    (hprod : NTL.mul_mat_vec q (NTL.transpose sk.S) c.ctxt
      = some (NTL.vec_of pt_dim (fun j => NTL.conv q (z j)))) :
    decrypt sk c = some (NTL.vec_of pt_dim (fun j => decode (NTL.conv q (z j)))) := by
  unfold decrypt
  rw [hprod, Option.bind_eq_bind, Option.some_bind,
    if_neg (by rw [NTL.length_vec_of]; omega)]
  refine Eq.trans (Option.some_bind _ _) ?_
  refine congrArg some (NTL.vec_of_congr fun j hj => ?_)
  rw [NTL.getD_vec_of _ hj]

theorem window_of_noise {v N : Int} (hv0 : 0 ≤ v) (hv : v < (p : Int))
    (h1 : -(q : Int) < 2 * (p : Int) * N) (h2 : 2 * (p : Int) * (N + 1) < (q : Int)) :
    -((2 : Int) ^ 57) < v + (p : Int) * N ∧ v + (p : Int) * N ≤ (2 : Int) ^ 57
      ∧ ((v + (p : Int) * N) % (p_int : Int)).toNat = v.toNat := by
  have hp : (p : Int) = 65537 := rfl
  have hp2 : (p_int : Int) = 65537 := rfl
  have hq : (q : Int) = 288230376151711744 := by decide
  rw [hp] at hv h1 h2 ⊢
  rw [hq] at h1 h2
  rw [hp2]
  refine ⟨by norm_num; omega, by norm_num; omega, ?_⟩
  rw [Int.add_mul_emod_self_left, Int.emod_eq_of_lt hv0 hv]

theorem ex_vk_S :
    libsnark.ex_vk.sk.S = NTL.mat_of (n + pt_dim) pt_dim (key_S_entry ex_S_gauss) := by
  unfold libsnark.ex_vk
  dsimp only

end LWE

namespace LWE

theorem ex_boundary_ct_eq :
    ex_boundary_ct.ctxt = NTL.vec_of (n + pt_dim)
      (fun i => if i < n then 0 else (fun _ : Nat => 144115188075856383) (i - n)) := by
  unfold ex_boundary_ct
  dsimp only

theorem ex_window_ct_eq :
    ex_window_ct.ctxt = NTL.vec_of (n + pt_dim)
      (fun i => if i < n then 0 else (fun _ : Nat => 327692) (i - n)) := by
  unfold ex_window_ct
  dsimp only

end LWE

namespace LWE

theorem mul_transpose_keygen {A_rand : Nat → Nat → Nat} {S_gauss E_gauss : Nat → Nat → Int}
    {sk : secret_key} (hk : keygen A_rand S_gauss E_gauss = some sk) (c : List Nat)
    (hc : c.length = n + pt_dim) :
    NTL.mul_mat_vec q (NTL.transpose sk.S) c
      = some (NTL.vec_of pt_dim (fun j => NTL.conv q (preround S_gauss c j))) := by
  rw [mul_transpose_S sk _ (keygen_S hk) c hc]
  refine congrArg some (NTL.vec_of_congr fun j hj => ?_)
  exact NTL.mod_eq_conv _ _ (cast_sum_S S_gauss c j hj)

theorem cast_lincomb_noise (A_rand : Nat → Nat → Nat) (S_gauss E_gauss : Nat → Nat → Int)
    (pts : Nat → List Nat) (enc_r enc_e : Nat → Nat → Int) (pi : Nat → Nat) (R j : Nat)
    (hj : j < pt_dim) :
    ((preround S_gauss (NTL.vec_of (n + pt_dim) (fun i =>
        (∑ r in Finset.range R, pi r * fresh_entry (key_A_entry A_rand S_gauss E_gauss)
          (pts r) (enc_r r) (enc_e r) i) % q)) j : Int) : ZMod q)
      = ((∑ r in Finset.range R, (pi r : Int) * ((pts r).getD j 0 : Int)
          + (p : Int) * lincomb_noise S_gauss E_gauss enc_r enc_e pi R j : Int) : ZMod q) := by
  rw [cast_preround_sum _ _ _ _ _ hj]
  unfold lincomb_noise
  rw [Finset.mul_sum, ← Finset.sum_add_distrib, Int.cast_sum]
  refine Finset.sum_congr rfl fun r _ => ?_
  rw [cast_preround_fresh A_rand S_gauss E_gauss (pts r) (enc_r r) (enc_e r) j hj]
  have hp : (p : Int) = (p_int : Int) := rfl
  rw [hp]
  push_cast
  ring

theorem abs_lincomb_noise_le (S_gauss E_gauss : Nat → Nat → Int) (enc_r enc_e : Nat → Nat → Int)
    (pi : Nat → Nat) (R j : Nat) (hj : j < pt_dim)
    (hS : bounded2 40 n pt_dim S_gauss) (hE : bounded2 40 pt_dim n E_gauss)
    (hr : ∀ r, r < R → bounded 40 n (enc_r r))
    (he : ∀ r, r < R → bounded 40 (n + pt_dim) (enc_e r))
    (hpi : ∀ r, r < R → pi r < p) :
    |lincomb_noise S_gauss E_gauss enc_r enc_e pi R j| ≤ (R : Int) * (65536 * 4656040) := by
  unfold lincomb_noise
  calc |∑ r in Finset.range R, (pi r : Int) * noise S_gauss E_gauss (enc_r r) (enc_e r) j|
      ≤ ∑ r in Finset.range R, |(pi r : Int) * noise S_gauss E_gauss (enc_r r) (enc_e r) j| :=
        Finset.abs_sum_le_sum_abs _ _
    _ ≤ ∑ _r in Finset.range R, (65536 * 4656040 : Int) := by
        refine Finset.sum_le_sum fun r hr' => ?_
        have hr2 := Finset.mem_range.1 hr'
        have h1 := abs_noise_le 40 S_gauss E_gauss (enc_r r) (enc_e r) hS hE (hr r hr2)
          (he r hr2) j hj
        have h2 : ((pi r : Nat) : Int) ≤ 65536 := by
          have := hpi r hr2
          have hp : p = 65537 := rfl
          omega
        have h3 : ((40 : Int) + 2 * ((n : Int) * (40 * 40))) = 4656040 := by decide
        rw [h3] at h1
        rw [abs_mul, abs_of_nonneg (Int.natCast_nonneg _)]
        exact mul_le_mul h2 h1 (abs_nonneg _) (by norm_num)
    _ = (R : Int) * (65536 * 4656040) := by simp

end LWE

namespace libsnark

open LWE

/-- The prover's fold over `R` fresh encryptions under a key of `keygen`, and
the pre-rounding vector of the result: the combination of the plaintexts plus
`p` times the combination of the noises. -/
theorem lincomb_fresh {A_rand : Nat → Nat → Nat} {S_gauss E_gauss : Nat → Nat → Int}
    {sk : secret_key} (hk : keygen A_rand S_gauss E_gauss = some sk)
    (pts : Nat → plaintext) (enc_r enc_e : Nat → Nat → Int) (pi : Nat → Nat) (R : Nat)
    (hR : 0 < R) (hpts : ∀ r, r < R → pt_dim ≤ (pts r).length) :
    ∃ (enc : List ciphertext) (ct : ciphertext), enc.length = R
      ∧ (∀ r, r < R → encrypt sk (pts r) (enc_r r) (enc_e r) = some (enc.getD r ⟨[]⟩))
      ∧ NTL.for_loop (R - 1)
          (fun k ct => (enc[k + 1]?).bind (fun ci => ct.add (ci.mul (pi (k + 1)))))
          ((enc.getD 0 ⟨[]⟩).mul (pi 0)) = some ct
      ∧ NTL.mul_mat_vec q (NTL.transpose sk.S) ct.ctxt
          = some (NTL.vec_of pt_dim (fun j =>
              NTL.conv q (∑ r in Finset.range R, (pi r : Int) * ((pts r).getD j 0 : Int)
                + (p : Int) * lincomb_noise S_gauss E_gauss enc_r enc_e pi R j))) := by
  have hR1 : R - 1 + 1 = R := by omega
  have hlen : ((List.range R).map (fun r => (⟨NTL.vec_of (n + pt_dim)
      (fresh_entry (key_A_entry A_rand S_gauss E_gauss) (pts r) (enc_r r) (enc_e r))⟩
        : ciphertext))).length = R := by
    rw [List.length_map, List.length_range]
  have hL : ∀ c ∈ (List.range R).map (fun r => (⟨NTL.vec_of (n + pt_dim)
      (fresh_entry (key_A_entry A_rand S_gauss E_gauss) (pts r) (enc_r r) (enc_e r))⟩
        : ciphertext)), c.ctxt.length = n + pt_dim := by
    intro c hc
    obtain ⟨r, _, hr⟩ := List.mem_map.1 hc
    rw [← hr]
    dsimp only
    exact NTL.length_vec_of _ _
  have hfold := lincomb_fold _ pi (n + pt_dim) hL (R - 1) (by rw [hlen]; omega)
  rw [hR1] at hfold
  have hG : NTL.vec_of (n + pt_dim) (fun j =>
        (∑ i in Finset.range R,
          pi i * (((List.range R).map (fun r => (⟨NTL.vec_of (n + pt_dim)
            (fresh_entry (key_A_entry A_rand S_gauss E_gauss) (pts r) (enc_r r) (enc_e r))⟩
              : ciphertext))).getD i ⟨[]⟩).ctxt.getD j 0) % q)
      = NTL.vec_of (n + pt_dim) (fun j =>
        (∑ i in Finset.range R,
          pi i * fresh_entry (key_A_entry A_rand S_gauss E_gauss) (pts i) (enc_r i)
            (enc_e i) j) % q) := by
    refine NTL.vec_of_congr fun j hj => ?_
    refine congrArg (fun t => t % q) (Finset.sum_congr rfl fun i hi => ?_)
    rw [getD_map_range _ _ _ (Finset.mem_range.1 hi)]
    dsimp only
    rw [NTL.getD_vec_of _ hj]
  rw [hG] at hfold
  refine ⟨_, _, hlen, fun r hr => ?_, hfold, ?_⟩
  · rw [getD_map_range _ _ _ hr]
    exact encrypt_keygen hk (pts r) (hpts r hr) (enc_r r) (enc_e r)
  · dsimp only
    rw [mul_transpose_keygen hk _ (NTL.length_vec_of _ _)]
    refine congrArg some (NTL.vec_of_congr fun j hj => ?_)
    exact NTL.conv_congr (cast_lincomb_noise A_rand S_gauss E_gauss pts enc_r enc_e pi R j hj)

end libsnark

namespace libsnark

open LWE

theorem worst_S_bounded : bounded2 40 n pt_dim worst_draws.S_gauss := by
  intro i j _ _
  show |(-30 : Int)| ≤ 40
  rw [abs_le]
  constructor <;> decide

theorem worst_E_bounded : bounded2 40 pt_dim n worst_draws.E_gauss := by
  intro i j _ _
  show |(30 : Int)| ≤ 40
  rw [abs_le]
  constructor <;> decide

theorem worst_enc_r_bounded (r : Nat) : bounded 40 n (worst_draws.enc_r r) := by
  intro i _
  show |(30 : Int)| ≤ 40
  rw [abs_le]
  constructor <;> decide

theorem worst_enc_e_bounded (r : Nat) : bounded 40 (n + pt_dim) (worst_draws.enc_e r) := by
  intro i _
  show |(30 : Int)| ≤ 40
  rw [abs_le]
  constructor <;> decide

theorem worst_lincomb_noise (j : Nat) :
    lincomb_noise worst_draws.S_gauss worst_draws.E_gauss worst_draws.enc_r worst_draws.enc_e
      (fun _ => 65536) 20 j = 3432815001600 := by
  unfold lincomb_noise
  rw [Finset.sum_congr rfl (fun r _ => by rw [worst_noise])]
  decide

end libsnark

namespace libsnark

open LWE

/-- The values the verifier reconstructs under a key of the generator, from
the decrypted proof. -/
theorem verifier_values_generator {CS : Type} (ext : r1cs_to_qap CS) (cs : CS)
    (draws : generator_draws) (kp : r1cs_lattice_ppsnarg_keypair CS)
    (h : r1cs_lattice_ppsnarg_generator ext cs draws = some kp)
    (x : List Nat) (hx : x.length = (gen_inst ext cs draws 0).num_inputs)
    (proof : r1cs_lattice_ppsnarg_proof) (hproof : proof.response.ctxt.length = n + pt_dim)
    (D : Nat → Nat)
    (hdec : decrypt kp.vk.sk proof.response = some (NTL.vec_of pt_dim D)) :
    verifier_values kp.vk x proof
      = some ((List.range r1cs_lattice_ppsnarg_num_queries).map
          (gen_values (gen_inst ext cs draws) kp.vk.Yprime x D)) := by
  have hwf := generator_vk_well_formed ext cs draws kp h
  obtain ⟨⟨a1, _⟩, ⟨b1, _⟩, ⟨c1, _⟩, _⟩ := generator_prefixes ext cs draws kp h
  obtain ⟨dec, u, hdec2, hu, _, _, hvals⟩ :=
    verifier_values_closed kp.vk x proof _ hwf hx hproof
  have hY := NTL.mat_eq_mat_of kp.vk.Yprime _ _ hwf.2.2.1 hwf.2.2.2.1
  have hdd : dec = NTL.vec_of pt_dim D := Option.some.inj (hdec2.symm.trans hdec)
  have hu2 : u = NTL.vec_of (4 * LWE.l) (fun c =>
      (∑ t in Finset.range (4 * LWE.l), NTL.entry kp.vk.Yprime c t * D t) % p) := by
    have h1 := NTL.mul_mat_vec_mat_of_list p (4 * LWE.l) (4 * LWE.l) (NTL.entry kp.vk.Yprime)
      dec (by rw [hdd, NTL.length_vec_of, pt_dim_eq])
    rw [← hY, hu] at h1
    rw [Option.some.inj h1]
    refine NTL.vec_of_congr fun c _ => ?_
    refine congrArg (fun z => z % p) (Finset.sum_congr rfl fun t ht => ?_)
    rw [hdd, NTL.getD_vec_of _ (by rw [pt_dim_eq]; exact Finset.mem_range.1 ht)]
  rw [hvals]
  refine congrArg some (List.map_congr_left fun i hi => ?_)
  have hi2 : i < LWE.l := List.mem_range.1 hi
  have hl : LWE.l = 15 := rfl
  have hnq : r1cs_lattice_ppsnarg_num_queries = LWE.l := rfl
  unfold gen_values
  rw [a1, b1, c1, getD_map_range _ _ _ hi2, getD_map_range _ _ _ hi2, getD_map_range _ _ _ hi2,
    statement_sum_take _ _ _ (by omega), statement_sum_take _ _ _ (by omega),
    statement_sum_take _ _ _ (by omega), getD_take (Nat.succ_pos _),
    getD_take (Nat.succ_pos _), getD_take (Nat.succ_pos _), hu2, hnq,
    NTL.getD_vec_of _ (by omega), NTL.getD_vec_of _ (by omega), NTL.getD_vec_of _ (by omega),
    NTL.getD_vec_of _ (by omega)]

theorem gen_rows_of_sizes (inst : Nat → qap_instance_evaluation) (W : qap_witness)
    (h1 : (inst 0).num_inputs = W.num_inputs)
    (h4 : (inst 0).At.length = W.coefficients_for_ABCs.length + 1)
    (h7 : (inst 0).Ht.length = W.coefficients_for_H.length) :
    gen_rows inst
      = W.coefficients_for_ABCs.length - W.num_inputs + 3 + W.coefficients_for_H.length := by
  unfold gen_rows
  rw [h1, h4, h7]
  omega

theorem gen_query_entry_of_sizes (inst : Nat → qap_instance_evaluation) (W : qap_witness)
    (h1 : (inst 0).num_inputs = W.num_inputs)
    (h4 : (inst 0).At.length = W.coefficients_for_ABCs.length + 1)
    (h7 : (inst 0).Ht.length = W.coefficients_for_H.length) (r c : Nat) :
    gen_query_entry inst r c
      = query_entry ((List.range LWE.l).map (fun i => (inst i).At))
          ((List.range LWE.l).map (fun i => (inst i).Bt))
          ((List.range LWE.l).map (fun i => (inst i).Ct))
          ((List.range LWE.l).map (fun i => (inst i).Ht))
          ((List.range LWE.l).map (fun i => (inst i).Zt))
          W.num_inputs (W.coefficients_for_ABCs.length - W.num_inputs)
          W.coefficients_for_H.length r c := by
  have hρ : W.coefficients_for_ABCs.length + 1 - W.num_inputs - 1
      = W.coefficients_for_ABCs.length - W.num_inputs := by omega
  unfold gen_query_entry
  rw [h1, h4, h7, hρ]

/-- The four column sums of `M^T * pi` at query index `i`, for the proof vector
of a witness of the sizes of the instance evaluations. -/
theorem gen_columns_of_sizes (inst : Nat → qap_instance_evaluation) (W : qap_witness)
    (h1 : (inst 0).num_inputs = W.num_inputs)
    (h4 : (inst 0).At.length = W.coefficients_for_ABCs.length + 1)
    (h7 : (inst 0).Ht.length = W.coefficients_for_H.length) {i : Nat} (hi : i < LWE.l) :
    (∑ r in Finset.range (gen_rows inst), gen_query_entry inst r i * pi_entry W r
      = ∑ r in Finset.range (W.coefficients_for_ABCs.length - W.num_inputs),
          (inst i).At.getD (r + W.num_inputs + 1) 0
            * W.coefficients_for_ABCs.getD (r + W.num_inputs) 0
        + (inst i).Zt * W.d1)
    ∧ (∑ r in Finset.range (gen_rows inst), gen_query_entry inst r (i + LWE.l) * pi_entry W r
      = ∑ r in Finset.range (W.coefficients_for_ABCs.length - W.num_inputs),
          (inst i).Bt.getD (r + W.num_inputs + 1) 0
            * W.coefficients_for_ABCs.getD (r + W.num_inputs) 0
        + (inst i).Zt * W.d2)
    ∧ (∑ r in Finset.range (gen_rows inst),
          gen_query_entry inst r (i + 2 * LWE.l) * pi_entry W r
      = ∑ r in Finset.range (W.coefficients_for_ABCs.length - W.num_inputs),
          (inst i).Ct.getD (r + W.num_inputs + 1) 0
            * W.coefficients_for_ABCs.getD (r + W.num_inputs) 0
        + (inst i).Zt * W.d3)
    ∧ (∑ r in Finset.range (gen_rows inst),
          gen_query_entry inst r (i + 3 * LWE.l) * pi_entry W r
      = ∑ k in Finset.range W.coefficients_for_H.length,
          (inst i).Ht.getD k 0 * W.coefficients_for_H.getD k 0) := by
  have hABC : ∀ (Q : List Nat),
      ∑ r in Finset.range (W.coefficients_for_ABCs.length - W.num_inputs),
          Q.getD (r + W.num_inputs + 1) 0 * pi_entry W r
        = ∑ r in Finset.range (W.coefficients_for_ABCs.length - W.num_inputs),
          Q.getD (r + W.num_inputs + 1) 0 * W.coefficients_for_ABCs.getD (r + W.num_inputs) 0 :=
    fun Q => Finset.sum_congr rfl fun r hr => by
      rw [pi_entry_ABC W (Finset.mem_range.1 hr)]
  simp only [gen_rows_of_sizes inst W h1 h4 h7, gen_query_entry_of_sizes inst W h1 h4 h7]
  refine ⟨?_, ?_, ?_, ?_⟩
  · rw [column_A _ _ _ _ _ _ _ _ _ hi, getD_map_range _ _ _ hi, getD_map_range _ _ _ hi,
      pi_entry_d1, hABC]
  · rw [Nat.add_comm i, column_B _ _ _ _ _ _ _ _ _ hi, getD_map_range _ _ _ hi,
      getD_map_range _ _ _ hi, pi_entry_d2, hABC]
  · rw [Nat.add_comm i, column_C _ _ _ _ _ _ _ _ _ hi, getD_map_range _ _ _ hi,
      getD_map_range _ _ _ hi, pi_entry_d3, hABC]
  · rw [Nat.add_comm i, column_H _ _ _ _ _ _ _ _ _ hi, getD_map_range _ _ _ hi]
    refine Finset.sum_congr rfl fun k hk => ?_
    rw [pi_entry_H W (Finset.mem_range.1 hk)]

/-- A reconstructed value of the verifier as the full sum of the QAP. -/
theorem value_full (Qt alpha x : List Nat) (z d : Nat)
    (hα : ∀ k, k < x.length → alpha.getD k 0 = x.getD k 0) (hI : x.length ≤ alpha.length) :
    ((∑ r in Finset.range (alpha.length - x.length),
            Qt.getD (r + x.length + 1) 0 * alpha.getD (r + x.length) 0
          + z * d) % p + Qt.getD 0 0
        + ∑ j in Finset.range x.length, x.getD j 0 * Qt.getD (j + 1) 0) % p
      = (Qt.getD 0 0 + ∑ k in Finset.range alpha.length, alpha.getD k 0 * Qt.getD (k + 1) 0
          + d * z) % p := by
  apply (ZMod.natCast_eq_natCast_iff' _ _ p).1
  rw [value_ABC Qt alpha x _ z d hα, Nat.add_sub_cancel' hI]
  have e : ∑ k in Finset.range alpha.length, Qt.getD (k + 1) 0 * alpha.getD k 0
      = ∑ k in Finset.range alpha.length, alpha.getD k 0 * Qt.getD (k + 1) 0 :=
    Finset.sum_congr rfl fun k _ => Nat.mul_comm _ _
  rw [e]
  push_cast
  ring

/-- With the decryption `(M * Y)^T * pi`, the values the verifier reconstructs
are the full sums of the QAP. -/
theorem gen_values_full (inst : Nat → qap_instance_evaluation) (W : qap_witness) (x : List Nat)
    (Yp : matrix) (Y_rand : Nat → Nat → Nat)
    (hX : ∀ c s, c < 4 * LWE.l → s < 4 * LWE.l →
      ∑ t in Finset.range (4 * LWE.l),
        ((NTL.entry Yp c t : Nat) : ZMod p) * ((random_element (Y_rand s t) : Nat) : ZMod p)
        = if c = s then 1 else 0)
    (h1 : (inst 0).num_inputs = W.num_inputs)
    (h4 : (inst 0).At.length = W.coefficients_for_ABCs.length + 1)
    (h7 : (inst 0).Ht.length = W.coefficients_for_H.length)
    (hIx : W.num_inputs = x.length)
    (hαx : ∀ k, k < x.length → W.coefficients_for_ABCs.getD k 0 = x.getD k 0)
    (hIα : x.length ≤ W.coefficients_for_ABCs.length)
    (i : Nat) (hi : i < LWE.l) :
    gen_values inst Yp x (fun t =>
        (∑ r in Finset.range (gen_rows inst), gen_masked_entry inst Y_rand r t * pi_entry W r)
          % p) i
      = ((((inst i).At.getD 0 0
            + ∑ k in Finset.range W.coefficients_for_ABCs.length,
                W.coefficients_for_ABCs.getD k 0 * (inst i).At.getD (k + 1) 0
            + W.d1 * (inst i).Zt) % p),
         (((inst i).Bt.getD 0 0
            + ∑ k in Finset.range W.coefficients_for_ABCs.length,
                W.coefficients_for_ABCs.getD k 0 * (inst i).Bt.getD (k + 1) 0
            + W.d2 * (inst i).Zt) % p),
         (((inst i).Ct.getD 0 0
            + ∑ k in Finset.range W.coefficients_for_ABCs.length,
                W.coefficients_for_ABCs.getD k 0 * (inst i).Ct.getD (k + 1) 0
            + W.d3 * (inst i).Zt) % p),
         (∑ k in Finset.range W.coefficients_for_H.length,
            W.coefficients_for_H.getD k 0 * (inst i).Ht.getD k 0) % p) := by
  have hl : LWE.l = 15 := rfl
  obtain ⟨cA, cB, cC, cH⟩ := gen_columns_of_sizes inst W h1 h4 h7 hi
  unfold gen_values
  dsimp only
  rw [gen_unmask inst (pi_entry W) Yp Y_rand hX i (by omega),
    gen_unmask inst (pi_entry W) Yp Y_rand hX (i + LWE.l) (by omega),
    gen_unmask inst (pi_entry W) Yp Y_rand hX (i + 2 * LWE.l) (by omega),
    gen_unmask inst (pi_entry W) Yp Y_rand hX (i + 3 * LWE.l) (by omega), cA, cB, cC, cH, hIx,
    value_full (inst i).At W.coefficients_for_ABCs x (inst i).Zt W.d1 hαx hIα,
    value_full (inst i).Bt W.coefficients_for_ABCs x (inst i).Zt W.d2 hαx hIα,
    value_full (inst i).Ct W.coefficients_for_ABCs x (inst i).Zt W.d3 hαx hIα]
  have e : ∑ k in Finset.range W.coefficients_for_H.length,
        (inst i).Ht.getD k 0 * W.coefficients_for_H.getD k 0
      = ∑ k in Finset.range W.coefficients_for_H.length,
        W.coefficients_for_H.getD k 0 * (inst i).Ht.getD k 0 :=
    Finset.sum_congr rfl fun k _ => Nat.mul_comm _ _
  rw [e]

end libsnark

namespace NTL

theorem inv_ZZ_p_spec (m a : Nat) (hm : 1 < m) (ha : a < m) (hg : Nat.gcd a m = 1) :
    ∃ y, inv_ZZ_p m a = some y ∧ y < m ∧ a * y % m = 1 := by
  have hm0 : (0 : Int) < (m : Int) := by exact_mod_cast (by omega : 0 < m)
  have hne : NeZero m := ⟨by omega⟩
  refine ⟨(Nat.gcdA a m % (m : Int)).toNat, ?_, ?_, ?_⟩
  · unfold inv_ZZ_p
    rw [if_pos ⟨ha, hg⟩]
  · have h1 := Int.emod_lt_of_pos (Nat.gcdA a m) hm0
    have h2 := Int.emod_nonneg (Nat.gcdA a m) (ne_of_gt hm0)
    omega
  · have hb := Nat.gcd_eq_gcd_ab a m
    rw [hg] at hb
    have hc : ((a * (Nat.gcdA a m % (m : Int)).toNat : Nat) : ZMod m) = ((1 : Nat) : ZMod m) := by
      have h2 := Int.emod_nonneg (Nat.gcdA a m) (ne_of_gt hm0)
      have h3 : (((Nat.gcdA a m % (m : Int)).toNat : Nat) : ZMod m)
          = ((Nat.gcdA a m : Int) : ZMod m) := by
        rw [← Int.cast_natCast, Int.toNat_of_nonneg h2, ZMod.intCast_mod]
      have h4 := congrArg (fun z : Int => (z : ZMod m)) hb
      simp only [Int.cast_add, Int.cast_mul, Int.cast_natCast, ZMod.natCast_self, zero_mul,
        add_zero, Nat.cast_one, Int.cast_one] at h4
      rw [Nat.cast_mul, h3, Nat.cast_one, h4]
    have hd := (ZMod.natCast_eq_natCast_iff' _ _ m).1 hc
    rw [hd, Nat.mod_eq_of_lt hm]

theorem inv_ZZ_p_unique (m a y : Nat) (hm : 1 < m) (ha : a < m) (hy : y < m)
    (h : a * y % m = 1) : inv_ZZ_p m a = some y := by
  have hne : NeZero m := ⟨by omega⟩
  have hg : Nat.gcd a m = 1 := by
    have h1 : Nat.gcd a m ∣ a * y % m :=
      (Nat.dvd_mod_iff (Nat.gcd_dvd_right a m)).2 (Dvd.dvd.mul_right (Nat.gcd_dvd_left a m) y)
    rw [h] at h1
    exact Nat.dvd_one.1 h1
  obtain ⟨y2, h2, h3, h4⟩ := inv_ZZ_p_spec m a hm ha hg
  rw [h2]
  have c1 : ((a : ZMod m)) * (y : ZMod m) = 1 := by
    have := (ZMod.natCast_eq_natCast_iff' (a * y) 1 m).2 (by rw [h, Nat.mod_eq_of_lt hm])
    simpa using this
  have c2 : ((a : ZMod m)) * (y2 : ZMod m) = 1 := by
    have := (ZMod.natCast_eq_natCast_iff' (a * y2) 1 m).2 (by rw [h4, Nat.mod_eq_of_lt hm])
    simpa using this
  have c3 : (y2 : ZMod m) = (y : ZMod m) := by
    calc (y2 : ZMod m) = (y2 : ZMod m) * ((a : ZMod m) * (y : ZMod m)) := by rw [c1, mul_one]
      _ = ((a : ZMod m) * (y2 : ZMod m)) * (y : ZMod m) := by ring
      _ = (y : ZMod m) := by rw [c2, one_mul]
  have c4 := (ZMod.natCast_eq_natCast_iff' _ _ m).1 c3
  rw [Nat.mod_eq_of_lt h3, Nat.mod_eq_of_lt hy] at c4
  rw [c4]

theorem inv_ZZ_p_none (m a : Nat) (h : Nat.gcd a m ≠ 1) : inv_ZZ_p m a = none := by
  unfold inv_ZZ_p
  rw [if_neg (fun hc => h hc.2)]

end NTL

namespace libsnark

open LWE

/-- Inversion in `F_p` under the modulus `p`: `inverse()` selects `p` itself
and returns the canonical inverse; `invert()` returns the same value when the
modulus in force is `p`. -/
theorem inverse_spec (x : NTLFp_model) (hx0 : x.value ≠ 0) (hx : x.value < p_int) :
    ∃ y, NTLFp_model.inverse p_int x = some (⟨y⟩, p_int) ∧ y < p_int
      ∧ (NTLFp_model.mul p_int x ⟨y⟩).1.value = 1
      ∧ NTLFp_model.invert x p_int = some (⟨y⟩, p_int) := by
  have hp : Nat.Prime p_int := (Fact.out : Nat.Prime p)
  have hg : Nat.gcd x.value p_int = 1 :=
    Nat.Coprime.symm ((Nat.Prime.coprime_iff_not_dvd hp).2
      (Nat.not_dvd_of_pos_of_lt (Nat.pos_of_ne_zero hx0) hx))
  obtain ⟨y, h1, h2, h3⟩ := NTL.inv_ZZ_p_spec p_int x.value (by decide) hx hg
  have hi : NTLFp_model.invert x p_int = some (⟨y⟩, p_int) := by
    unfold NTLFp_model.invert
    rw [h1]
    rfl
  refine ⟨y, ?_, h2, h3, hi⟩
  unfold NTLFp_model.inverse NTLFp_model.copy
  exact hi

theorem get_s_and_t_loop_spec (fuel : Nat) :
    ∀ s t, 0 < s → s < 2 ^ fuel → t + fuel < 2 ^ 64 →
      ∃ s2 k, get_s_and_t_loop fuel s t = some (s2, t + k) ∧ s = 2 ^ k * s2 ∧ s2 % 2 = 1 := by
  induction fuel with
  | zero =>
    intro s t hs hlt _
    rw [pow_zero] at hlt
    omega
  | succ fuel ih =>
    intro s t hs hlt ht
    unfold get_s_and_t_loop
    by_cases h2 : s % 2 = 0
    · rw [if_pos h2, Nat.mod_eq_of_lt (by omega : t + 1 < 2 ^ 64)]
      have hlt2 : s / 2 < 2 ^ fuel := by
        rw [pow_succ] at hlt
        omega
      obtain ⟨s2, k, h3, h4, h5⟩ := ih (s / 2) (t + 1) (by omega) hlt2 (by omega)
      refine ⟨s2, k + 1, ?_, ?_, h5⟩
      · rw [h3, Nat.add_assoc, Nat.add_comm 1 k]
      · rw [pow_succ, Nat.mul_assoc, Nat.mul_comm 2 s2, ← Nat.mul_assoc, ← h4]
        omega
    · rw [if_neg h2]
      exact ⟨s, 0, rfl, by rw [pow_zero, Nat.one_mul], by omega⟩

/-- The member `get_s_and_t` returns on every modulus in `[2, 2^64)`, and
what it returns: `s` is the odd part of `modulus - 1` and `t` the exponent of
2, that is `modulus = 2^t * s + 1` with `s` odd. -/
theorem get_s_and_t_spec (modulus : Nat) (h2 : 2 ≤ modulus) (h64 : modulus < 2 ^ 64) :
    ∃ s t, NTLFp_model.get_s_and_t modulus 64 = some (s, t)
      ∧ modulus = 2 ^ t * s + 1 ∧ s % 2 = 1 := by
  unfold NTLFp_model.get_s_and_t
  have e : (modulus + (2 ^ 64 - 1)) % 2 ^ 64 = modulus - 1 := by omega
  rw [e]
  obtain ⟨s2, k, h3, h4, h5⟩ := get_s_and_t_loop_spec 64 (modulus - 1) 0 (by omega) (by omega)
    (by decide)
  refine ⟨s2, 0 + k, h3, ?_, h5⟩
  rw [Nat.zero_add, ← h4]
  omega

theorem iterate_square (m a : Nat) (k : Nat) :
    a ^ 2 ^ k % m = Nat.iterate (fun x => x * x % m) k (a % m) := by
  induction k with
  | zero => rw [pow_zero, pow_one]; rfl
  | succ k ih =>
    rw [Function.iterate_succ_apply', ← ih, pow_succ, pow_mul, pow_two, ← Nat.mul_mod]

theorem three_pow_half : 3 ^ 2 ^ 15 % p_int = 65536 := by
  rw [iterate_square]
  decide

theorem three_pow_full : 3 ^ 2 ^ 16 % p_int = 1 := by
  rw [iterate_square]
  decide

theorem cast_three_pow (e : Nat) :
    ((3 : Nat) : ZMod p_int) ^ e = ((3 ^ e % p_int : Nat) : ZMod p_int) := by
  rw [ZMod.natCast_mod, Nat.cast_pow]

theorem orderOf_three : orderOf ((3 : Nat) : ZMod p_int) = 65536 := by
  haveI : Fact (Nat.Prime 2) := ⟨Nat.prime_two⟩
  have h1 : ¬ ((3 : Nat) : ZMod p_int) ^ 2 ^ 15 = 1 := by
    intro h
    rw [cast_three_pow, three_pow_half] at h
    have h2 : ((65536 : Nat) : ZMod p_int) = ((1 : Nat) : ZMod p_int) := by
      rw [h, Nat.cast_one]
    exact absurd ((ZMod.natCast_eq_natCast_iff' _ _ _).1 h2) (by decide)
  have h2 : ((3 : Nat) : ZMod p_int) ^ 2 ^ (15 + 1) = 1 := by
    rw [cast_three_pow, three_pow_full, Nat.cast_one]
  have h3 := orderOf_eq_prime_pow h1 h2
  rw [h3]
  decide

theorem power_three_ne_one (k : Nat) (hk0 : 0 < k) (hk : k < 65536) :
    NTL.power p_int 3 k ≠ 1 := by
  intro h
  unfold NTL.power at h
  have h1 : ((3 : Nat) : ZMod p_int) ^ k = 1 := by
    rw [cast_three_pow, h, Nat.cast_one]
  have h2 := orderOf_le_of_pow_eq_one hk0 h1
  rw [orderOf_three] at h2
  omega

end libsnark

namespace LWE

/-- The product `S^T * A` of a key of `keygen`: the uniform part `A_hat`
cancels and `p * E_hat` remains. -/
theorem mul_transpose_S_A {A_rand : Nat → Nat → Nat} {S_gauss E_gauss : Nat → Nat → Int}
    {sk : secret_key} (hk : keygen A_rand S_gauss E_gauss = some sk) :
    NTL.mul_mat q (NTL.transpose sk.S) sk.A
      = some (NTL.mat_of pt_dim n (fun j k => NTL.conv q ((p : Int) * E_gauss j k))) := by
  rw [keygen_S hk, keygen_A hk, NTL.transpose_mat_of _ (by have := n_pos; omega),
    NTL.mul_mat_mat_of _ _ _ _ _ _ (by have := n_pos; omega)]
  refine congrArg some (NTL.mat_of_congr fun j k hj hk2 => ?_)
  have hsum : ∑ i in Finset.range (n + pt_dim),
        key_S_entry S_gauss i j * key_A_entry A_rand S_gauss E_gauss i k
      = ∑ i in Finset.range (n + pt_dim), key_S_entry S_gauss i j
          * (NTL.vec_of (n + pt_dim) (fun i => key_A_entry A_rand S_gauss E_gauss i k)).getD i 0 :=
    Finset.sum_congr rfl fun i hi => by rw [NTL.getD_vec_of _ (Finset.mem_range.1 hi)]
  rw [hsum]
  refine NTL.mod_eq_conv _ _ ((cast_sum_S S_gauss _ j hj).trans ?_)
  unfold preround
  rw [NTL.getD_vec_of _ (by omega : n + j < n + pt_dim),
    Finset.sum_congr rfl (fun m hm => by
      rw [NTL.getD_vec_of _ (by have := Finset.mem_range.1 hm; omega : m < n + pt_dim)])]
  push_cast
  rw [Finset.sum_congr rfl (fun m hm => by
      rw [cast_key_A_entry_top A_rand S_gauss E_gauss (Finset.mem_range.1 hm) k]),
    cast_key_A_entry_bottom]
  have hp : (p : ZMod q) = (p_int : ZMod q) := rfl
  rw [hp]
  ring

end LWE

namespace LWE

/-- A bound on `p * N` alone does not give correct decryption: the ciphertext
`ex_boundary_ct` has pre-rounding vector `v + p * N` with `v_i = 65536` and
`p * N_i = 2^57 - 65025` inside `(-q/2, q/2]`, and does not decrypt to `v`. -/
theorem noise_window_alone_insufficient :
    ∃ sk, keygen ex_A_rand ex_S_gauss ex_E_gauss = some sk
      ∧ NTL.mul_mat_vec q (NTL.transpose sk.S) ex_boundary_ct.ctxt
          = some (NTL.vec_of pt_dim (fun j =>
              NTL.conv q ((((List.replicate 60 65536).getD j 0 : Nat) : Int)
                + (p : Int) * 2198989701631)))
      ∧ (∀ x ∈ List.replicate 60 65536, x < p)
      ∧ -(q : Int) < 2 * ((p : Int) * 2198989701631)
      ∧ 2 * ((p : Int) * 2198989701631) ≤ (q : Int)
      ∧ decrypt sk ex_boundary_ct ≠ some (List.replicate 60 65536) := by
  obtain ⟨sk, hk⟩ : ∃ sk, keygen ex_A_rand ex_S_gauss ex_E_gauss = some sk :=
    ⟨_, keygen_eq ex_A_rand ex_S_gauss ex_E_gauss⟩
  have hprod := padded_product sk ex_S_gauss (keygen_S hk) (fun _ => 144115188075856383)
  rw [← ex_boundary_ct_eq] at hprod
  have hd := decrypt_of_product sk ex_boundary_ct
    (fun _ => ((144115188075856383 : Nat) : Int)) hprod
  have hv : NTL.vec_of pt_dim
        (fun _ : Nat => decode (NTL.conv q ((144115188075856383 : Nat) : Int)))
      = List.replicate 60 1023 := by decide
  rw [hv] at hd
  have hne : decrypt sk ex_boundary_ct ≠ some (List.replicate 60 65536) := by
    rw [hd]
    decide
  refine ⟨sk, hk, ?_, by decide, by decide, by decide, hne⟩
  refine hprod.trans (congrArg some (NTL.vec_of_congr fun j hj => ?_))
  have hj' : j < 60 := hj
  rw [List.getD_eq_getElem?_getD, List.getElem?_replicate_of_lt hj']
  decide

theorem window_exact {v z : Int} (hv0 : 0 ≤ v) (hv : v < (p : Int)) (N : Int)
    (hz : z = v + (p : Int) * N) (h1 : -(q : Int) < 2 * z) (h2 : 2 * z ≤ (q : Int)) :
    -((2 : Int) ^ 57) < z ∧ z ≤ (2 : Int) ^ 57 ∧ (z % (p_int : Int)).toNat = v.toNat := by
  have hp2 : (p_int : Int) = (p : Int) := rfl
  have hq : (q : Int) = 288230376151711744 := by decide
  rw [hq] at h1 h2
  refine ⟨by norm_num; omega, by norm_num; omega, ?_⟩
  rw [hz, hp2, Int.add_mul_emod_self_left, Int.emod_eq_of_lt hv0 hv]

end LWE

namespace NTL

theorem vec_of_inj {len : Nat} {f g : Nat → Nat} (h : vec_of len f = vec_of len g) {i : Nat}
    (hi : i < len) : f i = g i := by
  have h2 := congrArg (fun v : List Nat => v.getD i 0) h
  dsimp only at h2
  rwa [getD_vec_of _ hi, getD_vec_of _ hi] at h2

theorem cast_eq_of_conv_eq {m : Nat} [NeZero m] {a b : Int} (h : conv m a = conv m b) :
    ((a : Int) : ZMod m) = ((b : Int) : ZMod m) := by
  rw [← cast_conv m a, ← cast_conv m b, h]

end NTL

namespace LWE

/-- From the product `S^T * c` computed with a key of `keygen` to the
pre-rounding values. -/
theorem cast_preround_of_product {A_rand : Nat → Nat → Nat} {S_gauss E_gauss : Nat → Nat → Int}
    {sk : secret_key} (hk : keygen A_rand S_gauss E_gauss = some sk) (c : List Nat)
    (hc : c.length = n + pt_dim) (w : Nat → Int)
    (hprod : NTL.mul_mat_vec q (NTL.transpose sk.S) c
      = some (NTL.vec_of pt_dim (fun j => NTL.conv q (w j)))) (j : Nat) (hj : j < pt_dim) :
    ((preround S_gauss c j : Int) : ZMod q) = ((w j : Int) : ZMod q) := by
  haveI : NeZero q := ⟨by decide⟩
  rw [mul_transpose_keygen hk c hc] at hprod
  exact NTL.cast_eq_of_conv_eq (NTL.vec_of_inj (Option.some.inj hprod) hj)

end LWE

namespace LWE

theorem conv_natCast (m w : Nat) : NTL.conv m (w : Int) = w % m := by
  unfold NTL.conv
  rw [← Int.natCast_mod, Int.toNat_natCast]

/-- Under the modulus `q`, the temporary `NTL::ZZ_p(val)` is `val mod q` for
every 64-bit `val`, since `q` divides `2^64`. -/
theorem ZZ_p_of_uint64_q (val : Nat) (hval : val < 2 ^ 64) : ZZ_p_of_uint64 q val = val % q := by
  haveI : NeZero q := ⟨by decide⟩
  unfold ZZ_p_of_uint64 uint64_to_long
  rw [Nat.mod_eq_of_lt hval]
  by_cases h : val < 2 ^ 63
  · rw [if_pos h, conv_natCast]
  · rw [if_neg h, ← conv_natCast]
    refine NTL.conv_congr ?_
    have h64 : (((2 : Int) ^ 64 : Int) : ZMod q) = 0 :=
      (ZMod.intCast_zmod_eq_zero_iff_dvd _ _).2 ⟨64, by decide⟩
    rw [Int.cast_sub, h64, sub_zero]

/-- Under the modulus `p`, the temporary `NTL::ZZ_p(val)` is `val` itself when
`val < p`. -/
theorem ZZ_p_of_uint64_p (val : Nat) (hval : val < p) : ZZ_p_of_uint64 p val = val := by
  have hp : p = 65537 := rfl
  unfold ZZ_p_of_uint64 uint64_to_long
  rw [Nat.mod_eq_of_lt (by omega), if_pos (by omega), conv_natCast, Nat.mod_eq_of_lt hval]

theorem mul_vec_scalar_mod (c : List Nat) (val : Nat) :
    NTL.mul_vec_scalar q c (val % q) = NTL.mul_vec_scalar q c val := by
  unfold NTL.mul_vec_scalar
  refine List.map_congr_left fun x _ => ?_
  rw [Nat.mul_mod, Nat.mod_mod, ← Nat.mul_mod]

/-- The three scalar multiplications by a `uint64_t` give the coordinatewise
product modulo `q` when the modulus in force at the call is `q`, and also,
for `val < p`, when it is `p`. -/
theorem mul_uint64_spec (c : ciphertext) (val : Nat) (hval : val < 2 ^ 64) :
    (c.mul_uint64 val q).ctxt = c.ctxt.map (fun x => x * val % q)
      ∧ (c.mul_assign_uint64 val q).ctxt = c.ctxt.map (fun x => x * val % q)
      ∧ (uint64_mul val c q).ctxt = c.ctxt.map (fun x => x * val % q)
      ∧ (val < p →
          (c.mul_uint64 val p).ctxt = c.ctxt.map (fun x => x * val % q)
          ∧ (c.mul_assign_uint64 val p).ctxt = c.ctxt.map (fun x => x * val % q)
          ∧ (uint64_mul val c p).ctxt = c.ctxt.map (fun x => x * val % q)) := by
  have h1 : (c.mul (ZZ_p_of_uint64 q val)).ctxt = c.ctxt.map (fun x => x * val % q) := by
    unfold ciphertext.mul
    dsimp only
    rw [ZZ_p_of_uint64_q val hval, mul_vec_scalar_mod]
    rfl
  refine ⟨h1, h1, h1, fun hp => ?_⟩
  have h2 : (c.mul (ZZ_p_of_uint64 p val)).ctxt = c.ctxt.map (fun x => x * val % q) := by
    rw [ZZ_p_of_uint64_p val hp]
    rfl
  exact ⟨h2, h2, h2⟩

end LWE

/-! ## The claims -/

namespace LWE

/-- **C2** (decryption correctness).  For every draw of `keygen` and `encrypt` in
which each discrete-Gaussian sample has absolute value at most 40, and every
plaintext `v` of length `pt_dim = 60` with entries in `[0, p)`, `keygen` returns a
key, `encrypt` returns a ciphertext, and decrypting it gives back `v`. -/
theorem decrypt_encrypt (A_rand : Nat → Nat → Nat) (S_gauss E_gauss : Nat → Nat → Int)
    (r_gauss e_gauss : Nat → Int) (v : plaintext)
    (hS : bounded2 40 n pt_dim S_gauss) (hE : bounded2 40 pt_dim n E_gauss)
    (hr : bounded 40 n r_gauss) (he : bounded 40 (n + pt_dim) e_gauss)
    (hv : v.length = pt_dim) (hvp : ∀ x ∈ v, x < p_int) :
    ∃ sk c, keygen A_rand S_gauss E_gauss = some sk ∧ encrypt sk v r_gauss e_gauss = some c
      ∧ decrypt sk c = some v := by
  have hk := keygen_eq A_rand S_gauss E_gauss
  exact ⟨_, _, hk, encrypt_keygen hk v (by omega) r_gauss e_gauss,
    decrypt_fresh A_rand S_gauss E_gauss r_gauss e_gauss v hS hE hr he hv hvp hk⟩

/-- Witness of **C2** at the plaintext `(1, 2, ..., 60)`. -/
theorem decrypt_encrypt_witness :
    (bounded2 40 n pt_dim ex_S_gauss ∧ bounded2 40 pt_dim n ex_E_gauss
      ∧ bounded 40 n ex_r_gauss ∧ bounded 40 (n + pt_dim) ex_e_gauss
      ∧ ex_d1.length = pt_dim ∧ ∀ x ∈ ex_d1, x < p_int)
    ∧ ∃ sk c, keygen ex_A_rand ex_S_gauss ex_E_gauss = some sk
      ∧ encrypt sk ex_d1 ex_r_gauss ex_e_gauss = some c ∧ decrypt sk c = some ex_d1 :=
  ⟨⟨ex_S_bounded, ex_E_bounded, ex_r_bounded, ex_e_bounded, by decide, by decide⟩,
    decrypt_encrypt ex_A_rand ex_S_gauss ex_E_gauss ex_r_gauss ex_e_gauss ex_d1
      ex_S_bounded ex_E_bounded ex_r_bounded ex_e_bounded (by decide) (by decide)⟩

/-- **C3** (linear combination).  For every key from `keygen`, scalars
`α, β < p` and fresh ciphertexts `c1`, `c2` of plaintexts `v1`, `v2` (every
Gaussian sample of absolute value at most 40), `α·c1 + β·c2` is defined and
decrypts to `α·v1 + β·v2` coordinatewise modulo `p`. -/
theorem decrypt_linear_combination (A_rand : Nat → Nat → Nat)
    (S_gauss E_gauss : Nat → Nat → Int) (r1 e1 r2 e2 : Nat → Int) (v1 v2 : plaintext)
    (α β : Nat)
    (hS : bounded2 40 n pt_dim S_gauss) (hE : bounded2 40 pt_dim n E_gauss)
    (hr1 : bounded 40 n r1) (he1 : bounded 40 (n + pt_dim) e1)
    (hr2 : bounded 40 n r2) (he2 : bounded 40 (n + pt_dim) e2)
    (hv1 : v1.length = pt_dim) (hvp1 : ∀ x ∈ v1, x < p_int)
    (hv2 : v2.length = pt_dim) (hvp2 : ∀ x ∈ v2, x < p_int)
    (hα : α < p_int) (hβ : β < p_int) :
    ∃ sk c1 c2 c, keygen A_rand S_gauss E_gauss = some sk
      ∧ encrypt sk v1 r1 e1 = some c1 ∧ encrypt sk v2 r2 e2 = some c2
      ∧ (c1.mul α).add (c2.mul β) = some c
      ∧ decrypt sk c = some (List.zipWith (fun x y => (α * x + β * y) % p_int) v1 v2) := by
  have hk := keygen_eq A_rand S_gauss E_gauss
  refine ⟨_, _, _,
    ⟨NTL.vec_of (n + pt_dim) (fun i =>
      (fresh_entry (key_A_entry A_rand S_gauss E_gauss) v1 r1 e1 i * α % q
        + fresh_entry (key_A_entry A_rand S_gauss E_gauss) v2 r2 e2 i * β % q) % q)⟩,
    hk, encrypt_keygen hk v1 (by omega) r1 e1, encrypt_keygen hk v2 (by omega) r2 e2, ?_, ?_⟩
  · rw [mul_vec_of, mul_vec_of, add_vec_of]
  · rw [NTL.zipWith_eq_vec_of _ v1 v2 hv1 hv2]
    apply decrypt_lincomb A_rand S_gauss E_gauss r1 e1 r2 e2 v1 v2 α β _ hS hE hr1 he1 hr2 he2
      hv1 hvp1 hv2 hvp2 hα hβ _ hk
    intro i
    simp only [ZMod.natCast_mod, Nat.cast_add, Nat.cast_mul]
    ring

/-- Witness of **C3** at `α = 7`, `β = 5`, `v1 = (1, ..., 60)`, `v2 = (60, ..., 1)`. -/
theorem decrypt_linear_combination_witness :
    (bounded2 40 n pt_dim ex_S_gauss ∧ bounded2 40 pt_dim n ex_E_gauss
      ∧ bounded 40 n ex_r_gauss ∧ bounded 40 (n + pt_dim) ex_e_gauss
      ∧ bounded 40 n ex_r_gauss ∧ bounded 40 (n + pt_dim) ex_e_gauss
      ∧ ex_d1.length = pt_dim ∧ (∀ x ∈ ex_d1, x < p_int)
      ∧ ex_d2.length = pt_dim ∧ (∀ x ∈ ex_d2, x < p_int) ∧ 7 < p_int ∧ 5 < p_int)
    ∧ ∃ sk c1 c2 c, keygen ex_A_rand ex_S_gauss ex_E_gauss = some sk
      ∧ encrypt sk ex_d1 ex_r_gauss ex_e_gauss = some c1
      ∧ encrypt sk ex_d2 ex_r_gauss ex_e_gauss = some c2
      ∧ (c1.mul 7).add (c2.mul 5) = some c
      ∧ decrypt sk c = some (List.zipWith (fun x y => (7 * x + 5 * y) % p_int) ex_d1 ex_d2) :=
  ⟨⟨ex_S_bounded, ex_E_bounded, ex_r_bounded, ex_e_bounded, ex_r_bounded, ex_e_bounded,
      by decide, by decide, by decide, by decide, by decide, by decide⟩,
    decrypt_linear_combination ex_A_rand ex_S_gauss ex_E_gauss ex_r_gauss ex_e_gauss
      ex_r_gauss ex_e_gauss ex_d1 ex_d2 7 5 ex_S_bounded ex_E_bounded ex_r_bounded ex_e_bounded
      ex_r_bounded ex_e_bounded (by decide) (by decide) (by decide) (by decide) (by decide)
      (by decide)⟩

/-- **C4** (additive homomorphism).  For every key from `keygen` and two
ciphertexts `c1`, `c2` that each result from a single encryption (every Gaussian
sample of absolute value at most 40), `c1 + c2` is defined and
`decrypt(c1 + c2) = decrypt(c1) + decrypt(c2)` coordinatewise modulo `p`. -/
theorem decrypt_add (A_rand : Nat → Nat → Nat)
    (S_gauss E_gauss : Nat → Nat → Int) (r1 e1 r2 e2 : Nat → Int) (v1 v2 : plaintext)
    (hS : bounded2 40 n pt_dim S_gauss) (hE : bounded2 40 pt_dim n E_gauss)
    (hr1 : bounded 40 n r1) (he1 : bounded 40 (n + pt_dim) e1)
    (hr2 : bounded 40 n r2) (he2 : bounded 40 (n + pt_dim) e2)
    (hv1 : v1.length = pt_dim) (hvp1 : ∀ x ∈ v1, x < p_int)
    (hv2 : v2.length = pt_dim) (hvp2 : ∀ x ∈ v2, x < p_int) :
    ∃ sk c1 c2 c d1 d2, keygen A_rand S_gauss E_gauss = some sk
      ∧ encrypt sk v1 r1 e1 = some c1 ∧ encrypt sk v2 r2 e2 = some c2
      ∧ c1.add c2 = some c ∧ decrypt sk c1 = some d1 ∧ decrypt sk c2 = some d2
      ∧ decrypt sk c = some (List.zipWith (fun x y => (x + y) % p_int) d1 d2) := by
  have hk := keygen_eq A_rand S_gauss E_gauss
  refine ⟨_, _, _, _, v1, v2, hk, encrypt_keygen hk v1 (by omega) r1 e1,
    encrypt_keygen hk v2 (by omega) r2 e2, add_vec_of _ _ _,
    decrypt_fresh A_rand S_gauss E_gauss r1 e1 v1 hS hE hr1 he1 hv1 hvp1 hk,
    decrypt_fresh A_rand S_gauss E_gauss r2 e2 v2 hS hE hr2 he2 hv2 hvp2 hk, ?_⟩
  rw [NTL.zipWith_eq_vec_of _ v1 v2 hv1 hv2]
  have h := decrypt_lincomb A_rand S_gauss E_gauss r1 e1 r2 e2 v1 v2 1 1
    (fun i => (fresh_entry (key_A_entry A_rand S_gauss E_gauss) v1 r1 e1 i
      + fresh_entry (key_A_entry A_rand S_gauss E_gauss) v2 r2 e2 i) % q)
    hS hE hr1 he1 hr2 he2 hv1 hvp1 hv2 hvp2 (by decide) (by decide)
    (by intro i; simp only [ZMod.natCast_mod, Nat.cast_add, Nat.cast_one, one_mul]) hk
  simpa only [one_mul] using h

/-- Witness of **C4** at the plaintexts `(1, ..., 60)` and `(60, ..., 1)`. -/
theorem decrypt_add_witness :
    (bounded2 40 n pt_dim ex_S_gauss ∧ bounded2 40 pt_dim n ex_E_gauss
      ∧ bounded 40 n ex_r_gauss ∧ bounded 40 (n + pt_dim) ex_e_gauss
      ∧ bounded 40 n ex_r_gauss ∧ bounded 40 (n + pt_dim) ex_e_gauss
      ∧ ex_d1.length = pt_dim ∧ (∀ x ∈ ex_d1, x < p_int)
      ∧ ex_d2.length = pt_dim ∧ (∀ x ∈ ex_d2, x < p_int))
    ∧ ∃ sk c1 c2 c d1 d2, keygen ex_A_rand ex_S_gauss ex_E_gauss = some sk
      ∧ encrypt sk ex_d1 ex_r_gauss ex_e_gauss = some c1
      ∧ encrypt sk ex_d2 ex_r_gauss ex_e_gauss = some c2
      ∧ c1.add c2 = some c ∧ decrypt sk c1 = some d1 ∧ decrypt sk c2 = some d2
      ∧ decrypt sk c = some (List.zipWith (fun x y => (x + y) % p_int) d1 d2) :=
  ⟨⟨ex_S_bounded, ex_E_bounded, ex_r_bounded, ex_e_bounded, ex_r_bounded, ex_e_bounded,
      by decide, by decide, by decide, by decide⟩,
    decrypt_add ex_A_rand ex_S_gauss ex_E_gauss ex_r_gauss ex_e_gauss
      ex_r_gauss ex_e_gauss ex_d1 ex_d2 ex_S_bounded ex_E_bounded ex_r_bounded ex_e_bounded
      ex_r_bounded ex_e_bounded (by decide) (by decide) (by decide) (by decide)⟩

/-- **C5** (scalar homomorphism).  For every key from `keygen`, scalar `α < p`
and fresh ciphertext `c` of a plaintext `v` (every Gaussian sample of absolute
value at most 40), `decrypt(α·c) = α·decrypt(c) = α·v` coordinatewise modulo `p`. -/
theorem decrypt_scalar_mul (A_rand : Nat → Nat → Nat)
    (S_gauss E_gauss : Nat → Nat → Int) (r_gauss e_gauss : Nat → Int) (v : plaintext) (α : Nat)
    (hS : bounded2 40 n pt_dim S_gauss) (hE : bounded2 40 pt_dim n E_gauss)
    (hr : bounded 40 n r_gauss) (he : bounded 40 (n + pt_dim) e_gauss)
    (hv : v.length = pt_dim) (hvp : ∀ x ∈ v, x < p_int) (hα : α < p_int) :
    ∃ sk c d, keygen A_rand S_gauss E_gauss = some sk
      ∧ encrypt sk v r_gauss e_gauss = some c ∧ decrypt sk c = some d ∧ d = v
      ∧ decrypt sk (c.mul α) = some (d.map (fun x => α * x % p_int)) := by
  have hk := keygen_eq A_rand S_gauss E_gauss
  refine ⟨_, _, v, hk, encrypt_keygen hk v (by omega) r_gauss e_gauss,
    decrypt_fresh A_rand S_gauss E_gauss r_gauss e_gauss v hS hE hr he hv hvp hk, rfl, ?_⟩
  rw [mul_vec_of, NTL.map_eq_vec_of _ v hv]
  have h := decrypt_lincomb A_rand S_gauss E_gauss r_gauss e_gauss r_gauss e_gauss v v α 0
    (fun i => fresh_entry (key_A_entry A_rand S_gauss E_gauss) v r_gauss e_gauss i * α % q)
    hS hE hr he hr he hv hvp hv hvp hα (by decide)
    (by intro i; simp only [ZMod.natCast_mod, Nat.cast_mul, Nat.cast_zero, zero_mul, add_zero];
        ring) hk
  simpa only [zero_mul, add_zero] using h

/-- Witness of **C5** at `α = 7` and the plaintext `(1, ..., 60)`. -/
theorem decrypt_scalar_mul_witness :
    (bounded2 40 n pt_dim ex_S_gauss ∧ bounded2 40 pt_dim n ex_E_gauss
      ∧ bounded 40 n ex_r_gauss ∧ bounded 40 (n + pt_dim) ex_e_gauss
      ∧ ex_d1.length = pt_dim ∧ (∀ x ∈ ex_d1, x < p_int) ∧ 7 < p_int)
    ∧ ∃ sk c d, keygen ex_A_rand ex_S_gauss ex_E_gauss = some sk
      ∧ encrypt sk ex_d1 ex_r_gauss ex_e_gauss = some c ∧ decrypt sk c = some d ∧ d = ex_d1
      ∧ decrypt sk (c.mul 7) = some (d.map (fun x => 7 * x % p_int)) :=
  ⟨⟨ex_S_bounded, ex_E_bounded, ex_r_bounded, ex_e_bounded, by decide, by decide, by decide⟩,
    decrypt_scalar_mul ex_A_rand ex_S_gauss ex_E_gauss ex_r_gauss ex_e_gauss ex_d1 7
      ex_S_bounded ex_E_bounded ex_r_bounded ex_e_bounded (by decide) (by decide) (by decide)⟩

end LWE

namespace libsnark

open LWE

/-- **C6** (acceptance condition).  The verifier returns `true` exactly when it
reconstructs values `(A_i, B_i, C_i, H_i)` from the proof and, at every one of
the 15 query indices, `A_i * B_i = H_i * Z_i + C_i` holds in `F_p`; and when the
values are reconstructed and `Z` has its 15 entries, a mismatch at any single
index makes it return `false`, whatever the other indices give. -/
theorem verifier_accepts_iff (vk : r1cs_lattice_ppsnarg_verification_key)
    (x : List Nat) (proof : r1cs_lattice_ppsnarg_proof) :
    (r1cs_lattice_ppsnarg_verifier vk x proof = some true
      ↔ ∃ vals, verifier_values vk x proof = some vals
          ∧ ∀ i, i < r1cs_lattice_ppsnarg_num_queries →
              ∃ v z, vals[i]? = some v ∧ vk.Z[i]? = some z
                ∧ v.1 * v.2.1 % p = (v.2.2.2 * z % p + v.2.2.1) % p)
    ∧ ∀ vals, verifier_values vk x proof = some vals →
        r1cs_lattice_ppsnarg_num_queries ≤ vk.Z.length →
        (∃ i, i < r1cs_lattice_ppsnarg_num_queries ∧
            ∃ v z, vals[i]? = some v ∧ vk.Z[i]? = some z
              ∧ v.1 * v.2.1 % p ≠ (v.2.2.2 * z % p + v.2.2.1) % p) →
        r1cs_lattice_ppsnarg_verifier vk x proof = some false := by
  constructor
  · unfold r1cs_lattice_ppsnarg_verifier
    rw [Option.bind_eq_bind, Option.bind_eq_some]
    constructor
    · rintro ⟨vals, hvals, hcheck⟩
      exact ⟨vals, hvals, (check_loop_true_iff vals vk.Z _).mp hcheck⟩
    · rintro ⟨vals, hvals, h⟩
      exact ⟨vals, hvals, (check_loop_true_iff vals vk.Z _).mpr h⟩
  · intro vals hvals hZ hbad
    have hlen : vals.length = r1cs_lattice_ppsnarg_num_queries := by
      unfold verifier_values at hvals
      rw [Option.bind_eq_bind, Option.bind_eq_some] at hvals
      obtain ⟨dec, _, h1⟩ := hvals
      rw [Option.bind_eq_some] at h1
      obtain ⟨u, _, h2⟩ := h1
      rw [NTL.mapM_length _ _ _ h2, List.length_range]
    obtain ⟨b, hb⟩ := check_loop_some vals vk.Z r1cs_lattice_ppsnarg_num_queries
      (by omega) hZ
    unfold r1cs_lattice_ppsnarg_verifier
    rw [hvals, Option.bind_eq_bind, Option.some_bind]
    unfold check_divisibility
    rw [hb]
    cases b with
    | false => rfl
    | true =>
      exfalso
      obtain ⟨i, hi, v, z, hv, hz, hne⟩ := hbad
      obtain ⟨v', z', hv', hz', heq⟩ := (check_loop_true_iff vals vk.Z _).mp hb i hi
      rw [hv] at hv'
      rw [hz] at hz'
      cases hv'
      cases hz'
      exact hne heq

/-- **C7** (reconstructed values).  For a verification key with the dimensions
the generator produces for `num_inputs` public inputs, a primary input `x` of
that length and a proof of length `n + pt_dim`, decryption and un-masking
succeed and, with `u = Y' * decrypt(sk, proof)` over `Z_p`, the verifier tests
`A_i = u[i] + A_prefix[i][0] + Σ_j x[j] * A_prefix[i][j+1]`, likewise `B_i` from
`u[l+i]` and `C_i` from `u[2l+i]`, and `H_i = u[3l+i]`, all modulo `p`. -/
theorem verifier_values_eq (vk : r1cs_lattice_ppsnarg_verification_key)
    (x : List Nat) (proof : r1cs_lattice_ppsnarg_proof) (num_inputs : Nat)
    (hwf : vk_well_formed vk num_inputs) (hx : x.length = num_inputs)
    (hproof : proof.response.ctxt.length = n + pt_dim) :
    ∃ dec u, decrypt vk.sk proof.response = some dec
      ∧ NTL.mul_mat_vec p vk.Yprime dec = some u
      ∧ verifier_values vk x proof = some
        ((List.range r1cs_lattice_ppsnarg_num_queries).map (fun i =>
          ((u.getD i 0 + (vk.A_prefix.getD i []).getD 0 0
              + ∑ j in Finset.range num_inputs,
                  x.getD j 0 * (vk.A_prefix.getD i []).getD (j + 1) 0) % p,
           (u.getD (LWE.l + i) 0 + (vk.B_prefix.getD i []).getD 0 0
              + ∑ j in Finset.range num_inputs,
                  x.getD j 0 * (vk.B_prefix.getD i []).getD (j + 1) 0) % p,
           (u.getD (2 * LWE.l + i) 0 + (vk.C_prefix.getD i []).getD 0 0
              + ∑ j in Finset.range num_inputs,
                  x.getD j 0 * (vk.C_prefix.getD i []).getD (j + 1) 0) % p,
           u.getD (3 * LWE.l + i) 0))) := by
  obtain ⟨dec, u, h1, h2, _, _, h3⟩ := verifier_values_closed vk x proof num_inputs hwf hx hproof
  refine ⟨dec, u, h1, h2, ?_⟩
  rw [h3]
  refine congrArg some (List.map_congr_left ?_)
  intro i _
  subst hx
  simp only [statement_sum, r1cs_lattice_ppsnarg_num_queries, Nat.add_comm i]

/-- Witness of **C7** at a sample key with two public inputs. -/
theorem verifier_values_eq_witness :
    (vk_well_formed ex_vk 2 ∧ [3, 4].length = 2 ∧ ex_proof.response.ctxt.length = n + pt_dim)
    ∧ ∃ dec u, decrypt ex_vk.sk ex_proof.response = some dec
      ∧ NTL.mul_mat_vec p ex_vk.Yprime dec = some u
      ∧ verifier_values ex_vk [3, 4] ex_proof = some
        ((List.range r1cs_lattice_ppsnarg_num_queries).map (fun i =>
          ((u.getD i 0 + (ex_vk.A_prefix.getD i []).getD 0 0
              + ∑ j in Finset.range 2,
                  [3, 4].getD j 0 * (ex_vk.A_prefix.getD i []).getD (j + 1) 0) % p,
           (u.getD (LWE.l + i) 0 + (ex_vk.B_prefix.getD i []).getD 0 0
              + ∑ j in Finset.range 2,
                  [3, 4].getD j 0 * (ex_vk.B_prefix.getD i []).getD (j + 1) 0) % p,
           (u.getD (2 * LWE.l + i) 0 + (ex_vk.C_prefix.getD i []).getD 0 0
              + ∑ j in Finset.range 2,
                  [3, 4].getD j 0 * (ex_vk.C_prefix.getD i []).getD (j + 1) 0) % p,
           u.getD (3 * LWE.l + i) 0))) :=
  ⟨⟨ex_vk_well_formed, rfl, ex_proof_length⟩,
    verifier_values_eq ex_vk [3, 4] ex_proof 2 ex_vk_well_formed rfl ex_proof_length⟩

end libsnark

namespace libsnark

open LWE

/-- Counterexample to **C9**: the zero mask is a possible draw of `generate_Y`,
it is singular, and the generator then fails instead of drawing again. -/
theorem singular_mask_not_resampled :
    (NTL.to_Matrix p (4 * LWE.l) (generate_Y (4 * LWE.l) singular_draws.Y_rand)).det = 0
    ∧ r1cs_lattice_ppsnarg_generator ex_ext () singular_draws = none := by
  rw [generator_eq_of_well_formed ex_ext () singular_draws 17 2
    (ex_instances_well_formed singular_draws), singular_draws_Y_rand]
  have hdet := det_zero_generate_Y (4 * LWE.l) four_l_pos
  refine ⟨hdet, ?_⟩
  rw [(inv_transpose_generate_Y (4 * LWE.l) four_l_pos _).1 hdet]
  rfl

/-- **C9**, amended (singular mask).  The generator draws the mask `Y` once.
For instance evaluations of the sizes the packer reads: when the drawn `Y` is
singular over `Z_p` the generator fails (the error of `NTL::inv`), with no
second draw; when `Y` is invertible it returns a key pair, whose `Yprime`
satisfies `Yprime * Y^T = I`.  So no key pair is ever built from a singular
mask. -/
theorem generator_mask {CS : Type} (ext : r1cs_to_qap CS) (cs : CS) (draws : generator_draws)
    (V1 Hn : Nat) (hwf : instances_well_formed ext cs draws V1 Hn) :
    ((NTL.to_Matrix p (4 * LWE.l) (generate_Y (4 * LWE.l) draws.Y_rand)).det = 0 →
      r1cs_lattice_ppsnarg_generator ext cs draws = none)
    ∧ ((NTL.to_Matrix p (4 * LWE.l) (generate_Y (4 * LWE.l) draws.Y_rand)).det ≠ 0 →
      ∃ kp, r1cs_lattice_ppsnarg_generator ext cs draws = some kp
        ∧ NTL.mul_mat p kp.vk.Yprime (NTL.transpose (generate_Y (4 * LWE.l) draws.Y_rand))
          = some (NTL.ident_mat_ZZ_p p (4 * LWE.l))) := by
  have hinv := inv_transpose_generate_Y (4 * LWE.l) four_l_pos draws.Y_rand
  rw [generator_eq_of_well_formed ext cs draws V1 Hn hwf]
  constructor
  · intro hdet
    rw [hinv.1 hdet]
    rfl
  · intro hdet
    obtain ⟨X, hX⟩ := hinv.2 hdet
    rw [hX]
    exact ⟨_, rfl, (Yprime_mul draws.Y_rand X hX).1⟩

/-- Witness of **C9** (amended) at the sample reduction and sample draws. -/
theorem generator_mask_witness :
    instances_well_formed ex_ext () ex_draws 17 2
    ∧ (((NTL.to_Matrix p (4 * LWE.l) (generate_Y (4 * LWE.l) ex_draws.Y_rand)).det = 0 →
        r1cs_lattice_ppsnarg_generator ex_ext () ex_draws = none)
      ∧ ((NTL.to_Matrix p (4 * LWE.l) (generate_Y (4 * LWE.l) ex_draws.Y_rand)).det ≠ 0 →
        ∃ kp, r1cs_lattice_ppsnarg_generator ex_ext () ex_draws = some kp
          ∧ NTL.mul_mat p kp.vk.Yprime
              (NTL.transpose (generate_Y (4 * LWE.l) ex_draws.Y_rand))
            = some (NTL.ident_mat_ZZ_p p (4 * LWE.l)))) :=
  ⟨ex_instances_well_formed ex_draws,
    generator_mask ex_ext () ex_draws 17 2 (ex_instances_well_formed ex_draws)⟩

/-- **C10** (Y-mask correctness).  Whenever the generator returns a key pair,
the matrix `Yprime = inv(transpose(Y))` stored in its verification key
satisfies `Yprime * Y^T = I` and `Y * Yprime^T = I` over `Z_p`, for the mask `Y`
of that run. -/
theorem Yprime_mul_transpose_Y {CS : Type} (ext : r1cs_to_qap CS) (cs : CS)
    (draws : generator_draws) (kp : r1cs_lattice_ppsnarg_keypair CS)
    (h : r1cs_lattice_ppsnarg_generator ext cs draws = some kp) :
    NTL.mul_mat p kp.vk.Yprime (NTL.transpose (generate_Y (4 * LWE.l) draws.Y_rand))
        = some (NTL.ident_mat_ZZ_p p (4 * LWE.l))
    ∧ NTL.mul_mat p (generate_Y (4 * LWE.l) draws.Y_rand) (NTL.transpose kp.vk.Yprime)
        = some (NTL.ident_mat_ZZ_p p (4 * LWE.l)) :=
  Yprime_mul draws.Y_rand kp.vk.Yprime (generator_some ext cs draws kp h).1

/-- Witness of **C10**: the generator returns a key pair on the sample
reduction with the sample draws. -/
theorem Yprime_mul_transpose_Y_witness :
    r1cs_lattice_ppsnarg_generator ex_ext () ex_draws
      = some (gen_keypair ex_ext () ex_draws (NTL.ident_mat_ZZ_p p (4 * LWE.l)))
    ∧ (NTL.mul_mat p (gen_keypair ex_ext () ex_draws (NTL.ident_mat_ZZ_p p (4 * LWE.l))).vk.Yprime
          (NTL.transpose (generate_Y (4 * LWE.l) ex_draws.Y_rand))
        = some (NTL.ident_mat_ZZ_p p (4 * LWE.l))
      ∧ NTL.mul_mat p (generate_Y (4 * LWE.l) ex_draws.Y_rand)
          (NTL.transpose
            (gen_keypair ex_ext () ex_draws (NTL.ident_mat_ZZ_p p (4 * LWE.l))).vk.Yprime)
        = some (NTL.ident_mat_ZZ_p p (4 * LWE.l))) :=
  ⟨ex_generator ex_draws rfl,
    Yprime_mul_transpose_Y ex_ext () ex_draws _ (ex_generator ex_draws rfl)⟩

end libsnark

namespace libsnark

open LWE

/-- **C11** (un-masking).  For every query matrix `M` over `Z_p` with `R >= 1`
rows and `4 * l` columns, every `4l x 4l` mask `Y` that `NTL::inv` inverts, with
`Yprime = inv(transpose(Y))`, and every proof vector `pi` with one entry per row
of `M`: the products `M * Y` and `v = (M * Y)^T * pi` are defined, and
`Yprime * v`, the product the verifier forms, is exactly `M^T * pi` over `Z_p`,
whose entry `c` is the sum of `M[r][c] * pi[r]` reduced mod `p`. -/
theorem unmasking (M Y Yprime : matrix) (pi : vector) (R : Nat) (hR : 0 < R)
    (hM : M.length = R) (hMrow : ∀ row ∈ M, row.length = 4 * LWE.l)
    (hY : Y.length = 4 * LWE.l) (hYrow : ∀ row ∈ Y, row.length = 4 * LWE.l)
    (hinv : NTL.inv p (NTL.transpose Y) = some Yprime) (hpi : pi.length = R) :
    ∃ MY v, NTL.mul_mat p M Y = some MY
      ∧ NTL.mul_mat_vec p (NTL.transpose MY) pi = some v
      ∧ NTL.mul_mat_vec p Yprime v = NTL.mul_mat_vec p (NTL.transpose M) pi
      ∧ NTL.mul_mat_vec p (NTL.transpose M) pi
          = some (NTL.vec_of (4 * LWE.l)
              (fun c => (∑ r in Finset.range R, NTL.entry M r c * pi.getD r 0) % p)) :=
  NTL.unmask p (4 * LWE.l) R four_l_pos hR M Y Yprime pi hM hMrow hY hYrow hinv hpi

/-- Witness of **C11**: a three-row matrix, the identity mask and the proof
vector `(1, 2, 3)`. -/
theorem unmasking_witness :
    NTL.inv p (NTL.transpose (generate_Y (4 * LWE.l) ex_Y_rand))
      = some (NTL.ident_mat_ZZ_p p (4 * LWE.l))
    ∧ ∃ MY v, NTL.mul_mat p (NTL.mat_of 3 (4 * LWE.l) (fun r c => r + c))
          (generate_Y (4 * LWE.l) ex_Y_rand) = some MY
      ∧ NTL.mul_mat_vec p (NTL.transpose MY) [1, 2, 3] = some v
      ∧ NTL.mul_mat_vec p (NTL.ident_mat_ZZ_p p (4 * LWE.l)) v
          = NTL.mul_mat_vec p (NTL.transpose (NTL.mat_of 3 (4 * LWE.l) (fun r c => r + c)))
              [1, 2, 3]
      ∧ NTL.mul_mat_vec p (NTL.transpose (NTL.mat_of 3 (4 * LWE.l) (fun r c => r + c))) [1, 2, 3]
          = some (NTL.vec_of (4 * LWE.l)
              (fun c => (∑ r in Finset.range 3,
                NTL.entry (NTL.mat_of 3 (4 * LWE.l) (fun r c => r + c)) r c
                  * [1, 2, 3].getD r 0) % p)) :=
  ⟨inv_identity,
    unmasking (NTL.mat_of 3 (4 * LWE.l) (fun r c => r + c)) (generate_Y (4 * LWE.l) ex_Y_rand)
      (NTL.ident_mat_ZZ_p p (4 * LWE.l)) [1, 2, 3] 3 (by decide)
      (NTL.length_mat_of _ _ _) (NTL.row_length_mat_of _ _ _)
      (NTL.length_mat_of _ _ _) (NTL.row_length_mat_of _ _ _) inv_identity rfl⟩

end libsnark

namespace LWE

/-- **C12** (decrypt).  For every secret key, whose `S` has `n + d` rows of
`d` entries, and every ciphertext `c` of length `n + d`, `decrypt` returns a
plaintext (it does not fail) of exactly `d = 60` entries, each in `[0, p)`,
whose `i`-th entry is `w_i` recentred (`w_i - q` when `w_i > q/2`, else `w_i`)
and reduced mod `p`, where `w_i` is the `i`-th entry of `S^T * c` over `Z_q`. -/
theorem decrypt_recentred (sk : secret_key) (hlen : sk.S.length = n + pt_dim)
    (hrow : ∀ row ∈ sk.S, row.length = pt_dim) (ct : ciphertext)
    (hc : ct.ctxt.length = n + pt_dim) :
    ∃ pt, decrypt sk ct = some pt ∧ pt.length = 60
      ∧ NTL.mul_mat_vec q (NTL.transpose sk.S) ct.ctxt
          = some (NTL.vec_of pt_dim (fun i =>
              (∑ k in Finset.range (n + pt_dim), NTL.entry sk.S k i * ct.ctxt.getD k 0) % q))
      ∧ ∀ i, i < 60 → pt.getD i 0 < p
          ∧ ((pt.getD i 0 : Nat) : Int)
            = (if (((∑ k in Finset.range (n + pt_dim),
                      NTL.entry sk.S k i * ct.ctxt.getD k 0) % q : Nat) : Int) > (q : Int) / 2
                then (((∑ k in Finset.range (n + pt_dim),
                      NTL.entry sk.S k i * ct.ctxt.getD k 0) % q : Nat) : Int) - (q : Int)
                else (((∑ k in Finset.range (n + pt_dim),
                      NTL.entry sk.S k i * ct.ctxt.getD k 0) % q : Nat) : Int)) % (p : Int) := by
  refine ⟨_, decrypt_well_formed sk hlen hrow ct hc, NTL.length_vec_of _ _, ?_, ?_⟩
  · have hS := NTL.mat_eq_mat_of sk.S (n + pt_dim) pt_dim hlen hrow
    have hT : NTL.transpose sk.S
        = NTL.mat_of pt_dim (n + pt_dim) (fun i j => NTL.entry sk.S j i) := by
      conv_lhs => rw [hS]
      exact NTL.transpose_mat_of _ (by decide)
    rw [hT]
    exact NTL.mul_mat_vec_mat_of_list q pt_dim (n + pt_dim) _ ct.ctxt hc
  · intro i hi
    have hi2 : i < pt_dim := hi
    rw [NTL.getD_vec_of _ hi2]
    exact ⟨decode_lt _, decode_eq _⟩

/-- Witness of **C12**: the sample key and the sample ciphertext. -/
theorem decrypt_recentred_witness :
    (libsnark.ex_vk.sk.S.length = n + pt_dim
      ∧ (∀ row ∈ libsnark.ex_vk.sk.S, row.length = pt_dim)
      ∧ libsnark.ex_proof.response.ctxt.length = n + pt_dim)
    ∧ ∃ pt, decrypt libsnark.ex_vk.sk libsnark.ex_proof.response = some pt ∧ pt.length = 60
      ∧ NTL.mul_mat_vec q (NTL.transpose libsnark.ex_vk.sk.S) libsnark.ex_proof.response.ctxt
          = some (NTL.vec_of pt_dim (fun i =>
              (∑ k in Finset.range (n + pt_dim), NTL.entry libsnark.ex_vk.sk.S k i
                * libsnark.ex_proof.response.ctxt.getD k 0) % q))
      ∧ ∀ i, i < 60 → pt.getD i 0 < p
          ∧ ((pt.getD i 0 : Nat) : Int)
            = (if (((∑ k in Finset.range (n + pt_dim), NTL.entry libsnark.ex_vk.sk.S k i
                      * libsnark.ex_proof.response.ctxt.getD k 0) % q : Nat) : Int) > (q : Int) / 2
                then (((∑ k in Finset.range (n + pt_dim), NTL.entry libsnark.ex_vk.sk.S k i
                      * libsnark.ex_proof.response.ctxt.getD k 0) % q : Nat) : Int) - (q : Int)
                else (((∑ k in Finset.range (n + pt_dim), NTL.entry libsnark.ex_vk.sk.S k i
                      * libsnark.ex_proof.response.ctxt.getD k 0) % q : Nat) : Int)) % (p : Int) :=
  ⟨⟨libsnark.ex_vk_well_formed.1, libsnark.ex_vk_well_formed.2.1, libsnark.ex_proof_length⟩,
    decrypt_recentred libsnark.ex_vk.sk libsnark.ex_vk_well_formed.1
      libsnark.ex_vk_well_formed.2.1 libsnark.ex_proof.response libsnark.ex_proof_length⟩

end LWE

namespace LWE

/-- **C13** (encrypt).  For every secret key, whose `A` has `n + d` rows of `n`
entries, every plaintext `v` of length `d` and all Gaussian samples `r` (for the
`n` entries of the randomness) and `e` (for the `n + d` errors), `encrypt`
returns a ciphertext of length `n + d` whose coordinate `i` is
`(A*r)_i + v_pad_i + p*e_i` over `Z_q`, where `v_pad` is `n` zeros followed by
the entries of `v`. -/
theorem encrypt_eq (sk : secret_key) (hlen : sk.A.length = n + pt_dim)
    (hrow : ∀ row ∈ sk.A, row.length = n) (v : plaintext) (hv : v.length = pt_dim)
    (r_gauss e_gauss : Nat → Int) :
    ∃ c, encrypt sk v r_gauss e_gauss = some c ∧ c.ctxt.length = n + pt_dim
      ∧ ∀ i, i < n + pt_dim →
          c.ctxt.getD i 0
            = NTL.conv q (∑ k in Finset.range n, (NTL.entry sk.A i k : Int) * r_gauss k
                + (if i < n then 0 else (v.getD (i - n) 0 : Int)) + (p : Int) * e_gauss i) := by
  have hA := NTL.mat_eq_mat_of sk.A (n + pt_dim) n hlen hrow
  refine ⟨_, encrypt_mat_of sk _ hA v (le_of_eq hv.symm) r_gauss e_gauss, ?_, ?_⟩
  · dsimp only
    exact NTL.length_vec_of _ _
  intro i hi
  dsimp only
  rw [NTL.getD_vec_of _ hi]
  exact fresh_entry_eq_conv _ v r_gauss e_gauss i

/-- Witness of **C13**: the sample key, the plaintext `(1, ..., 60)` and the
sample draws. -/
theorem encrypt_eq_witness :
    (libsnark.ex_vk.sk.A.length = n + pt_dim ∧ (∀ row ∈ libsnark.ex_vk.sk.A, row.length = n)
      ∧ ex_d1.length = pt_dim)
    ∧ ∃ c, encrypt libsnark.ex_vk.sk ex_d1 ex_r_gauss ex_e_gauss = some c
      ∧ c.ctxt.length = n + pt_dim
      ∧ ∀ i, i < n + pt_dim →
          c.ctxt.getD i 0
            = NTL.conv q (∑ k in Finset.range n,
                  (NTL.entry libsnark.ex_vk.sk.A i k : Int) * ex_r_gauss k
                + (if i < n then 0 else (ex_d1.getD (i - n) 0 : Int))
                + (p : Int) * ex_e_gauss i) :=
  ⟨⟨libsnark.ex_vk_A_length, libsnark.ex_vk_A_rows, by decide⟩,
    encrypt_eq libsnark.ex_vk.sk libsnark.ex_vk_A_length libsnark.ex_vk_A_rows ex_d1 (by decide)
      ex_r_gauss ex_e_gauss⟩

end LWE

namespace LWE

/-- **C14** (keygen).  For every draw of `A_hat` (`A_rand`, reduced mod `q`),
`S_hat` and `E_hat`, `keygen` returns a key: `A` has `n + d` rows of `n`
entries, its top `n` rows are `A_hat` and its bottom `d` rows are
`S_hat^T * A_hat + p * E_hat` over `Z_q`; `S` has `n + d` rows of `d` entries,
its top `n` rows are `-S_hat` over `Z_q` and its bottom `d` rows the identity. -/
theorem keygen_structure (A_rand : Nat → Nat → Nat) (S_gauss E_gauss : Nat → Nat → Int) :
    ∃ sk, keygen A_rand S_gauss E_gauss = some sk
      ∧ sk.A.length = n + pt_dim ∧ (∀ row ∈ sk.A, row.length = n)
      ∧ sk.S.length = n + pt_dim ∧ (∀ row ∈ sk.S, row.length = pt_dim)
      ∧ (∀ i j, i < n → j < n → NTL.entry sk.A i j = A_rand i j % q)
      ∧ (∀ i j, i < pt_dim → j < n →
          NTL.entry sk.A (n + i) j
            = NTL.conv q (∑ k in Finset.range n, S_gauss k i * ((A_rand k j % q : Nat) : Int)
                + (p : Int) * E_gauss i j))
      ∧ (∀ i j, i < n → j < pt_dim → NTL.entry sk.S i j = NTL.conv q (-(S_gauss i j)))
      ∧ (∀ i j, i < pt_dim → j < pt_dim →
          NTL.entry sk.S (n + i) j = if i = j then 1 else 0) := by
  refine ⟨_, keygen_eq A_rand S_gauss E_gauss, ?_, ?_, ?_, ?_, ?_, ?_, ?_, ?_⟩
  · dsimp only
    exact NTL.length_mat_of _ _ _
  · dsimp only
    exact NTL.row_length_mat_of _ _ _
  · dsimp only
    exact NTL.length_mat_of _ _ _
  · dsimp only
    exact NTL.row_length_mat_of _ _ _
  · intro i j hi hj
    dsimp only
    rw [NTL.entry_mat_of _ (Nat.lt_add_right pt_dim hi) hj]
    exact key_A_entry_top A_rand S_gauss E_gauss hi j
  · intro i j hi hj
    dsimp only
    rw [NTL.entry_mat_of _ (Nat.add_lt_add_left hi n) hj]
    exact key_A_entry_bottom A_rand S_gauss E_gauss i j
  · intro i j hi hj
    dsimp only
    rw [NTL.entry_mat_of _ (Nat.lt_add_right pt_dim hi) hj]
    exact key_S_entry_top S_gauss hi j
  · intro i j hi hj
    dsimp only
    rw [NTL.entry_mat_of _ (Nat.add_lt_add_left hi n) hj]
    exact key_S_entry_bottom S_gauss i j

end LWE

namespace libsnark

open LWE

/-- **C15** (query-matrix slices).  For `l` queries `A_i`, `B_i`, `C_i` of
common length `V >= I + 1`, `l` queries `H_i` of common length `H` and `l`
values `Z_i`, `make_query_matrix` returns a matrix `M` with (0-based,
`r < V - I - 1`, `i < l`) `M[r][i] = A_i[r+I+1]`, `M[r][l+i] = B_i[r+I+1]`,
`M[r][2l+i] = C_i[r+I+1]`, `M[r][3l+i] = 0`, and for `r < H`
`M[V-I+2+r][3l+i] = H_i[r]`, `M[V-I+2+r][c] = 0` for `c < 3l`.  The first
`I + 1` entries of the `A_i`, `B_i`, `C_i` are not read: queries that agree from
index `I + 1` on give the same matrix. -/
theorem make_query_matrix_slices (A_query B_query C_query H_query : List (List Nat))
    (Zs : List Nat) (num_inputs V Hn : Nat)
    (hAl : A_query.length = LWE.l) (hBl : B_query.length = LWE.l)
    (hCl : C_query.length = LWE.l) (hHl : H_query.length = LWE.l) (hZl : Zs.length = LWE.l)
    (hA : ∀ j, j < LWE.l → (A_query.getD j []).length = V)
    (hB : ∀ j, j < LWE.l → (B_query.getD j []).length = V)
    (hC : ∀ j, j < LWE.l → (C_query.getD j []).length = V)
    (hH : ∀ j, j < LWE.l → (H_query.getD j []).length = Hn)
    (hI : num_inputs + 1 ≤ V) :
    ∃ M, make_query_matrix A_query B_query C_query H_query Zs num_inputs = some M
      ∧ (∀ r i, r < V - num_inputs - 1 → i < LWE.l →
          NTL.entry M r i = (A_query.getD i []).getD (r + num_inputs + 1) 0
          ∧ NTL.entry M r (LWE.l + i) = (B_query.getD i []).getD (r + num_inputs + 1) 0
          ∧ NTL.entry M r (2 * LWE.l + i) = (C_query.getD i []).getD (r + num_inputs + 1) 0
          ∧ NTL.entry M r (3 * LWE.l + i) = 0)
      ∧ (∀ r i, r < Hn → i < LWE.l →
          NTL.entry M (V - num_inputs + 2 + r) (3 * LWE.l + i) = (H_query.getD i []).getD r 0)
      ∧ (∀ r c, r < Hn → c < 3 * LWE.l → NTL.entry M (V - num_inputs + 2 + r) c = 0)
      ∧ ∀ A2 B2 C2 : List (List Nat),
          A2.length = LWE.l → B2.length = LWE.l → C2.length = LWE.l →
          (∀ j, j < LWE.l → (A2.getD j []).length = V) →
          (∀ j, j < LWE.l → (B2.getD j []).length = V) →
          (∀ j, j < LWE.l → (C2.getD j []).length = V) →
          (∀ i k, i < LWE.l → num_inputs + 1 ≤ k →
            (A2.getD i []).getD k 0 = (A_query.getD i []).getD k 0) →
          (∀ i k, i < LWE.l → num_inputs + 1 ≤ k →
            (B2.getD i []).getD k 0 = (B_query.getD i []).getD k 0) →
          (∀ i k, i < LWE.l → num_inputs + 1 ≤ k →
            (C2.getD i []).getD k 0 = (C_query.getD i []).getD k 0) →
          make_query_matrix A2 B2 C2 H_query Zs num_inputs = some M := by
  have hl : LWE.l = 15 := rfl
  have hrow : V - num_inputs + 2 = V - num_inputs - 1 + 3 := by omega
  refine ⟨_, make_query_matrix_eq A_query B_query C_query H_query Zs num_inputs V Hn
    (le_of_eq hAl.symm) (le_of_eq hBl.symm) (le_of_eq hCl.symm) (le_of_eq hHl.symm)
    (le_of_eq hZl.symm) hA hB hC hH hI, ?_, ?_, ?_, ?_⟩
  · intro r i hr hi
    rw [NTL.entry_mat_of _ (by omega) (by omega), NTL.entry_mat_of _ (by omega) (by omega),
      NTL.entry_mat_of _ (by omega) (by omega), NTL.entry_mat_of _ (by omega) (by omega)]
    exact ⟨query_entry_A _ _ _ _ _ _ _ _ hr hi, query_entry_B _ _ _ _ _ _ _ _ hr hi,
      query_entry_C _ _ _ _ _ _ _ _ hr hi,
      query_entry_ABC_zero _ _ _ _ _ _ _ _ hr (Nat.le_add_right _ _)⟩
  · intro r i hr hi
    rw [hrow, NTL.entry_mat_of _ (by omega) (by omega), query_entry_H _ _ _ _ _ _ _ _ hr,
      if_pos (by omega), Nat.add_sub_cancel_left]
  · intro r c hr hc
    rw [hrow, NTL.entry_mat_of _ (by omega) (by omega), query_entry_H _ _ _ _ _ _ _ _ hr,
      if_neg (by omega)]
  · intro A2 B2 C2 hA2l hB2l hC2l hA2 hB2 hC2 eA eB eC
    rw [make_query_matrix_eq A2 B2 C2 H_query Zs num_inputs V Hn
      (le_of_eq hA2l.symm) (le_of_eq hB2l.symm) (le_of_eq hC2l.symm) (le_of_eq hHl.symm)
      (le_of_eq hZl.symm) hA2 hB2 hC2 hH hI]
    refine congrArg some (NTL.mat_of_congr fun r c _ _ => ?_)
    exact query_entry_frame A_query B_query C_query A2 B2 C2 H_query Zs num_inputs _ Hn
      eA eB eC r c

/-- Witness of **C15** at the sample queries (`V = 4`, `H = 2`, one input). -/
theorem make_query_matrix_slices_witness :
    (ex_A_query.length = LWE.l ∧ ex_B_query.length = LWE.l ∧ ex_C_query.length = LWE.l
      ∧ ex_H_query.length = LWE.l ∧ ex_Zs.length = LWE.l
      ∧ (∀ j, j < LWE.l → (ex_A_query.getD j []).length = 4)
      ∧ (∀ j, j < LWE.l → (ex_B_query.getD j []).length = 4)
      ∧ (∀ j, j < LWE.l → (ex_C_query.getD j []).length = 4)
      ∧ (∀ j, j < LWE.l → (ex_H_query.getD j []).length = 2) ∧ 1 + 1 ≤ 4)
    ∧ ∃ M, make_query_matrix ex_A_query ex_B_query ex_C_query ex_H_query ex_Zs 1 = some M
      ∧ (∀ r i, r < 4 - 1 - 1 → i < LWE.l →
          NTL.entry M r i = (ex_A_query.getD i []).getD (r + 1 + 1) 0
          ∧ NTL.entry M r (LWE.l + i) = (ex_B_query.getD i []).getD (r + 1 + 1) 0
          ∧ NTL.entry M r (2 * LWE.l + i) = (ex_C_query.getD i []).getD (r + 1 + 1) 0
          ∧ NTL.entry M r (3 * LWE.l + i) = 0)
      ∧ (∀ r i, r < 2 → i < LWE.l →
          NTL.entry M (4 - 1 + 2 + r) (3 * LWE.l + i) = (ex_H_query.getD i []).getD r 0)
      ∧ (∀ r c, r < 2 → c < 3 * LWE.l → NTL.entry M (4 - 1 + 2 + r) c = 0)
      ∧ ∀ A2 B2 C2 : List (List Nat),
          A2.length = LWE.l → B2.length = LWE.l → C2.length = LWE.l →
          (∀ j, j < LWE.l → (A2.getD j []).length = 4) →
          (∀ j, j < LWE.l → (B2.getD j []).length = 4) →
          (∀ j, j < LWE.l → (C2.getD j []).length = 4) →
          (∀ i k, i < LWE.l → 1 + 1 ≤ k →
            (A2.getD i []).getD k 0 = (ex_A_query.getD i []).getD k 0) →
          (∀ i k, i < LWE.l → 1 + 1 ≤ k →
            (B2.getD i []).getD k 0 = (ex_B_query.getD i []).getD k 0) →
          (∀ i k, i < LWE.l → 1 + 1 ≤ k →
            (C2.getD i []).getD k 0 = (ex_C_query.getD i []).getD k 0) →
          make_query_matrix A2 B2 C2 ex_H_query ex_Zs 1 = some M :=
  ⟨⟨by decide, by decide, by decide, by decide, by decide, by decide, by decide, by decide,
      by decide, by decide⟩,
    make_query_matrix_slices ex_A_query ex_B_query ex_C_query ex_H_query ex_Zs 1 4 2
      (by decide) (by decide) (by decide) (by decide) (by decide) (by decide) (by decide)
      (by decide) (by decide) (by decide)⟩

/-- **C16** (Z rows).  Under the same conditions, for `k` in `{0, 1, 2}` row
`V - I - 1 + k` of the matrix returned by `make_query_matrix` holds `Z_i` at
column `k * l + i` (`i < l`) and 0 at every other column: the three rows carry
`Z` into block A, block B and block C, and nothing into block H. -/
theorem make_query_matrix_Z_rows (A_query B_query C_query H_query : List (List Nat))
    (Zs : List Nat) (num_inputs V Hn : Nat)
    (hAl : A_query.length = LWE.l) (hBl : B_query.length = LWE.l)
    (hCl : C_query.length = LWE.l) (hHl : H_query.length = LWE.l) (hZl : Zs.length = LWE.l)
    (hA : ∀ j, j < LWE.l → (A_query.getD j []).length = V)
    (hB : ∀ j, j < LWE.l → (B_query.getD j []).length = V)
    (hC : ∀ j, j < LWE.l → (C_query.getD j []).length = V)
    (hH : ∀ j, j < LWE.l → (H_query.getD j []).length = Hn)
    (hI : num_inputs + 1 ≤ V) :
    ∃ M, make_query_matrix A_query B_query C_query H_query Zs num_inputs = some M
      ∧ ∀ k, k < 3 →
          (∀ i, i < LWE.l → NTL.entry M (V - num_inputs - 1 + k) (k * LWE.l + i) = Zs.getD i 0)
          ∧ (∀ c, c < 4 * LWE.l → (c < k * LWE.l ∨ k * LWE.l + LWE.l ≤ c) →
              NTL.entry M (V - num_inputs - 1 + k) c = 0)
          ∧ (∀ i, i < LWE.l → NTL.entry M (V - num_inputs - 1 + k) (3 * LWE.l + i) = 0) := by
  have hl : LWE.l = 15 := rfl
  refine ⟨_, make_query_matrix_eq A_query B_query C_query H_query Zs num_inputs V Hn
    (le_of_eq hAl.symm) (le_of_eq hBl.symm) (le_of_eq hCl.symm) (le_of_eq hHl.symm)
    (le_of_eq hZl.symm) hA hB hC hH hI, ?_⟩
  intro k hk
  have hk3 : k * LWE.l + LWE.l ≤ 3 * LWE.l := by
    rw [hl]
    omega
  refine ⟨?_, ?_, ?_⟩
  · intro i hi
    rw [NTL.entry_mat_of _ (by omega) (by omega), query_entry_Z _ _ _ _ _ _ _ _ hk,
      if_pos ⟨Nat.le_add_right _ _, Nat.add_lt_add_left hi _⟩, Nat.add_sub_cancel_left]
  · intro c hc hout
    rw [NTL.entry_mat_of _ (by omega) hc, query_entry_Z _ _ _ _ _ _ _ _ hk, if_neg (by omega)]
  · intro i hi
    rw [NTL.entry_mat_of _ (by omega) (by omega), query_entry_Z _ _ _ _ _ _ _ _ hk,
      if_neg (by omega)]

/-- Witness of **C16** at the sample queries. -/
theorem make_query_matrix_Z_rows_witness :
    (ex_A_query.length = LWE.l ∧ ex_B_query.length = LWE.l ∧ ex_C_query.length = LWE.l
      ∧ ex_H_query.length = LWE.l ∧ ex_Zs.length = LWE.l
      ∧ (∀ j, j < LWE.l → (ex_A_query.getD j []).length = 4)
      ∧ (∀ j, j < LWE.l → (ex_B_query.getD j []).length = 4)
      ∧ (∀ j, j < LWE.l → (ex_C_query.getD j []).length = 4)
      ∧ (∀ j, j < LWE.l → (ex_H_query.getD j []).length = 2) ∧ 1 + 1 ≤ 4)
    ∧ ∃ M, make_query_matrix ex_A_query ex_B_query ex_C_query ex_H_query ex_Zs 1 = some M
      ∧ ∀ k, k < 3 →
          (∀ i, i < LWE.l → NTL.entry M (4 - 1 - 1 + k) (k * LWE.l + i) = ex_Zs.getD i 0)
          ∧ (∀ c, c < 4 * LWE.l → (c < k * LWE.l ∨ k * LWE.l + LWE.l ≤ c) →
              NTL.entry M (4 - 1 - 1 + k) c = 0)
          ∧ (∀ i, i < LWE.l → NTL.entry M (4 - 1 - 1 + k) (3 * LWE.l + i) = 0) :=
  ⟨⟨by decide, by decide, by decide, by decide, by decide, by decide, by decide, by decide,
      by decide, by decide⟩,
    make_query_matrix_Z_rows ex_A_query ex_B_query ex_C_query ex_H_query ex_Zs 1 4 2
      (by decide) (by decide) (by decide) (by decide) (by decide) (by decide) (by decide)
      (by decide) (by decide) (by decide)⟩

end libsnark

namespace libsnark

open LWE

/-- **C17** (dimensions).  `make_query_matrix` returns a matrix with exactly
`R = (V - I - 1) + 3 + H` rows and `4 * l = 60` columns, for queries A/B/C of
length `V >= I + 1` and H of length `H`.  For a key pair returned by the
generator (instance evaluations of sizes `V`, `H`), with `M` the packed matrix
and `M1 = M * Y` over `Z_p`, the CRS is a list of exactly `R` ciphertexts whose
`k`-th element is the encryption of row `k` of `M1`, made with the draws of the
`k`-th call of `encrypt`. -/
theorem crs_dimensions {CS : Type} (ext : r1cs_to_qap CS) (cs : CS) (draws : generator_draws)
    (V1 Hn : Nat) (hwf : instances_well_formed ext cs draws V1 Hn)
    (kp : r1cs_lattice_ppsnarg_keypair CS)
    (h : r1cs_lattice_ppsnarg_generator ext cs draws = some kp) :
    (∀ (A_query B_query C_query H_query : List (List Nat)) (Zs : List Nat)
        (num_inputs V Hq : Nat),
        A_query.length = LWE.l → B_query.length = LWE.l → C_query.length = LWE.l →
        H_query.length = LWE.l → Zs.length = LWE.l →
        (∀ j, j < LWE.l → (A_query.getD j []).length = V) →
        (∀ j, j < LWE.l → (B_query.getD j []).length = V) →
        (∀ j, j < LWE.l → (C_query.getD j []).length = V) →
        (∀ j, j < LWE.l → (H_query.getD j []).length = Hq) →
        num_inputs + 1 ≤ V →
        ∃ M, make_query_matrix A_query B_query C_query H_query Zs num_inputs = some M
          ∧ M.length = V - num_inputs - 1 + 3 + Hq
          ∧ (∀ row ∈ M, row.length = 4 * LWE.l) ∧ 4 * LWE.l = 60)
    ∧ ∃ M M1, make_query_matrix
          ((List.range LWE.l).map (fun i => (gen_inst ext cs draws i).At))
          ((List.range LWE.l).map (fun i => (gen_inst ext cs draws i).Bt))
          ((List.range LWE.l).map (fun i => (gen_inst ext cs draws i).Ct))
          ((List.range LWE.l).map (fun i => (gen_inst ext cs draws i).Ht))
          ((List.range LWE.l).map (fun i => (gen_inst ext cs draws i).Zt))
          (gen_inst ext cs draws 0).num_inputs = some M
      ∧ M.length = V1 - (gen_inst ext cs draws 0).num_inputs - 1 + 3 + Hn
      ∧ NTL.mul_mat p M (generate_Y (4 * LWE.l) draws.Y_rand) = some M1
      ∧ M1.length = V1 - (gen_inst ext cs draws 0).num_inputs - 1 + 3 + Hn
      ∧ (∀ row ∈ M1, row.length = 4 * LWE.l)
      ∧ kp.crs.enc_queries.length = V1 - (gen_inst ext cs draws 0).num_inputs - 1 + 3 + Hn
      ∧ ∀ k, k < V1 - (gen_inst ext cs draws 0).num_inputs - 1 + 3 + Hn →
          kp.crs.enc_queries[k]?
            = encrypt kp.vk.sk (M1.getD k []) (draws.enc_r k) (draws.enc_e k) := by
  constructor
  · intro A_query B_query C_query H_query Zs num_inputs V Hq hAl hBl hCl hHl hZl hA hB hC hH hI
    exact ⟨_, make_query_matrix_eq A_query B_query C_query H_query Zs num_inputs V Hq
      (le_of_eq hAl.symm) (le_of_eq hBl.symm) (le_of_eq hCl.symm) (le_of_eq hHl.symm)
      (le_of_eq hZl.symm) hA hB hC hH hI, NTL.length_mat_of _ _ _, NTL.row_length_mat_of _ _ _,
      by decide⟩
  · obtain ⟨Yprime, _, hkp⟩ := generator_keypair ext cs draws V1 Hn hwf kp h
    have hk := (generator_some ext cs draws kp h).2.1
    have hR := gen_rows_eq ext cs draws V1 Hn hwf
    have he : kp.crs.enc_queries
        = (List.range (gen_rows (gen_inst ext cs draws))).map (fun r =>
            ⟨NTL.vec_of (n + pt_dim) (gen_crs_entry (gen_inst ext cs draws) draws r)⟩) := by
      rw [hkp]
      exact gen_keypair_enc_queries ext cs draws Yprime
    rw [← hR]
    refine ⟨_, _, gen_query_matrix ext cs draws V1 Hn hwf, NTL.length_mat_of _ _ _,
      gen_masked_matrix _ _ _, NTL.length_mat_of _ _ _, NTL.row_length_mat_of _ _ _, ?_, ?_⟩
    · rw [he, List.length_map, List.length_range]
    · intro k hk2
      rw [he, List.getElem?_map, List.getElem?_range hk2, NTL.getD_mat_of _ hk2,
        encrypt_keygen hk _ (by rw [NTL.length_vec_of]; exact le_of_eq pt_dim_eq)]
      rfl

/-- Witness of **C17**: the sample reduction and the sample draws. -/
theorem crs_dimensions_witness :
    (instances_well_formed ex_ext () ex_draws 17 2
      ∧ r1cs_lattice_ppsnarg_generator ex_ext () ex_draws
        = some (gen_keypair ex_ext () ex_draws (NTL.ident_mat_ZZ_p p (4 * LWE.l))))
    ∧ ((∀ (A_query B_query C_query H_query : List (List Nat)) (Zs : List Nat)
        (num_inputs V Hq : Nat),
        A_query.length = LWE.l → B_query.length = LWE.l → C_query.length = LWE.l →
        H_query.length = LWE.l → Zs.length = LWE.l →
        (∀ j, j < LWE.l → (A_query.getD j []).length = V) →
        (∀ j, j < LWE.l → (B_query.getD j []).length = V) →
        (∀ j, j < LWE.l → (C_query.getD j []).length = V) →
        (∀ j, j < LWE.l → (H_query.getD j []).length = Hq) →
        num_inputs + 1 ≤ V →
        ∃ M, make_query_matrix A_query B_query C_query H_query Zs num_inputs = some M
          ∧ M.length = V - num_inputs - 1 + 3 + Hq
          ∧ (∀ row ∈ M, row.length = 4 * LWE.l) ∧ 4 * LWE.l = 60)
    ∧ ∃ M M1, make_query_matrix
          ((List.range LWE.l).map (fun i => (gen_inst ex_ext () ex_draws i).At))
          ((List.range LWE.l).map (fun i => (gen_inst ex_ext () ex_draws i).Bt))
          ((List.range LWE.l).map (fun i => (gen_inst ex_ext () ex_draws i).Ct))
          ((List.range LWE.l).map (fun i => (gen_inst ex_ext () ex_draws i).Ht))
          ((List.range LWE.l).map (fun i => (gen_inst ex_ext () ex_draws i).Zt))
          (gen_inst ex_ext () ex_draws 0).num_inputs = some M
      ∧ M.length = 17 - (gen_inst ex_ext () ex_draws 0).num_inputs - 1 + 3 + 2
      ∧ NTL.mul_mat p M (generate_Y (4 * LWE.l) ex_draws.Y_rand) = some M1
      ∧ M1.length = 17 - (gen_inst ex_ext () ex_draws 0).num_inputs - 1 + 3 + 2
      ∧ (∀ row ∈ M1, row.length = 4 * LWE.l)
      ∧ (gen_keypair ex_ext () ex_draws (NTL.ident_mat_ZZ_p p (4 * LWE.l))).crs.enc_queries.length
          = 17 - (gen_inst ex_ext () ex_draws 0).num_inputs - 1 + 3 + 2
      ∧ ∀ k, k < 17 - (gen_inst ex_ext () ex_draws 0).num_inputs - 1 + 3 + 2 →
          (gen_keypair ex_ext () ex_draws (NTL.ident_mat_ZZ_p p (4 * LWE.l))).crs.enc_queries[k]?
            = encrypt (gen_keypair ex_ext () ex_draws (NTL.ident_mat_ZZ_p p (4 * LWE.l))).vk.sk
                (M1.getD k []) (ex_draws.enc_r k) (ex_draws.enc_e k)) :=
  ⟨⟨ex_instances_well_formed ex_draws, ex_generator ex_draws rfl⟩,
    crs_dimensions ex_ext () ex_draws 17 2 (ex_instances_well_formed ex_draws) _
      (ex_generator ex_draws rfl)⟩

/-- **C18** (verification key).  For every key pair returned by the generator,
with `I` the number of public inputs of the constraint system: the verification
key holds `Z = (Z_0, ..., Z_{l-1})` in query order, and `A_prefix`, `B_prefix`,
`C_prefix` each hold `l` vectors, the `i`-th of length exactly `I + 1` and
equal to the first `I + 1` coordinates of `A_i`, `B_i`, `C_i`; the query matrix
of the same run is packed from the same `A_i`, `B_i`, `C_i`, `H_i`, `Z_i`. -/
theorem vk_prefixes {CS : Type} (ext : r1cs_to_qap CS) (cs : CS) (draws : generator_draws)
    (kp : r1cs_lattice_ppsnarg_keypair CS)
    (h : r1cs_lattice_ppsnarg_generator ext cs draws = some kp) :
    kp.vk.Z = (List.range LWE.l).map (fun i => (gen_inst ext cs draws i).Zt)
    ∧ kp.vk.A_prefix.length = LWE.l ∧ kp.vk.B_prefix.length = LWE.l
    ∧ kp.vk.C_prefix.length = LWE.l
    ∧ (∀ i, i < LWE.l →
        (kp.vk.A_prefix.getD i []).length = (gen_inst ext cs draws 0).num_inputs + 1
        ∧ (kp.vk.B_prefix.getD i []).length = (gen_inst ext cs draws 0).num_inputs + 1
        ∧ (kp.vk.C_prefix.getD i []).length = (gen_inst ext cs draws 0).num_inputs + 1
        ∧ kp.vk.A_prefix.getD i []
            = (gen_inst ext cs draws i).At.take ((gen_inst ext cs draws 0).num_inputs + 1)
        ∧ kp.vk.B_prefix.getD i []
            = (gen_inst ext cs draws i).Bt.take ((gen_inst ext cs draws 0).num_inputs + 1)
        ∧ kp.vk.C_prefix.getD i []
            = (gen_inst ext cs draws i).Ct.take ((gen_inst ext cs draws 0).num_inputs + 1)
        ∧ ∀ j, j < (gen_inst ext cs draws 0).num_inputs + 1 →
            (kp.vk.A_prefix.getD i []).getD j 0 = (gen_inst ext cs draws i).At.getD j 0
            ∧ (kp.vk.B_prefix.getD i []).getD j 0 = (gen_inst ext cs draws i).Bt.getD j 0
            ∧ (kp.vk.C_prefix.getD i []).getD j 0 = (gen_inst ext cs draws i).Ct.getD j 0)
    ∧ ∃ M, make_query_matrix
        ((List.range LWE.l).map (fun i => (gen_inst ext cs draws i).At))
        ((List.range LWE.l).map (fun i => (gen_inst ext cs draws i).Bt))
        ((List.range LWE.l).map (fun i => (gen_inst ext cs draws i).Ct))
        ((List.range LWE.l).map (fun i => (gen_inst ext cs draws i).Ht))
        kp.vk.Z (gen_inst ext cs draws 0).num_inputs = some M := by
  obtain ⟨⟨a1, a2⟩, ⟨b1, b2⟩, ⟨c1, c2⟩, M, hM⟩ := generator_prefixes ext cs draws kp h
  have hZ := (generator_some ext cs draws kp h).2.2.1
  have htake : ∀ (v : List Nat) (k j : Nat), j < k → (v.take k).getD j 0 = v.getD j 0 := by
    intro v k j hj
    rw [List.getD_eq_getElem?_getD, List.getD_eq_getElem?_getD, List.getElem?_take_of_lt hj]
  refine ⟨hZ, ?_, ?_, ?_, ?_, ⟨M, by rw [hZ]; exact hM⟩⟩
  · rw [a1, List.length_map, List.length_range]
  · rw [b1, List.length_map, List.length_range]
  · rw [c1, List.length_map, List.length_range]
  · intro i hi
    rw [a1, b1, c1, getD_map_range _ _ _ hi, getD_map_range _ _ _ hi, getD_map_range _ _ _ hi]
    refine ⟨?_, ?_, ?_, rfl, rfl, rfl, ?_⟩
    · rw [List.length_take]
      exact Nat.min_eq_left (a2 i hi)
    · rw [List.length_take]
      exact Nat.min_eq_left (b2 i hi)
    · rw [List.length_take]
      exact Nat.min_eq_left (c2 i hi)
    · intro j hj
      exact ⟨htake _ _ _ hj, htake _ _ _ hj, htake _ _ _ hj⟩

/-- Witness of **C18**: the sample reduction and the sample draws. -/
theorem vk_prefixes_witness :
    r1cs_lattice_ppsnarg_generator ex_ext () ex_draws
      = some (gen_keypair ex_ext () ex_draws (NTL.ident_mat_ZZ_p p (4 * LWE.l)))
    ∧ ∃ kp, r1cs_lattice_ppsnarg_generator ex_ext () ex_draws = some kp
    ∧ kp.vk.Z = (List.range LWE.l).map (fun i => (gen_inst ex_ext () ex_draws i).Zt)
    ∧ kp.vk.A_prefix.length = LWE.l ∧ kp.vk.B_prefix.length = LWE.l
    ∧ kp.vk.C_prefix.length = LWE.l
    ∧ (∀ i, i < LWE.l →
        (kp.vk.A_prefix.getD i []).length = (gen_inst ex_ext () ex_draws 0).num_inputs + 1
        ∧ (kp.vk.B_prefix.getD i []).length = (gen_inst ex_ext () ex_draws 0).num_inputs + 1
        ∧ (kp.vk.C_prefix.getD i []).length = (gen_inst ex_ext () ex_draws 0).num_inputs + 1
        ∧ kp.vk.A_prefix.getD i []
            = (gen_inst ex_ext () ex_draws i).At.take
                ((gen_inst ex_ext () ex_draws 0).num_inputs + 1)
        ∧ kp.vk.B_prefix.getD i []
            = (gen_inst ex_ext () ex_draws i).Bt.take
                ((gen_inst ex_ext () ex_draws 0).num_inputs + 1)
        ∧ kp.vk.C_prefix.getD i []
            = (gen_inst ex_ext () ex_draws i).Ct.take
                ((gen_inst ex_ext () ex_draws 0).num_inputs + 1)
        ∧ ∀ j, j < (gen_inst ex_ext () ex_draws 0).num_inputs + 1 →
            (kp.vk.A_prefix.getD i []).getD j 0 = (gen_inst ex_ext () ex_draws i).At.getD j 0
            ∧ (kp.vk.B_prefix.getD i []).getD j 0 = (gen_inst ex_ext () ex_draws i).Bt.getD j 0
            ∧ (kp.vk.C_prefix.getD i []).getD j 0 = (gen_inst ex_ext () ex_draws i).Ct.getD j 0)
    ∧ ∃ M, make_query_matrix
        ((List.range LWE.l).map (fun i => (gen_inst ex_ext () ex_draws i).At))
        ((List.range LWE.l).map (fun i => (gen_inst ex_ext () ex_draws i).Bt))
        ((List.range LWE.l).map (fun i => (gen_inst ex_ext () ex_draws i).Ct))
        ((List.range LWE.l).map (fun i => (gen_inst ex_ext () ex_draws i).Ht))
        kp.vk.Z (gen_inst ex_ext () ex_draws 0).num_inputs = some M :=
  ⟨ex_generator ex_draws rfl, _, ex_generator ex_draws rfl,
    vk_prefixes ex_ext () ex_draws _ (ex_generator ex_draws rfl)⟩

end libsnark

namespace libsnark

open LWE

/-- **C19** (proof vector).  For every QAP witness with coefficient vector
`alpha` of length `V >= I`, blinds `d1`, `d2`, `d3` and quotient coefficients
`h` of length `H`, the vector `pi` the prover builds has
`R = (V - I) + 3 + H` entries and is the concatenation of `alpha[I..V-1]`,
`(d1, d2, d3)` and `h`; its entries are the representatives stored in the
witness, so each is in `[0, p)`, hence in `[0, q)`, when those are. -/
theorem proof_vector_concat (qap_wit : qap_witness)
    (hI : qap_wit.num_inputs ≤ qap_wit.coefficients_for_ABCs.length) :
    ∃ R pi, proof_vector qap_wit = some (R, pi)
      ∧ R = (qap_wit.coefficients_for_ABCs.length - qap_wit.num_inputs) + 3
            + qap_wit.coefficients_for_H.length
      ∧ NTL.vec_of R pi
          = qap_wit.coefficients_for_ABCs.drop qap_wit.num_inputs
              ++ [qap_wit.d1, qap_wit.d2, qap_wit.d3] ++ qap_wit.coefficients_for_H
      ∧ ((∀ a ∈ qap_wit.coefficients_for_ABCs, a < p) → qap_wit.d1 < p → qap_wit.d2 < p →
          qap_wit.d3 < p → (∀ a ∈ qap_wit.coefficients_for_H, a < p) →
          ∀ i, i < R → pi i < p ∧ pi i < q) := by
  have hlen : (qap_wit.coefficients_for_ABCs.drop qap_wit.num_inputs
      ++ [qap_wit.d1, qap_wit.d2, qap_wit.d3] ++ qap_wit.coefficients_for_H).length
      = qap_wit.coefficients_for_ABCs.length - qap_wit.num_inputs + 3
          + qap_wit.coefficients_for_H.length := by
    rw [List.length_append, List.length_append, List.length_drop]
    rfl
  refine ⟨_, _, proof_vector_eq qap_wit hI, rfl, NTL.vec_of_getD_of_length hlen, ?_⟩
  intro hα h1 h2 h3 hh i hi
  have hall : ∀ a ∈ qap_wit.coefficients_for_ABCs.drop qap_wit.num_inputs
      ++ [qap_wit.d1, qap_wit.d2, qap_wit.d3] ++ qap_wit.coefficients_for_H, a < p := by
    intro a ha
    rcases List.mem_append.1 ha with ha | ha
    · rcases List.mem_append.1 ha with ha | ha
      · exact hα a (List.mem_of_mem_drop ha)
      · rcases List.mem_cons.1 ha with e | ha
        · rw [e]
          exact h1
        rcases List.mem_cons.1 ha with e | ha
        · rw [e]
          exact h2
        rcases List.mem_cons.1 ha with e | ha
        · rw [e]
          exact h3
        exact absurd ha (List.not_mem_nil a)
    · exact hh a ha
  have hlt : pi_entry qap_wit i < p := by
    unfold pi_entry
    exact NTL.getD_lt_of_forall_mem hall (by rw [hlen]; exact hi)
  exact ⟨hlt, Nat.lt_trans hlt (by decide)⟩

/-- Witness of **C19**: the sample witness, with `V = 5`, `I = 2`, `H = 3`. -/
theorem proof_vector_concat_witness :
    ex_qap_wit.num_inputs ≤ ex_qap_wit.coefficients_for_ABCs.length
    ∧ ∃ R pi, proof_vector ex_qap_wit = some (R, pi)
      ∧ R = (ex_qap_wit.coefficients_for_ABCs.length - ex_qap_wit.num_inputs) + 3
            + ex_qap_wit.coefficients_for_H.length
      ∧ NTL.vec_of R pi
          = ex_qap_wit.coefficients_for_ABCs.drop ex_qap_wit.num_inputs
              ++ [ex_qap_wit.d1, ex_qap_wit.d2, ex_qap_wit.d3] ++ ex_qap_wit.coefficients_for_H
      ∧ ((∀ a ∈ ex_qap_wit.coefficients_for_ABCs, a < p) → ex_qap_wit.d1 < p →
          ex_qap_wit.d2 < p → ex_qap_wit.d3 < p →
          (∀ a ∈ ex_qap_wit.coefficients_for_H, a < p) →
          ∀ i, i < R → pi i < p ∧ pi i < q) :=
  ⟨by decide, proof_vector_concat ex_qap_wit (by decide)⟩

/-- **C20** (proof ciphertext).  For every CRS of `R` ciphertexts of a common
length `L` and every witness whose proof vector `pi` has length `R`
(`R = (V - I) + 3 + H >= 3`), the prover returns a proof, a single ciphertext of
length `L` whose coordinate `j` is the sum over `i < R` of `pi_i * CRS[i][j]`
modulo `q`; it is the result of the left fold that starts from
`CRS[0] * pi[0]` and adds `CRS[i] * pi[i]` for `i = 1, ..., R - 1`.  The CRS is
an argument that is only read. -/
theorem prover_linear_combination {CS : Type} (ext : r1cs_to_qap CS)
    (crs : r1cs_lattice_ppsnarg_crs CS) (x w : List Nat) (d1 d2 d3 : Nat)
    (qap_wit : qap_witness) (L R : Nat)
    (hw : ext.witness_map crs.constraint_system x w (random_element d1) (random_element d2)
      (random_element d3) = qap_wit)
    (hI : qap_wit.num_inputs ≤ qap_wit.coefficients_for_ABCs.length)
    (hdim : qap_wit.coefficients_for_ABCs.length - qap_wit.num_inputs + 3
      + qap_wit.coefficients_for_H.length = R)
    (hR : crs.enc_queries.length = R)
    (hL : ∀ c ∈ crs.enc_queries, c.ctxt.length = L) :
    ∃ proof, r1cs_lattice_ppsnarg_prover ext crs x w d1 d2 d3 = some proof
      ∧ proof.response.ctxt.length = L
      ∧ (∀ j, j < L →
          proof.response.ctxt.getD j 0
            = (∑ i in Finset.range R,
                pi_entry qap_wit i * (crs.enc_queries.getD i ⟨[]⟩).ctxt.getD j 0) % q)
      ∧ NTL.for_loop (R - 1)
          (fun k ct => (crs.enc_queries[k + 1]?).bind
            (fun ci => ct.add (ci.mul (pi_entry qap_wit (k + 1)))))
          ((crs.enc_queries.getD 0 ⟨[]⟩).mul (pi_entry qap_wit 0)) = some proof.response := by
  have hR1 : R - 1 + 1 = R := by omega
  refine ⟨_, prover_eq ext crs x w d1 d2 d3 qap_wit L R hw hI hdim hR hL, ?_, ?_, ?_⟩
  · dsimp only
    exact NTL.length_vec_of _ _
  · intro j hj
    dsimp only
    rw [NTL.getD_vec_of _ hj]
  · dsimp only
    rw [lincomb_fold crs.enc_queries (pi_entry qap_wit) L hL (R - 1) (by omega), hR1]

/-- Witness of **C20**: the sample reduction on the input `(3)` with fifteen
auxiliary values, and the sample CRS of twenty ciphertexts. -/
theorem prover_linear_combination_witness :
    ((ex_ext.witness_map ex_crs.constraint_system [3] (List.replicate 15 5) (random_element 1)
          (random_element 2) (random_element 3)).num_inputs
        ≤ (ex_ext.witness_map ex_crs.constraint_system [3] (List.replicate 15 5)
            (random_element 1) (random_element 2)
            (random_element 3)).coefficients_for_ABCs.length
      ∧ ex_crs.enc_queries.length = 20 ∧ ∀ c ∈ ex_crs.enc_queries, c.ctxt.length = 2)
    ∧ ∃ proof, r1cs_lattice_ppsnarg_prover ex_ext ex_crs [3] (List.replicate 15 5) 1 2 3
          = some proof
      ∧ proof.response.ctxt.length = 2
      ∧ (∀ j, j < 2 →
          proof.response.ctxt.getD j 0
            = (∑ i in Finset.range 20,
                pi_entry (ex_ext.witness_map ex_crs.constraint_system [3] (List.replicate 15 5)
                    (random_element 1) (random_element 2) (random_element 3)) i
                  * (ex_crs.enc_queries.getD i ⟨[]⟩).ctxt.getD j 0) % q)
      ∧ NTL.for_loop (20 - 1)
          (fun k ct => (ex_crs.enc_queries[k + 1]?).bind
            (fun ci => ct.add (ci.mul
              (pi_entry (ex_ext.witness_map ex_crs.constraint_system [3] (List.replicate 15 5)
                (random_element 1) (random_element 2) (random_element 3)) (k + 1)))))
          ((ex_crs.enc_queries.getD 0 ⟨[]⟩).mul
            (pi_entry (ex_ext.witness_map ex_crs.constraint_system [3] (List.replicate 15 5)
              (random_element 1) (random_element 2) (random_element 3)) 0))
        = some proof.response :=
  ⟨⟨by decide, by decide, by decide⟩,
    prover_linear_combination ex_ext ex_crs [3] (List.replicate 15 5) 1 2 3 _ 2 20 rfl
      (by decide) (by decide) (by decide) (by decide)⟩

end libsnark

namespace libsnark

open LWE

/-- Counterexample to **C8**: under the key pair of the sample reduction and
sample draws, the all-zero proof is accepted for the input `(3)`, and the proof
obtained by adding `p` to coordinate `n` of its ciphertext is accepted too. -/
theorem perturbed_proof_accepted :
    ∃ kp, r1cs_lattice_ppsnarg_generator ex_ext () ex_draws = some kp
      ∧ r1cs_lattice_ppsnarg_verifier kp.vk [3] ex_zero_proof = some true
      ∧ r1cs_lattice_ppsnarg_verifier kp.vk [3] ⟨ex_zero_proof.response.add_p_at n⟩
          = some true := by
  have hgen := ex_generator ex_draws rfl
  have hk := (generator_some ex_ext () ex_draws _ hgen).2.1
  have hz : ∀ j, j < pt_dim →
      ((preround ex_draws.S_gauss ex_zero_proof.response.ctxt j : Int) : ZMod q)
        = (((0 : Int) : Int) : ZMod q)
      ∧ -((2 : Int) ^ 57) + 40 * (p_int : Int) < 0
      ∧ (0 : Int) ≤ (2 : Int) ^ 57 - 40 * (p_int : Int) := by
    intro j hj
    refine ⟨cast_preround_of_key hk _ 0 j hj (ex_zero_proof_sum _ j).symm, ?_, ?_⟩
    · decide
    · decide
  obtain ⟨d1, d2⟩ := decrypt_add_p hk ex_S_bounded ex_zero_proof.response.ctxt
    ex_zero_proof_length n (fun _ => 0) hz
  have hD : NTL.vec_of pt_dim (fun _ : Nat => (((0 : Int) % (p_int : Int)).toNat))
      = NTL.vec_of pt_dim (fun _ => 0) := NTL.vec_of_congr fun _ _ => rfl
  rw [hD, ciphertext_eta] at d1 d2
  have hall : (decide (∀ i, i < r1cs_lattice_ppsnarg_num_queries →
      (gen_values (gen_inst ex_ext () ex_draws)
          (gen_keypair ex_ext () ex_draws (NTL.ident_mat_ZZ_p p (4 * LWE.l))).vk.Yprime [3]
          (fun _ => 0) i).1
        * (gen_values (gen_inst ex_ext () ex_draws)
          (gen_keypair ex_ext () ex_draws (NTL.ident_mat_ZZ_p p (4 * LWE.l))).vk.Yprime [3]
          (fun _ => 0) i).2.1 % p
      = ((gen_values (gen_inst ex_ext () ex_draws)
          (gen_keypair ex_ext () ex_draws (NTL.ident_mat_ZZ_p p (4 * LWE.l))).vk.Yprime [3]
          (fun _ => 0) i).2.2.2
            * (gen_keypair ex_ext () ex_draws
                (NTL.ident_mat_ZZ_p p (4 * LWE.l))).vk.Z.getD i 0 % p
          + (gen_values (gen_inst ex_ext () ex_draws)
          (gen_keypair ex_ext () ex_draws (NTL.ident_mat_ZZ_p p (4 * LWE.l))).vk.Yprime [3]
          (fun _ => 0) i).2.2.1) % p)) = true := by
    rw [decide_eq_true_iff]
    intro i _
    rw [ex_gen_values_zero]
    dsimp only
    rw [Nat.zero_mul, Nat.zero_mod, Nat.zero_add]
  have hx : [3].length = (gen_inst ex_ext () ex_draws 0).num_inputs := rfl
  have hlen : (ex_zero_proof.response.add_p_at n).ctxt.length = n + pt_dim := by
    unfold ciphertext.add_p_at
    dsimp only
    rw [NTL.length_vec_of, ex_zero_proof_length]
  have v2 := verifier_generator ex_ext () ex_draws _ hgen [3] hx ex_zero_proof
    ex_zero_proof_length (fun _ => 0) d2
  have v1 := verifier_generator ex_ext () ex_draws _ hgen [3] hx
    ⟨ex_zero_proof.response.add_p_at n⟩ hlen (fun _ => 0) d1
  rw [hall] at v1 v2
  exact ⟨_, hgen, v2, v1⟩

/-- **C8**, amended (soundness probe).  For every key pair of the generator
whose Gaussian samples of `S_hat` have absolute value at most 40, every input
`x`, every proof of length `n + d` and every coordinate `k`: when each
coordinate `w_j` of `S^T * c` of the proof has a representative `z_j` with
`-2^57 + 40 p < z_j <= 2^57 - 40 p`, the proof with `p` added (mod `q`) to
coordinate `k` of its ciphertext decrypts to the same plaintext and gets the
same verdict from the verifier: an accepted proof stays accepted. -/
theorem perturbed_proof_same_verdict {CS : Type} (ext : r1cs_to_qap CS) (cs : CS)
    (draws : generator_draws) (kp : r1cs_lattice_ppsnarg_keypair CS)
    (hgen : r1cs_lattice_ppsnarg_generator ext cs draws = some kp)
    (hS : bounded2 40 n pt_dim draws.S_gauss) (x : List Nat)
    (proof : r1cs_lattice_ppsnarg_proof) (hlen : proof.response.ctxt.length = n + pt_dim)
    (k : Nat) (z : Nat → Int)
    (hz : ∀ j, j < pt_dim →
      NTL.conv q (z j)
        = (∑ i in Finset.range (n + pt_dim),
            NTL.entry kp.vk.sk.S i j * proof.response.ctxt.getD i 0) % q
      ∧ -((2 : Int) ^ 57) + 40 * (p_int : Int) < z j
      ∧ z j ≤ (2 : Int) ^ 57 - 40 * (p_int : Int)) :
    decrypt kp.vk.sk (proof.response.add_p_at k) = decrypt kp.vk.sk proof.response
    ∧ r1cs_lattice_ppsnarg_verifier kp.vk x ⟨proof.response.add_p_at k⟩
        = r1cs_lattice_ppsnarg_verifier kp.vk x proof := by
  have hk := (generator_some ext cs draws kp hgen).2.1
  obtain ⟨d1, d2⟩ := decrypt_add_p hk hS proof.response.ctxt hlen k z
    (fun j hj => ⟨cast_preround_of_key hk _ (z j) j hj (hz j hj).1, (hz j hj).2⟩)
  have hd : decrypt kp.vk.sk (proof.response.add_p_at k) = decrypt kp.vk.sk proof.response :=
    d1.trans d2.symm
  exact ⟨hd, verifier_congr kp.vk x _ proof hd⟩

/-- Witness of **C8** (amended): the sample key pair, the all-zero proof and
coordinate `n`. -/
theorem perturbed_proof_same_verdict_witness :
    (r1cs_lattice_ppsnarg_generator ex_ext () ex_draws
        = some (gen_keypair ex_ext () ex_draws (NTL.ident_mat_ZZ_p p (4 * LWE.l)))
      ∧ bounded2 40 n pt_dim ex_draws.S_gauss
      ∧ ex_zero_proof.response.ctxt.length = n + pt_dim)
    ∧ decrypt (gen_keypair ex_ext () ex_draws (NTL.ident_mat_ZZ_p p (4 * LWE.l))).vk.sk
          (ex_zero_proof.response.add_p_at n)
        = decrypt (gen_keypair ex_ext () ex_draws (NTL.ident_mat_ZZ_p p (4 * LWE.l))).vk.sk
            ex_zero_proof.response
    ∧ r1cs_lattice_ppsnarg_verifier
          (gen_keypair ex_ext () ex_draws (NTL.ident_mat_ZZ_p p (4 * LWE.l))).vk [3]
          ⟨ex_zero_proof.response.add_p_at n⟩
        = r1cs_lattice_ppsnarg_verifier
            (gen_keypair ex_ext () ex_draws (NTL.ident_mat_ZZ_p p (4 * LWE.l))).vk [3]
            ex_zero_proof :=
  ⟨⟨ex_generator ex_draws rfl, ex_S_bounded, ex_zero_proof_length⟩,
    perturbed_proof_same_verdict ex_ext () ex_draws _ (ex_generator ex_draws rfl) ex_S_bounded [3]
      ex_zero_proof ex_zero_proof_length n (fun _ => 0)
      (fun j _ => ⟨(ex_zero_proof_sum _ j).symm,
        (by decide : -((2 : Int) ^ 57) + 40 * (p_int : Int) < 0),
        (by decide : (0 : Int) ≤ (2 : Int) ^ 57 - 40 * (p_int : Int))⟩)⟩

end libsnark

namespace libsnark

open LWE

/-- Counterexample to **C1**: for the sample reduction, the satisfied instance
`x = (3)`, `w = (p - 1, ..., p - 1)`, blinds 0 and the draws `worst_draws` of
the generator (every Gaussian sample 30 or -30), the generator returns a key
pair, the prover returns a proof, and the verifier rejects it. -/
theorem worst_case_rejected :
    ex_ext.is_satisfied () [3] (List.replicate 15 65536) = true
    ∧ ∃ kp proof, r1cs_lattice_ppsnarg_generator ex_ext () worst_draws = some kp
      ∧ r1cs_lattice_ppsnarg_prover ex_ext kp.crs [3] (List.replicate 15 65536) 0 0 0
          = some proof
      ∧ r1cs_lattice_ppsnarg_verifier kp.vk [3] proof = some false := by
  have hgen := ex_generator worst_draws rfl
  have hc := ex_ext_correct [3] (List.replicate 15 65536) rfl (List.length_replicate _ _)
  obtain ⟨proof, hp, _, _, hv⟩ := honest_run ex_ext () worst_draws [3]
    (List.replicate 15 65536) hc _ hgen 0 0 0
    (fun j => proof_preround (gen_inst ex_ext () worst_draws) worst_draws
      (pi_entry (ex_ext.witness_map () [3] (List.replicate 15 65536) (random_element 0)
        (random_element 0) (random_element 0))) j - (q : Int))
    (fun j _ => by
      refine ⟨?_, ?_, ?_⟩
      · rw [Int.cast_sub, Int.cast_natCast (R := ZMod q) q, ZMod.natCast_self, sub_zero]
      · dsimp only
        rw [worst_preround]
        decide
      · dsimp only
        rw [worst_preround]
        decide)
  refine ⟨rfl, _, proof, hgen, hp, ?_⟩
  rw [hv]
  refine congrArg some (decide_eq_false ?_)
  intro h
  have h0 := h 0 (by decide)
  have hD : ∀ t, t < 4 * LWE.l →
      (fun j => ((proof_preround (gen_inst ex_ext () worst_draws) worst_draws
        (pi_entry (ex_ext.witness_map () [3] (List.replicate 15 65536) (random_element 0)
          (random_element 0) (random_element 0))) j - (q : Int)) % (p_int : Int)).toNat) t
      = (fun _ => 1024) t := by
    intro t _
    dsimp only
    rw [worst_preround]
    decide
  rw [gen_values_congr _ _ _ _ (fun _ => 1024) hD, gen_keypair_Yprime, worst_values] at h0
  exact absurd h0 (by decide)

/-- **C1**, amended (completeness).  For every R1CS instance `(cs, x, w)`
with `cs.is_satisfied(x, w) = true` on which the external QAP maps are correct,
every key pair returned by the generator and every choice of the prover's
blinds: when each of the 60 pre-rounding values of the proof, the integers
`sum_r pi_r * (M1[r][j] + p * noise_r j)`, lies in `(-2^57, 2^57]`, the prover
returns a proof and `verifier(vk, x, prover(crs, x, w)) = true`. -/
theorem completeness_in_window {CS : Type} (ext : r1cs_to_qap CS) (cs : CS)
    (draws : generator_draws) (x w : List Nat)
    (hsat : ext.is_satisfied cs x w = true)
    (hext : ext.is_satisfied cs x w = true → ext.correct_on cs x w)
    (kp : r1cs_lattice_ppsnarg_keypair CS)
    (hgen : r1cs_lattice_ppsnarg_generator ext cs draws = some kp) (d1 d2 d3 : Nat)
    (hz : ∀ j, j < pt_dim →
      -((2 : Int) ^ 57) < proof_preround (gen_inst ext cs draws) draws
          (pi_entry (ext.witness_map cs x w (random_element d1) (random_element d2)
            (random_element d3))) j
      ∧ proof_preround (gen_inst ext cs draws) draws
          (pi_entry (ext.witness_map cs x w (random_element d1) (random_element d2)
            (random_element d3))) j ≤ (2 : Int) ^ 57) :
    ∃ proof, r1cs_lattice_ppsnarg_prover ext kp.crs x w d1 d2 d3 = some proof
      ∧ r1cs_lattice_ppsnarg_verifier kp.vk x proof = some true :=
  honest_run_accepts ext cs draws x w (hext hsat) kp hgen d1 d2 d3 hz

/-- Witness of **C1** (amended): the sample reduction with the sample draws,
`x = (3)`, `w = (5, ..., 5)` and blinds 1, 2, 3. -/
theorem completeness_in_window_witness :
    (ex_ext.is_satisfied () [3] (List.replicate 15 5) = true
      ∧ (ex_ext.is_satisfied () [3] (List.replicate 15 5) = true →
          ex_ext.correct_on () [3] (List.replicate 15 5))
      ∧ r1cs_lattice_ppsnarg_generator ex_ext () ex_draws
          = some (gen_keypair ex_ext () ex_draws (NTL.ident_mat_ZZ_p p (4 * LWE.l)))
      ∧ ∀ j, j < pt_dim →
          -((2 : Int) ^ 57) < proof_preround (gen_inst ex_ext () ex_draws) ex_draws
              (pi_entry (ex_ext.witness_map () [3] (List.replicate 15 5) (random_element 1)
                (random_element 2) (random_element 3))) j
          ∧ proof_preround (gen_inst ex_ext () ex_draws) ex_draws
              (pi_entry (ex_ext.witness_map () [3] (List.replicate 15 5) (random_element 1)
                (random_element 2) (random_element 3))) j ≤ (2 : Int) ^ 57)
    ∧ ∃ proof, r1cs_lattice_ppsnarg_prover ex_ext
          (gen_keypair ex_ext () ex_draws (NTL.ident_mat_ZZ_p p (4 * LWE.l))).crs [3]
          (List.replicate 15 5) 1 2 3 = some proof
      ∧ r1cs_lattice_ppsnarg_verifier
          (gen_keypair ex_ext () ex_draws (NTL.ident_mat_ZZ_p p (4 * LWE.l))).vk [3] proof
          = some true :=
  ⟨⟨rfl, fun _ => ex_ext_correct _ _ rfl (List.length_replicate _ _),
      ex_generator ex_draws rfl, ex_window⟩,
    completeness_in_window ex_ext () ex_draws [3] (List.replicate 15 5) rfl
      (fun _ => ex_ext_correct _ _ rfl (List.length_replicate _ _)) _
      (ex_generator ex_draws rfl) 1 2 3 ex_window⟩

end libsnark

namespace libsnark

open LWE

/-- C21: for a witness with at least as many coefficients as inputs and a CRS
whose ciphertexts have a common length, the prover fails (the assertion
`proof_dim == crs.enc_queries.size()`) and returns no proof exactly when
`R = (V - I) + 3 + H`, the number of non-input witness coefficients plus three
plus the number of coefficients of `H`, differs from the number of ciphertexts
of the CRS; when the two are equal it returns a proof. -/
theorem prover_dimension_check {CS : Type} (ext : r1cs_to_qap CS)
    (crs : r1cs_lattice_ppsnarg_crs CS) (x w : List Nat) (d1 d2 d3 : Nat)
    (qap_wit : qap_witness) (L : Nat)
    (hw : ext.witness_map crs.constraint_system x w (random_element d1) (random_element d2)
      (random_element d3) = qap_wit)
    (hI : qap_wit.num_inputs ≤ qap_wit.coefficients_for_ABCs.length)
    (hL : ∀ c ∈ crs.enc_queries, c.ctxt.length = L) :
    (r1cs_lattice_ppsnarg_prover ext crs x w d1 d2 d3 = none
        ↔ qap_wit.coefficients_for_ABCs.length - qap_wit.num_inputs + 3
            + qap_wit.coefficients_for_H.length ≠ crs.enc_queries.length)
      ∧ (qap_wit.coefficients_for_ABCs.length - qap_wit.num_inputs + 3
            + qap_wit.coefficients_for_H.length = crs.enc_queries.length →
          ∃ proof, r1cs_lattice_ppsnarg_prover ext crs x w d1 d2 d3 = some proof) := by
  have hsome : qap_wit.coefficients_for_ABCs.length - qap_wit.num_inputs + 3
        + qap_wit.coefficients_for_H.length = crs.enc_queries.length →
      ∃ proof, r1cs_lattice_ppsnarg_prover ext crs x w d1 d2 d3 = some proof := fun he =>
    ⟨_, prover_eq ext crs x w d1 d2 d3 qap_wit L _ hw hI he rfl hL⟩
  refine ⟨⟨fun hnone he => ?_, fun hne => ?_⟩, hsome⟩
  · obtain ⟨proof, hp⟩ := hsome he
    rw [hnone] at hp
    exact Option.noConfusion hp
  · unfold r1cs_lattice_ppsnarg_prover
    dsimp only
    rw [hw, proof_vector_eq qap_wit hI]
    simp only [Option.bind_eq_bind, Option.some_bind]
    rw [if_pos hne]
    rfl

/-- Witness of C21: the sample reduction on the input `(3)` with fifteen
auxiliary values, and the sample CRS of twenty ciphertexts. -/
theorem prover_dimension_check_witness :
    ((ex_ext.witness_map ex_crs.constraint_system [3] (List.replicate 15 5) (random_element 1)
          (random_element 2) (random_element 3)).num_inputs
        ≤ (ex_ext.witness_map ex_crs.constraint_system [3] (List.replicate 15 5)
            (random_element 1) (random_element 2)
            (random_element 3)).coefficients_for_ABCs.length
      ∧ ∀ c ∈ ex_crs.enc_queries, c.ctxt.length = 2)
    ∧ (r1cs_lattice_ppsnarg_prover ex_ext ex_crs [3] (List.replicate 15 5) 1 2 3 = none
        ↔ (ex_ext.witness_map ex_crs.constraint_system [3] (List.replicate 15 5)
              (random_element 1) (random_element 2)
              (random_element 3)).coefficients_for_ABCs.length
            - (ex_ext.witness_map ex_crs.constraint_system [3] (List.replicate 15 5)
              (random_element 1) (random_element 2) (random_element 3)).num_inputs + 3
            + (ex_ext.witness_map ex_crs.constraint_system [3] (List.replicate 15 5)
              (random_element 1) (random_element 2)
              (random_element 3)).coefficients_for_H.length ≠ ex_crs.enc_queries.length)
      ∧ ((ex_ext.witness_map ex_crs.constraint_system [3] (List.replicate 15 5)
              (random_element 1) (random_element 2)
              (random_element 3)).coefficients_for_ABCs.length
            - (ex_ext.witness_map ex_crs.constraint_system [3] (List.replicate 15 5)
              (random_element 1) (random_element 2) (random_element 3)).num_inputs + 3
            + (ex_ext.witness_map ex_crs.constraint_system [3] (List.replicate 15 5)
              (random_element 1) (random_element 2)
              (random_element 3)).coefficients_for_H.length = ex_crs.enc_queries.length →
          ∃ proof, r1cs_lattice_ppsnarg_prover ex_ext ex_crs [3] (List.replicate 15 5) 1 2 3
            = some proof) :=
  ⟨⟨by decide, by decide⟩,
    prover_dimension_check ex_ext ex_crs [3] (List.replicate 15 5) 1 2 3 _ 2 rfl
      (by decide) (by decide)⟩

end libsnark

namespace LWE

/-- Counterexample to C22: under the key of `keygen` for the sample draws, the
ciphertext `ex_boundary_ct` has pre-rounding vector `v + p * N` with every
`v_i = 65536` and every `N_i = 2198989701631`, where
`2 p N_i = q - 130050 < q`, that is `|N_i| < q / (2 p)`; it decrypts to
`(1023, ..., 1023)`, not to `v`. -/
theorem boundary_noise_misdecrypted :
    ∃ sk, keygen ex_A_rand ex_S_gauss ex_E_gauss = some sk
      ∧ ex_boundary_ct.ctxt.length = n + pt_dim
      ∧ NTL.mul_mat_vec q (NTL.transpose sk.S) ex_boundary_ct.ctxt
          = some (NTL.vec_of pt_dim (fun j =>
              NTL.conv q ((((List.replicate 60 65536).getD j 0 : Nat) : Int)
                + (p : Int) * 2198989701631)))
      ∧ (List.replicate 60 65536).length = pt_dim ∧ (∀ x ∈ List.replicate 60 65536, x < p)
      ∧ 2 * (p : Int) * |(2198989701631 : Int)| < (q : Int)
      ∧ decrypt sk ex_boundary_ct = some (List.replicate 60 1023)
      ∧ decrypt sk ex_boundary_ct ≠ some (List.replicate 60 65536) := by
  obtain ⟨sk, hk⟩ : ∃ sk, keygen ex_A_rand ex_S_gauss ex_E_gauss = some sk :=
    ⟨_, keygen_eq ex_A_rand ex_S_gauss ex_E_gauss⟩
  have hprod := padded_product sk ex_S_gauss (keygen_S hk) (fun _ => 144115188075856383)
  rw [← ex_boundary_ct_eq] at hprod
  have hd := decrypt_of_product sk ex_boundary_ct
    (fun _ => ((144115188075856383 : Nat) : Int)) hprod
  have hv : NTL.vec_of pt_dim
        (fun _ : Nat => decode (NTL.conv q ((144115188075856383 : Nat) : Int)))
      = List.replicate 60 1023 := by decide
  rw [hv] at hd
  have hlen : ex_boundary_ct.ctxt.length = n + pt_dim := by
    rw [ex_boundary_ct_eq]
    exact NTL.length_vec_of _ _
  have hN : 2 * (p : Int) * |(2198989701631 : Int)| < (q : Int) := by
    rw [abs_of_nonneg (by decide)]
    decide
  have hne : decrypt sk ex_boundary_ct ≠ some (List.replicate 60 65536) := by
    rw [hd]
    decide
  refine ⟨sk, hk, hlen, ?_, by decide, by decide, hN, hd, hne⟩
  refine hprod.trans (congrArg some (NTL.vec_of_congr fun j hj => ?_))
  have hj' : j < 60 := hj
  rw [List.getD_eq_getElem?_getD, List.getElem?_replicate_of_lt hj']
  decide

/-- C22 (amended): for every secret key (in particular every key from
`keygen`) and every ciphertext `c` whose pre-rounding vector `S^T * c` is
`v + p * N` modulo `q` for a plaintext `v` in `[0, p)^d` and an integer noise
vector `N` with `-q / (2 p) < N_i < q / (2 p) - 1` for every `i`,
`decrypt(sk, c) = v` (`p = 65537`, `q = 2^58`). -/
theorem decrypt_correctness_bound (sk : secret_key) (c : ciphertext) (v : plaintext)
    (N : Nat → Int) (hv : v.length = pt_dim) (hvp : ∀ x ∈ v, x < p)
    (hprod : NTL.mul_mat_vec q (NTL.transpose sk.S) c.ctxt
      = some (NTL.vec_of pt_dim (fun j =>
          NTL.conv q (((v.getD j 0 : Nat) : Int) + (p : Int) * N j))))
    (hN : ∀ j, j < pt_dim →
      -(q : Int) < 2 * (p : Int) * N j ∧ 2 * (p : Int) * (N j + 1) < (q : Int)) :
    decrypt sk c = some v := by
  rw [decrypt_of_product sk c _ hprod]
  refine Eq.trans ?_ (congrArg some (NTL.vec_of_getD_of_length hv))
  refine congrArg some (NTL.vec_of_congr fun j hj => ?_)
  have hlt : v.getD j 0 < p := NTL.getD_lt_of_forall_mem hvp (by rw [hv]; exact hj)
  obtain ⟨h1, h2, h3⟩ := window_of_noise (Int.natCast_nonneg (v.getD j 0))
    (Int.ofNat_lt.2 hlt) (hN j hj).1 (hN j hj).2
  rw [decode_conv _ h1 h2]
  exact h3.trans (Int.toNat_natCast _)

/-- Witness of C22 (amended): the sample key and the ciphertext
`ex_window_ct`, with `v = (7, ..., 7)` and `N = (5, ..., 5)`. -/
theorem decrypt_correctness_bound_witness :
    ((List.replicate 60 7).length = pt_dim ∧ (∀ x ∈ List.replicate 60 7, x < p)
      ∧ NTL.mul_mat_vec q (NTL.transpose libsnark.ex_vk.sk.S) ex_window_ct.ctxt
          = some (NTL.vec_of pt_dim (fun j =>
              NTL.conv q ((((List.replicate 60 7).getD j 0 : Nat) : Int) + (p : Int) * 5)))
      ∧ ∀ j, j < pt_dim →
          -(q : Int) < 2 * (p : Int) * 5 ∧ 2 * (p : Int) * (5 + 1) < (q : Int))
    ∧ decrypt libsnark.ex_vk.sk ex_window_ct = some (List.replicate 60 7) :=
  have hprod : NTL.mul_mat_vec q (NTL.transpose libsnark.ex_vk.sk.S) ex_window_ct.ctxt
      = some (NTL.vec_of pt_dim (fun j =>
          NTL.conv q ((((List.replicate 60 7).getD j 0 : Nat) : Int) + (p : Int) * 5))) :=
    ((congrArg (NTL.mul_mat_vec q (NTL.transpose libsnark.ex_vk.sk.S)) ex_window_ct_eq).trans
      (padded_product libsnark.ex_vk.sk ex_S_gauss ex_vk_S (fun _ => 327692))).trans
      (congrArg some (NTL.vec_of_congr fun j hj => by
        have hj' : j < 60 := hj
        rw [List.getD_eq_getElem?_getD, List.getElem?_replicate_of_lt hj']
        decide))
  have hN : -(q : Int) < 2 * (p : Int) * 5 ∧ 2 * (p : Int) * (5 + 1) < (q : Int) := by decide
  ⟨⟨by decide, by decide, hprod, fun _ _ => hN⟩,
    decrypt_correctness_bound libsnark.ex_vk.sk ex_window_ct (List.replicate 60 7)
      (fun _ => 5) (by decide) (by decide) hprod (fun _ _ => hN)⟩

end LWE

namespace libsnark

open LWE

/-- Counterexample to C23: with every Gaussian draw equal to 30 or -30 (the
draws `worst_draws`), `R = 20` fresh encryptions of the zero plaintext and the
proof vector with every entry `p - 1 = 65536`, the prover's linear combination
has pre-rounding vector `p * N` with noise `N_j = 20 * 65536 * 2619030` in
every coordinate, which is above `q / (2 p)`. -/
theorem worst_case_noise_over_budget :
    (bounded2 40 n pt_dim worst_draws.S_gauss ∧ bounded2 40 pt_dim n worst_draws.E_gauss
      ∧ (∀ r, r < 20 → bounded 40 n (worst_draws.enc_r r))
      ∧ (∀ r, r < 20 → bounded 40 (n + pt_dim) (worst_draws.enc_e r))
      ∧ (∀ r, r < 20 → (fun _ : Nat => 65536) r < p))
    ∧ (∃ (sk : secret_key) (enc : List ciphertext) (ct : ciphertext),
        keygen worst_draws.A_rand worst_draws.S_gauss worst_draws.E_gauss = some sk
        ∧ enc.length = 20
        ∧ (∀ r, r < 20 → encrypt sk (List.replicate 60 0) (worst_draws.enc_r r)
            (worst_draws.enc_e r) = some (enc.getD r ⟨[]⟩))
        ∧ NTL.for_loop (20 - 1)
            (fun k ct => (enc[k + 1]?).bind (fun ci => ct.add (ci.mul 65536)))
            ((enc.getD 0 ⟨[]⟩).mul 65536) = some ct
        ∧ NTL.mul_mat_vec q (NTL.transpose sk.S) ct.ctxt
            = some (NTL.vec_of pt_dim (fun j =>
                NTL.conv q (∑ _r in Finset.range 20,
                    ((65536 : Nat) : Int) * (((List.replicate 60 0).getD j 0 : Nat) : Int)
                  + (p : Int) * lincomb_noise worst_draws.S_gauss worst_draws.E_gauss
                      worst_draws.enc_r worst_draws.enc_e (fun _ => 65536) 20 j))))
    ∧ ∀ j, ¬ 2 * (p : Int) * |lincomb_noise worst_draws.S_gauss worst_draws.E_gauss
        worst_draws.enc_r worst_draws.enc_e (fun _ => 65536) 20 j| < (q : Int) := by
  refine ⟨⟨worst_S_bounded, worst_E_bounded, fun r _ => worst_enc_r_bounded r,
    fun r _ => worst_enc_e_bounded r, fun _ _ => (by decide : 65536 < p)⟩, ?_, fun j => ?_⟩
  · obtain ⟨sk, hk⟩ : ∃ sk, keygen worst_draws.A_rand worst_draws.S_gauss worst_draws.E_gauss
        = some sk := ⟨_, keygen_eq _ _ _⟩
    obtain ⟨enc, ct, h1, h2, h3, h4⟩ := lincomb_fresh hk (fun _ => List.replicate 60 0)
      worst_draws.enc_r worst_draws.enc_e (fun _ => 65536) 20 (by decide)
      (fun _ _ => (by decide : pt_dim ≤ (List.replicate 60 0).length))
    exact ⟨sk, enc, ct, hk, h1, h2, h3, h4⟩
  · rw [worst_lincomb_noise, abs_of_nonneg (by decide)]
    decide

/-- C23 (amended): with `n = 1455`, `p = 65537`, `q = 2^58` and every Gaussian
draw of absolute value at most 40, for every number of rows `R >= 1` and every
proof vector `pi` with each `pi_i` in `[0, p)`, the prover's linear combination
`Σ pi_i * CRS_i` of `R` fresh encryptions (of plaintexts `v_i`) is defined and
its pre-rounding vector is `Σ pi_i * v_i + p * N` modulo `q`, where the noise
`N` is at most `R * (p - 1) * (40 + 2 * n * 40^2)` in absolute value in every
coordinate; it stays below `q / (2 p)` when `R <= 7`. -/
theorem proof_noise_budget (A_rand : Nat → Nat → Nat) (S_gauss E_gauss : Nat → Nat → Int)
    (pts : Nat → plaintext) (enc_r enc_e : Nat → Nat → Int) (pi : Nat → Nat) (R : Nat)
    (hR : 0 < R) (hpts : ∀ r, r < R → pt_dim ≤ (pts r).length)
    (hS : bounded2 40 n pt_dim S_gauss) (hE : bounded2 40 pt_dim n E_gauss)
    (hr : ∀ r, r < R → bounded 40 n (enc_r r))
    (he : ∀ r, r < R → bounded 40 (n + pt_dim) (enc_e r))
    (hpi : ∀ r, r < R → pi r < p) :
    (∃ (sk : secret_key) (enc : List ciphertext) (ct : ciphertext),
        keygen A_rand S_gauss E_gauss = some sk
        ∧ enc.length = R
        ∧ (∀ r, r < R → encrypt sk (pts r) (enc_r r) (enc_e r) = some (enc.getD r ⟨[]⟩))
        ∧ NTL.for_loop (R - 1)
            (fun k ct => (enc[k + 1]?).bind (fun ci => ct.add (ci.mul (pi (k + 1)))))
            ((enc.getD 0 ⟨[]⟩).mul (pi 0)) = some ct
        ∧ NTL.mul_mat_vec q (NTL.transpose sk.S) ct.ctxt
            = some (NTL.vec_of pt_dim (fun j =>
                NTL.conv q (∑ r in Finset.range R, (pi r : Int) * ((pts r).getD j 0 : Int)
                  + (p : Int) * lincomb_noise S_gauss E_gauss enc_r enc_e pi R j))))
    ∧ ∀ j, j < pt_dim →
        |lincomb_noise S_gauss E_gauss enc_r enc_e pi R j|
            ≤ (R : Int) * (65536 * (40 + 2 * ((n : Int) * (40 * 40))))
        ∧ (R ≤ 7 →
            2 * (p : Int) * |lincomb_noise S_gauss E_gauss enc_r enc_e pi R j| < (q : Int)) := by
  refine ⟨?_, fun j hj => ?_⟩
  · obtain ⟨sk, hk⟩ : ∃ sk, keygen A_rand S_gauss E_gauss = some sk := ⟨_, keygen_eq _ _ _⟩
    obtain ⟨enc, ct, h1, h2, h3, h4⟩ := lincomb_fresh hk pts enc_r enc_e pi R hR hpts
    exact ⟨sk, enc, ct, hk, h1, h2, h3, h4⟩
  · have hb := abs_lincomb_noise_le S_gauss E_gauss enc_r enc_e pi R j hj hS hE hr he hpi
    have h3 : ((40 : Int) + 2 * ((n : Int) * (40 * 40))) = 4656040 := by decide
    rw [h3]
    refine ⟨hb, fun h7 => ?_⟩
    have hp : (p : Int) = 65537 := rfl
    have hq : (q : Int) = 288230376151711744 := by decide
    have hR7 : (R : Int) ≤ 7 := by exact_mod_cast h7
    rw [hp, hq]
    linarith

/-- Witness of C23 (amended): two fresh encryptions of `(1, ..., 60)` under the
sample draws, with the proof vector `(3, 3)`. -/
theorem proof_noise_budget_witness :
    (0 < 2 ∧ (∀ r, r < 2 → pt_dim ≤ ((fun _ : Nat => ex_d1) r).length)
      ∧ bounded2 40 n pt_dim ex_S_gauss ∧ bounded2 40 pt_dim n ex_E_gauss
      ∧ (∀ r, r < 2 → bounded 40 n (ex_draws.enc_r r))
      ∧ (∀ r, r < 2 → bounded 40 (n + pt_dim) (ex_draws.enc_e r))
      ∧ (∀ r, r < 2 → (fun _ : Nat => 3) r < p))
    ∧ (∃ (sk : secret_key) (enc : List ciphertext) (ct : ciphertext),
        keygen ex_A_rand ex_S_gauss ex_E_gauss = some sk
        ∧ enc.length = 2
        ∧ (∀ r, r < 2 → encrypt sk ((fun _ : Nat => ex_d1) r) (ex_draws.enc_r r)
            (ex_draws.enc_e r) = some (enc.getD r ⟨[]⟩))
        ∧ NTL.for_loop (2 - 1)
            (fun k ct => (enc[k + 1]?).bind
              (fun ci => ct.add (ci.mul ((fun _ : Nat => 3) (k + 1)))))
            ((enc.getD 0 ⟨[]⟩).mul ((fun _ : Nat => 3) 0)) = some ct
        ∧ NTL.mul_mat_vec q (NTL.transpose sk.S) ct.ctxt
            = some (NTL.vec_of pt_dim (fun j =>
                NTL.conv q (∑ r in Finset.range 2,
                    (((fun _ : Nat => 3) r : Nat) : Int)
                      * ((((fun _ : Nat => ex_d1) r).getD j 0 : Nat) : Int)
                  + (p : Int) * lincomb_noise ex_S_gauss ex_E_gauss ex_draws.enc_r
                      ex_draws.enc_e (fun _ => 3) 2 j))))
    ∧ ∀ j, j < pt_dim →
        |lincomb_noise ex_S_gauss ex_E_gauss ex_draws.enc_r ex_draws.enc_e (fun _ => 3) 2 j|
            ≤ ((2 : Nat) : Int) * (65536 * (40 + 2 * ((n : Int) * (40 * 40))))
        ∧ (2 ≤ 7 →
            2 * (p : Int) * |lincomb_noise ex_S_gauss ex_E_gauss ex_draws.enc_r
              ex_draws.enc_e (fun _ => 3) 2 j| < (q : Int)) :=
  ⟨⟨by decide, fun _ _ => (by decide : pt_dim ≤ ex_d1.length), ex_S_bounded, ex_E_bounded,
      fun r _ => ex_enc_r_bounded r, fun r _ => ex_enc_e_bounded r,
      fun _ _ => (by decide : 3 < p)⟩,
    proof_noise_budget ex_A_rand ex_S_gauss ex_E_gauss (fun _ => ex_d1) ex_draws.enc_r
      ex_draws.enc_e (fun _ => 3) 2 (by decide)
      (fun _ _ => (by decide : pt_dim ≤ ex_d1.length)) ex_S_bounded
      ex_E_bounded (fun r _ => ex_enc_r_bounded r) (fun r _ => ex_enc_e_bounded r)
      (fun _ _ => (by decide : 3 < p))⟩

end libsnark

namespace libsnark

open LWE

/-- C24: a proof whose ciphertext does not have length `n + pt_dim` is stopped
by the dimension check of the product `transpose(sk.S) * ctxt` at the start of
the verifier (in `decrypt`): the decryption fails, no value is reconstructed,
the divisibility equations are not evaluated and the verifier returns no
verdict, in particular it does not accept. -/
theorem verifier_wrong_length (vk : r1cs_lattice_ppsnarg_verification_key)
    (hlen : vk.sk.S.length = n + pt_dim) (hrow : ∀ row ∈ vk.sk.S, row.length = pt_dim)
    (primary_input : List Nat) (proof : r1cs_lattice_ppsnarg_proof)
    (hc : proof.response.ctxt.length ≠ n + pt_dim) :
    decrypt vk.sk proof.response = none
      ∧ verifier_values vk primary_input proof = none
      ∧ r1cs_lattice_ppsnarg_verifier vk primary_input proof = none
      ∧ r1cs_lattice_ppsnarg_verifier vk primary_input proof ≠ some true := by
  have hd := decrypt_wrong_length vk.sk hlen hrow proof.response hc
  have hv : verifier_values vk primary_input proof = none := by
    unfold verifier_values
    rw [hd]
    rfl
  have hr : r1cs_lattice_ppsnarg_verifier vk primary_input proof = none := by
    unfold r1cs_lattice_ppsnarg_verifier
    rw [hv]
    rfl
  refine ⟨hd, hv, hr, ?_⟩
  rw [hr]
  exact fun h => Option.noConfusion h

theorem verifier_wrong_length_witness :
    ex_vk.sk.S.length = n + pt_dim ∧ (∀ row ∈ ex_vk.sk.S, row.length = pt_dim)
      ∧ (⟨⟨[1, 2, 3]⟩⟩ : r1cs_lattice_ppsnarg_proof).response.ctxt.length ≠ n + pt_dim
      ∧ (decrypt ex_vk.sk (⟨⟨[1, 2, 3]⟩⟩ : r1cs_lattice_ppsnarg_proof).response = none
        ∧ verifier_values ex_vk [1, 2] ⟨⟨[1, 2, 3]⟩⟩ = none
        ∧ r1cs_lattice_ppsnarg_verifier ex_vk [1, 2] ⟨⟨[1, 2, 3]⟩⟩ = none
        ∧ r1cs_lattice_ppsnarg_verifier ex_vk [1, 2] ⟨⟨[1, 2, 3]⟩⟩ ≠ some true) :=
  ⟨ex_vk_well_formed.1, ex_vk_well_formed.2.1, by decide,
    verifier_wrong_length ex_vk ex_vk_well_formed.1 ex_vk_well_formed.2.1 [1, 2] ⟨⟨[1, 2, 3]⟩⟩
      (by decide)⟩

end libsnark

namespace LWE

/-- Counterexample to C25: under the sample key, `encrypt` returns a ciphertext
for the plaintext `(1, ..., 60, 7)` of length 61. -/
theorem encrypt_accepts_longer_plaintext :
    (ex_d1 ++ [7]).length ≠ pt_dim
      ∧ ∃ c, encrypt libsnark.ex_vk.sk (ex_d1 ++ [7]) ex_r_gauss ex_e_gauss = some c :=
  ⟨by decide, _, encrypt_mat_of libsnark.ex_vk.sk _
    (NTL.mat_eq_mat_of _ _ _ libsnark.ex_vk_A_length libsnark.ex_vk_A_rows) (ex_d1 ++ [7])
    (by decide) ex_r_gauss ex_e_gauss⟩

/-- C25 (amended): `encrypt` does not check the dimension of its plaintext;
it reads the entries `pt(1), ..., pt(d)`, `d = 60`.  For every secret key
whose `A` has `n + d` rows of `n` entries and every plaintext with at least
`d` entries, in particular one longer than `d`, `encrypt` returns a
ciphertext, of length `n + d`, and it is the encryption of the first `d`
entries of the plaintext. -/
theorem encrypt_plaintext_dimension (sk : secret_key) (hlen : sk.A.length = n + pt_dim)
    (hrow : ∀ row ∈ sk.A, row.length = n) (pt : plaintext) (hpt : pt_dim ≤ pt.length)
    (r_gauss e_gauss : Nat → Int) :
    ∃ c, encrypt sk pt r_gauss e_gauss = some c ∧ c.ctxt.length = n + pt_dim
      ∧ encrypt sk (pt.take pt_dim) r_gauss e_gauss = some c := by
  have hA := NTL.mat_eq_mat_of sk.A (n + pt_dim) n hlen hrow
  refine ⟨_, encrypt_mat_of sk _ hA pt hpt r_gauss e_gauss, ?_, ?_⟩
  · dsimp only
    exact NTL.length_vec_of _ _
  · rw [encrypt_mat_of sk _ hA (pt.take pt_dim)
      (by rw [List.length_take]; exact le_min (le_refl _) hpt) r_gauss e_gauss]
    refine congrArg some (congrArg ciphertext.mk (NTL.vec_of_congr fun i hi => ?_))
    exact fresh_entry_take _ pt r_gauss e_gauss i hi

/-- Witness of C25 (amended): the sample key and the plaintext
`(1, ..., 60, 7)`. -/
theorem encrypt_plaintext_dimension_witness :
    (libsnark.ex_vk.sk.A.length = n + pt_dim ∧ (∀ row ∈ libsnark.ex_vk.sk.A, row.length = n)
      ∧ pt_dim ≤ (ex_d1 ++ [7]).length)
    ∧ ∃ c, encrypt libsnark.ex_vk.sk (ex_d1 ++ [7]) ex_r_gauss ex_e_gauss = some c
      ∧ c.ctxt.length = n + pt_dim
      ∧ encrypt libsnark.ex_vk.sk ((ex_d1 ++ [7]).take pt_dim) ex_r_gauss ex_e_gauss
          = some c :=
  ⟨⟨libsnark.ex_vk_A_length, libsnark.ex_vk_A_rows, by decide⟩,
    encrypt_plaintext_dimension libsnark.ex_vk.sk libsnark.ex_vk_A_length
      libsnark.ex_vk_A_rows (ex_d1 ++ [7]) (by decide) ex_r_gauss ex_e_gauss⟩

end LWE

namespace libsnark

open LWE

/-- Counterexample to C26: on the same CRS, primary input `(3)` and auxiliary
input, the prover returns two different proofs when its first draw of
`random_element` is 0 and when it is 1. -/
theorem prover_depends_on_draws :
    r1cs_lattice_ppsnarg_prover ex_ext ex_crs [3] (List.replicate 15 5) 0 0 0
      ≠ r1cs_lattice_ppsnarg_prover ex_ext ex_crs [3] (List.replicate 15 5) 1 0 0 := by
  rw [prover_eq ex_ext ex_crs [3] (List.replicate 15 5) 0 0 0 _ 2 20 rfl (by decide)
      (by decide) (by decide) (by decide),
    prover_eq ex_ext ex_crs [3] (List.replicate 15 5) 1 0 0 _ 2 20 rfl (by decide)
      (by decide) (by decide) (by decide)]
  decide

/-- C26 (amended): the verifier is a function of `(vk, primary input, proof)`
alone: two calls on the same arguments return the same verdict.  The prover is
a function of `(crs, primary input, auxiliary input)` and of its three draws of
`random_element`: two calls on the same arguments whose draws agree modulo `p`
return the same proof ciphertext. -/
theorem prover_verifier_deterministic {CS : Type} (ext : r1cs_to_qap CS)
    (crs : r1cs_lattice_ppsnarg_crs CS) (x w : List Nat) (d1 d2 d3 e1 e2 e3 : Nat)
    (h1 : d1 % p_int = e1 % p_int) (h2 : d2 % p_int = e2 % p_int)
    (h3 : d3 % p_int = e3 % p_int)
    (vk : r1cs_lattice_ppsnarg_verification_key) (primary_input : List Nat)
    (proof : r1cs_lattice_ppsnarg_proof) (v1 v2 : Option Bool)
    (hv1 : r1cs_lattice_ppsnarg_verifier vk primary_input proof = v1)
    (hv2 : r1cs_lattice_ppsnarg_verifier vk primary_input proof = v2) :
    r1cs_lattice_ppsnarg_prover ext crs x w d1 d2 d3
        = r1cs_lattice_ppsnarg_prover ext crs x w e1 e2 e3
      ∧ v1 = v2 := by
  refine ⟨?_, hv1.symm.trans hv2⟩
  unfold r1cs_lattice_ppsnarg_prover random_element
  rw [h1, h2, h3]

/-- Witness of C26 (amended): the sample reduction and CRS with the draws
`(1, 2, 3)` and `(1 + p, 2, 3 + 2 p)`, and the sample key and proof. -/
theorem prover_verifier_deterministic_witness :
    (1 % p_int = 65538 % p_int ∧ 2 % p_int = 2 % p_int ∧ 3 % p_int = 131077 % p_int)
    ∧ r1cs_lattice_ppsnarg_prover ex_ext ex_crs [3] (List.replicate 15 5) 1 2 3
        = r1cs_lattice_ppsnarg_prover ex_ext ex_crs [3] (List.replicate 15 5) 65538 2 131077
      ∧ r1cs_lattice_ppsnarg_verifier ex_vk [1, 2] ex_proof
        = r1cs_lattice_ppsnarg_verifier ex_vk [1, 2] ex_proof :=
  ⟨⟨by decide, by decide, by decide⟩,
    prover_verifier_deterministic ex_ext ex_crs [3] (List.replicate 15 5) 1 2 3 65538 2 131077
      (by decide) (by decide) (by decide) ex_vk [1, 2] ex_proof
      (r1cs_lattice_ppsnarg_verifier ex_vk [1, 2] ex_proof)
      (r1cs_lattice_ppsnarg_verifier ex_vk [1, 2] ex_proof) (Eq.refl _) (Eq.refl _)⟩

end libsnark

namespace libsnark

open LWE

/-- C27, evaluated at the failing input: with the modulus `q = 2^58` in force
in NTL (the state every call of `keygen`, `encrypt`, a ciphertext operation or
the prover leaves), `invert()` on the element 3 of `F_p` replaces it by
`192153584101141163`, the inverse of 3 modulo `q`, and `invert()` on the
element 2 fails (2 has no inverse modulo `q`); `inverse()` on the same elements
selects `p` and returns 21846 and 32769, the inverses modulo `p = 65537`, and so
does `invert()` when `p` is in force. -/
theorem invert_under_q :
    NTLFp_model.invert ⟨3⟩ q = some (⟨192153584101141163⟩, q)
      ∧ NTLFp_model.invert ⟨2⟩ q = none
      ∧ NTLFp_model.inverse p_int ⟨3⟩ = some (⟨21846⟩, p_int)
      ∧ NTLFp_model.inverse p_int ⟨2⟩ = some (⟨32769⟩, p_int)
      ∧ NTLFp_model.invert ⟨3⟩ p_int = some (⟨21846⟩, p_int)
      ∧ (NTLFp_model.mul p_int ⟨3⟩ ⟨21846⟩).1.value = 1
      ∧ (NTLFp_model.mul p_int ⟨3⟩ ⟨192153584101141163⟩).1.value ≠ 1 := by
  have h1 : NTL.inv_ZZ_p q 3 = some 192153584101141163 :=
    NTL.inv_ZZ_p_unique q 3 192153584101141163 (by decide) (by decide) (by decide) (by decide)
  have h2 : NTL.inv_ZZ_p q 2 = none := NTL.inv_ZZ_p_none q 2 (by decide)
  have h3 : NTL.inv_ZZ_p p_int 3 = some 21846 :=
    NTL.inv_ZZ_p_unique p_int 3 21846 (by decide) (by decide) (by decide) (by decide)
  have h4 : NTL.inv_ZZ_p p_int 2 = some 32769 :=
    NTL.inv_ZZ_p_unique p_int 2 32769 (by decide) (by decide) (by decide) (by decide)
  refine ⟨?_, ?_, ?_, ?_, ?_, by decide, by decide⟩
  · unfold NTLFp_model.invert
    rw [h1]
    rfl
  · unfold NTLFp_model.invert
    rw [h2]
    rfl
  · unfold NTLFp_model.inverse NTLFp_model.copy NTLFp_model.invert
    dsimp only
    rw [h3]
    rfl
  · unfold NTLFp_model.inverse NTLFp_model.copy NTLFp_model.invert
    dsimp only
    rw [h4]
    rfl
  · unfold NTLFp_model.invert
    rw [h3]
    rfl

end libsnark

namespace libsnark

open LWE

/-- C28: after `init_public_params`, for `p = 65537`: `s = 16` and `t = 1`
satisfy `p - 1 = 2^s * t` with `t` odd; `multiplicative_generator` is 3, whose
multiplicative order in `F_p` is exactly 65536 (no power `3^k` with
`0 < k < 65536` is 1, and `3^65536 = 1`), so that it generates `F_p^*`; and
`root_of_unity = multiplicative_generator^t = 3` satisfies `w^(2^16) = 1` and
`w^(2^15) = p - 1`. -/
theorem init_public_params_spec :
    lattice_pp.init_public_params.s = 16 ∧ lattice_pp.init_public_params.t = 1
      ∧ p_int - 1 = 2 ^ lattice_pp.init_public_params.s * lattice_pp.init_public_params.t
      ∧ lattice_pp.init_public_params.t % 2 = 1
      ∧ lattice_pp.init_public_params.multiplicative_generator.value = 3
      ∧ orderOf ((lattice_pp.init_public_params.multiplicative_generator.value : Nat)
          : ZMod p_int) = 65536
      ∧ (∀ k, 0 < k → k < 65536 →
          (NTLFp_model.pow p_int lattice_pp.init_public_params.multiplicative_generator
            k).1.value ≠ 1)
      ∧ (NTLFp_model.pow p_int lattice_pp.init_public_params.multiplicative_generator
          65536).1.value = 1
      ∧ lattice_pp.init_public_params.root_of_unity
          = (NTLFp_model.pow p_int lattice_pp.init_public_params.multiplicative_generator
              lattice_pp.init_public_params.t).1
      ∧ lattice_pp.init_public_params.root_of_unity.value = 3
      ∧ (NTLFp_model.pow p_int lattice_pp.init_public_params.root_of_unity
          (2 ^ 16)).1.value = 1
      ∧ (NTLFp_model.pow p_int lattice_pp.init_public_params.root_of_unity
          (2 ^ 15)).1.value = p_int - 1 := by
  have hg : lattice_pp.init_public_params.multiplicative_generator = ⟨3⟩ := by decide
  have hw : lattice_pp.init_public_params.root_of_unity = ⟨3⟩ := by decide
  have hpow : ∀ k, (NTLFp_model.pow p_int ⟨3⟩ k).1.value = NTL.power p_int 3 k := fun _ => rfl
  rw [hg, hw]
  refine ⟨rfl, rfl, by decide, by decide, rfl, orderOf_three, ?_, ?_, by decide, rfl, ?_, ?_⟩
  · intro k hk0 hk
    rw [hpow]
    exact power_three_ne_one k hk0 hk
  · have e : (65536 : Nat) = 2 ^ 16 := by norm_num
    rw [hpow, e]
    unfold NTL.power
    exact three_pow_full
  · rw [hpow]
    unfold NTL.power
    exact three_pow_full
  · rw [hpow]
    unfold NTL.power
    exact three_pow_half

end libsnark

namespace libsnark

open LWE

/-- C29, evaluated at the failing input: for the modulus 65537,
`get_s_and_t(s, t)` returns and sets `s = 1` and `t = 16`, the odd part of
`modulus - 1` in `s` and the exponent of 2 in `t`; the decomposition the class
documents for its members, `modulus = 2^s * t + 1` with `t` odd, is `s = 16`,
`t = 1`, and the pair returned does not satisfy it. -/
theorem get_s_and_t_swapped :
    NTLFp_model.get_s_and_t 65537 64 = some (1, 16)
      ∧ 65537 = 2 ^ 16 * 1 + 1
      ∧ ¬ (65537 = 2 ^ 1 * 16 + 1 ∧ 16 % 2 = 1) := by
  decide

end libsnark

namespace libsnark

open LWE

/-- C30: for a key pair of the generator (so that the mask `Y` is invertible
over `Z_p`), with `M` the matrix `make_query_matrix` packs from the instance
evaluations `(A_i, B_i, C_i, H_i, Z_i)` with `I = |x|` inputs, and `pi` the
vector `proof_vector` builds from a witness `(alpha, d1, d2, d3, h)` with
`alpha[0..I-1] = x`, `|A_i| = |B_i| = |C_i| = |alpha| + 1` and `|H_i| = |h|`:
if the proof decrypts to `(M * Y)^T * pi` over `Z_p`, then the values the
verifier reconstructs at every query index `i < l` are
`A_i[0] + Σ_{k<|alpha|} alpha[k] * A_i[k+1] + d1 * Z_i`, the same sums for
`B_i` with `d2` and for `C_i` with `d3`, and `Σ_k h[k] * H_i[k]`, modulo `p`. -/
theorem reconstructed_values_bookkeeping {CS : Type} (ext : r1cs_to_qap CS) (cs : CS)
    (draws : generator_draws) (kp : r1cs_lattice_ppsnarg_keypair CS)
    (hgen : r1cs_lattice_ppsnarg_generator ext cs draws = some kp)
    (W : qap_witness) (x : List Nat)
    (hI0 : (gen_inst ext cs draws 0).num_inputs = x.length)
    (hIW : W.num_inputs = x.length)
    (hαx : ∀ k, k < x.length → W.coefficients_for_ABCs.getD k 0 = x.getD k 0)
    (hIα : x.length ≤ W.coefficients_for_ABCs.length)
    (hA : ∀ i, i < LWE.l →
      (gen_inst ext cs draws i).At.length = W.coefficients_for_ABCs.length + 1)
    (hB : ∀ i, i < LWE.l →
      (gen_inst ext cs draws i).Bt.length = W.coefficients_for_ABCs.length + 1)
    (hC : ∀ i, i < LWE.l →
      (gen_inst ext cs draws i).Ct.length = W.coefficients_for_ABCs.length + 1)
    (hH : ∀ i, i < LWE.l →
      (gen_inst ext cs draws i).Ht.length = W.coefficients_for_H.length)
    (M MY : matrix) (R : Nat) (pi : Nat → Nat)
    (hM : make_query_matrix
        ((List.range LWE.l).map (fun i => (gen_inst ext cs draws i).At))
        ((List.range LWE.l).map (fun i => (gen_inst ext cs draws i).Bt))
        ((List.range LWE.l).map (fun i => (gen_inst ext cs draws i).Ct))
        ((List.range LWE.l).map (fun i => (gen_inst ext cs draws i).Ht))
        ((List.range LWE.l).map (fun i => (gen_inst ext cs draws i).Zt))
        (gen_inst ext cs draws 0).num_inputs = some M)
    (hMY : NTL.mul_mat p M (generate_Y (4 * LWE.l) draws.Y_rand) = some MY)
    (hpi : proof_vector W = some (R, pi))
    (proof : r1cs_lattice_ppsnarg_proof) (hproof : proof.response.ctxt.length = n + pt_dim)
    (hdec : decrypt kp.vk.sk proof.response
      = NTL.mul_mat_vec p (NTL.transpose MY) (NTL.vec_of R pi)) :
    verifier_values kp.vk x proof
      = some ((List.range LWE.l).map (fun i =>
          ((((gen_inst ext cs draws i).At.getD 0 0
              + ∑ k in Finset.range W.coefficients_for_ABCs.length,
                  W.coefficients_for_ABCs.getD k 0 * (gen_inst ext cs draws i).At.getD (k + 1) 0
              + W.d1 * (gen_inst ext cs draws i).Zt) % p),
           (((gen_inst ext cs draws i).Bt.getD 0 0
              + ∑ k in Finset.range W.coefficients_for_ABCs.length,
                  W.coefficients_for_ABCs.getD k 0 * (gen_inst ext cs draws i).Bt.getD (k + 1) 0
              + W.d2 * (gen_inst ext cs draws i).Zt) % p),
           (((gen_inst ext cs draws i).Ct.getD 0 0
              + ∑ k in Finset.range W.coefficients_for_ABCs.length,
                  W.coefficients_for_ABCs.getD k 0 * (gen_inst ext cs draws i).Ct.getD (k + 1) 0
              + W.d3 * (gen_inst ext cs draws i).Zt) % p),
           (∑ k in Finset.range W.coefficients_for_H.length,
              W.coefficients_for_H.getD k 0 * (gen_inst ext cs draws i).Ht.getD k 0) % p))) := by
  have hl : 0 < LWE.l := by decide
  have hwf : instances_well_formed ext cs draws (W.coefficients_for_ABCs.length + 1)
      W.coefficients_for_H.length := ⟨hA, hB, hC, hH, by rw [hI0]; omega⟩
  have h1 : (gen_inst ext cs draws 0).num_inputs = W.num_inputs := hI0.trans hIW.symm
  have hrows := gen_rows_of_sizes (gen_inst ext cs draws) W h1 (hA 0 hl) (hH 0 hl)
  -- the packed matrix and its masked form
  rw [gen_query_matrix ext cs draws _ _ hwf] at hM
  rw [← Option.some.inj hM, gen_masked_matrix] at hMY
  -- the proof vector
  rw [proof_vector_eq W (by rw [hIW]; exact hIα)] at hpi
  have hR : W.coefficients_for_ABCs.length - W.num_inputs + 3 + W.coefficients_for_H.length
      = R := congrArg Prod.fst (Option.some.inj hpi)
  have hpi2 : pi_entry W = pi := congrArg Prod.snd (Option.some.inj hpi)
  have hR2 : gen_rows (gen_inst ext cs draws) = R := hrows.trans hR
  -- the decryption
  rw [← Option.some.inj hMY, ← hpi2, ← hR2,
    NTL.transpose_mat_of _ (by rw [hrows]; omega), NTL.mul_mat_vec_mat_of, ← pt_dim_eq] at hdec
  rw [verifier_values_generator ext cs draws kp hgen x hI0.symm proof hproof _ hdec]
  have hX := (Yprime_spec draws.Y_rand kp.vk.Yprime
    (generator_some ext cs draws kp hgen).1).2.2
  refine congrArg some (List.map_congr_left fun i hi => ?_)
  exact gen_values_full (gen_inst ext cs draws) W x kp.vk.Yprime draws.Y_rand hX h1
    (hA 0 hl) (hH 0 hl) hIW hαx hIα i (List.mem_range.1 hi)

end libsnark

namespace libsnark

open LWE

/-- Witness of C30: the sample reduction and draws, the input `(3)`, the
witness `ex_honest_wit` and the proof the prover returns for it. -/
theorem reconstructed_values_bookkeeping_witness :
    ∃ (kp : r1cs_lattice_ppsnarg_keypair Unit) (M MY : matrix)
      (proof : r1cs_lattice_ppsnarg_proof),
      (r1cs_lattice_ppsnarg_generator ex_ext () ex_draws = some kp
        ∧ (gen_inst ex_ext () ex_draws 0).num_inputs = [3].length
        ∧ ex_honest_wit.num_inputs = [3].length
        ∧ (∀ k, k < [3].length → ex_honest_wit.coefficients_for_ABCs.getD k 0 = [3].getD k 0)
        ∧ [3].length ≤ ex_honest_wit.coefficients_for_ABCs.length
        ∧ (∀ i, i < LWE.l → (gen_inst ex_ext () ex_draws i).At.length
            = ex_honest_wit.coefficients_for_ABCs.length + 1)
        ∧ (∀ i, i < LWE.l → (gen_inst ex_ext () ex_draws i).Bt.length
            = ex_honest_wit.coefficients_for_ABCs.length + 1)
        ∧ (∀ i, i < LWE.l → (gen_inst ex_ext () ex_draws i).Ct.length
            = ex_honest_wit.coefficients_for_ABCs.length + 1)
        ∧ (∀ i, i < LWE.l → (gen_inst ex_ext () ex_draws i).Ht.length
            = ex_honest_wit.coefficients_for_H.length)
        ∧ make_query_matrix
            ((List.range LWE.l).map (fun i => (gen_inst ex_ext () ex_draws i).At))
            ((List.range LWE.l).map (fun i => (gen_inst ex_ext () ex_draws i).Bt))
            ((List.range LWE.l).map (fun i => (gen_inst ex_ext () ex_draws i).Ct))
            ((List.range LWE.l).map (fun i => (gen_inst ex_ext () ex_draws i).Ht))
            ((List.range LWE.l).map (fun i => (gen_inst ex_ext () ex_draws i).Zt))
            (gen_inst ex_ext () ex_draws 0).num_inputs = some M
        ∧ NTL.mul_mat p M (generate_Y (4 * LWE.l) ex_draws.Y_rand) = some MY
        ∧ proof_vector ex_honest_wit = some (20, pi_entry ex_honest_wit)
        ∧ proof.response.ctxt.length = n + pt_dim
        ∧ decrypt kp.vk.sk proof.response
            = NTL.mul_mat_vec p (NTL.transpose MY) (NTL.vec_of 20 (pi_entry ex_honest_wit)))
      ∧ verifier_values kp.vk [3] proof
        = some ((List.range LWE.l).map (fun i =>
            ((((gen_inst ex_ext () ex_draws i).At.getD 0 0
                + ∑ k in Finset.range ex_honest_wit.coefficients_for_ABCs.length,
                    ex_honest_wit.coefficients_for_ABCs.getD k 0
                      * (gen_inst ex_ext () ex_draws i).At.getD (k + 1) 0
                + ex_honest_wit.d1 * (gen_inst ex_ext () ex_draws i).Zt) % p),
             (((gen_inst ex_ext () ex_draws i).Bt.getD 0 0
                + ∑ k in Finset.range ex_honest_wit.coefficients_for_ABCs.length,
                    ex_honest_wit.coefficients_for_ABCs.getD k 0
                      * (gen_inst ex_ext () ex_draws i).Bt.getD (k + 1) 0
                + ex_honest_wit.d2 * (gen_inst ex_ext () ex_draws i).Zt) % p),
             (((gen_inst ex_ext () ex_draws i).Ct.getD 0 0
                + ∑ k in Finset.range ex_honest_wit.coefficients_for_ABCs.length,
                    ex_honest_wit.coefficients_for_ABCs.getD k 0
                      * (gen_inst ex_ext () ex_draws i).Ct.getD (k + 1) 0
                + ex_honest_wit.d3 * (gen_inst ex_ext () ex_draws i).Zt) % p),
             (∑ k in Finset.range ex_honest_wit.coefficients_for_H.length,
                ex_honest_wit.coefficients_for_H.getD k 0
                  * (gen_inst ex_ext () ex_draws i).Ht.getD k 0) % p))) := by
  have hgen := ex_generator ex_draws rfl
  have hc := ex_ext_correct [3] (List.replicate 15 5) rfl (List.length_replicate _ _)
  obtain ⟨proof, _, hlen, hdec, _⟩ := honest_run ex_ext () ex_draws [3]
    (List.replicate 15 5) hc _ hgen 1 2 3
    (fun j => proof_preround (gen_inst ex_ext () ex_draws) ex_draws (pi_entry ex_honest_wit) j)
    (fun j hj => ⟨rfl, ex_window j hj⟩)
  have hM := gen_query_matrix ex_ext () ex_draws 17 2 (ex_instances_well_formed ex_draws)
  have hMY := gen_masked_matrix (gen_inst ex_ext () ex_draws) ex_draws.Y_rand
    (gen_rows (gen_inst ex_ext () ex_draws))
  have hrows : gen_rows (gen_inst ex_ext () ex_draws) = 20 := rfl
  have hpi : proof_vector ex_honest_wit = some (20, pi_entry ex_honest_wit) :=
    proof_vector_eq ex_honest_wit (by decide)
  have hdec2 : decrypt (gen_keypair ex_ext () ex_draws (NTL.ident_mat_ZZ_p p (4 * LWE.l))).vk.sk
        proof.response
      = NTL.mul_mat_vec p
          (NTL.transpose (NTL.mat_of (gen_rows (gen_inst ex_ext () ex_draws)) (4 * LWE.l)
            (gen_masked_entry (gen_inst ex_ext () ex_draws) ex_draws.Y_rand)))
          (NTL.vec_of 20 (pi_entry ex_honest_wit)) := by
    rw [hdec, hrows, NTL.transpose_mat_of _ (by decide), NTL.mul_mat_vec_mat_of, ← pt_dim_eq]
    refine congrArg some (NTL.vec_of_congr fun j _ => ?_)
    exact proof_preround_emod _ _ _ j
  have hA : ∀ i, i < LWE.l → (gen_inst ex_ext () ex_draws i).At.length
      = ex_honest_wit.coefficients_for_ABCs.length + 1 := fun _ _ => rfl
  have hB : ∀ i, i < LWE.l → (gen_inst ex_ext () ex_draws i).Bt.length
      = ex_honest_wit.coefficients_for_ABCs.length + 1 := fun _ _ => rfl
  have hC : ∀ i, i < LWE.l → (gen_inst ex_ext () ex_draws i).Ct.length
      = ex_honest_wit.coefficients_for_ABCs.length + 1 := fun _ _ => rfl
  have hH : ∀ i, i < LWE.l → (gen_inst ex_ext () ex_draws i).Ht.length
      = ex_honest_wit.coefficients_for_H.length := fun _ _ => rfl
  have hα : ∀ k, k < [3].length → ex_honest_wit.coefficients_for_ABCs.getD k 0 = [3].getD k 0 := by
    decide
  exact ⟨_, _, _, proof,
    ⟨hgen, rfl, rfl, hα, by decide, hA, hB, hC, hH, hM, hMY, hpi, hlen, hdec2⟩,
    reconstructed_values_bookkeeping ex_ext () ex_draws _ hgen ex_honest_wit [3] rfl rfl hα
      (by decide) hA hB hC hH _ _ 20 (pi_entry ex_honest_wit) hM hMY hpi proof hlen hdec2⟩

end libsnark

namespace LWE

/-- C31: for every key built by `keygen` from `(A_hat, S_hat, E_hat)`, every
plaintext `v` of length `d`, randomness `r` and error `e` (the first `n`
entries `e_top`, the last `d` entries `e_bot`), `encrypt` returns a ciphertext
`c` with `S^T * c = v + p * (E_hat * r - S_hat^T * e_top + e_bot)` over `Z_q`;
and `S^T * A = p * E_hat` over `Z_q`: the uniform matrix `A_hat` cancels. -/
theorem transpose_S_isolates_plaintext (A_rand : Nat → Nat → Nat)
    (S_gauss E_gauss : Nat → Nat → Int) (v : plaintext) (hv : v.length = pt_dim)
    (r_gauss e_gauss : Nat → Int) :
    ∃ sk c, keygen A_rand S_gauss E_gauss = some sk
      ∧ encrypt sk v r_gauss e_gauss = some c
      ∧ NTL.mul_mat_vec q (NTL.transpose sk.S) c.ctxt
          = some (NTL.vec_of pt_dim (fun j =>
              NTL.conv q (((v.getD j 0 : Nat) : Int)
                + (p : Int) * (∑ k in Finset.range n, E_gauss j k * r_gauss k
                    - ∑ k in Finset.range n, S_gauss k j * e_gauss k + e_gauss (n + j)))))
      ∧ NTL.mul_mat q (NTL.transpose sk.S) sk.A
          = some (NTL.mat_of pt_dim n (fun j k => NTL.conv q ((p : Int) * E_gauss j k))) := by
  obtain ⟨sk, hk⟩ : ∃ sk, keygen A_rand S_gauss E_gauss = some sk := ⟨_, keygen_eq _ _ _⟩
  refine ⟨sk, _, hk, encrypt_keygen hk v (le_of_eq hv.symm) r_gauss e_gauss, ?_,
    mul_transpose_S_A hk⟩
  dsimp only
  rw [mul_transpose_keygen hk _ (NTL.length_vec_of _ _)]
  refine congrArg some (NTL.vec_of_congr fun j hj => ?_)
  refine NTL.conv_congr ((cast_preround_fresh A_rand S_gauss E_gauss v r_gauss e_gauss j hj).trans
    ?_)
  unfold noise
  have hp : (p : Int) = (p_int : Int) := rfl
  rw [hp]
  push_cast
  ring

/-- Witness of C31: the sample draws and the plaintext `(1, ..., 60)`. -/
theorem transpose_S_isolates_plaintext_witness :
    ex_d1.length = pt_dim
    ∧ ∃ sk c, keygen ex_A_rand ex_S_gauss ex_E_gauss = some sk
      ∧ encrypt sk ex_d1 ex_r_gauss ex_e_gauss = some c
      ∧ NTL.mul_mat_vec q (NTL.transpose sk.S) c.ctxt
          = some (NTL.vec_of pt_dim (fun j =>
              NTL.conv q (((ex_d1.getD j 0 : Nat) : Int)
                + (p : Int) * (∑ k in Finset.range n, ex_E_gauss j k * ex_r_gauss k
                    - ∑ k in Finset.range n, ex_S_gauss k j * ex_e_gauss k
                    + ex_e_gauss (n + j)))))
      ∧ NTL.mul_mat q (NTL.transpose sk.S) sk.A
          = some (NTL.mat_of pt_dim n (fun j k => NTL.conv q ((p : Int) * ex_E_gauss j k))) :=
  ⟨by decide, transpose_S_isolates_plaintext ex_A_rand ex_S_gauss ex_E_gauss ex_d1 (by decide)
    ex_r_gauss ex_e_gauss⟩

end LWE

namespace LWE

/-- C32: for every secret key and every ciphertext `c` whose pre-rounding
vector `S^T * c` is `v + p * N` modulo `q` for a plaintext `v` in `[0, p)^d` and
an integer vector `N`, if `-q/2 < v_i + p * N_i <= q/2` for every `i` then
`decrypt(sk, c) = v`.  The bound is on `v_i + p * N_i`. -/
theorem decrypt_exact_window (sk : secret_key) (c : ciphertext) (v : plaintext)
    (N : Nat → Int) (hv : v.length = pt_dim) (hvp : ∀ x ∈ v, x < p)
    (hprod : NTL.mul_mat_vec q (NTL.transpose sk.S) c.ctxt
      = some (NTL.vec_of pt_dim (fun j =>
          NTL.conv q (((v.getD j 0 : Nat) : Int) + (p : Int) * N j))))
    (hw : ∀ j, j < pt_dim →
      -(q : Int) < 2 * (((v.getD j 0 : Nat) : Int) + (p : Int) * N j)
      ∧ 2 * (((v.getD j 0 : Nat) : Int) + (p : Int) * N j) ≤ (q : Int)) :
    decrypt sk c = some v := by
  rw [decrypt_of_product sk c _ hprod]
  refine Eq.trans ?_ (congrArg some (NTL.vec_of_getD_of_length hv))
  refine congrArg some (NTL.vec_of_congr fun j hj => ?_)
  have hlt : v.getD j 0 < p := NTL.getD_lt_of_forall_mem hvp (by rw [hv]; exact hj)
  obtain ⟨h1, h2, h3⟩ := window_exact (Int.natCast_nonneg (v.getD j 0))
    (Int.ofNat_lt.2 hlt) (N j) rfl (hw j hj).1 (hw j hj).2
  rw [decode_conv _ h1 h2]
  exact h3.trans (Int.toNat_natCast _)

/-- Witness of C32: the sample key and the ciphertext `ex_window_ct`, with
`v = (7, ..., 7)` and `N = (5, ..., 5)`. -/
theorem decrypt_exact_window_witness :
    ((List.replicate 60 7).length = pt_dim ∧ (∀ x ∈ List.replicate 60 7, x < p)
      ∧ NTL.mul_mat_vec q (NTL.transpose libsnark.ex_vk.sk.S) ex_window_ct.ctxt
          = some (NTL.vec_of pt_dim (fun j =>
              NTL.conv q ((((List.replicate 60 7).getD j 0 : Nat) : Int) + (p : Int) * 5)))
      ∧ ∀ j, j < pt_dim →
          -(q : Int) < 2 * ((((List.replicate 60 7).getD j 0 : Nat) : Int) + (p : Int) * 5)
          ∧ 2 * ((((List.replicate 60 7).getD j 0 : Nat) : Int) + (p : Int) * 5) ≤ (q : Int))
    ∧ decrypt libsnark.ex_vk.sk ex_window_ct = some (List.replicate 60 7) :=
  have hprod : NTL.mul_mat_vec q (NTL.transpose libsnark.ex_vk.sk.S) ex_window_ct.ctxt
      = some (NTL.vec_of pt_dim (fun j =>
          NTL.conv q ((((List.replicate 60 7).getD j 0 : Nat) : Int) + (p : Int) * 5))) :=
    ((congrArg (NTL.mul_mat_vec q (NTL.transpose libsnark.ex_vk.sk.S)) ex_window_ct_eq).trans
      (padded_product libsnark.ex_vk.sk ex_S_gauss ex_vk_S (fun _ => 327692))).trans
      (congrArg some (NTL.vec_of_congr fun j hj => by
        have hj' : j < 60 := hj
        rw [List.getD_eq_getElem?_getD, List.getElem?_replicate_of_lt hj']
        decide))
  have hw : ∀ j, j < pt_dim →
      -(q : Int) < 2 * ((((List.replicate 60 7).getD j 0 : Nat) : Int) + (p : Int) * 5)
      ∧ 2 * ((((List.replicate 60 7).getD j 0 : Nat) : Int) + (p : Int) * 5) ≤ (q : Int) :=
    fun j hj => by
      have hj' : j < 60 := hj
      rw [List.getD_eq_getElem?_getD, List.getElem?_replicate_of_lt hj']
      decide
  ⟨⟨by decide, by decide, hprod, hw⟩,
    decrypt_exact_window libsnark.ex_vk.sk ex_window_ct (List.replicate 60 7)
      (fun _ => 5) (by decide) (by decide) hprod hw⟩

end LWE

namespace LWE

/-- C33, evaluated at the failing input: for the ciphertext `(1, 2)` and the
scalar `val = 65537 = p`, with the modulus `q` in force at the call `c * val`,
`val * c` and `c *= val` give `(65537, 131074)`, the coordinatewise product
modulo `q`; with the modulus `p` in force (the state `decrypt` leaves) they
give `(0, 0)`, because the temporary `NTL::ZZ_p(val)` is built, and `val`
reduced modulo `p`, before `q` is selected. -/
theorem uint64_scalar_depends_on_modulus :
    (ciphertext.mul_uint64 ⟨[1, 2]⟩ 65537 q).ctxt = [65537, 131074]
      ∧ (uint64_mul 65537 ⟨[1, 2]⟩ q).ctxt = [65537, 131074]
      ∧ (ciphertext.mul_assign_uint64 ⟨[1, 2]⟩ 65537 q).ctxt = [65537, 131074]
      ∧ (ciphertext.mul_uint64 ⟨[1, 2]⟩ 65537 p).ctxt = [0, 0]
      ∧ (uint64_mul 65537 ⟨[1, 2]⟩ p).ctxt = [0, 0]
      ∧ (ciphertext.mul_assign_uint64 ⟨[1, 2]⟩ 65537 p).ctxt = [0, 0]
      ∧ (ciphertext.mul ⟨[1, 2]⟩ 65537).ctxt = [65537, 131074] := by
  decide

end LWE

namespace LWE

/-- C34: for every key from `keygen` whose Gaussian entries of `S_hat` have
absolute value at most 40, every ciphertext `c` of length `n + d` whose
pre-rounding vector `S^T * c` has the recentred values `w_i` with
`|w_i| < q/2 - 40 p` for every `i`, and every coordinate `k`, the ciphertext
`c` with `p` added to coordinate `k` (mod `q`) decrypts, and to the same
plaintext as `c`. -/
theorem decrypt_ignores_added_p (A_rand : Nat → Nat → Nat) (S_gauss E_gauss : Nat → Nat → Int)
    (sk : secret_key) (hk : keygen A_rand S_gauss E_gauss = some sk)
    (hS : bounded2 40 n pt_dim S_gauss) (c : ciphertext)
    (hc : c.ctxt.length = n + pt_dim) (w : Nat → Int)
    (hprod : NTL.mul_mat_vec q (NTL.transpose sk.S) c.ctxt
      = some (NTL.vec_of pt_dim (fun j => NTL.conv q (w j))))
    (hw : ∀ j, j < pt_dim → |w j| < (q : Int) / 2 - 40 * (p : Int)) (k : Nat) :
    decrypt sk (c.add_p_at k) = decrypt sk c
      ∧ decrypt sk c = some (NTL.vec_of pt_dim (fun j => (w j % (p : Int)).toNat)) := by
  have hq : (q : Int) / 2 = (2 : Int) ^ 57 := by decide
  have hp : (p : Int) = (p_int : Int) := rfl
  obtain ⟨d1, d2⟩ := decrypt_add_p hk hS c.ctxt hc k w (fun j hj => by
    have h := hw j hj
    rw [hq, hp, abs_lt] at h
    exact ⟨cast_preround_of_product hk c.ctxt hc w hprod j hj, by omega, by omega⟩)
  rw [ciphertext_eta] at d1 d2
  exact ⟨d1.trans d2.symm, d2⟩

/-- Witness of C34: the key of `keygen` for the sample draws, the ciphertext
`ex_window_ct` (recentred values `327692`) and coordinate `k = 3`. -/
theorem decrypt_ignores_added_p_witness :
    ∃ sk, (keygen ex_A_rand ex_S_gauss ex_E_gauss = some sk
        ∧ bounded2 40 n pt_dim ex_S_gauss
        ∧ ex_window_ct.ctxt.length = n + pt_dim
        ∧ NTL.mul_mat_vec q (NTL.transpose sk.S) ex_window_ct.ctxt
            = some (NTL.vec_of pt_dim
                (fun j => NTL.conv q ((fun _ : Nat => (327692 : Int)) j)))
        ∧ ∀ j, j < pt_dim →
            |(fun _ : Nat => (327692 : Int)) j| < (q : Int) / 2 - 40 * (p : Int))
      ∧ decrypt sk (ex_window_ct.add_p_at 3) = decrypt sk ex_window_ct
      ∧ decrypt sk ex_window_ct
          = some (NTL.vec_of pt_dim
              (fun j => ((fun _ : Nat => (327692 : Int)) j % (p : Int)).toNat)) := by
  obtain ⟨sk, hk⟩ : ∃ sk, keygen ex_A_rand ex_S_gauss ex_E_gauss = some sk :=
    ⟨_, keygen_eq ex_A_rand ex_S_gauss ex_E_gauss⟩
  have hlen : ex_window_ct.ctxt.length = n + pt_dim := by
    rw [ex_window_ct_eq]
    exact NTL.length_vec_of _ _
  have hprod : NTL.mul_mat_vec q (NTL.transpose sk.S) ex_window_ct.ctxt
      = some (NTL.vec_of pt_dim (fun j => NTL.conv q ((fun _ : Nat => (327692 : Int)) j))) := by
    rw [ex_window_ct_eq]
    exact padded_product sk ex_S_gauss (keygen_S hk) (fun _ => 327692)
  have hw : ∀ j, j < pt_dim →
      |(fun _ : Nat => (327692 : Int)) j| < (q : Int) / 2 - 40 * (p : Int) := by
    intro j _
    dsimp only
    rw [abs_of_nonneg (by decide)]
    decide
  exact ⟨sk, ⟨hk, ex_S_bounded, hlen, hprod, hw⟩,
    decrypt_ignores_added_p ex_A_rand ex_S_gauss ex_E_gauss sk hk ex_S_bounded ex_window_ct
      hlen (fun _ => 327692) hprod hw 3⟩

end LWE

namespace libsnark

open LWE

/-- C35: if the CRS comes from the generator for instance evaluations whose
`A`, `B`, `C` query vectors have length `|alpha| + 1` and whose `H` query
vector has length `|h|`, where `alpha` and `h` are the coefficient vectors of
the witness the prover uses, with the same number of inputs `I <= |alpha|` on
both sides, then `proof_dim = (|alpha| - I) + 3 + |h|` is the number of
ciphertexts of the CRS, the proof vector has `proof_dim` entries, every
`CRS[i]` with `i < proof_dim` exists, and the prover returns a proof (its
assertion holds and no access is out of range). -/
theorem prover_assertion_holds {CS : Type} (ext : r1cs_to_qap CS) (cs : CS)
    (draws : generator_draws) (kp : r1cs_lattice_ppsnarg_keypair CS)
    (hgen : r1cs_lattice_ppsnarg_generator ext cs draws = some kp)
    (x w : List Nat) (d1 d2 d3 : Nat) (W : qap_witness)
    (hw : ext.witness_map kp.crs.constraint_system x w (random_element d1) (random_element d2)
      (random_element d3) = W)
    (hI : (gen_inst ext cs draws 0).num_inputs = W.num_inputs)
    (hIα : W.num_inputs ≤ W.coefficients_for_ABCs.length)
    (hA : ∀ i, i < LWE.l →
      (gen_inst ext cs draws i).At.length = W.coefficients_for_ABCs.length + 1)
    (hB : ∀ i, i < LWE.l →
      (gen_inst ext cs draws i).Bt.length = W.coefficients_for_ABCs.length + 1)
    (hC : ∀ i, i < LWE.l →
      (gen_inst ext cs draws i).Ct.length = W.coefficients_for_ABCs.length + 1)
    (hH : ∀ i, i < LWE.l →
      (gen_inst ext cs draws i).Ht.length = W.coefficients_for_H.length) :
    (∃ pi, proof_vector W
        = some (W.coefficients_for_ABCs.length - W.num_inputs + 3
            + W.coefficients_for_H.length, pi)
      ∧ ∀ i, pi i = (W.coefficients_for_ABCs.drop W.num_inputs ++ [W.d1, W.d2, W.d3]
          ++ W.coefficients_for_H).getD i 0)
      ∧ (W.coefficients_for_ABCs.drop W.num_inputs ++ [W.d1, W.d2, W.d3]
          ++ W.coefficients_for_H).length
        = W.coefficients_for_ABCs.length - W.num_inputs + 3 + W.coefficients_for_H.length
      ∧ kp.crs.enc_queries.length
        = W.coefficients_for_ABCs.length - W.num_inputs + 3 + W.coefficients_for_H.length
      ∧ (∀ i, i < W.coefficients_for_ABCs.length - W.num_inputs + 3
            + W.coefficients_for_H.length →
          ∃ ct, kp.crs.enc_queries[i]? = some ct ∧ ct.ctxt.length = n + pt_dim)
      ∧ ∃ proof, r1cs_lattice_ppsnarg_prover ext kp.crs x w d1 d2 d3 = some proof := by
  have hl : 0 < LWE.l := by decide
  have hwf : instances_well_formed ext cs draws (W.coefficients_for_ABCs.length + 1)
      W.coefficients_for_H.length := ⟨hA, hB, hC, hH, by rw [hI]; omega⟩
  obtain ⟨Yprime, _, hkp⟩ := generator_keypair ext cs draws _ _ hwf kp hgen
  have hrows := gen_rows_of_sizes (gen_inst ext cs draws) W hI (hA 0 hl) (hH 0 hl)
  have he : kp.crs.enc_queries
      = (List.range (gen_rows (gen_inst ext cs draws))).map (fun r =>
          ⟨NTL.vec_of (n + pt_dim) (gen_crs_entry (gen_inst ext cs draws) draws r)⟩) := by
    rw [hkp]
    exact gen_keypair_enc_queries ext cs draws Yprime
  have hR : kp.crs.enc_queries.length
      = W.coefficients_for_ABCs.length - W.num_inputs + 3 + W.coefficients_for_H.length := by
    rw [he, List.length_map, List.length_range, hrows]
  have hL : ∀ c ∈ kp.crs.enc_queries, c.ctxt.length = n + pt_dim := by
    intro c hc
    rw [he] at hc
    obtain ⟨r, _, hr⟩ := List.mem_map.1 hc
    rw [← hr]
    dsimp only
    exact NTL.length_vec_of _ _
  refine ⟨⟨pi_entry W, proof_vector_eq W hIα, fun i => rfl⟩, ?_, hR, ?_,
    ⟨_, prover_eq ext kp.crs x w d1 d2 d3 W (n + pt_dim) _ hw hIα rfl hR hL⟩⟩
  · rw [List.length_append, List.length_append, List.length_drop]
    rfl
  · intro i hi
    have hi2 : i < kp.crs.enc_queries.length := by rw [hR]; exact hi
    refine ⟨kp.crs.enc_queries.getD i ⟨[]⟩, NTL.getElem?_eq_some_getD hi2 _, hL _ ?_⟩
    rw [List.getD_eq_getElem _ _ hi2]
    exact List.getElem_mem hi2

/-- Witness of C35: the sample reduction and draws, the input `(3)` and the
witness `ex_honest_wit`. -/
theorem prover_assertion_holds_witness :
    ∃ kp : r1cs_lattice_ppsnarg_keypair Unit,
      (r1cs_lattice_ppsnarg_generator ex_ext () ex_draws = some kp
        ∧ ex_ext.witness_map kp.crs.constraint_system [3] (List.replicate 15 5)
            (random_element 1) (random_element 2) (random_element 3) = ex_honest_wit
        ∧ (gen_inst ex_ext () ex_draws 0).num_inputs = ex_honest_wit.num_inputs
        ∧ ex_honest_wit.num_inputs ≤ ex_honest_wit.coefficients_for_ABCs.length
        ∧ (∀ i, i < LWE.l → (gen_inst ex_ext () ex_draws i).At.length
            = ex_honest_wit.coefficients_for_ABCs.length + 1)
        ∧ (∀ i, i < LWE.l → (gen_inst ex_ext () ex_draws i).Bt.length
            = ex_honest_wit.coefficients_for_ABCs.length + 1)
        ∧ (∀ i, i < LWE.l → (gen_inst ex_ext () ex_draws i).Ct.length
            = ex_honest_wit.coefficients_for_ABCs.length + 1)
        ∧ (∀ i, i < LWE.l → (gen_inst ex_ext () ex_draws i).Ht.length
            = ex_honest_wit.coefficients_for_H.length))
      ∧ (∃ pi, proof_vector ex_honest_wit
          = some (ex_honest_wit.coefficients_for_ABCs.length - ex_honest_wit.num_inputs + 3
              + ex_honest_wit.coefficients_for_H.length, pi)
        ∧ ∀ i, pi i = (ex_honest_wit.coefficients_for_ABCs.drop ex_honest_wit.num_inputs
            ++ [ex_honest_wit.d1, ex_honest_wit.d2, ex_honest_wit.d3]
            ++ ex_honest_wit.coefficients_for_H).getD i 0)
      ∧ (ex_honest_wit.coefficients_for_ABCs.drop ex_honest_wit.num_inputs
            ++ [ex_honest_wit.d1, ex_honest_wit.d2, ex_honest_wit.d3]
            ++ ex_honest_wit.coefficients_for_H).length
          = ex_honest_wit.coefficients_for_ABCs.length - ex_honest_wit.num_inputs + 3
            + ex_honest_wit.coefficients_for_H.length
      ∧ kp.crs.enc_queries.length
          = ex_honest_wit.coefficients_for_ABCs.length - ex_honest_wit.num_inputs + 3
            + ex_honest_wit.coefficients_for_H.length
      ∧ (∀ i, i < ex_honest_wit.coefficients_for_ABCs.length - ex_honest_wit.num_inputs + 3
              + ex_honest_wit.coefficients_for_H.length →
            ∃ ct, kp.crs.enc_queries[i]? = some ct ∧ ct.ctxt.length = n + pt_dim)
      ∧ ∃ proof, r1cs_lattice_ppsnarg_prover ex_ext kp.crs [3] (List.replicate 15 5) 1 2 3
          = some proof := by
  have hgen := ex_generator ex_draws rfl
  have hcs := (generator_some ex_ext () ex_draws _ hgen).2.2.2
  have hw : ex_ext.witness_map
      (gen_keypair ex_ext () ex_draws (NTL.ident_mat_ZZ_p p (4 * LWE.l))).crs.constraint_system
      [3] (List.replicate 15 5) (random_element 1) (random_element 2) (random_element 3)
      = ex_honest_wit := by
    rw [hcs]
    rfl
  have hA : ∀ i, i < LWE.l → (gen_inst ex_ext () ex_draws i).At.length
      = ex_honest_wit.coefficients_for_ABCs.length + 1 := fun _ _ => rfl
  have hB : ∀ i, i < LWE.l → (gen_inst ex_ext () ex_draws i).Bt.length
      = ex_honest_wit.coefficients_for_ABCs.length + 1 := fun _ _ => rfl
  have hC : ∀ i, i < LWE.l → (gen_inst ex_ext () ex_draws i).Ct.length
      = ex_honest_wit.coefficients_for_ABCs.length + 1 := fun _ _ => rfl
  have hH : ∀ i, i < LWE.l → (gen_inst ex_ext () ex_draws i).Ht.length
      = ex_honest_wit.coefficients_for_H.length := fun _ _ => rfl
  exact ⟨_, ⟨hgen, hw, rfl, by decide, hA, hB, hC, hH⟩,
    prover_assertion_holds ex_ext () ex_draws _ hgen [3] (List.replicate 15 5) 1 2 3
      ex_honest_wit hw rfl (by decide) hA hB hC hH⟩

end libsnark

namespace LWE

/-- C36: for every signed sample `x` (in particular every 32-bit one, negative
or not), the error term of `encrypt`, the product modulo `2^64` of `x`
converted to an unsigned 64-bit integer with `p = 65537`, is congruent modulo
`q = 2^58` to the integer `x * p`; hence adding it to a coordinate `y` of a
ciphertext gives `y + p * x` in `Z_q`.  For `x = -1` the term is
`2^64 - 65537`, which is `q - 65537` modulo `q`. -/
theorem error_term_exact (x : Int) :
    error_term x % q = NTL.conv q (x * (p : Int))
      ∧ ((error_term x : Nat) : Int) % (q : Int) = (x * (p : Int)) % (q : Int)
      ∧ (∀ y : Nat, (y + error_term x) % q = NTL.conv q ((y : Int) + (p : Int) * x))
      ∧ error_term (-1) = 2 ^ 64 - 65537 ∧ error_term (-1) % q = q - 65537 := by
  have hc := cast_error_term x
  have hp : (p : Int) = (p_int : Int) := rfl
  have h1 : error_term x % q = NTL.conv q (x * (p : Int)) := by
    refine NTL.mod_eq_conv _ _ ?_
    rw [hc, hp]
    push_cast
    ring
  refine ⟨h1, ?_, fun y => ?_, by decide, by decide⟩
  · have h2 := congrArg (fun t : Nat => (t : Int)) h1
    dsimp only at h2
    rw [Int.natCast_mod] at h2
    rw [h2]
    unfold NTL.conv
    exact Int.toNat_of_nonneg (Int.emod_nonneg _ (by decide))
  · refine NTL.mod_eq_conv _ _ ?_
    rw [Nat.cast_add, hc, hp]
    push_cast
    ring

end LWE
